import Mathlib

/-! Verification of lazymole: Cartesian grid topology and the lazy multi-source
search.

A shallow embedding of `Geometry/CartesianGrid.cpp`, `Geometry/Point.h`,
`Fields/CellField.h`, `Core/LazyMole.h` and the choice of the target in
`main.cpp`.

Conventions of the embedding:

* `size_t` is a natural number below `2^64`; every `size_t` operation
  that can wrap is written with an explicit `% 2^64` (`wrap`).
* `double` is an arbitrary linearly ordered field `R` (exact arithmetic);
  `std::sqrt` is a function `sqrt : R → R` handed to the code that calls it.
  In `idCell` and `isInside`, whose result changes with the last bit of a
  quotient, every `double` operation is followed by a rounding
  `fl : R → R`: `roundDouble` is the rounding of binary64 on the rational
  numbers, and the identity gives exact arithmetic.
* A `CellField<T>` (a dense `std::vector<T>` of `numberOfCells()` entries)
  is a total map `Nat → T`, of which the entries below `numberOfCells()`
  are the ones the program owns.
* `int` is an integer from `-2^31` up to `2^31 - 1`; `static_cast<int>` of a
  `double` truncates toward zero, and a conversion or decrement whose result
  is not an `int` is undefined behaviour, which the embedding returns as
  `none`.
* `std::exp`, `std::erf` and `boost::math::erf_inv` are functions handed to
  the code that calls them, like `std::sqrt`; a `std::istream` is the list
  of the numbers it still holds, with what follows the last of them:
  nothing, a character that ends a number, or characters that are not a
  number, on which the extraction fails.
* `assert`s are preconditions: they do not change the value computed.  The
  definitions whose name ends in `Checked` run the same code with every
  `assert` and every index into a vector tested, and return `none` where one
  fails.
-/

namespace mla

/-! ## Machine integers -/

/-- The number of values of a `size_t`. -/
def SIZE_MOD : Nat := 2 ^ 64

/-- Reduction of an unbounded natural number to a `size_t`. -/
def wrap (n : Nat) : Nat := n % SIZE_MOD

/-- The sum `i + s` of a `size_t` and an `int`, as C++ computes it: the `int`
is converted to `size_t` (so `-1` becomes `2^64 - 1`) and the sum wraps. -/
def addOff (i : Nat) (s : Int) : Nat := wrap (i + (s % (SIZE_MOD : Int)).toNat)

/-! ## Points -/

/-- A `Point3D`: the array `p` of three coordinates. -/
structure Point3D (R : Type) where
  p0 : R
  p1 : R
  p2 : R
deriving DecidableEq

/-- A `Point2D`: the array `p` of two coordinates. -/
structure Point2D (R : Type) where
  p0 : R
  p1 : R
deriving DecidableEq

/-- Embeds `Point3D(const Point2D&)`: the missing coordinate is set to `0`. -/
def Point3D.ofPoint2D {R : Type} [Zero R] (q : Point2D R) : Point3D R :=
  ⟨q.p0, q.p1, 0⟩

/-- Embeds `Point::get`. -/
def Point3D.get {R : Type} [Zero R] (q : Point3D R) (i : Nat) : R :=
  match i with
  | 0 => q.p0
  | 1 => q.p1
  | 2 => q.p2
  | _ => 0

/-- Embeds `Point::operator+`. -/
def Point3D.add {R : Type} [Add R] (a b : Point3D R) : Point3D R :=
  ⟨a.p0 + b.p0, a.p1 + b.p1, a.p2 + b.p2⟩

/-- Embeds `Point::distanceFrom`: the square root of the sum of the squared
coordinate differences, accumulated from `0` in coordinate order. -/
def Point3D.distanceFrom {R : Type} [Zero R] [Add R] [Sub R] [Mul R]
    (sqrt : R → R) (a b : Point3D R) : R :=
  sqrt (0 + (a.p0 - b.p0) * (a.p0 - b.p0) + (a.p1 - b.p1) * (a.p1 - b.p1)
    + (a.p2 - b.p2) * (a.p2 - b.p2))

/-! ## CartesianGrid -/

/-- The private members of `CartesianGrid`. -/
structure CartesianGrid (R : Type) where
  _nx : Nat
  _ny : Nat
  _nz : Nat
  _dx : R
  _dy : R
  _dz : R
  _resx : Nat
  _resy : Nat
  _resz : Nat
  _p0 : Point3D R
  _is2d : Bool

section Grid

variable {R : Type}

/-- The 3D constructor of `CartesianGrid`. -/
def CartesianGrid.new3D [Field R] (nx ny nz : Nat) (dx dy dz : R)
    (resx resy resz : Nat) (p0 : Point3D R) : CartesianGrid R :=
  { _nx := wrap (resx * nx), _ny := wrap (resy * ny), _nz := wrap (resz * nz),
    _dx := dx / (resx : R), _dy := dy / (resy : R), _dz := dz / (resz : R),
    _p0 := p0, _is2d := false,
    _resx := resx, _resy := resy, _resz := resz }

/-- The 2D constructor of `CartesianGrid`. -/
def CartesianGrid.new2D [Field R] (nx ny : Nat) (dx dy : R)
    (resx resy : Nat) (p0 : Point2D R) : CartesianGrid R :=
  { _nx := wrap (resx * nx), _ny := wrap (resy * ny), _nz := 1,
    _dx := dx / (resx : R), _dy := dy / (resy : R), _dz := 1,
    _p0 := Point3D.ofPoint2D p0, _is2d := true,
    _resx := resx, _resy := resy, _resz := 1 }

/-- Embeds `CartesianGrid::numberOfCells`. -/
def CartesianGrid.numberOfCells (g : CartesianGrid R) : Nat :=
  wrap (wrap (g._nx * g._ny) * g._nz)

/-- Embeds `CartesianGrid::nx`. -/
def CartesianGrid.nx (g : CartesianGrid R) : Nat := g._nx

/-- Embeds `CartesianGrid::ny`. -/
def CartesianGrid.ny (g : CartesianGrid R) : Nat := g._ny

/-- Embeds `CartesianGrid::nz`. -/
def CartesianGrid.nz (g : CartesianGrid R) : Nat := g._nz

/-- Embeds `CartesianGrid::resx`. -/
def CartesianGrid.resx (g : CartesianGrid R) : Nat := g._resx

/-- Embeds `CartesianGrid::resy`. -/
def CartesianGrid.resy (g : CartesianGrid R) : Nat := g._resy

/-- Embeds `CartesianGrid::resz`. -/
def CartesianGrid.resz (g : CartesianGrid R) : Nat := g._resz

/-- Embeds `CartesianGrid::splitId`: the array `{idx, idy, idz}`. -/
def CartesianGrid.splitId (g : CartesianGrid R) (id : Nat) : Nat × Nat × Nat :=
  let cid := id
  let idz := cid / wrap (g._ny * g._nx)
  let cid := cid % wrap (g._ny * g._nx)
  let idy := cid / g._nx
  let cid := cid % g._nx
  let idx := cid
  (idx, idy, idz)

/-- Embeds `CartesianGrid::mergeIds`. -/
def CartesianGrid.mergeIds (g : CartesianGrid R) (idx idy idz : Nat) : Nat :=
  wrap (wrap (wrap (wrap (idz * g._ny) * g._nx) + wrap (idy * g._nx)) + idx)

/-- The values taken by each of the loop variables `s0`, `s1`, `s2` of
`CartesianGrid::neighbors`, in loop order. -/
def offsets : List Int := [-1, 0, 1]

/-- Embeds `CartesianGrid::neighbors`: three nested loops over the offsets, pushing
the merged id of every offset triple that passes the two tests. -/
def CartesianGrid.neighbors (g : CartesianGrid R) (id : Nat) : List Nat :=
  let ids := g.splitId id
  offsets.flatMap fun s0 =>
    offsets.flatMap fun s1 =>
      offsets.flatMap fun s2 =>
        if 0 ≤ addOff ids.1 s0 ∧ addOff ids.1 s0 < g._nx ∧
           0 ≤ addOff ids.2.1 s1 ∧ addOff ids.2.1 s1 < g._ny ∧
           0 ≤ addOff ids.2.2 s2 ∧ addOff ids.2.2 s2 < g._nz then
          if ¬ (s0 = 0 ∧ s1 = 0 ∧ s2 = 0) then
            [g.mergeIds (addOff ids.1 s0) (addOff ids.2.1 s1) (addOff ids.2.2 s2)]
          else []
        else []

/-- Embeds `CartesianGrid::centerOfCell(idx, idy, idz)`. -/
def CartesianGrid.centerOfCell3 [Field R] (g : CartesianGrid R) (idx idy idz : Nat) :
    Point3D R :=
  (g._p0.add ⟨(idx : R) * g._dx, (idy : R) * g._dy, (idz : R) * g._dz⟩).add
    ⟨(1 / 2) * g._dx, (1 / 2) * g._dy, (1 / 2) * g._dz⟩

/-- Embeds `CartesianGrid::centerOfCell(id)`. -/
def CartesianGrid.centerOfCell [Field R] (g : CartesianGrid R) (id : Nat) : Point3D R :=
  let ids := g.splitId id
  g.centerOfCell3 ids.1 ids.2.1 ids.2.2

/-- The invariant `N = nx * ny * nz` of a grid, for machine integers: the
exact product of the three counts is itself a `size_t`, so that no product of
`numberOfCells`, `splitId` or `mergeIds` wraps and `numberOfCells()` is the
number of index triples. -/
def CartesianGrid.Fits (g : CartesianGrid R) : Prop :=
  g._nx * g._ny * g._nz < SIZE_MOD

instance (g : CartesianGrid R) : Decidable g.Fits := by
  unfold CartesianGrid.Fits; infer_instance

end Grid

/-- The number of offsets `s` of `offsets` for which `i + s`, computed exactly,
lies in `[0, n)`. -/
def inRangeCount (i n : Nat) : Nat :=
  (offsets.filter fun s => decide (0 ≤ (i : Int) + s ∧ (i : Int) + s < n)).length

/-! ## The priority queue

`boost::heap::fibonacci_heap<CellElement>` is a library type.  It is modelled
by what its interface promises: a bag of nodes, each reachable through the
handle that `push` returned for it; `top` is a node that no other node
exceeds in `operator<`; `pop` removes that node; `increase` replaces the
element of the node a handle designates.  Which of several maximal nodes
`top` returns is left to an arbitrary number `tie`. -/

/-- Embeds `LazyMole::Label`. -/
inductive Label where
  | UNVISITED
  | VISITED
  | SCANNED
deriving DecidableEq

/-- Embeds `LazyMole::CellElement`. -/
structure CellElement (R : Type) where
  res : R
  cell : Nat
deriving DecidableEq

/-- A handle of the heap: `none` is the default-constructed `HandleType()`,
`some k` designates the node created by the `k`-th `push`. -/
abbrev HandleType : Type := Option Nat

/-- The heap: its live nodes, each with the number of the `push` that
created it, and the number the next `push` will use. -/
structure Heap (R : Type) where
  nodes : List (Nat × CellElement R)
  next : Nat

section HeapOps

variable {R : Type}

/-- The default-constructed heap. -/
def Heap.new : Heap R := ⟨[], 0⟩

/-- Embeds `heap.empty()`. -/
def Heap.empty (h : Heap R) : Bool := h.nodes.isEmpty

/-- Embeds `heap.push(e)`: the new heap and the handle of the new node. -/
def Heap.push (h : Heap R) (e : CellElement R) : Heap R × HandleType :=
  (⟨h.nodes ++ [(h.next, e)], h.next + 1⟩, some h.next)

/-- The nodes `top` may return: those `n` for which no node `m` has
`n < m` in `CellElement::operator<` (which compares `res`). -/
def Heap.tops [LinearOrder R] (h : Heap R) : List (Nat × CellElement R) :=
  h.nodes.filter fun n => h.nodes.all fun m => ! decide (n.2.res < m.2.res)

/-- Embeds `heap.top()`, with the node it designates. -/
def Heap.top [LinearOrder R] (tie : Nat) (h : Heap R) : Option (Nat × CellElement R) :=
  h.tops[tie % h.tops.length]?

/-- Embeds `heap.pop()`: removes the node `top` returns. -/
def Heap.pop [LinearOrder R] (tie : Nat) (h : Heap R) : Heap R :=
  match h.top tie with
  | none => h
  | some n => { h with nodes := h.nodes.filter fun m => ! decide (m.1 = n.1) }

/-- Embeds `*handle`: the element of the node a handle designates; `none` when the
handle designates no live node (undefined behaviour in C++). -/
def Heap.deref (h : Heap R) (hd : HandleType) : Option (CellElement R) :=
  match hd with
  | none => none
  | some k => (h.nodes.find? fun m => decide (m.1 = k)).map fun m => m.2

/-- Embeds `heap.increase(handle, e)`. -/
def Heap.increase (h : Heap R) (hd : HandleType) (e : CellElement R) : Heap R :=
  match hd with
  | none => h
  | some k => { h with nodes := h.nodes.map fun m => if m.1 = k then (k, e) else m }

end HeapOps

/-! ## LazyMole -/

/-- The members of `LazyMole`. -/
structure LazyMole (R : Type) where
  heap : Heap R
  status : Nat → Label
  cellElementHandles : Nat → HandleType
  previous : Nat → Nat
  smallestRes : Nat → R
  gridPtr : CartesianGrid R
  field : Nat → R
  isReady : Bool

section Mole

variable {R : Type}

/-- Embeds `INF = std::numeric_limits<double>::max()`, that is `(2 - 2^-52) * 2^1023`. -/
def INF [Ring R] : R := 2 ^ 1024 - 2 ^ 971

/-- Embeds `EMPTY = std::numeric_limits<size_t>::max()`. -/
def EMPTY : Nat := SIZE_MOD - 1

/-- The body of the constructor's loop, for the source id `c`. -/
def LazyMole.addSource [Ring R] (m : LazyMole R) (c : Nat) : LazyMole R :=
  let r := m.heap.push ⟨0, c⟩
  { m with
    heap := r.1
    cellElementHandles := Function.update m.cellElementHandles c r.2
    status := Function.update m.status c Label.VISITED }

/-- The member initialisers of the constructor `LazyMole::LazyMole`. -/
def LazyMole.init [Ring R] (gridPtr : CartesianGrid R) (field : Nat → R) : LazyMole R :=
  { heap := Heap.new
    status := fun _ => Label.UNVISITED
    cellElementHandles := fun _ => none
    previous := fun _ => EMPTY
    smallestRes := fun _ => INF
    gridPtr := gridPtr
    field := field
    isReady := false }

/-- The constructor `LazyMole::LazyMole`: the member initialisers, the loop
over the source ids, and `isReady = false`. -/
def LazyMole.new [Ring R] (gridPtr : CartesianGrid R) (field : Nat → R)
    (cellIds : List Nat) : LazyMole R :=
  { cellIds.foldl LazyMole.addSource (LazyMole.init gridPtr field) with isReady := false }

/-- Embeds `LazyMole::computeResistance`, as a function of the two members it reads,
`gridPtr` and `field`. -/
def computeResistance [Field R] (sqrt : R → R) (gridPtr : CartesianGrid R) (field : Nat → R)
    (cCell nCell : Nat) : R :=
  let dist := (gridPtr.centerOfCell cCell).distanceFrom sqrt (gridPtr.centerOfCell nCell)
  let k1 := field cCell
  let r1 := dist / 2 / k1
  let k2 := field nCell
  let r2 := dist / 2 / k2
  r1 + r2

/-- The body of the loop on neighbours in `LazyMole::run`, for the neighbour
`nCell` of the extracted cell `cCell` with resistance `cRes`.  `none` when the
handle of `nCell` is dereferenced and designates no live node. -/
def LazyMole.relax [LinearOrderedField R] (sqrt : R → R) (cCell : Nat) (cRes : R)
    (m : LazyMole R) (nCell : Nat) : Option (LazyMole R) :=
  if m.status nCell ≠ Label.SCANNED then
    let cnRes := computeResistance sqrt m.gridPtr m.field cCell nCell
    let nRes := cRes + cnRes
    if m.status nCell = Label.UNVISITED then
      let r := m.heap.push ⟨-nRes, nCell⟩
      some { m with
        previous := Function.update m.previous nCell cCell
        status := Function.update m.status nCell Label.VISITED
        cellElementHandles := Function.update m.cellElementHandles nCell r.2
        heap := r.1 }
    else
      match m.heap.deref (m.cellElementHandles nCell) with
      | none => none
      | some e =>
        if nRes < -e.res then
          some { m with
            previous := Function.update m.previous nCell cCell
            heap := m.heap.increase (m.cellElementHandles nCell) ⟨-nRes, nCell⟩ }
        else some m
  else some m

/-- One iteration of the `while` loop of `LazyMole::run`, entered with a
non-empty heap. -/
def LazyMole.scan [LinearOrderedField R] (sqrt : R → R) (tie : Nat) (m : LazyMole R) :
    Option (LazyMole R) :=
  match m.heap.top tie with
  | none => none
  | some n =>
    let e := n.2
    let cCell := e.cell
    let cRes := -e.res
    let m1 : LazyMole R :=
      { m with
        heap := m.heap.pop tie
        status := Function.update m.status cCell Label.SCANNED
        smallestRes := Function.update m.smallestRes cCell cRes }
    (m1.gridPtr.neighbors cCell).foldlM (LazyMole.relax sqrt cCell cRes) m1

/-- The `while` loop of `LazyMole::run`, for at most `fuel` iterations;
`tie k` settles which maximal node the `k`-th extraction returns. -/
def LazyMole.runLoop [LinearOrderedField R] (sqrt : R → R) :
    (Nat → Nat) → Nat → LazyMole R → Option (LazyMole R)
  | tie, fuel, m =>
    if m.heap.empty then some m
    else
      match fuel with
      | 0 => none
      | fuel + 1 =>
        match m.scan sqrt (tie 0) with
        | none => none
        | some m1 => LazyMole.runLoop sqrt (fun k => tie (k + 1)) fuel m1

/-- Embeds `LazyMole::run`: the state it leaves; the field it returns is the
`smallestRes` of that state. -/
def LazyMole.run [LinearOrderedField R] (sqrt : R → R) (tie : Nat → Nat) (fuel : Nat)
    (m : LazyMole R) : Option (LazyMole R) :=
  (m.runLoop sqrt tie fuel).map fun m1 => { m1 with isReady := true }

/-- The elements `e` that the iterations of `LazyMole::run` extract, in
extraction order: the cell marked SCANNED is `e.cell`, at `cRes = -e.res`. -/
def LazyMole.extracted [LinearOrderedField R] (sqrt : R → R) :
    (Nat → Nat) → Nat → LazyMole R → List (CellElement R)
  | tie, fuel, m =>
    if m.heap.empty then []
    else
      match fuel with
      | 0 => []
      | fuel + 1 =>
        match m.heap.top (tie 0), m.scan sqrt (tie 0) with
        | some n, some m1 => n.2 :: LazyMole.extracted sqrt (fun k => tie (k + 1)) fuel m1
        | _, _ => []

/-- The sequence of `cRes` at which `LazyMole::run` marks cells SCANNED. -/
def LazyMole.scannedRes [LinearOrderedField R] (sqrt : R → R) (tie : Nat → Nat)
    (fuel : Nat) (m : LazyMole R) : List R :=
  (m.extracted sqrt tie fuel).map fun e => -e.res

/-- The predecessor walk shared by `path` and `exportPath`: the cells `cId`
takes, for at most `fuel` iterations of the `while (!isTheStart)` loop. -/
def LazyMole.walk (m : LazyMole R) : Nat → Nat → Option (List Nat)
  | 0, _ => none
  | fuel + 1, cId =>
    let pCell := m.previous cId
    if pCell ≠ EMPTY then (LazyMole.walk m fuel pCell).map fun l => cId :: l
    else some [cId]

/-- The `while` loop of `LazyMole::path`. -/
def LazyMole.pathLoop (m : LazyMole R) : Nat → Nat → (Nat → Nat) → Option (Nat → Nat)
  | 0, _, _ => none
  | fuel + 1, cId, pathField =>
    let pathField1 := Function.update pathField cId 1
    let pCell := m.previous cId
    if pCell ≠ EMPTY then LazyMole.pathLoop m fuel pCell pathField1
    else some pathField1

/-- Embeds `LazyMole::path`. -/
def LazyMole.path (m : LazyMole R) (fuel : Nat) (cell : Nat) : Option (Nat → Nat) :=
  let pathField : Nat → Nat := fun _ => 0
  if ! m.isReady then some pathField
  else m.pathLoop fuel cell pathField

/-- The `while` loop of `LazyMole::exportPath`: `out` is what has been
written to the stream, one point per line. -/
def LazyMole.exportLoop [Field R] (m : LazyMole R) :
    Nat → Nat → List (Point3D R) → Option (List (Point3D R))
  | 0, _, _ => none
  | fuel + 1, cId, out =>
    let center := m.gridPtr.centerOfCell cId
    let out1 := out ++ [center]
    let pCell := m.previous cId
    if pCell ≠ EMPTY then LazyMole.exportLoop m fuel pCell out1
    else some out1

/-- Embeds `LazyMole::exportPath`: the lines written to the file; `isOpen` is the
result of `outStream.is_open()`. -/
def LazyMole.exportPath [Field R] (m : LazyMole R) (isOpen : Bool) (fuel : Nat)
    (cell : Nat) : Option (List (Point3D R)) :=
  if ! m.isReady then some []
  else if isOpen then m.exportLoop fuel cell []
  else some []

end Mole

/-! ## Paths of the grid graph -/

section Paths

variable {R : Type}

/-- The list `l` gives, from the cell `c` back to a source, the cells of a
path that starts at a cell of `srcs` and reaches `c` along adjacency edges:
each listed cell is a neighbour (in `nb`) of the cell listed after it. -/
def IsRoute (nb : Nat → List Nat) (srcs : List Nat) (c : Nat) (l : List Nat) : Prop :=
  l.head? = some c ∧ (∃ s ∈ srcs, l.getLast? = some s) ∧ l.Chain' (fun x y => x ∈ nb y)

/-- The sum of the edge weights `w p c` over the consecutive cells `c, p` of a
path listed from its last cell back to its first. -/
def walkCost [Zero R] [Add R] (w : Nat → Nat → R) : List Nat → R
  | c :: p :: rest => w p c + walkCost w (p :: rest)
  | _ => 0

/-- The costs of the paths from a cell of `srcs` to `c`. -/
def routeCosts [Zero R] [Add R] (nb : Nat → List Nat) (w : Nat → Nat → R) (srcs : List Nat)
    (c : Nat) : Set R :=
  { r | ∃ l, IsRoute nb srcs c l ∧ walkCost w l = r }

end Paths

/-! ## Invariants of the search state -/

section Invariants

variable {R : Type}

/-- The bookkeeping invariant of `LazyMole`, which holds whatever the field:
handles are pairwise distinct and older than the next one; a VISITED cell's
handle designates a live node for that cell; an UNVISITED cell still has its
initial predecessor and resistance; no live node is for an UNVISITED cell. -/
structure LazyMole.Struct [Ring R] (m : LazyMole R) : Prop where
  nodup : (m.heap.nodes.map Prod.fst).Nodup
  fresh : ∀ n ∈ m.heap.nodes, n.1 < m.heap.next
  visited : ∀ c, m.status c = Label.VISITED →
    ∃ k e, m.cellElementHandles c = some k ∧ (k, e) ∈ m.heap.nodes ∧ e.cell = c
  unvisited : ∀ c, m.status c = Label.UNVISITED →
    m.previous c = EMPTY ∧ m.smallestRes c = INF
  live : ∀ n ∈ m.heap.nodes, m.status n.2.cell ≠ Label.UNVISITED

/-- The state `relax` leaves when it meets an UNVISITED neighbour. -/
def LazyMole.visit [Ring R] (m : LazyMole R) (cCell nCell : Nat) (nRes : R) : LazyMole R :=
  { m with
    previous := Function.update m.previous nCell cCell
    status := Function.update m.status nCell Label.VISITED
    cellElementHandles := Function.update m.cellElementHandles nCell (some m.heap.next)
    heap := ⟨m.heap.nodes ++ [(m.heap.next, ⟨-nRes, nCell⟩)], m.heap.next + 1⟩ }

/-- The state `relax` leaves when it improves a VISITED neighbour. -/
def LazyMole.improve [Ring R] (m : LazyMole R) (cCell nCell : Nat) (nRes : R) : LazyMole R :=
  { m with
    previous := Function.update m.previous nCell cCell
    heap := m.heap.increase (m.cellElementHandles nCell) ⟨-nRes, nCell⟩ }

/-- The state of `scan` after the extraction of the node `n` and before the
loop on neighbours. -/
def LazyMole.settle [LinearOrder R] [Neg R] (tie : Nat) (m : LazyMole R)
    (n : Nat × CellElement R) : LazyMole R :=
  { m with
    heap := m.heap.pop tie
    status := Function.update m.status n.2.cell Label.SCANNED
    smallestRes := Function.update m.smallestRes n.2.cell (-n.2.res) }

end Invariants

section Invariants2

variable {R : Type}

/-- What the search relies on: neighbours of cells are cells, the resistance
between two cells is not negative, the sources are cells, and no cell id is
the sentinel `EMPTY`. -/
structure Setting [Field R] [LE R] (sqrt : R → R) (g : CartesianGrid R) (f : Nat → R)
    (srcs : List Nat) : Prop where
  closed : ∀ a, a < g.numberOfCells → ∀ b ∈ g.neighbors a, b < g.numberOfCells
  nonneg : ∀ a, a < g.numberOfCells → ∀ b, b < g.numberOfCells →
    0 ≤ computeResistance sqrt g f a b
  srcs_lt : ∀ s ∈ srcs, s < g.numberOfCells
  lt_empty : g.numberOfCells ≤ EMPTY

/-- The invariant of the search, while the neighbours `pend` of the SCANNED
cell `cur` are still to be relaxed. -/
structure LazyMole.Dijk [LinearOrderedField R] (sqrt : R → R) (g : CartesianGrid R)
    (f : Nat → R) (srcs : List Nat) (cur : Nat) (pend : List Nat) (m : LazyMole R) : Prop where
  hg : m.gridPtr = g
  hfld : m.field = f
  range : ∀ c, m.status c ≠ Label.UNVISITED → c < g.numberOfCells
  src : ∀ s ∈ srcs, m.status s ≠ Label.UNVISITED ∧ m.previous s = EMPTY ∧
    (m.status s = Label.SCANNED → m.smallestRes s = 0)
  srcNode : ∀ n ∈ m.heap.nodes, n.2.cell ∈ srcs → n.2.res = 0
  owner : ∀ n ∈ m.heap.nodes, n.2.cell ∉ srcs →
    m.cellElementHandles n.2.cell = some n.1 ∧ m.status n.2.cell = Label.VISITED
  nodePrev : ∀ n ∈ m.heap.nodes, n.2.cell ∉ srcs →
    m.status (m.previous n.2.cell) = Label.SCANNED ∧
    n.2.cell ∈ g.neighbors (m.previous n.2.cell) ∧
    -n.2.res = m.smallestRes (m.previous n.2.cell) +
      computeResistance sqrt g f (m.previous n.2.cell) n.2.cell
  scannedPrev : ∀ c, m.status c = Label.SCANNED → c ∉ srcs →
    m.status (m.previous c) = Label.SCANNED ∧
    c ∈ g.neighbors (m.previous c) ∧
    m.smallestRes c = m.smallestRes (m.previous c) +
      computeResistance sqrt g f (m.previous c) c
  nonneg : ∀ c, m.status c = Label.SCANNED → 0 ≤ m.smallestRes c
  lower : ∀ c, m.status c = Label.SCANNED → ∀ l, IsRoute g.neighbors srcs c l →
    m.smallestRes c ≤ walkCost (computeResistance sqrt g f) l
  front : ∀ a, m.status a = Label.SCANNED → ∀ b ∈ g.neighbors a, (a = cur → b ∉ pend) →
    m.status b = Label.SCANNED ∨
    ∃ k e, m.cellElementHandles b = some k ∧ (k, e) ∈ m.heap.nodes ∧ e.cell = b ∧
      -e.res ≤ m.smallestRes a + computeResistance sqrt g f a b
  chain : ∀ c, m.status c = Label.SCANNED →
    ∃ l, m.walk l.length c = some l ∧ l.Nodup ∧ (∀ x ∈ l, m.status x = Label.SCANNED) ∧
      IsRoute g.neighbors srcs c l ∧
      walkCost (computeResistance sqrt g f) l = m.smallestRes c

/-- The state of the constructor's loop once the source ids `done` have been
pushed. -/
structure LazyMole.Init [Ring R] (g : CartesianGrid R) (f : Nat → R) (done : List Nat)
    (m : LazyMole R) : Prop where
  struct : m.Struct
  hg : m.gridPtr = g
  hfld : m.field = f
  prev : ∀ c, m.previous c = EMPTY
  res : ∀ c, m.smallestRes c = INF
  visited : ∀ c, m.status c = Label.VISITED ↔ c ∈ done
  unvisited : ∀ c, m.status c = Label.UNVISITED ↔ c ∉ done
  nodes : ∀ a ∈ m.heap.nodes, a.2.cell ∈ done ∧ a.2.res = 0
  len : m.heap.nodes.length = done.length
  handle : ∀ c, c ∉ done → m.cellElementHandles c = none

/-- What the steps of `run` leave untouched, from a state `m` to a later state
`m1`: the label, predecessor and resistance of the SCANNED cells, and the
flag `isReady`. -/
structure LazyMole.Frame (m m1 : LazyMole R) : Prop where
  scanned : ∀ x, m.status x = Label.SCANNED →
    m1.status x = Label.SCANNED ∧ m1.previous x = m.previous x ∧
      m1.smallestRes x = m.smallestRes x
  ready : m1.isReady = m.isReady

/-- The number of cells below `N` that are still UNVISITED. -/
def LazyMole.unvisitedCount (m : LazyMole R) (N : Nat) : Nat :=
  (List.range N).countP fun c => decide (m.status c = Label.UNVISITED)

/-- A bound on the number of extractions still to come. -/
def LazyMole.measure (m : LazyMole R) (N : Nat) : Nat :=
  m.heap.nodes.length + m.unvisitedCount N

end Invariants2

/-! ## Accessors and the inverse spatial lookup -/

section Lookup

variable {R : Type}

/-- Embeds `CartesianGrid::dx`. -/
def CartesianGrid.dx (g : CartesianGrid R) : R := g._dx

/-- Embeds `CartesianGrid::dy`. -/
def CartesianGrid.dy (g : CartesianGrid R) : R := g._dy

/-- Embeds `CartesianGrid::dz`. -/
def CartesianGrid.dz (g : CartesianGrid R) : R := g._dz

/-- The number of values of an `int` on each side of zero: `2^31`. -/
def INT_HALF : Int := 2 ^ 31

/-- Embeds `static_cast<int>(x)` for a `double` `x`: the value truncated
toward zero, and `none` (undefined behaviour in C++) when that is not an
`int`. -/
def castInt [LinearOrderedField R] [FloorRing R] (x : R) : Option Int :=
  let t : Int := if 0 ≤ x then Int.floor x else Int.ceil x
  if -INT_HALF ≤ t ∧ t < INT_HALF then some t else none

/-- Embeds `i--` for an `int` `i`: `none` (undefined behaviour in C++) when
`i - 1` is not an `int`. -/
def decInt (i : Int) : Option Int :=
  if -INT_HALF ≤ i - 1 then some (i - 1) else none

/-- The conversion of an `int` to `size_t`, as in the comparison
`idx < _nx`. -/
def intToSize (i : Int) : Nat := (i % (SIZE_MOD : Int)).toNat

/-- The three ways `CartesianGrid::idCell` can end: it returns a cell id, it
throws `std::invalid_argument` ("Point ... is outside the domain."), or a
conversion or decrement it performs is undefined. -/
inductive IdCellResult where
  | cell (id : Nat)
  | outsideDomain
  | undefined
deriving DecidableEq

/-- The indices `idx`, `idy`, `idz` of `CartesianGrid::idCell` just before
its range test: the three casts, then the three decrements for a point
exactly on an upper boundary.  The result of every operation on `double`s (the
subtraction, the quotient, the conversion of the count to `double` and the
product) is rounded by `fl`, and the comparison `==` is made on the rounded
values. -/
def CartesianGrid.idCellIndices [LinearOrderedField R] [FloorRing R] (g : CartesianGrid R)
    (fl : R → R) (p : Point3D R) : Option (Int × Int × Int) :=
  (castInt (fl (fl (p.get 0 - g._p0.get 0) / g._dx))).bind fun idx =>
  (castInt (fl (fl (p.get 1 - g._p0.get 1) / g._dy))).bind fun idy =>
  (castInt (fl (fl (p.get 2 - g._p0.get 2) / g._dz))).bind fun idz =>
  (if fl (p.get 0 - g._p0.get 0) = fl (g._dx * fl (g._nx : R)) then decInt idx
    else some idx).bind fun idx1 =>
  (if fl (p.get 1 - g._p0.get 1) = fl (g._dy * fl (g._ny : R)) then decInt idy
    else some idy).bind fun idy1 =>
  (if fl (p.get 2 - g._p0.get 2) = fl (g._dz * fl (g._nz : R)) then decInt idz
    else some idz).bind fun idz1 =>
  some (idx1, idy1, idz1)

/-- Embeds `CartesianGrid::idCell`, every operation on `double`s being rounded
by `fl`; the index it returns is `idz * _ny * _nx + idy * _nx + idx` in
`size_t` arithmetic. -/
def CartesianGrid.idCell [LinearOrderedField R] [FloorRing R] (g : CartesianGrid R)
    (fl : R → R) (p : Point3D R) : IdCellResult :=
  match g.idCellIndices fl p with
  | none => IdCellResult.undefined
  | some (idx, idy, idz) =>
    if 0 ≤ idx ∧ intToSize idx < g._nx ∧ 0 ≤ idy ∧ intToSize idy < g._ny ∧
        0 ≤ idz ∧ intToSize idz < g._nz then
      IdCellResult.cell
        (wrap (wrap (wrap (wrap (intToSize idz * g._ny) * g._nx) + wrap (intToSize idy * g._nx))
          + intToSize idx))
    else IdCellResult.outsideDomain

/-- Embeds `CartesianGrid::isInside`: `false` when `idCell` throws, `true`
when it returns, and `none` when `idCell` is undefined. -/
def CartesianGrid.isInside [LinearOrderedField R] [FloorRing R] (g : CartesianGrid R)
    (fl : R → R) (p : Point3D R) : Option Bool :=
  match g.idCell fl p with
  | IdCellResult.cell _ => some true
  | IdCellResult.outsideDomain => some false
  | IdCellResult.undefined => none

/-- The operations of `idCell` along one axis are exact: for the offset `d`
of the point from the origin, the cell size `cell` and the count `n`, the
rounding changes neither `d`, nor the quotient `d / cell`, nor the extent
`cell * n`. -/
def ExactAxis [Field R] (fl : R → R) (cell : R) (n : Nat) (d : R) : Prop :=
  fl d = d ∧ fl (d / cell) = d / cell ∧ fl (cell * fl (n : R)) = cell * (n : R)

/-- The operations of `idCell` on the point `p` are exact along the three
axes. -/
def CartesianGrid.ExactAt [Field R] (g : CartesianGrid R) (fl : R → R) (p : Point3D R) :
    Prop :=
  ExactAxis fl g._dx g._nx (p.p0 - g._p0.p0) ∧ ExactAxis fl g._dy g._ny (p.p1 - g._p0.p1) ∧
    ExactAxis fl g._dz g._nz (p.p2 - g._p0.p2)

instance [Field R] [DecidableEq R] (fl : R → R) (cell : R) (n : Nat) (d : R) :
    Decidable (ExactAxis fl cell n d) := by
  unfold ExactAxis; infer_instance

instance [Field R] [DecidableEq R] (g : CartesianGrid R) (fl : R → R) (p : Point3D R) :
    Decidable (g.ExactAt fl p) := by
  unfold CartesianGrid.ExactAt; infer_instance

/-- The counts of the grid are values of an `int`, so that the index of every
cell, and the count itself, survive `static_cast<int>`. -/
def CartesianGrid.IntFits (g : CartesianGrid R) : Prop :=
  (g._nx : Int) < INT_HALF ∧ (g._ny : Int) < INT_HALF ∧ (g._nz : Int) < INT_HALF

end Lookup

/-- The index along one axis that the data model assigns to a point at
offset `d` from the origin, for cells of size `cell` and `n` cells: the last
cell for a point exactly on the upper boundary, and otherwise the integer
part of `d / cell`. -/
def axisTarget {R : Type} [LinearOrderedField R] [FloorRing R] (cell : R) (n : Nat) (d : R) :
    Nat :=
  if d = cell * (n : R) then n - 1 else (Int.floor (d / cell)).toNat

/-! ## Rounding to `double`

A finite `double` is a rational number `m * 2^e` with `|m| < 2^53` and
`-1074 ≤ e ≤ 971`.  An operation on `double`s returns its exact result
rounded to the nearest `double`, and on a tie to the one whose `m` is even
(IEEE 754 binary64, the default rounding mode).  `roundDouble` is that
rounding for results of magnitude below `2^1024`; the overflow to infinity of
larger results is not modelled. -/

/-- The search upward for the binary exponent of `a ≥ 1`: from `e` with
`p = 2^e ≤ a`, the greatest exponent whose power of two is at most `a`. -/
def exponentUp (a : ℚ) : Nat → ℤ → ℚ → ℤ
  | 0, e, _ => e
  | fuel + 1, e, p => if 2 * p ≤ a then exponentUp a fuel (e + 1) (2 * p) else e

/-- The search downward for the binary exponent of `a < 1`: from `e` with
`p = 2^e`, the greatest exponent whose power of two is at most `a`, and the
exponent at which the fuel ends for a smaller `a`. -/
def exponentDown (a : ℚ) : Nat → ℤ → ℚ → ℤ
  | 0, e, _ => e
  | fuel + 1, e, p => if a < p then exponentDown a fuel (e - 1) (p / 2) else e

/-- The exponent `e` of the binade of a magnitude `a`: `2^e ≤ a < 2^(e+1)`
for `2^(-1022) ≤ a < 2^1024`, and `-1022`, the exponent of the subnormal
numbers, for a smaller `a`. -/
def binaryExponent (a : ℚ) : ℤ :=
  if 1 ≤ a then exponentUp a 1023 0 1 else exponentDown a 1022 0 1

/-- The `double` nearest to `x`, ties to even: with `u = 2^(e-52)` the spacing
of the `double`s of the binade of `x`, the multiple of `u` nearest to `x`, and
on a tie the even multiple. -/
def roundDouble (x : ℚ) : ℚ :=
  if x = 0 then 0
  else
    let e : ℤ := binaryExponent |x|
    let u : ℚ := 2 ^ (e - 52)
    let q : ℚ := x / u
    let n : ℤ := ⌊q⌋
    (if q - n < 1 / 2 then (n : ℚ) else if 1 / 2 < q - n then (n : ℚ) + 1
     else if n % 2 = 0 then (n : ℚ) else (n : ℚ) + 1) * u

/-! ## Invariants that hold whatever the field -/

section Invariants3

variable {R : Type}

/-- The position of a label along `UNVISITED -> VISITED -> SCANNED`. -/
def Label.rank : Label → Nat
  | Label.UNVISITED => 0
  | Label.VISITED => 1
  | Label.SCANNED => 2

/-- The invariant on the predecessor links, which holds whatever the field:
the cells that are not UNVISITED are cells of the grid; a predecessor link
leads to a SCANNED cell; and the predecessor walk from a SCANNED cell ends,
passing through SCANNED cells only and through none of them twice. -/
structure LazyMole.Tree (g : CartesianGrid R) (m : LazyMole R) : Prop where
  hg : m.gridPtr = g
  range : ∀ c, m.status c ≠ Label.UNVISITED → c < g.numberOfCells
  prev : ∀ c, m.previous c ≠ EMPTY → m.status (m.previous c) = Label.SCANNED
  chain : ∀ c, m.status c = Label.SCANNED →
    ∃ l, m.walk l.length c = some l ∧ l.Nodup ∧ ∀ x ∈ l, m.status x = Label.SCANNED

/-- Every live node of the heap is the node that the handle of its cell
designates, and its cell is VISITED: the heap holds one entry per VISITED
cell and no other entry. -/
def LazyMole.Owned (m : LazyMole R) : Prop :=
  ∀ n ∈ m.heap.nodes,
    m.cellElementHandles n.2.cell = some n.1 ∧ m.status n.2.cell = Label.VISITED

/-- The states at the head of the `while` loop of `LazyMole::run`, each time
its condition is tested, for at most `fuel` iterations. -/
def LazyMole.iterates [LinearOrderedField R] (sqrt : R → R) :
    (Nat → Nat) → Nat → LazyMole R → List (LazyMole R)
  | tie, fuel, m =>
    if m.heap.empty then [m]
    else
      match fuel with
      | 0 => [m]
      | fuel + 1 =>
        match m.scan sqrt (tie 0) with
        | none => [m]
        | some m1 => m :: LazyMole.iterates sqrt (fun k => tie (k + 1)) fuel m1

end Invariants3

section Forward

variable {R : Type}

/-- From the state `m` to the later state `m1` no label has moved backward
along `UNVISITED -> VISITED -> SCANNED`, and no cell that was SCANNED has
changed its predecessor. -/
structure LazyMole.Forward (m m1 : LazyMole R) : Prop where
  rank_le : ∀ x, (m.status x).rank ≤ (m1.status x).rank
  prev : ∀ x, m.status x = Label.SCANNED → m1.previous x = m.previous x

end Forward

/-! ## The input stream and the field loader

`std::istream` is a library type.  It is modelled by what its interface
promises to `ConductivityField::import`: formatted extraction `>>` yields the
next value, and sets `eofbit` when the end of the stream is reached while it
reads, which happens when no value is left and also when the characters of
the last value run to the end of the stream; `eofbit`, once set, stays set.
On characters that are not a number the extraction fails: it writes `0` to
its argument and sets `failbit`, not `eofbit`; once `failbit` is set, an
extraction reads nothing and writes nothing. -/

/-- What comes after the values that a stream holds: nothing, the stream
ending with the last character of the last value (`ended`); white space and
then the end of the stream (`space`); characters that are not a number
(`junk`); or nothing that can be read, `failbit` being set and `eofbit` not,
after an extraction that failed on such characters or a skipped line that was
too long (`failed`). -/
inductive Tail where
  | ended
  | space
  | junk
  | failed
deriving DecidableEq

/-- The state of the input stream once the `nSkip` lines have been skipped:
the values still to be read, and what comes after the last of them. -/
structure IStream (R : Type) where
  values : List R
  tail : Tail

/-- What `inStream >> val` followed by the test `inStream.eof()` gives:
`eof()` is true; or it is false and `val` holds the value `v`; or it is false
and `val`, a local variable without initial value, has not been written. -/
inductive Extraction (R : Type) where
  | eof
  | value (v : R)
  | unwritten

/-- The three ways `ConductivityField::import` can end: it throws
`std::runtime_error`; its behaviour is undefined, by a division by zero in a
loop bound or by the use of a `val` that no extraction has written; or it
returns, leaving the stream and the values of the field. -/
inductive ImportResult (R : Type) where
  | runtimeError
  | undefined
  | done (stream : IStream R) (values : Nat → R)

section Import

variable {R : Type}

/-- Embeds `inStream >> val` followed by the test `inStream.eof()`, with the
stream the extraction leaves. -/
def IStream.next [Zero R] (s : IStream R) : Extraction R × IStream R :=
  match s.tail with
  | Tail.failed => (Extraction.unwritten, s)
  | t =>
    match s.values with
    | [] =>
      match t with
      | Tail.junk => (Extraction.value 0, ⟨[], Tail.failed⟩)
      | _ => (Extraction.eof, s)
    | [v] =>
      match t with
      | Tail.ended => (Extraction.eof, ⟨[], Tail.ended⟩)
      | _ => (Extraction.value v, ⟨[], t⟩)
    | v :: w :: rest => (Extraction.value v, ⟨w :: rest, t⟩)

/-- The body of the `try` block of `ConductivityField::import`: the
transformation of `val` for `connected = 1` or `-1`, where `erfInv` returns
`none` when `boost::math::erf_inv` throws, which the `catch` absorbs. -/
def zinn [LinearOrderedField R] (sqrt erf : R → R) (erfInv : R → Option R) (connected : Int)
    (val : R) : R :=
  let t := |val|
  let t := if t < 1 / 1000000 then 1 / 1000000 else t
  match erfInv (2 * erf (t / sqrt 2) - 1) with
  | none => val
  | some y => -(connected : R) * sqrt 2 * y

/-- The value `ConductivityField::import` stores for the value `v` read from
the stream. -/
def importValue [LinearOrderedField R] (sqrt exp erf : R → R) (erfInv : R → Option R)
    (sigma2 : R) (isLog : Bool) (connected : Int) (v : R) : R :=
  let val := if connected = 1 ∨ connected = -1 then zinn sqrt erf erfInv connected v else v
  let val := val * sqrt sigma2
  if isLog then exp val else val

/-- The three innermost loops of `ConductivityField::import`: the value
`out` is stored in every cell `mergeIds(x, y, z)` of the block of the coarse
cell `(i, j, k)`. -/
def CartesianGrid.fill (g : CartesianGrid R) (i j k : Nat) (out : R) (values : Nat → R) :
    Nat → R :=
  (List.range' (wrap (g.resx * i)) (wrap (g.resx * wrap (i + 1)) - wrap (g.resx * i))).foldl
    (fun vals x =>
      (List.range' (wrap (g.resy * j)) (wrap (g.resy * wrap (j + 1)) - wrap (g.resy * j))).foldl
        (fun vals y =>
          (List.range' (wrap (g.resz * k))
              (wrap (g.resz * wrap (k + 1)) - wrap (g.resz * k))).foldl
            (fun vals z => Function.update vals (g.mergeIds x y z) out) vals)
        vals)
    values

/-- The loop on `i` of `ConductivityField::import`, for the `rem` iterations
from `i` on: it ends early, by `break`, when `eof()` is true after an
extraction; `none` when it uses a `val` that the extraction has not
written. -/
def CartesianGrid.importRow [Zero R] (tr : R → R) (g : CartesianGrid R) (j k : Nat) :
    Nat → Nat → IStream R × (Nat → R) → Option (IStream R × (Nat → R))
  | 0, _, st => some st
  | rem + 1, i, st =>
    match st.1.next with
    | (Extraction.eof, s1) => some (s1, st.2)
    | (Extraction.unwritten, _) => none
    | (Extraction.value v, s1) =>
      CartesianGrid.importRow tr g j k rem (i + 1) (s1, g.fill i j k (tr v) st.2)

/-- Embeds `ConductivityField::import`, from the stream as the skipped lines
leave it and the values of the field as the constructor left them. -/
def CartesianGrid.importField [LinearOrderedField R] (sqrt exp erf : R → R)
    (erfInv : R → Option R) (g : CartesianGrid R) (values : Nat → R) (inStream : IStream R)
    (sigma2 : R) (isLog : Bool) (connected : Int) : ImportResult R :=
  if isLog = false ∧ (connected = 1 ∨ connected = -1) then ImportResult.runtimeError
  else if g.resz = 0 ∨ (0 < g.nz / g.resz ∧
      (g.resy = 0 ∨ (0 < g.ny / g.resy ∧ g.resx = 0))) then ImportResult.undefined
  else
    match (List.range (g.nz / g.resz)).foldlM
      (fun st k =>
        (List.range (g.ny / g.resy)).foldlM
          (fun st j =>
            g.importRow (importValue sqrt exp erf erfInv sigma2 isLog connected) j k
              (g.nx / g.resx) 0 st)
          st)
      (inStream, values) with
    | none => ImportResult.undefined
    | some st => ImportResult.done st.1 st.2

/-- The index, in the order of reading, of the coarse cell whose block holds
the fine cell `(x, y, z)`: `x` runs fastest, then `y`, then `z`. -/
def CartesianGrid.coarseIndex (g : CartesianGrid R) (x y z : Nat) : Nat :=
  (z / g.resz * (g.ny / g.resy) + y / g.resy) * (g.nx / g.resx) + x / g.resx

/-- The state of `ConductivityField::import` once the blocks of the first `c`
coarse cells have been populated from the values `vs` of a stream that ends
with `t`: the stream holds the values from the `c`-th on; a fine cell of one
of these blocks holds the image by `tr` of the value of its coarse cell; and
every other entry is as `values` had it. -/
structure CartesianGrid.Imported [Zero R] (g : CartesianGrid R) (tr : R → R)
    (values : Nat → R) (vs : List R) (t : Tail) (c : Nat) (st : IStream R × (Nat → R)) :
    Prop where
  stream : st.1 = ⟨vs.drop c, t⟩
  stored : ∀ x y z, x < g.resx * (g.nx / g.resx) → y < g.resy * (g.ny / g.resy) →
    z < g.resz * (g.nz / g.resz) → g.coarseIndex x y z < c →
    st.2 (g.mergeIds x y z) = tr (vs.getD (g.coarseIndex x y z) 0)
  kept : ∀ id, (∀ x y z, x < g.resx * (g.nx / g.resx) → y < g.resy * (g.ny / g.resy) →
    z < g.resz * (g.nz / g.resz) → g.coarseIndex x y z < c → id ≠ g.mergeIds x y z) →
    st.2 id = values id

end Import

/-! ## Two runs side by side -/

section Simulation

variable {R : Type}

end Simulation

/-! ## Range checks

The embedding above reads and writes a `CellField` as a total map and takes
the `assert`s as preconditions.  The definitions of this section run the same
code with every `assert` and every index into a vector tested: `none` is
returned at the first `assert` that fails and at the first index that is not
below the size of its vector.  Every `CellField` of a `LazyMole` is built on
`gridPtr`, so its vector has `gridPtr->numberOfCells()` entries; `field` is
the copy of a field on that grid, as `main.cpp` builds it. -/

section Checked

variable {R : Type}

/-- The test made for `v[i]`, `v.get(i)` and `v.set(i, x)` on a `CellField` of
the grid `g`: its vector has `numberOfCells()` entries. -/
def CartesianGrid.index (g : CartesianGrid R) (i : Nat) : Option Unit :=
  if i < g.numberOfCells then some () else none

/-- Embeds `CartesianGrid::splitId` with its `assert(id < numberOfCells())`. -/
def CartesianGrid.splitIdChecked (g : CartesianGrid R) (id : Nat) : Option (Nat × Nat × Nat) :=
  if id < g.numberOfCells then some (g.splitId id) else none

/-- Embeds `CartesianGrid::mergeIds` with its
`assert(idx < _nx && idy < _ny && idz < _nz)`. -/
def CartesianGrid.mergeIdsChecked (g : CartesianGrid R) (idx idy idz : Nat) : Option Nat :=
  if idx < g._nx ∧ idy < g._ny ∧ idz < g._nz then some (g.mergeIds idx idy idz) else none

/-- Embeds `CartesianGrid::neighbors` with the `assert`s of the `splitId` and
`mergeIds` it calls; `cells` is the vector that `push_back` extends. -/
def CartesianGrid.neighborsChecked (g : CartesianGrid R) (id : Nat) : Option (List Nat) :=
  (g.splitIdChecked id).bind fun ids =>
    offsets.foldlM (fun cells s0 =>
      offsets.foldlM (fun cells s1 =>
        offsets.foldlM (fun cells s2 =>
          if 0 ≤ addOff ids.1 s0 ∧ addOff ids.1 s0 < g._nx ∧
             0 ≤ addOff ids.2.1 s1 ∧ addOff ids.2.1 s1 < g._ny ∧
             0 ≤ addOff ids.2.2 s2 ∧ addOff ids.2.2 s2 < g._nz then
            if ¬ (s0 = 0 ∧ s1 = 0 ∧ s2 = 0) then
              (g.mergeIdsChecked (addOff ids.1 s0) (addOff ids.2.1 s1)
                (addOff ids.2.2 s2)).map fun c => cells ++ [c]
            else some cells
          else some cells) cells) cells) []

/-- Embeds `CartesianGrid::centerOfCell(idx, idy, idz)` with its
`assert(idx < _nx && idy < _ny && idz < _nz)`. -/
def CartesianGrid.centerOfCell3Checked [Field R] (g : CartesianGrid R) (idx idy idz : Nat) :
    Option (Point3D R) :=
  if idx < g._nx ∧ idy < g._ny ∧ idz < g._nz then some (g.centerOfCell3 idx idy idz) else none

/-- Embeds `CartesianGrid::centerOfCell(id)` with the `assert`s of the `splitId`
and `centerOfCell(idx, idy, idz)` it calls. -/
def CartesianGrid.centerOfCellChecked [Field R] (g : CartesianGrid R) (id : Nat) :
    Option (Point3D R) :=
  (g.splitIdChecked id).bind fun ids => g.centerOfCell3Checked ids.1 ids.2.1 ids.2.2

/-- Embeds `CellField::getFromCell` with its
`assert(cell < this->gridPtr->numberOfCells())`, for a field on the grid `g`. -/
def CartesianGrid.getFromCellChecked (g : CartesianGrid R) (values : Nat → R) (cell : Nat) :
    Option R :=
  if cell < g.numberOfCells then some (values cell) else none

/-- Embeds `LazyMole::computeResistance` with the `assert`s of the `centerOfCell`
and `getFromCell` it calls. -/
def computeResistanceChecked [Field R] (sqrt : R → R) (gridPtr : CartesianGrid R)
    (field : Nat → R) (cCell nCell : Nat) : Option R :=
  (gridPtr.centerOfCellChecked cCell).bind fun a =>
    (gridPtr.centerOfCellChecked nCell).bind fun b =>
      let dist := a.distanceFrom sqrt b
      (gridPtr.getFromCellChecked field cCell).bind fun k1 =>
        let r1 := dist / 2 / k1
        (gridPtr.getFromCellChecked field nCell).bind fun k2 =>
          let r2 := dist / 2 / k2
          some (r1 + r2)

/-- The body of the constructor's loop for the source id `c`, with the index
`cellIds[i]` of `cellElementHandles` and `status` tested. -/
def LazyMole.addSourceChecked [Ring R] (m : LazyMole R) (c : Nat) : Option (LazyMole R) :=
  (m.gridPtr.index c).bind fun _ => some (m.addSource c)

/-- The constructor `LazyMole::LazyMole` with every index tested. -/
def LazyMole.newChecked [Ring R] (gridPtr : CartesianGrid R) (field : Nat → R)
    (cellIds : List Nat) : Option (LazyMole R) :=
  (cellIds.foldlM LazyMole.addSourceChecked (LazyMole.init gridPtr field)).map fun m =>
    { m with isReady := false }

/-- The body of the loop on neighbours in `LazyMole::run` with every index and
`assert` tested: `status[nCell]`, then `computeResistance(cCell, nCell)`;
the later accesses to `previous`, `status` and `cellElementHandles` use the
index `nCell` again. -/
def LazyMole.relaxChecked [LinearOrderedField R] (sqrt : R → R) (cCell : Nat) (cRes : R)
    (m : LazyMole R) (nCell : Nat) : Option (LazyMole R) :=
  (m.gridPtr.index nCell).bind fun _ =>
    if m.status nCell ≠ Label.SCANNED then
      (computeResistanceChecked sqrt m.gridPtr m.field cCell nCell).bind fun cnRes =>
        let nRes := cRes + cnRes
        if m.status nCell = Label.UNVISITED then
          let r := m.heap.push ⟨-nRes, nCell⟩
          some { m with
            previous := Function.update m.previous nCell cCell
            status := Function.update m.status nCell Label.VISITED
            cellElementHandles := Function.update m.cellElementHandles nCell r.2
            heap := r.1 }
        else
          match m.heap.deref (m.cellElementHandles nCell) with
          | none => none
          | some e =>
            if nRes < -e.res then
              some { m with
                previous := Function.update m.previous nCell cCell
                heap := m.heap.increase (m.cellElementHandles nCell) ⟨-nRes, nCell⟩ }
            else some m
    else some m

/-- One iteration of the `while` loop of `LazyMole::run` with every index and
`assert` tested: `status[cCell]` and `smallestRes[cCell]`, the call
`gridPtr->neighbors(cCell)`, and the loop on the neighbours. -/
def LazyMole.scanChecked [LinearOrderedField R] (sqrt : R → R) (tie : Nat) (m : LazyMole R) :
    Option (LazyMole R) :=
  match m.heap.top tie with
  | none => none
  | some n =>
    let e := n.2
    let cCell := e.cell
    let cRes := -e.res
    (m.gridPtr.index cCell).bind fun _ =>
      let m1 : LazyMole R :=
        { m with
          heap := m.heap.pop tie
          status := Function.update m.status cCell Label.SCANNED
          smallestRes := Function.update m.smallestRes cCell cRes }
      (m1.gridPtr.neighborsChecked cCell).bind fun neighbors =>
        neighbors.foldlM (LazyMole.relaxChecked sqrt cCell cRes) m1

/-- The `while` loop of `LazyMole::run` with every index and `assert` tested. -/
def LazyMole.runLoopChecked [LinearOrderedField R] (sqrt : R → R) :
    (Nat → Nat) → Nat → LazyMole R → Option (LazyMole R)
  | tie, fuel, m =>
    if m.heap.empty then some m
    else
      match fuel with
      | 0 => none
      | fuel + 1 =>
        match m.scanChecked sqrt (tie 0) with
        | none => none
        | some m1 => LazyMole.runLoopChecked sqrt (fun k => tie (k + 1)) fuel m1

/-- Embeds `LazyMole::run` with every index and `assert` tested. -/
def LazyMole.runChecked [LinearOrderedField R] (sqrt : R → R) (tie : Nat → Nat) (fuel : Nat)
    (m : LazyMole R) : Option (LazyMole R) :=
  (m.runLoopChecked sqrt tie fuel).map fun m1 => { m1 with isReady := true }

/-- The `while` loop of `LazyMole::path` with the index `cId` of
`pathField.set(cId, 1)` and `previous[cId]` tested. -/
def LazyMole.pathLoopChecked (m : LazyMole R) : Nat → Nat → (Nat → Nat) → Option (Nat → Nat)
  | 0, _, _ => none
  | fuel + 1, cId, pathField =>
    (m.gridPtr.index cId).bind fun _ =>
      let pathField1 := Function.update pathField cId 1
      let pCell := m.previous cId
      if pCell ≠ EMPTY then LazyMole.pathLoopChecked m fuel pCell pathField1
      else some pathField1

/-- Embeds `LazyMole::path` with every index tested. -/
def LazyMole.pathChecked (m : LazyMole R) (fuel : Nat) (cell : Nat) : Option (Nat → Nat) :=
  let pathField : Nat → Nat := fun _ => 0
  if ! m.isReady then some pathField
  else m.pathLoopChecked fuel cell pathField

/-- The `while` loop of `LazyMole::exportPath` with the `assert`s of
`gridPtr->centerOfCell(cId)` and the index of `previous[cId]` tested. -/
def LazyMole.exportLoopChecked [Field R] (m : LazyMole R) :
    Nat → Nat → List (Point3D R) → Option (List (Point3D R))
  | 0, _, _ => none
  | fuel + 1, cId, out =>
    (m.gridPtr.centerOfCellChecked cId).bind fun center =>
      let out1 := out ++ [center]
      (m.gridPtr.index cId).bind fun _ =>
        let pCell := m.previous cId
        if pCell ≠ EMPTY then LazyMole.exportLoopChecked m fuel pCell out1
        else some out1

/-- Embeds `LazyMole::exportPath` with every index and `assert` tested. -/
def LazyMole.exportPathChecked [Field R] (m : LazyMole R) (isOpen : Bool) (fuel : Nat)
    (cell : Nat) : Option (List (Point3D R)) :=
  if ! m.isReady then some []
  else if isOpen then m.exportLoopChecked fuel cell []
  else some []

end Checked

/-! ## The choice of the target in `main.cpp` -/

section Target

variable {R : Type}

/-- The variables `minRes` and `minId` of `run` in `main.cpp`. -/
structure Selection (R : Type) where
  minRes : R
  minId : Nat

/-- The body of the loop of `main.cpp` on the target ids, for the target id
`t = idsTarget[i]`. -/
def Selection.step [LinearOrder R] (smallestRes : Nat → R) (s : Selection R) (t : Nat) :
    Selection R :=
  if smallestRes t < s.minRes then { minId := t, minRes := smallestRes t } else s

/-- The choice of the target in `run` of `main.cpp`: `minRes = 1e20`,
`minId = grid->numberOfCells()`, then the loop on `idsTarget`.  The `minId`
it leaves is the cell that `main.cpp` hands to `exportPath`. -/
def selectTarget [LinearOrderedField R] (grid : CartesianGrid R) (smallestRes : Nat → R)
    (idsTarget : List Nat) : Selection R :=
  idsTarget.foldl (Selection.step smallestRes) { minRes := 10 ^ 20, minId := grid.numberOfCells }

end Target

/-! ## Concrete instances -/

/-- A 2 x 2 x 1 grid of unit cells at the origin, without refinement. -/
def grid221 : CartesianGrid ℚ := CartesianGrid.new3D 2 2 1 1 1 1 1 1 1 ⟨0, 0, 0⟩

/-- A 3 x 3 x 3 grid of unit cells at the origin, without refinement. -/
def grid333 : CartesianGrid ℚ := CartesianGrid.new3D 3 3 3 1 1 1 1 1 1 ⟨0, 0, 0⟩

/-- A 1 x 1 x 1 grid: a single unit cell. -/
def grid111 : CartesianGrid ℚ := CartesianGrid.new3D 1 1 1 1 1 1 1 1 1 ⟨0, 0, 0⟩

/-- The field with value `1` in every cell. -/
def unitField : Nat → ℚ := fun _ => 1

/-- The 3 x 1 x 1 grid whose cell size along x is the `double` written `0.7`,
with origin `(0, 0, 0)`. -/
def grid311 : CartesianGrid ℚ :=
  CartesianGrid.new3D 3 1 1 (roundDouble (7 / 10)) 1 1 1 1 1 ⟨0, 0, 0⟩

/-- The same grid with origin `(-1, 0, 0)`. -/
def grid311shifted : CartesianGrid ℚ :=
  CartesianGrid.new3D 3 1 1 (roundDouble (7 / 10)) 1 1 1 1 1 ⟨-1, 0, 0⟩

end mla

namespace mla

/-! # Lemmas -/

/-! ## Machine integers -/

theorem wrap_of_lt {n : Nat} (h : n < SIZE_MOD) : wrap n = n := Nat.mod_eq_of_lt h

theorem addOff_zero {i : Nat} (h : i < SIZE_MOD) : addOff i 0 = i := by
  simp [addOff, wrap_of_lt h]

theorem addOff_one {i : Nat} (h : i + 1 < SIZE_MOD) : addOff i 1 = i + 1 := by
  have : ((1 : Int) % (SIZE_MOD : Int)).toNat = 1 := by decide
  simp only [addOff, this, wrap_of_lt h]

theorem addOff_neg_one {i : Nat} (h0 : 0 < i) (h : i < SIZE_MOD) :
    addOff i (-1) = i - 1 := by
  have : ((-1 : Int) % (SIZE_MOD : Int)).toNat = SIZE_MOD - 1 := by decide
  simp only [addOff, this, wrap, SIZE_MOD] at *
  omega

theorem addOff_neg_one_zero : addOff 0 (-1) = SIZE_MOD - 1 := by decide

/-- On an index below a count that is a `size_t`, the wrapping sum with an
offset of `offsets` passes the range test exactly when the exact integer sum is
in range, and is then that sum. -/
theorem addOff_lt_iff {i n : Nat} {s : Int} (hs : s ∈ offsets) (hi : i < n)
    (hn : n < SIZE_MOD) :
    (addOff i s < n ↔ 0 ≤ (i : Int) + s ∧ (i : Int) + s < n) ∧
    (0 ≤ (i : Int) + s → (i : Int) + s < n → addOff i s = ((i : Int) + s).toNat) := by
  simp only [offsets, List.mem_cons, List.mem_singleton, List.not_mem_nil, or_false] at hs
  rcases hs with rfl | rfl | rfl
  · rcases Nat.eq_zero_or_pos i with rfl | hpos
    · rw [addOff_neg_one_zero]
      simp only [SIZE_MOD] at *
      omega
    · rw [addOff_neg_one hpos (by omega)]
      omega
  · rw [addOff_zero (by omega)]
    omega
  · by_cases h1 : i + 1 < SIZE_MOD
    · rw [addOff_one h1]
      omega
    · omega

section GridLemmas

variable {R : Type}

theorem CartesianGrid.numberOfCells_eq (g : CartesianGrid R) (hf : g.Fits) :
    g.numberOfCells = g._nx * g._ny * g._nz := by
  unfold CartesianGrid.numberOfCells
  rcases Nat.eq_zero_or_pos g._nz with hz | hz
  · simp [hz, wrap]
  · have h1 : g._nx * g._ny ≤ g._nx * g._ny * g._nz := Nat.le_mul_of_pos_right _ hz
    have h2 : g._nx * g._ny < SIZE_MOD := lt_of_le_of_lt h1 hf
    rw [wrap_of_lt h2, wrap_of_lt hf]

/-- The facts about the counts that a valid index triple gives. -/
theorem CartesianGrid.Fits.bounds {g : CartesianGrid R} (hf : g.Fits) {ix iy iz : Nat}
    (hx : ix < g._nx) (hy : iy < g._ny) (hz : iz < g._nz) :
    g._nx < SIZE_MOD ∧ g._ny < SIZE_MOD ∧ g._nz < SIZE_MOD ∧ g._ny * g._nx < SIZE_MOD ∧
    iz * g._ny * g._nx + iy * g._nx + ix < g._nx * g._ny * g._nz := by
  have hf1 : g._nx * g._ny * g._nz < SIZE_MOD := hf
  have hxp : 0 < g._nx := by omega
  have hyp : 0 < g._ny := by omega
  have hzp : 0 < g._nz := by omega
  have a1 : g._nx ≤ g._nx * g._ny := Nat.le_mul_of_pos_right _ hyp
  have a2 : g._nx * g._ny ≤ g._nx * g._ny * g._nz := Nat.le_mul_of_pos_right _ hzp
  have a3 : g._ny ≤ g._nx * g._ny := Nat.le_mul_of_pos_left _ hxp
  have a4 : g._nz ≤ g._nx * g._ny * g._nz := Nat.le_mul_of_pos_left _ (Nat.mul_pos hxp hyp)
  have a5 : g._ny * g._nx = g._nx * g._ny := Nat.mul_comm _ _
  have b1 : iy * g._nx + ix < g._ny * g._nx := by
    have : (iy + 1) * g._nx ≤ g._ny * g._nx := Nat.mul_le_mul_right _ hy
    rw [Nat.add_mul] at this
    omega
  have b2 : iz * g._ny * g._nx + iy * g._nx + ix < g._nx * g._ny * g._nz := by
    have : (iz + 1) * (g._ny * g._nx) ≤ g._nz * (g._ny * g._nx) := Nat.mul_le_mul_right _ hz
    rw [Nat.add_mul, ← Nat.mul_assoc] at this
    have e : g._nz * (g._ny * g._nx) = g._nx * g._ny * g._nz := by
      rw [a5, Nat.mul_comm]
    omega
  refine ⟨by omega, by omega, by omega, by omega, b2⟩

theorem CartesianGrid.mergeIds_eq {g : CartesianGrid R} (hf : g.Fits) {ix iy iz : Nat}
    (hx : ix < g._nx) (hy : iy < g._ny) (hz : iz < g._nz) :
    g.mergeIds ix iy iz = iz * g._ny * g._nx + iy * g._nx + ix := by
  obtain ⟨h1, h2, h3, h4, h5⟩ := hf.bounds hx hy hz
  have hf1 : g._nx * g._ny * g._nz < SIZE_MOD := hf
  have c1 : iz * g._ny * g._nx ≤ iz * g._ny * g._nx + iy * g._nx + ix := by omega
  have c2 : iy * g._nx ≤ iz * g._ny * g._nx + iy * g._nx + ix := by omega
  have c3 : iz * g._ny ≤ iz * g._ny * g._nx := Nat.le_mul_of_pos_right _ (by omega)
  unfold CartesianGrid.mergeIds
  rw [wrap_of_lt (n := iz * g._ny) (by omega), wrap_of_lt (n := iz * g._ny * g._nx) (by omega),
    wrap_of_lt (n := iy * g._nx) (by omega),
    wrap_of_lt (n := iz * g._ny * g._nx + iy * g._nx) (by omega), wrap_of_lt (by omega)]

theorem CartesianGrid.mergeIds_lt {g : CartesianGrid R} (hf : g.Fits) {ix iy iz : Nat}
    (hx : ix < g._nx) (hy : iy < g._ny) (hz : iz < g._nz) :
    g.mergeIds ix iy iz < g.numberOfCells := by
  rw [g.mergeIds_eq hf hx hy hz, g.numberOfCells_eq hf]
  exact (hf.bounds hx hy hz).2.2.2.2

theorem CartesianGrid.splitId_mergeIds {g : CartesianGrid R} (hf : g.Fits) {ix iy iz : Nat}
    (hx : ix < g._nx) (hy : iy < g._ny) (hz : iz < g._nz) :
    g.splitId (g.mergeIds ix iy iz) = (ix, iy, iz) := by
  obtain ⟨h1, h2, h3, h4, h5⟩ := hf.bounds hx hy hz
  have hxp : 0 < g._nx := by omega
  have hyx : 0 < g._ny * g._nx := Nat.mul_pos (by omega) hxp
  have b1 : iy * g._nx + ix < g._ny * g._nx := by
    have : (iy + 1) * g._nx ≤ g._ny * g._nx := Nat.mul_le_mul_right _ hy
    rw [Nat.add_mul] at this
    omega
  rw [g.mergeIds_eq hf hx hy hz]
  unfold CartesianGrid.splitId
  simp only [wrap_of_lt h4]
  have e0 : iz * g._ny * g._nx + iy * g._nx + ix = (iy * g._nx + ix) + (g._ny * g._nx) * iz := by
    rw [Nat.mul_comm (g._ny * g._nx) iz, Nat.mul_assoc]; omega
  have e1 : (iz * g._ny * g._nx + iy * g._nx + ix) / (g._ny * g._nx) = iz := by
    rw [e0, Nat.add_mul_div_left _ _ hyx, Nat.div_eq_of_lt b1, Nat.zero_add]
  have e2 : (iz * g._ny * g._nx + iy * g._nx + ix) % (g._ny * g._nx) = iy * g._nx + ix := by
    rw [e0, Nat.add_mul_mod_self_left, Nat.mod_eq_of_lt b1]
  have e3 : (iy * g._nx + ix) / g._nx = iy := by
    rw [Nat.add_comm, Nat.mul_comm, Nat.add_mul_div_left _ _ hxp, Nat.div_eq_of_lt hx, Nat.zero_add]
  have e4 : (iy * g._nx + ix) % g._nx = ix := by
    rw [Nat.add_comm, Nat.mul_comm, Nat.add_mul_mod_self_left, Nat.mod_eq_of_lt hx]
  rw [e1, e2, e3, e4]

/-- The indices of a valid id are in range, and merge back to the id. -/
theorem CartesianGrid.splitId_spec {g : CartesianGrid R} (hf : g.Fits) {id : Nat}
    (hid : id < g.numberOfCells) :
    (g.splitId id).1 < g._nx ∧ (g.splitId id).2.1 < g._ny ∧ (g.splitId id).2.2 < g._nz ∧
    g.mergeIds (g.splitId id).1 (g.splitId id).2.1 (g.splitId id).2.2 = id := by
  rw [g.numberOfCells_eq hf] at hid
  have hf1 : g._nx * g._ny * g._nz < SIZE_MOD := hf
  have hxp : 0 < g._nx := by
    rcases Nat.eq_zero_or_pos g._nx with h | h
    · rw [h] at hid; simp at hid
    · exact h
  have hyp : 0 < g._ny := by
    rcases Nat.eq_zero_or_pos g._ny with h | h
    · rw [h] at hid; simp at hid
    · exact h
  have hzp : 0 < g._nz := by
    rcases Nat.eq_zero_or_pos g._nz with h | h
    · rw [h] at hid; simp at hid
    · exact h
  have h4 : g._ny * g._nx < SIZE_MOD := (hf.bounds hxp hyp hzp).2.2.2.1
  have hyx : 0 < g._ny * g._nx := Nat.mul_pos hyp hxp
  have hx : id % (g._ny * g._nx) % g._nx < g._nx := Nat.mod_lt _ hxp
  have hy : id % (g._ny * g._nx) / g._nx < g._ny := by
    rw [Nat.div_lt_iff_lt_mul hxp]
    exact Nat.mod_lt _ hyx
  have hz : id / (g._ny * g._nx) < g._nz := by
    rw [Nat.div_lt_iff_lt_mul hyx, Nat.mul_comm g._nz, Nat.mul_comm g._ny]
    exact hid
  have hs : g.splitId id =
      (id % (g._ny * g._nx) % g._nx, id % (g._ny * g._nx) / g._nx, id / (g._ny * g._nx)) := by
    unfold CartesianGrid.splitId
    simp only [wrap_of_lt h4]
  rw [hs]
  refine ⟨hx, hy, hz, ?_⟩
  simp only
  rw [g.mergeIds_eq hf hx hy hz]
  have d1 := Nat.div_add_mod id (g._ny * g._nx)
  have d2 := Nat.div_add_mod (id % (g._ny * g._nx)) g._nx
  have e1 : id / (g._ny * g._nx) * g._ny * g._nx = g._ny * g._nx * (id / (g._ny * g._nx)) := by
    rw [Nat.mul_assoc, Nat.mul_comm]
  have e2 : id % (g._ny * g._nx) / g._nx * g._nx = g._nx * (id % (g._ny * g._nx) / g._nx) :=
    Nat.mul_comm _ _
  omega

end GridLemmas

section NbLemmas
variable {R : Type}

/-- Membership in `neighbors`, read off the three loops. -/
theorem CartesianGrid.mem_neighbors_loop (g : CartesianGrid R) (id j : Nat) :
    j ∈ g.neighbors id ↔
      ∃ s0 ∈ offsets, ∃ s1 ∈ offsets, ∃ s2 ∈ offsets,
        (addOff (g.splitId id).1 s0 < g._nx ∧ addOff (g.splitId id).2.1 s1 < g._ny ∧
          addOff (g.splitId id).2.2 s2 < g._nz) ∧
        ¬ (s0 = 0 ∧ s1 = 0 ∧ s2 = 0) ∧
        j = g.mergeIds (addOff (g.splitId id).1 s0) (addOff (g.splitId id).2.1 s1)
              (addOff (g.splitId id).2.2 s2) := by
  unfold CartesianGrid.neighbors
  simp only [List.mem_flatMap, Nat.zero_le, true_and]
  constructor
  · rintro ⟨s0, h0, s1, h1, s2, h2, hj⟩
    refine ⟨s0, h0, s1, h1, s2, h2, ?_⟩
    by_cases hc : addOff (g.splitId id).1 s0 < g._nx ∧ addOff (g.splitId id).2.1 s1 < g._ny ∧
        addOff (g.splitId id).2.2 s2 < g._nz
    · by_cases hz : s0 = 0 ∧ s1 = 0 ∧ s2 = 0
      · rw [if_pos hc, if_neg (not_not.2 hz)] at hj
        exact absurd hj (List.not_mem_nil _)
      · rw [if_pos hc, if_pos hz] at hj
        exact ⟨hc, hz, List.mem_singleton.1 hj⟩
    · rw [if_neg hc] at hj
      exact absurd hj (List.not_mem_nil _)
  · rintro ⟨s0, h0, s1, h1, s2, h2, hc, hz, hj⟩
    refine ⟨s0, h0, s1, h1, s2, h2, ?_⟩
    rw [if_pos hc, if_pos hz]
    simp [hj]

/-- Membership in `neighbors` of a valid id, with exact integer offsets. -/
theorem CartesianGrid.mem_neighbors_offsets {g : CartesianGrid R} (hf : g.Fits) {id : Nat}
    (hid : id < g.numberOfCells) (j : Nat) :
    j ∈ g.neighbors id ↔
      ∃ a ∈ offsets, ∃ b ∈ offsets, ∃ c ∈ offsets,
        ¬ (a = 0 ∧ b = 0 ∧ c = 0) ∧
        (0 ≤ ((g.splitId id).1 : Int) + a ∧ ((g.splitId id).1 : Int) + a < g._nx) ∧
        (0 ≤ ((g.splitId id).2.1 : Int) + b ∧ ((g.splitId id).2.1 : Int) + b < g._ny) ∧
        (0 ≤ ((g.splitId id).2.2 : Int) + c ∧ ((g.splitId id).2.2 : Int) + c < g._nz) ∧
        j = g.mergeIds (((g.splitId id).1 : Int) + a).toNat
              (((g.splitId id).2.1 : Int) + b).toNat (((g.splitId id).2.2 : Int) + c).toNat := by
  obtain ⟨hx, hy, hz, -⟩ := g.splitId_spec hf hid
  obtain ⟨bx, by', bz, -, -⟩ := hf.bounds hx hy hz
  rw [g.mem_neighbors_loop]
  constructor
  · rintro ⟨a, ha, b, hb, c, hc, ⟨cx, cy, cz⟩, hne, rfl⟩
    have ax := addOff_lt_iff ha hx bx
    have ay := addOff_lt_iff hb hy by'
    have az := addOff_lt_iff hc hz bz
    have rx := ax.1.1 cx
    have ry := ay.1.1 cy
    have rz := az.1.1 cz
    refine ⟨a, ha, b, hb, c, hc, hne, rx, ry, rz, ?_⟩
    rw [ax.2 rx.1 rx.2, ay.2 ry.1 ry.2, az.2 rz.1 rz.2]
  · rintro ⟨a, ha, b, hb, c, hc, hne, rx, ry, rz, rfl⟩
    have ax := addOff_lt_iff ha hx bx
    have ay := addOff_lt_iff hb hy by'
    have az := addOff_lt_iff hc hz bz
    refine ⟨a, ha, b, hb, c, hc, ⟨ax.1.2 rx, ay.1.2 ry, az.1.2 rz⟩, hne, ?_⟩
    rw [ax.2 rx.1 rx.2, ay.2 ry.1 ry.2, az.2 rz.1 rz.2]

/-- Two valid ids are neighbours exactly when they differ and their indices
differ by at most one along every axis. -/
theorem CartesianGrid.mem_neighbors_iff {g : CartesianGrid R} (hf : g.Fits) {id : Nat}
    (hid : id < g.numberOfCells) (j : Nat) :
    j ∈ g.neighbors id ↔
      j < g.numberOfCells ∧ j ≠ id ∧
      ((g.splitId j).1 : Int) - (g.splitId id).1 ∈ offsets ∧
      ((g.splitId j).2.1 : Int) - (g.splitId id).2.1 ∈ offsets ∧
      ((g.splitId j).2.2 : Int) - (g.splitId id).2.2 ∈ offsets := by
  obtain ⟨hx, hy, hz, hm⟩ := g.splitId_spec hf hid
  rw [g.mem_neighbors_offsets hf hid]
  constructor
  · rintro ⟨a, ha, b, hb, c, hc, hne, rx, ry, rz, rfl⟩
    have tx : (((g.splitId id).1 : Int) + a).toNat < g._nx := by omega
    have ty : (((g.splitId id).2.1 : Int) + b).toNat < g._ny := by omega
    have tz : (((g.splitId id).2.2 : Int) + c).toNat < g._nz := by omega
    have hs := g.splitId_mergeIds hf tx ty tz
    refine ⟨g.mergeIds_lt hf tx ty tz, ?_, ?_, ?_, ?_⟩
    · intro he
      rw [he] at hs
      have e1 := congrArg Prod.fst hs
      have e2 := congrArg (fun t => t.2.1) hs
      have e3 := congrArg (fun t => t.2.2) hs
      simp only at e1 e2 e3
      apply hne
      omega
    · rw [hs]
      have : ((((g.splitId id).1 : Int) + a).toNat : Int) - (g.splitId id).1 = a := by omega
      simp only [this, ha]
    · rw [hs]
      have : ((((g.splitId id).2.1 : Int) + b).toNat : Int) - (g.splitId id).2.1 = b := by omega
      simp only [this, hb]
    · rw [hs]
      have : ((((g.splitId id).2.2 : Int) + c).toNat : Int) - (g.splitId id).2.2 = c := by omega
      simp only [this, hc]
  · rintro ⟨hj, hne, ox, oy, oz⟩
    obtain ⟨jx, jy, jz, jm⟩ := g.splitId_spec hf hj
    refine ⟨_, ox, _, oy, _, oz, ?_, by omega, by omega, by omega, ?_⟩
    · rintro ⟨e1, e2, e3⟩
      apply hne
      rw [← jm, ← hm]
      have f1 : (g.splitId j).1 = (g.splitId id).1 := by omega
      have f2 : (g.splitId j).2.1 = (g.splitId id).2.1 := by omega
      have f3 : (g.splitId j).2.2 = (g.splitId id).2.2 := by omega
      rw [f1, f2, f3]
    · have f1 : (((g.splitId id).1 : Int) + (((g.splitId j).1 : Int) - (g.splitId id).1)).toNat
          = (g.splitId j).1 := by omega
      have f2 : (((g.splitId id).2.1 : Int) +
          (((g.splitId j).2.1 : Int) - (g.splitId id).2.1)).toNat = (g.splitId j).2.1 := by omega
      have f3 : (((g.splitId id).2.2 : Int) +
          (((g.splitId j).2.2 : Int) - (g.splitId id).2.2)).toNat = (g.splitId j).2.2 := by omega
      rw [f1, f2, f3, jm]

theorem CartesianGrid.neighbors_lt {g : CartesianGrid R} (hf : g.Fits) {id j : Nat}
    (hid : id < g.numberOfCells) (hj : j ∈ g.neighbors id) : j < g.numberOfCells :=
  ((g.mem_neighbors_iff hf hid j).1 hj).1

theorem offsets_neg {a : Int} (h : a ∈ offsets) : -a ∈ offsets := by
  simp only [offsets, List.mem_cons, List.mem_singleton, List.not_mem_nil, or_false] at h ⊢
  omega

theorem CartesianGrid.neighbors_symm {g : CartesianGrid R} (hf : g.Fits) {id j : Nat}
    (hid : id < g.numberOfCells) (hj : j ∈ g.neighbors id) : id ∈ g.neighbors j := by
  obtain ⟨h1, h2, h3, h4, h5⟩ := (g.mem_neighbors_iff hf hid j).1 hj
  refine (g.mem_neighbors_iff hf h1 id).2 ⟨hid, fun e => h2 e.symm, ?_, ?_, ?_⟩
  · have := offsets_neg h3
    rwa [neg_sub] at this
  · have := offsets_neg h4
    rwa [neg_sub] at this
  · have := offsets_neg h5
    rwa [neg_sub] at this

end NbLemmas

section NbLemmas2
variable {R : Type}

theorem nodup_flatMap_of_key {α β : Type} {l : List α} {f : α → List β} (key : β → α)
    (hl : l.Nodup) (hf : ∀ a ∈ l, (f a).Nodup) (hk : ∀ a ∈ l, ∀ y ∈ f a, key y = a) :
    (l.flatMap f).Nodup := by
  rw [List.nodup_flatMap]
  refine ⟨hf, ?_⟩
  have hp : l.Pairwise (fun a b => a ≠ b) := hl
  refine List.Pairwise.imp_of_mem ?_ hp
  intro a b ha hb hab
  show List.Disjoint (f a) (f b)
  intro y hya hyb
  exact hab ((hk a ha y hya).symm.trans (hk b hb y hyb))

theorem offsets_nodup : offsets.Nodup := by decide

theorem CartesianGrid.neighbors_nodup {g : CartesianGrid R} (hf : g.Fits) {id : Nat}
    (hid : id < g.numberOfCells) : (g.neighbors id).Nodup := by
  obtain ⟨hx, hy, hz, -⟩ := g.splitId_spec hf hid
  obtain ⟨bx, by', bz, -, -⟩ := hf.bounds hx hy hz
  unfold CartesianGrid.neighbors
  simp only [Nat.zero_le, true_and]
  have key : ∀ s0 ∈ offsets, ∀ s1 ∈ offsets, ∀ s2 ∈ offsets, ∀ y,
      y ∈ (if addOff (g.splitId id).1 s0 < g._nx ∧ addOff (g.splitId id).2.1 s1 < g._ny ∧
              addOff (g.splitId id).2.2 s2 < g._nz then
            if ¬ (s0 = 0 ∧ s1 = 0 ∧ s2 = 0) then
              [g.mergeIds (addOff (g.splitId id).1 s0) (addOff (g.splitId id).2.1 s1)
                (addOff (g.splitId id).2.2 s2)]
            else []
          else []) →
      ((g.splitId y).1 : Int) - (g.splitId id).1 = s0 ∧
      ((g.splitId y).2.1 : Int) - (g.splitId id).2.1 = s1 ∧
      ((g.splitId y).2.2 : Int) - (g.splitId id).2.2 = s2 := by
    intro s0 h0 s1 h1 s2 h2 y hy'
    by_cases hc : addOff (g.splitId id).1 s0 < g._nx ∧ addOff (g.splitId id).2.1 s1 < g._ny ∧
        addOff (g.splitId id).2.2 s2 < g._nz
    · by_cases hzero : s0 = 0 ∧ s1 = 0 ∧ s2 = 0
      · rw [if_pos hc, if_neg (not_not.2 hzero)] at hy'
        exact absurd hy' (List.not_mem_nil _)
      · rw [if_pos hc, if_pos hzero] at hy'
        rw [List.mem_singleton.1 hy', g.splitId_mergeIds hf hc.1 hc.2.1 hc.2.2]
        have ax := addOff_lt_iff h0 hx bx
        have ay := addOff_lt_iff h1 hy by'
        have az := addOff_lt_iff h2 hz bz
        have rx := ax.1.1 hc.1
        have ry := ay.1.1 hc.2.1
        have rz := az.1.1 hc.2.2
        simp only [ax.2 rx.1 rx.2, ay.2 ry.1 ry.2, az.2 rz.1 rz.2]
        omega
    · rw [if_neg hc] at hy'
      exact absurd hy' (List.not_mem_nil _)
  refine nodup_flatMap_of_key (fun y => ((g.splitId y).1 : Int) - (g.splitId id).1)
    offsets_nodup ?_ ?_
  · intro s0 h0
    refine nodup_flatMap_of_key (fun y => ((g.splitId y).2.1 : Int) - (g.splitId id).2.1)
      offsets_nodup ?_ ?_
    · intro s1 h1
      refine nodup_flatMap_of_key (fun y => ((g.splitId y).2.2 : Int) - (g.splitId id).2.2)
        offsets_nodup ?_ ?_
      · intro s2 _
        split_ifs <;> simp
      · intro s2 h2 y hy'
        exact (key s0 h0 s1 h1 s2 h2 y hy').2.2
    · intro s1 h1 y hy'
      obtain ⟨s2, h2, hy2⟩ := List.mem_flatMap.1 hy'
      exact (key s0 h0 s1 h1 s2 h2 y hy2).2.1
  · intro s0 h0 y hy'
    obtain ⟨s1, h1, hy1⟩ := List.mem_flatMap.1 hy'
    obtain ⟨s2, h2, hy2⟩ := List.mem_flatMap.1 hy1
    exact (key s0 h0 s1 h1 s2 h2 y hy2).1

theorem CartesianGrid.length_neighbors {g : CartesianGrid R} (hf : g.Fits) {id : Nat}
    (hid : id < g.numberOfCells) :
    (g.neighbors id).length =
      inRangeCount (g.splitId id).1 g._nx * inRangeCount (g.splitId id).2.1 g._ny *
        inRangeCount (g.splitId id).2.2 g._nz - 1 := by
  obtain ⟨hx, hy, hz, -⟩ := g.splitId_spec hf hid
  obtain ⟨bx, by', bz, -, -⟩ := hf.bounds hx hy hz
  have m1 : (-1 : Int) ∈ offsets := by decide
  have z1 : (0 : Int) ∈ offsets := by decide
  have p1 : (1 : Int) ∈ offsets := by decide
  have x0 : addOff (g.splitId id).1 0 < g._nx := by rw [addOff_zero (by omega)]; exact hx
  have y0 : addOff (g.splitId id).2.1 0 < g._ny := by rw [addOff_zero (by omega)]; exact hy
  have z0 : addOff (g.splitId id).2.2 0 < g._nz := by rw [addOff_zero (by omega)]; exact hz
  have ex0 : (0 ≤ ((g.splitId id).1 : Int) + 0 ∧ ((g.splitId id).1 : Int) + 0 < g._nx) := by omega
  have ey0 : (0 ≤ ((g.splitId id).2.1 : Int) + 0 ∧ ((g.splitId id).2.1 : Int) + 0 < g._ny) := by
    omega
  have ez0 : (0 ≤ ((g.splitId id).2.2 : Int) + 0 ∧ ((g.splitId id).2.2 : Int) + 0 < g._nz) := by
    omega
  have xm := (addOff_lt_iff m1 hx bx).1
  have xp := (addOff_lt_iff p1 hx bx).1
  have ym := (addOff_lt_iff m1 hy by').1
  have yp := (addOff_lt_iff p1 hy by').1
  have zm := (addOff_lt_iff m1 hz bz).1
  have zp := (addOff_lt_iff p1 hz bz).1
  unfold CartesianGrid.neighbors inRangeCount
  simp only [offsets, List.flatMap_cons, List.flatMap_nil, List.filter_cons, List.filter_nil,
    Nat.zero_le, true_and, List.append_nil, ← xm, ← xp, ← ym, ← yp, ← zm, ← zp, x0, y0, z0, ex0,
    ey0, ez0, decide_True, if_true, List.length_append]
  by_cases c1 : addOff (g.splitId id).1 (-1) < g._nx <;>
  by_cases c2 : addOff (g.splitId id).1 1 < g._nx <;>
  by_cases c3 : addOff (g.splitId id).2.1 (-1) < g._ny <;>
  by_cases c4 : addOff (g.splitId id).2.1 1 < g._ny <;>
  by_cases c5 : addOff (g.splitId id).2.2 (-1) < g._nz <;>
  by_cases c6 : addOff (g.splitId id).2.2 1 < g._nz <;>
  simp [c1, c2, c3, c4, c5, c6]

end NbLemmas2

section NbLemmas3
variable {R : Type}

theorem length_flatMap_le {α β : Type} (l : List α) (f : α → List β) (b : α → Nat)
    (h : ∀ a ∈ l, (f a).length ≤ b a) : (l.flatMap f).length ≤ (l.map b).sum := by
  induction l with
  | nil => simp
  | cons x xs ih =>
    simp only [List.flatMap_cons, List.length_append, List.map_cons, List.sum_cons]
    have h1 := h x (List.mem_cons_self _ _)
    have h2 := ih (fun a ha => h a (List.mem_cons_of_mem _ ha))
    omega

/-- Whatever the grid and the id, `neighbors` pushes at most 26 ids. -/
theorem CartesianGrid.length_neighbors_le (g : CartesianGrid R) (id : Nat) :
    (g.neighbors id).length ≤ 26 := by
  unfold CartesianGrid.neighbors
  have key : ((offsets.map fun s0 => (offsets.map fun s1 => (offsets.map fun s2 =>
      if s0 = 0 ∧ s1 = 0 ∧ s2 = 0 then 0 else 1).sum).sum).sum) = 26 := by decide
  rw [← key]
  refine length_flatMap_le _ _ _ fun s0 _ => ?_
  refine length_flatMap_le _ _ _ fun s1 _ => ?_
  refine length_flatMap_le _ _ _ fun s2 _ => ?_
  split_ifs <;> simp

theorem CartesianGrid.new2D_splitId_z [Field R] (nx ny : Nat) (dx dy : R) (resx resy : Nat)
    (p0 : Point2D R) {id : Nat}
    (hid : id < (CartesianGrid.new2D nx ny dx dy resx resy p0).numberOfCells) :
    ((CartesianGrid.new2D nx ny dx dy resx resy p0).splitId id).2.2 = 0 := by
  simp only [CartesianGrid.numberOfCells, CartesianGrid.new2D, Nat.mul_one] at hid
  simp only [CartesianGrid.splitId, CartesianGrid.new2D]
  have h1 : wrap (wrap (wrap (resx * nx) * wrap (resy * ny))) =
      wrap (wrap (resx * nx) * wrap (resy * ny)) := by
    unfold wrap; exact Nat.mod_mod _ _
  rw [h1, Nat.mul_comm] at hid
  exact Nat.div_eq_of_lt hid

theorem wrap_lt (n : Nat) : wrap n < SIZE_MOD := Nat.mod_lt _ (by decide)

/-- The neighbour count of a cell of a grid whose `_nz` is `1` and whose
z index is `0`. -/
theorem CartesianGrid.length_neighbors_flat (g : CartesianGrid R) (id : Nat) (hnz : g._nz = 1)
    (hz : (g.splitId id).2.2 = 0) (hnx : g._nx < SIZE_MOD) (hny : g._ny < SIZE_MOD) :
    (g.neighbors id).length ≤ 8 ∧
    (1 ≤ (g.splitId id).1 → (g.splitId id).1 + 1 < g._nx →
      1 ≤ (g.splitId id).2.1 → (g.splitId id).2.1 + 1 < g._ny →
      (g.neighbors id).length = 8) := by
  have zm : ¬ addOff 0 (-1) < 1 := by decide
  have z0 : addOff 0 0 < 1 := by decide
  have zp : ¬ addOff 0 1 < 1 := by decide
  unfold CartesianGrid.neighbors
  simp only [offsets, List.flatMap_cons, List.flatMap_nil, Nat.zero_le, true_and, hz, hnz, zm, z0,
    zp, and_false, and_true, if_false, List.append_nil, List.nil_append, List.length_append]
  constructor
  · by_cases c1 : addOff (g.splitId id).1 (-1) < g._nx <;>
    by_cases c2 : addOff (g.splitId id).1 1 < g._nx <;>
    by_cases c3 : addOff (g.splitId id).2.1 (-1) < g._ny <;>
    by_cases c4 : addOff (g.splitId id).2.1 1 < g._ny <;>
    by_cases c5 : addOff (g.splitId id).1 0 < g._nx <;>
    by_cases c6 : addOff (g.splitId id).2.1 0 < g._ny <;>
    simp [c1, c2, c3, c4, c5, c6]
  · intro a1 a2 a3 a4
    have c1 : addOff (g.splitId id).1 (-1) < g._nx := by
      rw [addOff_neg_one (by omega) (by omega)]; omega
    have c2 : addOff (g.splitId id).1 1 < g._nx := by
      rw [addOff_one (by omega)]; omega
    have c3 : addOff (g.splitId id).2.1 (-1) < g._ny := by
      rw [addOff_neg_one (by omega) (by omega)]; omega
    have c4 : addOff (g.splitId id).2.1 1 < g._ny := by
      rw [addOff_one (by omega)]; omega
    have c5 : addOff (g.splitId id).1 0 < g._nx := by
      rw [addOff_zero (by omega)]; omega
    have c6 : addOff (g.splitId id).2.1 0 < g._ny := by
      rw [addOff_zero (by omega)]; omega
    simp [c1, c2, c3, c4, c5, c6]

end NbLemmas3

section HeapLemmas
variable {R : Type}

theorem Heap.empty_iff (h : Heap R) : h.empty = true ↔ h.nodes = [] := by
  unfold Heap.empty
  exact List.isEmpty_iff

/-- A non-empty list of nodes has a node that no node exceeds. -/
theorem exists_max_node [LinearOrder R] (l : List (Nat × CellElement R)) (hl : l ≠ []) :
    ∃ n ∈ l, ∀ m ∈ l, ¬ n.2.res < m.2.res := by
  induction l with
  | nil => exact absurd rfl hl
  | cons x xs ih =>
    by_cases hx : xs = []
    · subst hx
      refine ⟨x, List.mem_cons_self _ _, ?_⟩
      intro m hm
      rw [List.mem_singleton.1 hm]
      exact lt_irrefl _
    · obtain ⟨n, hn, hmax⟩ := ih hx
      by_cases hc : n.2.res < x.2.res
      · refine ⟨x, List.mem_cons_self _ _, ?_⟩
        intro m hm
        rcases List.mem_cons.1 hm with rfl | hm
        · exact lt_irrefl _
        · intro hlt
          exact hmax m hm (lt_trans hc hlt)
      · refine ⟨n, List.mem_cons_of_mem _ hn, ?_⟩
        intro m hm
        rcases List.mem_cons.1 hm with rfl | hm
        · exact hc
        · exact hmax m hm

theorem Heap.mem_tops [LinearOrder R] (h : Heap R) (n : Nat × CellElement R) :
    n ∈ h.tops ↔ n ∈ h.nodes ∧ ∀ m ∈ h.nodes, m.2.res ≤ n.2.res := by
  unfold Heap.tops
  simp only [List.mem_filter, List.all_eq_true, Bool.not_eq_true', decide_eq_false_iff_not, not_lt]

theorem Heap.tops_ne_nil [LinearOrder R] (h : Heap R) (hne : h.nodes ≠ []) : h.tops ≠ [] := by
  obtain ⟨n, hn, hmax⟩ := exists_max_node h.nodes hne
  have : n ∈ h.tops := (h.mem_tops n).2 ⟨hn, fun m hm => not_lt.1 (hmax m hm)⟩
  exact List.ne_nil_of_mem this

/-- Embeds `top` on a non-empty heap returns a node that no node exceeds. -/
theorem Heap.top_spec [LinearOrder R] (tie : Nat) (h : Heap R) (hne : h.nodes ≠ []) :
    ∃ n, h.top tie = some n ∧ n ∈ h.nodes ∧ ∀ m ∈ h.nodes, m.2.res ≤ n.2.res := by
  have hpos : 0 < h.tops.length := List.length_pos.2 (h.tops_ne_nil hne)
  have hlt : tie % h.tops.length < h.tops.length := Nat.mod_lt _ hpos
  refine ⟨h.tops[tie % h.tops.length], ?_, ?_⟩
  · unfold Heap.top
    exact List.getElem?_eq_getElem hlt
  · exact (h.mem_tops _).1 (List.getElem_mem hlt)

theorem Heap.top_some [LinearOrder R] {tie : Nat} {h : Heap R} {n : Nat × CellElement R}
    (ht : h.top tie = some n) : n ∈ h.nodes ∧ ∀ m ∈ h.nodes, m.2.res ≤ n.2.res := by
  unfold Heap.top at ht
  have := List.getElem?_eq_some_iff.1 ht
  obtain ⟨hlt, he⟩ := this
  rw [← he]
  exact (h.mem_tops _).1 (List.getElem_mem hlt)

theorem Heap.pop_nodes [LinearOrder R] {tie : Nat} {h : Heap R} {n : Nat × CellElement R}
    (ht : h.top tie = some n) :
    (h.pop tie).nodes = h.nodes.filter (fun m => ! decide (m.1 = n.1)) ∧
    (h.pop tie).next = h.next := by
  unfold Heap.pop
  rw [ht]
  exact ⟨rfl, rfl⟩

/-- With pairwise distinct handles, a handle designates the node that carries it. -/
theorem find_handle {l : List (Nat × CellElement R)} (hnd : (l.map Prod.fst).Nodup)
    {k : Nat} {e : CellElement R} (hm : (k, e) ∈ l) :
    l.find? (fun m => decide (m.1 = k)) = some (k, e) := by
  induction l with
  | nil => exact absurd hm (List.not_mem_nil _)
  | cons x xs ih =>
    rw [List.map_cons, List.nodup_cons] at hnd
    rcases List.mem_cons.1 hm with rfl | hm'
    · simp
    · have hx : x.1 ≠ k := by
        intro hx
        apply hnd.1
        rw [hx]
        exact List.mem_map.2 ⟨(k, e), hm', rfl⟩
      rw [List.find?_cons_of_neg _ (by simpa using hx)]
      exact ih hnd.2 hm'

theorem eq_of_handle_eq {l : List (Nat × CellElement R)} (hnd : (l.map Prod.fst).Nodup)
    {a b : Nat × CellElement R} (ha : a ∈ l) (hb : b ∈ l) (h : a.1 = b.1) : a = b :=
  List.inj_on_of_nodup_map hnd ha hb h

theorem Heap.deref_of_mem {h : Heap R} (hnd : (h.nodes.map Prod.fst).Nodup)
    {k : Nat} {e : CellElement R} (hm : (k, e) ∈ h.nodes) : h.deref (some k) = some e := by
  unfold Heap.deref
  simp only [find_handle hnd hm, Option.map_some']

theorem Heap.increase_fst (h : Heap R) (k : Nat) (e : CellElement R) :
    (h.increase (some k) e).nodes.map Prod.fst = h.nodes.map Prod.fst := by
  unfold Heap.increase
  simp only [List.map_map]
  apply List.map_congr_left
  intro m _
  simp only [Function.comp]
  split_ifs with hk
  · exact hk.symm
  · rfl

theorem Heap.mem_increase {h : Heap R} {k : Nat} {e : CellElement R}
    {n : Nat × CellElement R} :
    n ∈ (h.increase (some k) e).nodes ↔
      (n = (k, e) ∧ ∃ m ∈ h.nodes, m.1 = k) ∨ (n ∈ h.nodes ∧ n.1 ≠ k) := by
  unfold Heap.increase
  simp only [List.mem_map]
  constructor
  · rintro ⟨m, hm, rfl⟩
    split_ifs with hk
    · exact Or.inl ⟨rfl, m, hm, hk⟩
    · exact Or.inr ⟨hm, hk⟩
  · rintro (⟨rfl, m, hm, hk⟩ | ⟨hn, hk⟩)
    · exact ⟨m, hm, by rw [if_pos hk]⟩
    · exact ⟨n, hn, by rw [if_neg hk]⟩

end HeapLemmas

section StructLemmas
variable {R : Type} [LinearOrderedField R]

/-- The four outcomes of `relax`. -/
theorem LazyMole.relax_cases (sqrt : R → R) (c : Nat) (r : R) (m : LazyMole R) (n : Nat)
    (hs : m.Struct) :
    (m.status n = Label.SCANNED ∧ m.relax sqrt c r n = some m) ∨
    (m.status n = Label.UNVISITED ∧
      m.relax sqrt c r n =
        some (m.visit c n (r + computeResistance sqrt m.gridPtr m.field c n))) ∨
    (m.status n = Label.VISITED ∧ ∃ k e, m.cellElementHandles n = some k ∧
      (k, e) ∈ m.heap.nodes ∧ e.cell = n ∧
      ((¬ r + computeResistance sqrt m.gridPtr m.field c n < -e.res ∧
          m.relax sqrt c r n = some m) ∨
       (r + computeResistance sqrt m.gridPtr m.field c n < -e.res ∧
          m.relax sqrt c r n =
            some (m.improve c n (r + computeResistance sqrt m.gridPtr m.field c n))))) := by
  cases hst : m.status n with
  | SCANNED =>
    left
    refine ⟨rfl, ?_⟩
    unfold LazyMole.relax
    simp [hst]
  | UNVISITED =>
    right; left
    refine ⟨rfl, ?_⟩
    unfold LazyMole.relax LazyMole.visit Heap.push
    simp [hst]
  | VISITED =>
    right; right
    refine ⟨rfl, ?_⟩
    obtain ⟨k, e, hk, hm, hc⟩ := hs.visited n hst
    refine ⟨k, e, hk, hm, hc, ?_⟩
    have hd : m.heap.deref (m.cellElementHandles n) = some e := by
      rw [hk]; exact Heap.deref_of_mem hs.nodup hm
    by_cases hlt : r + computeResistance sqrt m.gridPtr m.field c n < -e.res
    · right
      refine ⟨hlt, ?_⟩
      unfold LazyMole.relax LazyMole.improve
      simp [hst, hd, hlt]
    · left
      refine ⟨hlt, ?_⟩
      unfold LazyMole.relax
      simp [hst, hd, hlt]

theorem LazyMole.Struct.struct_visit {m : LazyMole R} (hs : m.Struct) (c n : Nat) (x : R)
    (hn : m.status n = Label.UNVISITED) : (m.visit c n x).Struct := by
  constructor
  · show ((m.heap.nodes ++ [(m.heap.next, (⟨-x, n⟩ : CellElement R))]).map Prod.fst).Nodup
    rw [List.map_append, List.map_singleton]
    refine List.Nodup.append hs.nodup (List.nodup_singleton _) ?_
    intro k hk1 hk2
    rw [List.mem_singleton] at hk2
    obtain ⟨a, ha, rfl⟩ := List.mem_map.1 hk1
    have := hs.fresh a ha
    omega
  · intro a ha
    show a.1 < m.heap.next + 1
    have ha' : a ∈ m.heap.nodes ++ [(m.heap.next, (⟨-x, n⟩ : CellElement R))] := ha
    rcases List.mem_append.1 ha' with h | h
    · have := hs.fresh a h; omega
    · rw [List.mem_singleton.1 h]; exact Nat.lt_succ_self _
  · intro c' hc'
    have hc'' : Function.update m.status n Label.VISITED c' = Label.VISITED := hc'
    show ∃ k e, Function.update m.cellElementHandles n (some m.heap.next) c' = some k ∧
      (k, e) ∈ m.heap.nodes ++ [(m.heap.next, (⟨-x, n⟩ : CellElement R))] ∧ e.cell = c'
    by_cases h : c' = n
    · subst h
      refine ⟨m.heap.next, ⟨-x, c'⟩, by simp, by simp, rfl⟩
    · rw [Function.update_noteq h] at hc'' ⊢
      obtain ⟨k, e, h1, h2, h3⟩ := hs.visited c' hc''
      exact ⟨k, e, h1, List.mem_append_left _ h2, h3⟩
  · intro c' hc'
    have hc'' : Function.update m.status n Label.VISITED c' = Label.UNVISITED := hc'
    show Function.update m.previous n c c' = EMPTY ∧ m.smallestRes c' = INF
    by_cases h : c' = n
    · subst h
      simp at hc''
    · rw [Function.update_noteq h] at hc'' ⊢
      exact hs.unvisited c' hc''
  · intro a ha
    have ha' : a ∈ m.heap.nodes ++ [(m.heap.next, (⟨-x, n⟩ : CellElement R))] := ha
    show Function.update m.status n Label.VISITED a.2.cell ≠ Label.UNVISITED
    by_cases h : a.2.cell = n
    · rw [h]; simp
    · rw [Function.update_noteq h]
      rcases List.mem_append.1 ha' with h' | h'
      · exact hs.live a h'
      · rw [List.mem_singleton.1 h'] at h
        exact absurd rfl h

theorem LazyMole.Struct.struct_improve {m : LazyMole R} (hs : m.Struct) (c n : Nat) (x : R)
    {k : Nat} {e : CellElement R} (hk : m.cellElementHandles n = some k)
    (hm : (k, e) ∈ m.heap.nodes) (hc : e.cell = n) : (m.improve c n x).Struct := by
  have hheap : (m.improve c n x).heap = m.heap.increase (some k) ⟨-x, n⟩ := by
    unfold LazyMole.improve; rw [hk]
  constructor
  · rw [hheap, Heap.increase_fst]; exact hs.nodup
  · intro a ha
    rw [hheap] at ha
    have hnext : (m.improve c n x).heap.next = m.heap.next := by
      rw [hheap]; rfl
    rw [hnext]
    rcases Heap.mem_increase.1 ha with ⟨rfl, b, hb, hbk⟩ | ⟨ha', _⟩
    · have := hs.fresh b hb
      simp only
      omega
    · exact hs.fresh a ha'
  · intro c' hc'
    have hc'' : m.status c' = Label.VISITED := hc'
    obtain ⟨k', e', h1, h2, h3⟩ := hs.visited c' hc''
    rw [hheap]
    show ∃ k e, m.cellElementHandles c' = some k ∧ _
    by_cases hkk : k' = k
    · subst hkk
      have := eq_of_handle_eq hs.nodup hm h2 rfl
      have he : e = e' := by simpa using this
      subst he
      refine ⟨k', ⟨-x, n⟩, h1, Heap.mem_increase.2 (Or.inl ⟨rfl, _, hm, rfl⟩), ?_⟩
      simp only
      rw [← hc, h3]
    · exact ⟨k', e', h1, Heap.mem_increase.2 (Or.inr ⟨h2, hkk⟩), h3⟩
  · intro c' hc'
    have hc'' : m.status c' = Label.UNVISITED := hc'
    show Function.update m.previous n c c' = EMPTY ∧ m.smallestRes c' = INF
    have hne : c' ≠ n := by
      intro h
      rw [h, ← hc] at hc''
      exact hs.live _ hm hc''
    rw [Function.update_noteq hne]
    exact hs.unvisited c' hc''
  · intro a ha
    rw [hheap] at ha
    show m.status a.2.cell ≠ Label.UNVISITED
    rcases Heap.mem_increase.1 ha with ⟨rfl, _⟩ | ⟨ha', _⟩
    · simp only
      rw [← hc]
      exact hs.live _ hm
    · exact hs.live a ha'

theorem LazyMole.Struct.struct_settle {tie : Nat} {m : LazyMole R} (hs : m.Struct)
    {n : Nat × CellElement R} (ht : m.heap.top tie = some n) : (m.settle tie n).Struct := by
  obtain ⟨hnodes, hnext⟩ := Heap.pop_nodes ht
  obtain ⟨hn, -⟩ := Heap.top_some ht
  have hsub : ∀ a, a ∈ (m.heap.pop tie).nodes → a ∈ m.heap.nodes ∧ a.1 ≠ n.1 := by
    intro a ha
    rw [hnodes, List.mem_filter] at ha
    exact ⟨ha.1, by simpa using ha.2⟩
  constructor
  · show ((m.heap.pop tie).nodes.map Prod.fst).Nodup
    rw [hnodes]
    exact hs.nodup.sublist (List.Sublist.map _ (List.filter_sublist _))
  · intro a ha
    show a.1 < (m.heap.pop tie).next
    rw [hnext]
    exact hs.fresh a (hsub a ha).1
  · intro c hc
    have hc' : Function.update m.status n.2.cell Label.SCANNED c = Label.VISITED := hc
    have hne : c ≠ n.2.cell := by
      intro h; rw [h] at hc'; simp at hc'
    rw [Function.update_noteq hne] at hc'
    obtain ⟨k, e, h1, h2, h3⟩ := hs.visited c hc'
    refine ⟨k, e, h1, ?_, h3⟩
    show (k, e) ∈ (m.heap.pop tie).nodes
    rw [hnodes, List.mem_filter]
    refine ⟨h2, ?_⟩
    have : k ≠ n.1 := by
      intro hk
      have := eq_of_handle_eq hs.nodup h2 hn hk
      rw [← this] at hne
      exact hne h3.symm
    simpa using this
  · intro c hc
    have hc' : Function.update m.status n.2.cell Label.SCANNED c = Label.UNVISITED := hc
    have hne : c ≠ n.2.cell := by
      intro h; rw [h] at hc'; simp at hc'
    rw [Function.update_noteq hne] at hc'
    show m.previous c = EMPTY ∧ Function.update m.smallestRes n.2.cell (-n.2.res) c = INF
    rw [Function.update_noteq hne]
    exact hs.unvisited c hc'
  · intro a ha
    show Function.update m.status n.2.cell Label.SCANNED a.2.cell ≠ Label.UNVISITED
    by_cases h : a.2.cell = n.2.cell
    · rw [h]; simp
    · rw [Function.update_noteq h]
      exact hs.live a (hsub a ha).1

end StructLemmas

section RouteLemmas
variable {R : Type}

theorem isRoute_single {nb : Nat → List Nat} {srcs : List Nat} {s : Nat} (hs : s ∈ srcs) :
    IsRoute nb srcs s [s] :=
  ⟨rfl, ⟨s, hs, rfl⟩, List.chain'_singleton _⟩

theorem isRoute_cons {nb : Nat → List Nat} {srcs : List Nat} {c p : Nat} {l : List Nat}
    (hl : IsRoute nb srcs p l) (hc : c ∈ nb p) : IsRoute nb srcs c (c :: l) := by
  obtain ⟨h1, ⟨s, hs, h2⟩, h3⟩ := hl
  cases l with
  | nil => simp at h1
  | cons x xs =>
    simp only [List.head?_cons, Option.some.injEq] at h1
    subst h1
    refine ⟨rfl, ⟨s, hs, ?_⟩, List.Chain'.cons hc h3⟩
    rw [List.getLast?_cons_cons]
    exact h2

theorem isRoute_cases {nb : Nat → List Nat} {srcs : List Nat} {x : Nat} {l : List Nat}
    (hl : IsRoute nb srcs x l) :
    (l = [x] ∧ x ∈ srcs) ∨
    ∃ p rest, l = x :: p :: rest ∧ x ∈ nb p ∧ IsRoute nb srcs p (p :: rest) := by
  obtain ⟨h1, ⟨s, hs, h2⟩, h3⟩ := hl
  cases l with
  | nil => simp at h1
  | cons y ys =>
    simp only [List.head?_cons, Option.some.injEq] at h1
    subst h1
    cases ys with
    | nil =>
      left
      simp only [List.getLast?_singleton, Option.some.injEq] at h2
      subst h2
      exact ⟨rfl, hs⟩
    | cons p rest =>
      right
      rw [List.getLast?_cons_cons] at h2
      rw [List.chain'_cons] at h3
      exact ⟨p, rest, rfl, h3.1, rfl, ⟨s, hs, h2⟩, h3.2⟩

theorem walkCost_single [Zero R] [Add R] (w : Nat → Nat → R) (x : Nat) : walkCost w [x] = 0 := rfl

theorem walkCost_cons [Zero R] [Add R] (w : Nat → Nat → R) (x p : Nat) (rest : List Nat) :
    walkCost w (x :: p :: rest) = w p x + walkCost w (p :: rest) := rfl

/-- Every cell of a route is a cell of the grid, and its cost is not negative,
when neighbours of cells are cells and weights between cells are not negative. -/
theorem route_bound [OrderedAddCommMonoid R] {nb : Nat → List Nat} {w : Nat → Nat → R} {N : Nat}
    {srcs : List Nat} (hcl : ∀ a < N, ∀ b ∈ nb a, b < N)
    (hw : ∀ a < N, ∀ b < N, 0 ≤ w a b) (hs : ∀ s ∈ srcs, s < N) :
    ∀ (l : List Nat) (x : Nat), IsRoute nb srcs x l → x < N ∧ 0 ≤ walkCost w l := by
  intro l
  induction l with
  | nil =>
    intro x hl
    have := hl.1
    simp at this
  | cons y ys ih =>
    intro x hl
    rcases isRoute_cases hl with ⟨h1, h2⟩ | ⟨p, rest, h1, h2, h3⟩
    · rw [h1]
      exact ⟨hs x h2, le_refl _⟩
    · have e : ys = p :: rest := by
        have := congrArg List.tail h1
        simpa using this
      rw [h1, walkCost_cons]
      rw [e] at ih
      obtain ⟨hp, hc⟩ := ih p h3
      have hx := hcl p hp x h2
      exact ⟨hx, add_nonneg (hw p hp x hx) hc⟩

theorem routeCosts_nil [Zero R] [Add R] (nb : Nat → List Nat) (w : Nat → Nat → R) (c : Nat) :
    routeCosts nb w [] c = ∅ := by
  ext r
  simp only [routeCosts, IsRoute, Set.mem_setOf_eq, Set.mem_empty_iff_false, iff_false]
  rintro ⟨l, ⟨-, ⟨s, hs, -⟩, -⟩, -⟩
  exact absurd hs (List.not_mem_nil _)

end RouteLemmas

section WalkLemmas
variable {R : Type}

theorem LazyMole.walk_congr {m m' : LazyMole R} :
    ∀ (k c : Nat) (l : List Nat), m.walk k c = some l →
      (∀ x ∈ l, m'.previous x = m.previous x) → m'.walk k c = some l := by
  intro k
  induction k with
  | zero => intro c l h; simp [LazyMole.walk] at h
  | succ k ih =>
    intro c l h hp
    unfold LazyMole.walk at h ⊢
    simp only at h ⊢
    by_cases he : m.previous c ≠ EMPTY
    · rw [if_pos he] at h
      obtain ⟨l', hl', rfl⟩ := Option.map_eq_some'.1 h
      have hc := hp c (List.mem_cons_self _ _)
      rw [hc, if_pos he, ih _ _ hl' (fun x hx => hp x (List.mem_cons_of_mem _ hx))]
      rfl
    · rw [if_neg he] at h
      have hl : l = [c] := by
        simpa using h.symm
      subst hl
      have hc := hp c (List.mem_cons_self _ _)
      rw [hc, if_neg he]

theorem LazyMole.walk_mono {m : LazyMole R} :
    ∀ (k c : Nat) (l : List Nat), m.walk k c = some l → ∀ k', k ≤ k' →
      m.walk k' c = some l := by
  intro k
  induction k with
  | zero => intro c l h; simp [LazyMole.walk] at h
  | succ k ih =>
    intro c l h k' hk
    obtain ⟨j, rfl⟩ : ∃ j, k' = j + 1 := ⟨k' - 1, by omega⟩
    unfold LazyMole.walk at h ⊢
    simp only at h ⊢
    by_cases he : m.previous c ≠ EMPTY
    · rw [if_pos he] at h ⊢
      obtain ⟨l', hl', rfl⟩ := Option.map_eq_some'.1 h
      rw [ih _ _ hl' j (by omega)]
      rfl
    · rw [if_neg he] at h ⊢
      exact h

/-- The loop of `path` marks with `1` the cells of the predecessor walk. -/
theorem LazyMole.pathLoop_eq_walk (m : LazyMole R) :
    ∀ (k c : Nat) (pf : Nat → Nat),
      m.pathLoop k c pf =
        (m.walk k c).map fun l => l.foldl (fun q x => Function.update q x 1) pf := by
  intro k
  induction k with
  | zero => intro c pf; rfl
  | succ k ih =>
    intro c pf
    unfold LazyMole.pathLoop LazyMole.walk
    simp only
    by_cases he : m.previous c ≠ EMPTY
    · rw [if_pos he, if_pos he, ih]
      cases m.walk k (m.previous c) <;> rfl
    · rw [if_neg he, if_neg he]
      rfl

/-- The loop of `exportPath` writes the centres of the cells of the
predecessor walk, in walk order. -/
theorem LazyMole.exportLoop_eq_walk [Field R] (m : LazyMole R) :
    ∀ (k c : Nat) (out : List (Point3D R)),
      m.exportLoop k c out =
        (m.walk k c).map fun l => out ++ l.map m.gridPtr.centerOfCell := by
  intro k
  induction k with
  | zero => intro c out; rfl
  | succ k ih =>
    intro c out
    unfold LazyMole.exportLoop LazyMole.walk
    simp only
    by_cases he : m.previous c ≠ EMPTY
    · rw [if_pos he, if_pos he, ih]
      cases m.walk k (m.previous c) <;> simp
    · rw [if_neg he, if_neg he]
      simp

theorem LazyMole.walk_chain (m : LazyMole R) :
    ∀ (k c : Nat) (l : List Nat), m.walk k c = some l →
      l.head? = some c ∧ l.Chain' (fun x y => y = m.previous x) := by
  intro k
  induction k with
  | zero => intro c l h; simp [LazyMole.walk] at h
  | succ k ih =>
    intro c l h
    unfold LazyMole.walk at h
    simp only at h
    by_cases he : m.previous c ≠ EMPTY
    · rw [if_pos he] at h
      obtain ⟨l', hl', rfl⟩ := Option.map_eq_some'.1 h
      obtain ⟨h1, h2⟩ := ih _ _ hl'
      refine ⟨rfl, ?_⟩
      cases l' with
      | nil => exact List.chain'_singleton _
      | cons y ys =>
        simp only [List.head?_cons, Option.some.injEq] at h1
        exact List.Chain'.cons h1 h2
    · rw [if_neg he] at h
      have hl : l = [c] := by simpa using h.symm
      subst hl
      exact ⟨rfl, List.chain'_singleton _⟩

end WalkLemmas

section DijkLemmas
variable {R : Type} [LinearOrderedField R]
variable {sqrt : R → R} {g : CartesianGrid R} {f : Nat → R} {srcs : List Nat}

theorem Setting.ne_empty (hS : Setting sqrt g f srcs) {c : Nat} (hc : c < g.numberOfCells) :
    c ≠ EMPTY := by
  have := hS.lt_empty
  omega

/-- Shrinking the pending list, once the edges dropped from it are relaxed. -/
theorem LazyMole.Dijk.shrink {m : LazyMole R} {cur : Nat} {pend pend' : List Nat}
    (hd : m.Dijk sqrt g f srcs cur pend)
    (h : ∀ b ∈ g.neighbors cur, m.status cur = Label.SCANNED → b ∈ pend → b ∉ pend' →
      m.status b = Label.SCANNED ∨
      ∃ k e, m.cellElementHandles b = some k ∧ (k, e) ∈ m.heap.nodes ∧ e.cell = b ∧
        -e.res ≤ m.smallestRes cur + computeResistance sqrt g f cur b) :
    m.Dijk sqrt g f srcs cur pend' := by
  refine { hd with front := ?_ }
  intro a ha b hb hp
  by_cases hcase : a = cur → b ∉ pend
  · exact hd.front a ha b hb hcase
  · push_neg at hcase
    obtain ⟨rfl, hbp⟩ := hcase
    exact h b hb ha hbp (hp rfl)

theorem LazyMole.Dijk.dijk_visit {m : LazyMole R} {c n : Nat} {ns : List Nat}
    (hS : Setting sqrt g f srcs) (hs : m.Struct)
    (hd : m.Dijk sqrt g f srcs c (n :: ns)) (hc : m.status c = Label.SCANNED)
    (hn : n ∈ g.neighbors c) (hun : m.status n = Label.UNVISITED) :
    (m.visit c n (m.smallestRes c + computeResistance sqrt g f c n)).Dijk sqrt g f srcs c ns := by
  have hcn : c ≠ n := by
    intro h; rw [h, hun] at hc; exact Label.noConfusion hc
  have hnsrc : n ∉ srcs := fun h => (hd.src n h).1 hun
  have hst : ∀ x, x ≠ n → (m.visit c n (m.smallestRes c + computeResistance sqrt g f c n)).status x
      = m.status x := fun x hx => Function.update_noteq hx _ _
  have hstn : (m.visit c n (m.smallestRes c + computeResistance sqrt g f c n)).status n
      = Label.VISITED := Function.update_same _ _ _
  have hpr : ∀ x, x ≠ n → (m.visit c n (m.smallestRes c + computeResistance sqrt g f c n)).previous x
      = m.previous x := fun x hx => Function.update_noteq hx _ _
  have hprn : (m.visit c n (m.smallestRes c + computeResistance sqrt g f c n)).previous n = c :=
    Function.update_same _ _ _
  have hhd : ∀ x, x ≠ n →
      (m.visit c n (m.smallestRes c + computeResistance sqrt g f c n)).cellElementHandles x
      = m.cellElementHandles x := fun x hx => Function.update_noteq hx _ _
  have hhdn : (m.visit c n (m.smallestRes c + computeResistance sqrt g f c n)).cellElementHandles n
      = some m.heap.next := Function.update_same _ _ _
  have hres : (m.visit c n (m.smallestRes c + computeResistance sqrt g f c n)).smallestRes
      = m.smallestRes := rfl
  have hnodes : ∀ a, a ∈ (m.visit c n (m.smallestRes c + computeResistance sqrt g f c n)).heap.nodes ↔
      a ∈ m.heap.nodes ∨
        a = (m.heap.next, ⟨-(m.smallestRes c + computeResistance sqrt g f c n), n⟩) := by
    intro a
    show a ∈ m.heap.nodes ++ [_] ↔ _
    rw [List.mem_append, List.mem_singleton]
  have hscan : ∀ x, m.status x = Label.SCANNED → x ≠ n := by
    intro x hx h; rw [h, hun] at hx; exact Label.noConfusion hx
  have hscan' : ∀ x, (m.visit c n (m.smallestRes c + computeResistance sqrt g f c n)).status x
      = Label.SCANNED → m.status x = Label.SCANNED := by
    intro x hx
    by_cases h : x = n
    · rw [h, hstn] at hx; exact Label.noConfusion hx
    · rwa [hst x h] at hx
  have hlive : ∀ a ∈ m.heap.nodes, a.2.cell ≠ n := by
    intro a ha h
    exact hs.live a ha (h ▸ hun)
  constructor
  · exact hd.hg
  · exact hd.hfld
  · intro x hx
    by_cases h : x = n
    · rw [h]; exact hS.closed c (hd.range c (by rw [hc]; exact Label.noConfusion)) n hn
    · rw [hst x h] at hx; exact hd.range x hx
  · intro s hsrc
    have hsn : s ≠ n := fun h => hnsrc (h ▸ hsrc)
    rw [hst s hsn, hpr s hsn, hres]
    exact hd.src s hsrc
  · intro a ha hasrc
    rcases (hnodes a).1 ha with h | h
    · exact hd.srcNode a h hasrc
    · rw [h] at hasrc; exact absurd hasrc hnsrc
  · intro a ha hasrc
    rcases (hnodes a).1 ha with h | h
    · have := hlive a h
      rw [hhd _ this, hst _ this]
      exact hd.owner a h hasrc
    · rw [h]
      exact ⟨hhdn, hstn⟩
  · intro a ha hasrc
    rcases (hnodes a).1 ha with h | h
    · have hne := hlive a h
      obtain ⟨h1, h2, h3⟩ := hd.nodePrev a h hasrc
      rw [hpr _ hne, hres, hst _ (hscan _ h1)]
      exact ⟨h1, h2, h3⟩
    · rw [h]
      simp only
      rw [hprn, hres, hst _ hcn, neg_neg]
      exact ⟨hc, hn, rfl⟩
  · intro x hx hxsrc
    have hx' := hscan' x hx
    have hne := hscan x hx'
    obtain ⟨h1, h2, h3⟩ := hd.scannedPrev x hx' hxsrc
    rw [hpr _ hne, hres, hst _ (hscan _ h1)]
    exact ⟨h1, h2, h3⟩
  · intro x hx
    rw [hres]; exact hd.nonneg x (hscan' x hx)
  · intro x hx l hl
    rw [hres]; exact hd.lower x (hscan' x hx) l hl
  · intro a ha b hb hp
    have ha' := hscan' a ha
    rw [hres]
    by_cases hcase : a = c ∧ b = n
    · obtain ⟨rfl, rfl⟩ := hcase
      right
      exact ⟨m.heap.next, _, hhdn, (hnodes _).2 (Or.inr rfl), rfl, by simp⟩
    · have hp' : a = c → b ∉ n :: ns := by
        intro hac hbn
        rcases List.mem_cons.1 hbn with h | h
        · exact hcase ⟨hac, h⟩
        · exact hp hac h
      rcases hd.front a ha' b hb hp' with h | ⟨k, e, h1, h2, h3, h4⟩
      · left; rw [hst _ (hscan _ h)]; exact h
      · right
        have hbn : b ≠ n := by
          intro h; exact hlive _ h2 (h3.trans h)
        exact ⟨k, e, (hhd _ hbn).trans h1, (hnodes _).2 (Or.inl h2), h3, h4⟩
  · intro x hx
    have hx' := hscan' x hx
    obtain ⟨l, h1, h2, h3, h4, h5⟩ := hd.chain x hx'
    refine ⟨l, ?_, h2, ?_, h4, by rw [hres]; exact h5⟩
    · exact LazyMole.walk_congr _ _ _ h1 (fun y hy => hpr y (hscan y (h3 y hy)))
    · intro y hy
      rw [hst _ (hscan y (h3 y hy))]
      exact h3 y hy

end DijkLemmas

section DijkLemmas2
variable {R : Type} [LinearOrderedField R]
variable {sqrt : R → R} {g : CartesianGrid R} {f : Nat → R} {srcs : List Nat}

theorem LazyMole.Dijk.dijk_improve {m : LazyMole R} {c n : Nat} {ns : List Nat}
    (hS : Setting sqrt g f srcs) (hs : m.Struct)
    (hd : m.Dijk sqrt g f srcs c (n :: ns)) (hc : m.status c = Label.SCANNED)
    (hn : n ∈ g.neighbors c) (hvis : m.status n = Label.VISITED)
    {k : Nat} {e : CellElement R} (hk : m.cellElementHandles n = some k)
    (hm : (k, e) ∈ m.heap.nodes) (hcell : e.cell = n)
    (hlt : m.smallestRes c + computeResistance sqrt g f c n < -e.res) :
    (m.improve c n (m.smallestRes c + computeResistance sqrt g f c n)).Dijk
      sqrt g f srcs c ns := by
  have hcN : c < g.numberOfCells := hd.range c (by rw [hc]; exact Label.noConfusion)
  have hnN : n < g.numberOfCells := hd.range n (by rw [hvis]; exact Label.noConfusion)
  have hx0 : 0 ≤ m.smallestRes c + computeResistance sqrt g f c n :=
    add_nonneg (hd.nonneg c hc) (hS.nonneg c hcN n hnN)
  have hnsrc : n ∉ srcs := by
    intro h
    have h0 := hd.srcNode (k, e) hm (by rw [hcell]; exact h)
    simp only at h0
    rw [h0, neg_zero] at hlt
    exact absurd hlt (not_lt.2 hx0)
  have hcn : c ≠ n := by
    intro h; rw [h, hvis] at hc; exact Label.noConfusion hc
  have hst : (m.improve c n (m.smallestRes c + computeResistance sqrt g f c n)).status
      = m.status := rfl
  have hpr : ∀ x, x ≠ n →
      (m.improve c n (m.smallestRes c + computeResistance sqrt g f c n)).previous x
      = m.previous x := fun x hx => Function.update_noteq hx _ _
  have hprn : (m.improve c n (m.smallestRes c + computeResistance sqrt g f c n)).previous n = c :=
    Function.update_same _ _ _
  have hhd : (m.improve c n (m.smallestRes c + computeResistance sqrt g f c n)).cellElementHandles
      = m.cellElementHandles := rfl
  have hres : (m.improve c n (m.smallestRes c + computeResistance sqrt g f c n)).smallestRes
      = m.smallestRes := rfl
  have hheap : (m.improve c n (m.smallestRes c + computeResistance sqrt g f c n)).heap =
      m.heap.increase (some k) ⟨-(m.smallestRes c + computeResistance sqrt g f c n), n⟩ := by
    unfold LazyMole.improve; rw [hk]
  have hnodes : ∀ a,
      a ∈ (m.improve c n (m.smallestRes c + computeResistance sqrt g f c n)).heap.nodes ↔
      a = (k, ⟨-(m.smallestRes c + computeResistance sqrt g f c n), n⟩) ∨
        (a ∈ m.heap.nodes ∧ a.1 ≠ k) := by
    intro a
    rw [hheap, Heap.mem_increase]
    constructor
    · rintro (⟨h, -⟩ | h)
      · exact Or.inl h
      · exact Or.inr h
    · rintro (h | h)
      · exact Or.inl ⟨h, (k, e), hm, rfl⟩
      · exact Or.inr h
  have hscan : ∀ x, m.status x = Label.SCANNED → x ≠ n := by
    intro x hx h; rw [h, hvis] at hx; exact Label.noConfusion hx
  have hother : ∀ a ∈ m.heap.nodes, a.1 ≠ k → a.2.cell ∉ srcs → a.2.cell ≠ n := by
    intro a ha hak hasrc h
    have := (hd.owner a ha hasrc).1
    rw [h, hk] at this
    exact hak (Option.some.inj this).symm
  constructor
  · exact hd.hg
  · exact hd.hfld
  · intro x hx
    exact hd.range x hx
  · intro s hsrc
    have hsn : s ≠ n := fun h => hnsrc (h ▸ hsrc)
    rw [hst, hpr s hsn, hres]
    exact hd.src s hsrc
  · intro a ha hasrc
    rcases (hnodes a).1 ha with h | h
    · rw [h] at hasrc; exact absurd hasrc hnsrc
    · exact hd.srcNode a h.1 hasrc
  · intro a ha hasrc
    rw [hhd, hst]
    rcases (hnodes a).1 ha with h | h
    · rw [h]; exact ⟨hk, hvis⟩
    · exact hd.owner a h.1 hasrc
  · intro a ha hasrc
    rcases (hnodes a).1 ha with h | h
    · rw [h]
      simp only
      rw [hprn, hres, hst, neg_neg]
      exact ⟨hc, hn, rfl⟩
    · have hne := hother a h.1 h.2 hasrc
      rw [hpr _ hne, hres, hst]
      exact hd.nodePrev a h.1 hasrc
  · intro x hx hxsrc
    rw [hst] at hx
    rw [hpr _ (hscan x hx), hres, hst]
    exact hd.scannedPrev x hx hxsrc
  · intro x hx
    rw [hres]; exact hd.nonneg x hx
  · intro x hx l hl
    rw [hres]; exact hd.lower x hx l hl
  · intro a ha b hb hp
    rw [hst] at ha ⊢
    rw [hres, hhd]
    by_cases hcase : a = c ∧ b = n
    · obtain ⟨rfl, rfl⟩ := hcase
      right
      exact ⟨k, _, hk, (hnodes _).2 (Or.inl rfl), rfl, by simp⟩
    · have hp' : a = c → b ∉ n :: ns := by
        intro hac hbn
        rcases List.mem_cons.1 hbn with h | h
        · exact hcase ⟨hac, h⟩
        · exact hp hac h
      rcases hd.front a ha b hb hp' with h | ⟨k', e', h1, h2, h3, h4⟩
      · left; exact h
      · right
        by_cases hkk : k' = k
        · subst hkk
          have := eq_of_handle_eq hs.nodup hm h2 rfl
          have he : e = e' := by simpa using this
          subst he
          have hbn : b = n := h3.symm.trans hcell
          refine ⟨k', _, h1, (hnodes _).2 (Or.inl rfl), hbn.symm, ?_⟩
          simp only [neg_neg]
          have h5 : m.smallestRes c + computeResistance sqrt g f c n ≤ -e.res := le_of_lt hlt
          exact le_trans h5 h4
        · exact ⟨k', e', h1, (hnodes _).2 (Or.inr ⟨h2, hkk⟩), h3, h4⟩
  · intro x hx
    rw [hst] at hx
    obtain ⟨l, h1, h2, h3, h4, h5⟩ := hd.chain x hx
    refine ⟨l, ?_, h2, ?_, h4, by rw [hres]; exact h5⟩
    · exact LazyMole.walk_congr _ _ _ h1 (fun y hy => hpr y (hscan y (h3 y hy)))
    · intro y hy
      rw [hst]
      exact h3 y hy

/-- In a state whose frontier is complete, every route ends at a SCANNED
cell or costs at least the resistance of some live node. -/
theorem LazyMole.Dijk.frontier {m : LazyMole R} {cur : Nat}
    (hS : Setting sqrt g f srcs) (hs : m.Struct) (hd : m.Dijk sqrt g f srcs cur []) :
    ∀ (l : List Nat) (x : Nat), IsRoute g.neighbors srcs x l →
      m.status x = Label.SCANNED ∨
      ∃ n ∈ m.heap.nodes, -n.2.res ≤ walkCost (computeResistance sqrt g f) l := by
  intro l
  induction l with
  | nil =>
    intro x hl
    have := hl.1
    simp at this
  | cons y ys ih =>
    intro x hl
    rcases isRoute_cases hl with ⟨h1, h2⟩ | ⟨p, rest, h1, h2, h3⟩
    · rw [h1, walkCost_single]
      obtain ⟨hu, -, -⟩ := hd.src x h2
      cases hx : m.status x with
      | UNVISITED => exact absurd hx hu
      | SCANNED => exact Or.inl rfl
      | VISITED =>
        right
        obtain ⟨k, e, -, hm, hcell⟩ := hs.visited x hx
        refine ⟨(k, e), hm, ?_⟩
        have := hd.srcNode (k, e) hm (by rw [hcell]; exact h2)
        simp only at this ⊢
        rw [this, neg_zero]
    · have e : ys = p :: rest := by
        have := congrArg List.tail h1
        simpa using this
      rw [e] at ih
      rw [h1, walkCost_cons]
      obtain ⟨hpN, hcost⟩ := route_bound hS.closed hS.nonneg hS.srcs_lt _ _ h3
      have hxN := hS.closed p hpN x h2
      have hw := hS.nonneg p hpN x hxN
      rcases ih p h3 with hp | ⟨n, hn, hle⟩
      · rcases hd.front p hp x h2 (fun _ => List.not_mem_nil _) with h | ⟨k, e, -, hm, -, hle⟩
        · exact Or.inl h
        · right
          refine ⟨(k, e), hm, ?_⟩
          simp only
          have := hd.lower p hp _ h3
          calc -e.res ≤ m.smallestRes p + computeResistance sqrt g f p x := hle
            _ ≤ walkCost (computeResistance sqrt g f) (p :: rest)
                + computeResistance sqrt g f p x := add_le_add_right this _
            _ = computeResistance sqrt g f p x
                + walkCost (computeResistance sqrt g f) (p :: rest) := add_comm _ _
      · right
        refine ⟨n, hn, le_trans hle ?_⟩
        exact le_add_of_nonneg_left hw

end DijkLemmas2

section DijkLemmas3
variable {R : Type} [LinearOrderedField R]
variable {sqrt : R → R} {g : CartesianGrid R} {f : Nat → R} {srcs : List Nat}

theorem LazyMole.Dijk.dijk_settle {m : LazyMole R} {cur tie : Nat}
    (hS : Setting sqrt g f srcs) (hs : m.Struct) (hd : m.Dijk sqrt g f srcs cur [])
    {n : Nat × CellElement R} (ht : m.heap.top tie = some n) :
    (m.settle tie n).Dijk sqrt g f srcs n.2.cell (g.neighbors n.2.cell) := by
  obtain ⟨hnodes, -⟩ := Heap.pop_nodes ht
  obtain ⟨hn, hmax⟩ := Heap.top_some ht
  have hsub : ∀ a, a ∈ (m.settle tie n).heap.nodes ↔ a ∈ m.heap.nodes ∧ a.1 ≠ n.1 := by
    intro a
    show a ∈ (m.heap.pop tie).nodes ↔ _
    rw [hnodes, List.mem_filter]
    simp
  have hlive : m.status n.2.cell ≠ Label.UNVISITED := hs.live n hn
  have hcN : n.2.cell < g.numberOfCells := hd.range _ hlive
  have hpr : (m.settle tie n).previous = m.previous := rfl
  have hhd : (m.settle tie n).cellElementHandles = m.cellElementHandles := rfl
  have hstc : (m.settle tie n).status n.2.cell = Label.SCANNED := Function.update_same _ _ _
  have hst : ∀ x, x ≠ n.2.cell → (m.settle tie n).status x = m.status x :=
    fun x hx => Function.update_noteq hx _ _
  have hresc : (m.settle tie n).smallestRes n.2.cell = -n.2.res := Function.update_same _ _ _
  have hres : ∀ x, x ≠ n.2.cell → (m.settle tie n).smallestRes x = m.smallestRes x :=
    fun x hx => Function.update_noteq hx _ _
  have hsrc0 : n.2.cell ∈ srcs → -n.2.res = 0 := by
    intro h; rw [hd.srcNode n hn h, neg_zero]
  have hstale : m.status n.2.cell = Label.SCANNED → n.2.cell ∈ srcs := by
    intro h
    by_contra hns
    have := (hd.owner n hn hns).2
    rw [h] at this
    exact Label.noConfusion this
  have hkeep : ∀ x, m.status x = Label.SCANNED → (m.settle tie n).status x = Label.SCANNED := by
    intro x hx
    by_cases h : x = n.2.cell
    · rw [h]; exact hstc
    · rw [hst x h]; exact hx
  have hdEq : ∀ x, m.status x = Label.SCANNED → (m.settle tie n).smallestRes x = m.smallestRes x := by
    intro x hx
    by_cases h : x = n.2.cell
    · subst h
      rw [hresc, hsrc0 (hstale hx), (hd.src _ (hstale hx)).2.2 hx]
    · exact hres x h
  have hsplit : ∀ x, (m.settle tie n).status x = Label.SCANNED →
      m.status x = Label.SCANNED ∨ (x = n.2.cell ∧ m.status n.2.cell = Label.VISITED) := by
    intro x hx
    by_cases h : x = n.2.cell
    · subst h
      cases hc : m.status n.2.cell with
      | UNVISITED => exact absurd hc hlive
      | VISITED => exact Or.inr ⟨rfl, rfl⟩
      | SCANNED => exact Or.inl rfl
    · rw [hst x h] at hx; exact Or.inl hx
  have hwalk : ∀ k c l, m.walk k c = some l → (m.settle tie n).walk k c = some l :=
    fun k c l h => LazyMole.walk_congr k c l h (fun _ _ => rfl)
  constructor
  · exact hd.hg
  · exact hd.hfld
  · intro x hx
    by_cases h : x = n.2.cell
    · rw [h]; exact hcN
    · rw [hst x h] at hx; exact hd.range x hx
  · intro s hsrc
    obtain ⟨h1, h2, h3⟩ := hd.src s hsrc
    refine ⟨?_, by rw [hpr]; exact h2, ?_⟩
    · by_cases h : s = n.2.cell
      · rw [h, hstc]; exact Label.noConfusion
      · rw [hst s h]; exact h1
    · intro hsc
      rcases hsplit s hsc with h | ⟨h, -⟩
      · rw [hdEq s h]; exact h3 h
      · rw [h, hresc]; exact hsrc0 (h ▸ hsrc)
  · intro a ha hasrc
    exact hd.srcNode a ((hsub a).1 ha).1 hasrc
  · intro a ha hasrc
    obtain ⟨ha1, ha2⟩ := (hsub a).1 ha
    obtain ⟨h1, h2⟩ := hd.owner a ha1 hasrc
    have hne : a.2.cell ≠ n.2.cell := by
      intro h
      have h3 := (hd.owner n hn (h ▸ hasrc)).1
      rw [← h, h1] at h3
      exact ha2 (Option.some.inj h3)
    rw [hhd, hst _ hne]
    exact ⟨h1, h2⟩
  · intro a ha hasrc
    obtain ⟨ha1, -⟩ := (hsub a).1 ha
    obtain ⟨h1, h2, h3⟩ := hd.nodePrev a ha1 hasrc
    rw [hpr, hdEq _ h1]
    exact ⟨hkeep _ h1, h2, h3⟩
  · intro x hx hxsrc
    rw [hpr]
    rcases hsplit x hx with h | ⟨h, hv⟩
    · obtain ⟨h1, h2, h3⟩ := hd.scannedPrev x h hxsrc
      rw [hdEq _ h, hdEq _ h1]
      exact ⟨hkeep _ h1, h2, h3⟩
    · subst h
      obtain ⟨h1, h2, h3⟩ := hd.nodePrev n hn hxsrc
      rw [hresc, hdEq _ h1]
      exact ⟨hkeep _ h1, h2, h3⟩
  · intro x hx
    rcases hsplit x hx with h | ⟨h, hv⟩
    · rw [hdEq _ h]; exact hd.nonneg x h
    · subst h
      rw [hresc]
      by_cases hsrc : n.2.cell ∈ srcs
      · rw [hsrc0 hsrc]
      · obtain ⟨h1, h2, h3⟩ := hd.nodePrev n hn hsrc
        rw [h3]
        have hpN := hd.range _ (by rw [h1]; exact Label.noConfusion)
        exact add_nonneg (hd.nonneg _ h1) (hS.nonneg _ hpN _ hcN)
  · intro x hx l hl
    rcases hsplit x hx with h | ⟨h, hv⟩
    · rw [hdEq _ h]; exact hd.lower x h l hl
    · subst h
      rw [hresc]
      rcases hd.frontier hS hs l _ hl with h | ⟨a, ha, hle⟩
      · rw [hv] at h; exact Label.noConfusion h
      · exact le_trans (neg_le_neg (hmax a ha)) hle
  · intro a ha b hb hp
    have hac : a ≠ n.2.cell := by
      intro h
      exact hp h (h ▸ hb)
    have ha' : m.status a = Label.SCANNED := by rwa [hst a hac] at ha
    rw [hdEq a ha', hhd]
    rcases hd.front a ha' b hb (fun _ => List.not_mem_nil _) with h | ⟨k, e, h1, h2, h3, h4⟩
    · exact Or.inl (hkeep b h)
    · by_cases hbc : b = n.2.cell
      · left; rw [hbc]; exact hstc
      · right
        refine ⟨k, e, h1, (hsub _).2 ⟨h2, ?_⟩, h3, h4⟩
        intro hk
        have := eq_of_handle_eq hs.nodup h2 hn hk
        apply hbc
        rw [← h3, ← this]
  · intro x hx
    rcases hsplit x hx with h | ⟨h, hv⟩
    · obtain ⟨l, h1, h2, h3, h4, h5⟩ := hd.chain x h
      exact ⟨l, hwalk _ _ _ h1, h2, fun y hy => hkeep y (h3 y hy), h4, by rw [hdEq x h]; exact h5⟩
    · subst h
      by_cases hsrc : n.2.cell ∈ srcs
      · refine ⟨[n.2.cell], ?_, List.nodup_singleton _, ?_, isRoute_single hsrc, ?_⟩
        · show (m.settle tie n).walk 1 n.2.cell = some [n.2.cell]
          unfold LazyMole.walk
          simp only [hpr, (hd.src _ hsrc).2.1, ne_eq, not_true_eq_false, if_false]
        · intro y hy
          rw [List.mem_singleton.1 hy]; exact hstc
        · rw [walkCost_single, hresc, hsrc0 hsrc]
      · obtain ⟨h1, h2, h3⟩ := hd.nodePrev n hn hsrc
        obtain ⟨l, w1, w2, w3, w4, w5⟩ := hd.chain _ h1
        have hpN := hd.range _ (by rw [h1]; exact Label.noConfusion)
        have hpE : m.previous n.2.cell ≠ EMPTY := hS.ne_empty hpN
        obtain ⟨rest, hrest⟩ : ∃ rest, l = m.previous n.2.cell :: rest := by
          have := w4.1
          cases l with
          | nil => simp at this
          | cons y ys =>
            simp only [List.head?_cons, Option.some.injEq] at this
            exact ⟨ys, by rw [this]⟩
        refine ⟨n.2.cell :: l, ?_, ?_, ?_, isRoute_cons w4 h2, ?_⟩
        · show (m.settle tie n).walk (l.length + 1) n.2.cell = some (n.2.cell :: l)
          unfold LazyMole.walk
          simp only [hpr, ne_eq, hpE, not_false_eq_true, if_true]
          rw [hwalk _ _ _ w1]
          rfl
        · rw [List.nodup_cons]
          refine ⟨?_, w2⟩
          intro hmem
          have := w3 _ hmem
          rw [hv] at this
          exact Label.noConfusion this
        · intro y hy
          rcases List.mem_cons.1 hy with h | h
          · rw [h]; exact hstc
          · exact hkeep y (w3 y h)
        · rw [hresc, h3, hrest, walkCost_cons, ← hrest, w5, add_comm]

end DijkLemmas3

section MeasureLemmas
variable {R : Type}

theorem countP_lt_of_mem {α : Type} {p q : α → Bool} {l : List α}
    (h : ∀ x ∈ l, p x = true → q x = true) {a : α} (ha : a ∈ l) (hq : q a = true)
    (hp : ¬ p a = true) : l.countP p < l.countP q := by
  induction l with
  | nil => exact absurd ha (List.not_mem_nil _)
  | cons x xs ih =>
    rw [List.countP_cons, List.countP_cons]
    have hxs : ∀ y ∈ xs, p y = true → q y = true := fun y hy => h y (List.mem_cons_of_mem _ hy)
    rcases List.mem_cons.1 ha with rfl | ha'
    · have := List.countP_mono_left hxs
      rw [if_neg hp, if_pos hq]
      omega
    · have := ih hxs ha'
      have hx := h x (List.mem_cons_self _ _)
      by_cases hpx : p x = true
      · rw [if_pos hpx, if_pos (hx hpx)]; omega
      · rw [if_neg hpx]
        split_ifs <;> omega

theorem LazyMole.measure_visit [Ring R] (m : LazyMole R) (c n : Nat) (x : R) (N : Nat)
    (hn : n < N) (hun : m.status n = Label.UNVISITED) :
    (m.visit c n x).measure N ≤ m.measure N := by
  unfold LazyMole.measure LazyMole.unvisitedCount
  have h1 : (m.visit c n x).heap.nodes.length = m.heap.nodes.length + 1 := by
    show (m.heap.nodes ++ [_]).length = _
    rw [List.length_append, List.length_singleton]
  have h2 : (List.range N).countP (fun y => decide ((m.visit c n x).status y = Label.UNVISITED))
      < (List.range N).countP (fun y => decide (m.status y = Label.UNVISITED)) := by
    refine countP_lt_of_mem ?_ (List.mem_range.2 hn) (by simpa using hun) ?_
    · intro y _ hy
      have hy' : Function.update m.status n Label.VISITED y = Label.UNVISITED := by
        simpa using hy
      by_cases h : y = n
      · rw [h] at hy'; simp at hy'
      · rw [Function.update_noteq h] at hy'
        simpa using hy'
    · have : (m.visit c n x).status n = Label.VISITED := Function.update_same _ _ _
      simp [this]
  omega

theorem LazyMole.measure_improve [Ring R] (m : LazyMole R) (c n : Nat) (x : R) (N : Nat) :
    (m.improve c n x).measure N = m.measure N := by
  unfold LazyMole.measure LazyMole.unvisitedCount
  have h1 : (m.improve c n x).heap.nodes.length = m.heap.nodes.length := by
    unfold LazyMole.improve Heap.increase
    cases m.cellElementHandles n <;> simp
  have h2 : (m.improve c n x).status = m.status := rfl
  rw [h1, h2]

theorem LazyMole.measure_settle [LinearOrder R] [Neg R] {tie : Nat} {m : LazyMole R}
    {n : Nat × CellElement R} (ht : m.heap.top tie = some n) (N : Nat) :
    (m.settle tie n).measure N < m.measure N := by
  unfold LazyMole.measure LazyMole.unvisitedCount
  obtain ⟨hnodes, -⟩ := Heap.pop_nodes ht
  obtain ⟨hn, -⟩ := Heap.top_some ht
  have h1 : (m.settle tie n).heap.nodes.length < m.heap.nodes.length := by
    show (m.heap.pop tie).nodes.length < _
    rw [hnodes, List.length_filter_lt_length_iff_exists]
    exact ⟨n, hn, by simp⟩
  have h2 : (List.range N).countP (fun y => decide ((m.settle tie n).status y = Label.UNVISITED))
      ≤ (List.range N).countP (fun y => decide (m.status y = Label.UNVISITED)) := by
    refine List.countP_mono_left ?_
    intro y _ hy
    have hy' : Function.update m.status n.2.cell Label.SCANNED y = Label.UNVISITED := by
      simpa using hy
    by_cases h : y = n.2.cell
    · rw [h] at hy'; simp at hy'
    · rw [Function.update_noteq h] at hy'
      simpa using hy'
  omega

end MeasureLemmas

section FrameLemmas
variable {R : Type}

theorem LazyMole.Frame.refl (m : LazyMole R) : m.Frame m :=
  ⟨fun _ hx => ⟨hx, rfl, rfl⟩, rfl⟩

theorem LazyMole.Frame.trans {m1 m2 m3 : LazyMole R} (h12 : m1.Frame m2) (h23 : m2.Frame m3) :
    m1.Frame m3 := by
  refine ⟨fun x hx => ?_, h23.ready.trans h12.ready⟩
  obtain ⟨a1, a2, a3⟩ := h12.scanned x hx
  obtain ⟨b1, b2, b3⟩ := h23.scanned x a1
  exact ⟨b1, b2.trans a2, b3.trans a3⟩

end FrameLemmas

section StepLemmas
variable {R : Type} [LinearOrderedField R]
variable {sqrt : R → R} {g : CartesianGrid R} {f : Nat → R} {srcs : List Nat}

theorem LazyMole.Dijk.frame_settle {m : LazyMole R} {cur tie : Nat}
    (hd : m.Dijk sqrt g f srcs cur [])
    {n : Nat × CellElement R} (ht : m.heap.top tie = some n) : m.Frame (m.settle tie n) := by
  obtain ⟨hn, -⟩ := Heap.top_some ht
  refine ⟨fun x hx => ?_, rfl⟩
  by_cases h : x = n.2.cell
  · subst h
    have hsrc : n.2.cell ∈ srcs := by
      by_contra hns
      have := (hd.owner n hn hns).2
      rw [hx] at this
      exact Label.noConfusion this
    refine ⟨Function.update_same _ _ _, rfl, ?_⟩
    show Function.update m.smallestRes n.2.cell (-n.2.res) n.2.cell = _
    rw [Function.update_same, hd.srcNode n hn hsrc, neg_zero, (hd.src _ hsrc).2.2 hx]
  · refine ⟨?_, rfl, Function.update_noteq h _ _⟩
    show Function.update m.status n.2.cell Label.SCANNED x = Label.SCANNED
    rw [Function.update_noteq h]; exact hx

/-- What one step of the loop on neighbours keeps. -/
theorem LazyMole.relax_step {m : LazyMole R} {c n : Nat} {ns : List Nat} {r : R}
    (hS : Setting sqrt g f srcs) (hs : m.Struct)
    (hd : m.Dijk sqrt g f srcs c (n :: ns)) (hc : m.status c = Label.SCANNED)
    (hr : m.smallestRes c = r) (hn : n ∈ g.neighbors c) :
    ∃ m', m.relax sqrt c r n = some m' ∧ m'.Struct ∧ m'.Dijk sqrt g f srcs c ns ∧
      m'.status c = Label.SCANNED ∧ m'.smallestRes c = r ∧
      m'.measure g.numberOfCells ≤ m.measure g.numberOfCells ∧
      (∀ a ∈ m'.heap.nodes, a ∈ m.heap.nodes ∨ a.2.res ≤ -r) ∧
      m.Frame m' ∧ (∀ x, m'.status x = Label.SCANNED → m.status x = Label.SCANNED) := by
  have hcN : c < g.numberOfCells := hd.range c (by rw [hc]; exact Label.noConfusion)
  have hnN : n < g.numberOfCells := hS.closed c hcN n hn
  have hw : 0 ≤ computeResistance sqrt g f c n := hS.nonneg c hcN n hnN
  have hcases := LazyMole.relax_cases sqrt c r m n hs
  rw [hd.hg, hd.hfld, ← hr] at hcases
  rw [← hr]
  rcases hcases with ⟨h1, h2⟩ | ⟨h1, h2⟩ | ⟨h1, k, e, h2, h3, h4, ⟨h5, h6⟩ | ⟨h5, h6⟩⟩
  · refine ⟨m, h2, hs, ?_, hc, rfl, le_refl _, fun a ha => Or.inl ha, LazyMole.Frame.refl m,
      fun _ hx => hx⟩
    exact hd.shrink (fun b _ _ hb1 hb2 => by
      have : b = n := by
        rcases List.mem_cons.1 hb1 with h | h
        · exact h
        · exact absurd h hb2
      rw [this]; exact Or.inl h1)
  · have hcn : c ≠ n := by
      intro h; rw [h, h1] at hc; exact Label.noConfusion hc
    have g1 : (m.visit c n (m.smallestRes c + computeResistance sqrt g f c n)).status c
        = Label.SCANNED := by
      show Function.update m.status n Label.VISITED c = Label.SCANNED
      rw [Function.update_noteq hcn]; exact hc
    have g2 : ∀ a ∈ (m.visit c n (m.smallestRes c + computeResistance sqrt g f c n)).heap.nodes,
        a ∈ m.heap.nodes ∨ a.2.res ≤ -m.smallestRes c := by
      intro a ha
      have ha' : a ∈ m.heap.nodes ++
          [(m.heap.next, (⟨-(m.smallestRes c + computeResistance sqrt g f c n), n⟩ :
            CellElement R))] := ha
      rcases List.mem_append.1 ha' with h | h
      · exact Or.inl h
      · right
        rw [List.mem_singleton.1 h]
        simp only
        exact neg_le_neg (le_add_of_nonneg_right hw)
    have g3 : m.Frame (m.visit c n (m.smallestRes c + computeResistance sqrt g f c n)) := by
      refine ⟨fun x hx => ?_, rfl⟩
      have hxn : x ≠ n := by
        intro h; rw [h, h1] at hx; exact Label.noConfusion hx
      refine ⟨?_, Function.update_noteq hxn _ _, rfl⟩
      show Function.update m.status n Label.VISITED x = Label.SCANNED
      rw [Function.update_noteq hxn]; exact hx
    have g4 : ∀ x, (m.visit c n (m.smallestRes c + computeResistance sqrt g f c n)).status x
        = Label.SCANNED → m.status x = Label.SCANNED := by
      intro x hx
      have hx' : Function.update m.status n Label.VISITED x = Label.SCANNED := hx
      by_cases hxn : x = n
      · rw [hxn, Function.update_same] at hx'; exact Label.noConfusion hx'
      · rwa [Function.update_noteq hxn] at hx'
    exact ⟨_, h2, hs.struct_visit c n _ h1, hd.dijk_visit hS hs hc hn h1, g1, rfl,
      LazyMole.measure_visit m c n _ _ hnN h1, g2, g3, g4⟩
  · refine ⟨m, h6, hs, ?_, hc, rfl, le_refl _, fun a ha => Or.inl ha, LazyMole.Frame.refl m,
      fun _ hx => hx⟩
    exact hd.shrink (fun b _ _ hb1 hb2 => by
      have : b = n := by
        rcases List.mem_cons.1 hb1 with h | h
        · exact h
        · exact absurd h hb2
      rw [this]
      exact Or.inr ⟨k, e, h2, h3, h4, not_lt.1 h5⟩)
  · have g2 : ∀ a ∈ (m.improve c n (m.smallestRes c + computeResistance sqrt g f c n)).heap.nodes,
        a ∈ m.heap.nodes ∨ a.2.res ≤ -m.smallestRes c := by
      intro a ha
      have hheap : (m.improve c n (m.smallestRes c + computeResistance sqrt g f c n)).heap =
          m.heap.increase (some k) ⟨-(m.smallestRes c + computeResistance sqrt g f c n), n⟩ := by
        unfold LazyMole.improve; rw [h2]
      rw [hheap] at ha
      rcases Heap.mem_increase.1 ha with ⟨h, -⟩ | ⟨h, -⟩
      · right
        rw [h]
        simp only
        exact neg_le_neg (le_add_of_nonneg_right hw)
      · exact Or.inl h
    have g3 : m.Frame (m.improve c n (m.smallestRes c + computeResistance sqrt g f c n)) := by
      refine ⟨fun x hx => ?_, rfl⟩
      have hxn : x ≠ n := by
        intro h; rw [h, h1] at hx; exact Label.noConfusion hx
      exact ⟨hx, Function.update_noteq hxn _ _, rfl⟩
    exact ⟨_, h6, hs.struct_improve c n _ h2 h3 h4, hd.dijk_improve hS hs hc hn h1 h2 h3 h4 h5, hc, rfl,
      le_of_eq (LazyMole.measure_improve m c n _ _), g2, g3, fun _ hx => hx⟩

/-- What the whole loop on neighbours keeps. -/
theorem LazyMole.relax_all {c : Nat} {r : R} (hS : Setting sqrt g f srcs) :
    ∀ (ns : List Nat) (m : LazyMole R), m.Struct → m.Dijk sqrt g f srcs c ns →
      m.status c = Label.SCANNED → m.smallestRes c = r → (∀ b ∈ ns, b ∈ g.neighbors c) →
      ∃ m', ns.foldlM (LazyMole.relax sqrt c r) m = some m' ∧ m'.Struct ∧
        m'.Dijk sqrt g f srcs c [] ∧
        m'.measure g.numberOfCells ≤ m.measure g.numberOfCells ∧
        (∀ a ∈ m'.heap.nodes, a ∈ m.heap.nodes ∨ a.2.res ≤ -r) ∧
        m.Frame m' ∧ (∀ x, m'.status x = Label.SCANNED → m.status x = Label.SCANNED) := by
  intro ns
  induction ns with
  | nil =>
    intro m hs hd _ _ _
    exact ⟨m, rfl, hs, hd, le_refl _, fun a ha => Or.inl ha, LazyMole.Frame.refl m,
      fun _ hx => hx⟩
  | cons n ns ih =>
    intro m hs hd hc hr hns
    obtain ⟨m1, e1, s1, d1, c1, r1, μ1, b1, y1, z1⟩ :=
      LazyMole.relax_step hS hs hd hc hr (hns n (List.mem_cons_self _ _))
    obtain ⟨m2, e2, s2, d2, μ2, b2, y2, z2⟩ :=
      ih m1 s1 d1 c1 r1 (fun b hb => hns b (List.mem_cons_of_mem _ hb))
    refine ⟨m2, ?_, s2, d2, le_trans μ2 μ1, ?_, y1.trans y2, fun x hx => z1 x (z2 x hx)⟩
    · rw [List.foldlM_cons, e1]
      exact e2
    · intro a ha
      rcases b2 a ha with h | h
      · exact b1 a h
      · exact Or.inr h

theorem LazyMole.scan_eq (sqrt : R → R) {tie : Nat} {m : LazyMole R} {n : Nat × CellElement R}
    (ht : m.heap.top tie = some n) :
    m.scan sqrt tie =
      (m.gridPtr.neighbors n.2.cell).foldlM (LazyMole.relax sqrt n.2.cell (-n.2.res))
        (m.settle tie n) := by
  unfold LazyMole.scan
  rw [ht]
  rfl

/-- What one iteration of the `while` loop keeps. -/
theorem LazyMole.scan_step {m : LazyMole R} {cur : Nat} (tie : Nat)
    (hS : Setting sqrt g f srcs) (hs : m.Struct) (hd : m.Dijk sqrt g f srcs cur [])
    (hne : m.heap.nodes ≠ []) :
    ∃ n m', m.heap.top tie = some n ∧ m.scan sqrt tie = some m' ∧ m'.Struct ∧
      m'.Dijk sqrt g f srcs n.2.cell [] ∧
      m'.measure g.numberOfCells < m.measure g.numberOfCells ∧
      (∀ a ∈ m.heap.nodes, a.2.res ≤ n.2.res) ∧
      (∀ a ∈ m'.heap.nodes, a.2.res ≤ n.2.res) ∧
      m.Frame m' ∧ m'.status n.2.cell = Label.SCANNED ∧ m'.smallestRes n.2.cell = -n.2.res ∧
      (∀ x, m'.status x = Label.SCANNED → m.status x = Label.SCANNED ∨ x = n.2.cell) := by
  obtain ⟨n, ht, hn, hmax⟩ := Heap.top_spec tie m.heap hne
  have hs1 := hs.struct_settle ht
  have hd1 := hd.dijk_settle hS hs ht
  have hc1 : (m.settle tie n).status n.2.cell = Label.SCANNED := Function.update_same _ _ _
  have hr1 : (m.settle tie n).smallestRes n.2.cell = -n.2.res := Function.update_same _ _ _
  obtain ⟨m', e, s2, d2, μ2, b2, y2, z2⟩ :=
    LazyMole.relax_all hS (g.neighbors n.2.cell) (m.settle tie n) hs1 hd1 hc1 hr1 (fun _ h => h)
  have hfr : m.Frame (m.settle tie n) := hd.frame_settle ht
  have hfin := y2.scanned _ hc1
  have g1 : m.scan sqrt tie = some m' := by
    rw [LazyMole.scan_eq sqrt ht, hd.hg]
    exact e
  have g2 : ∀ a ∈ m'.heap.nodes, a.2.res ≤ n.2.res := by
    intro a ha
    rcases b2 a ha with h | h
    · have h' : a ∈ (m.heap.pop tie).nodes := h
      rw [(Heap.pop_nodes ht).1] at h'
      exact hmax a (List.mem_filter.1 h').1
    · rwa [neg_neg] at h
  have g3 : ∀ x, m'.status x = Label.SCANNED → m.status x = Label.SCANNED ∨ x = n.2.cell := by
    intro x hx
    have hx' : Function.update m.status n.2.cell Label.SCANNED x = Label.SCANNED := z2 x hx
    by_cases hxn : x = n.2.cell
    · exact Or.inr hxn
    · rw [Function.update_noteq hxn] at hx'; exact Or.inl hx'
  exact ⟨n, m', ht, g1, s2, d2, lt_of_le_of_lt μ2 (LazyMole.measure_settle ht _), hmax, g2,
    hfr.trans y2, hfin.1, hfin.2.2.trans hr1, g3⟩

end StepLemmas

section InitLemmas
variable {R : Type} [LinearOrderedField R]
variable {sqrt : R → R} {g : CartesianGrid R} {f : Nat → R} {srcs : List Nat}

theorem LazyMole.Init.addSource {done : List Nat} {m : LazyMole R} (h : m.Init g f done)
    (c : Nat) : (m.addSource c).Init g f (done ++ [c]) := by
  have hst : ∀ x, x ≠ c → (m.addSource c).status x = m.status x :=
    fun x hx => Function.update_noteq hx _ _
  have hstc : (m.addSource c).status c = Label.VISITED := Function.update_same _ _ _
  have hhd : ∀ x, x ≠ c → (m.addSource c).cellElementHandles x = m.cellElementHandles x :=
    fun x hx => Function.update_noteq hx _ _
  have hhdc : (m.addSource c).cellElementHandles c = some m.heap.next :=
    Function.update_same _ _ _
  have hnodes : (m.addSource c).heap.nodes = m.heap.nodes ++ [(m.heap.next, ⟨0, c⟩)] := rfl
  have hnext : (m.addSource c).heap.next = m.heap.next + 1 := rfl
  have hs := h.struct
  constructor
  · constructor
    · rw [hnodes, List.map_append, List.map_singleton]
      refine List.Nodup.append hs.nodup (List.nodup_singleton _) ?_
      intro k hk1 hk2
      rw [List.mem_singleton] at hk2
      obtain ⟨a, ha, rfl⟩ := List.mem_map.1 hk1
      have := hs.fresh a ha
      omega
    · intro a ha
      rw [hnext]
      rw [hnodes] at ha
      rcases List.mem_append.1 ha with h' | h'
      · have := hs.fresh a h'; omega
      · rw [List.mem_singleton.1 h']; exact Nat.lt_succ_self _
    · intro x hx
      rw [hnodes]
      by_cases hxc : x = c
      · subst hxc
        exact ⟨m.heap.next, ⟨0, x⟩, hhdc, by simp, rfl⟩
      · rw [hst x hxc] at hx
        rw [hhd x hxc]
        obtain ⟨k, e, h1, h2, h3⟩ := hs.visited x hx
        exact ⟨k, e, h1, List.mem_append_left _ h2, h3⟩
    · intro x _
      exact ⟨h.prev x, h.res x⟩
    · intro a ha
      rw [hnodes] at ha
      by_cases hac : a.2.cell = c
      · rw [hac, hstc]; exact Label.noConfusion
      · rw [hst _ hac]
        rcases List.mem_append.1 ha with h' | h'
        · exact hs.live a h'
        · rw [List.mem_singleton.1 h'] at hac
          exact absurd rfl hac
  · exact h.hg
  · exact h.hfld
  · exact h.prev
  · exact h.res
  · intro x
    rw [List.mem_append, List.mem_singleton]
    by_cases hxc : x = c
    · rw [hxc, hstc]; simp
    · rw [hst x hxc, h.visited x]
      simp [hxc]
  · intro x
    rw [List.mem_append, List.mem_singleton]
    by_cases hxc : x = c
    · rw [hxc, hstc]; simp
    · rw [hst x hxc, h.unvisited x]
      simp [hxc]
  · intro a ha
    rw [hnodes] at ha
    rcases List.mem_append.1 ha with h' | h'
    · exact ⟨List.mem_append_left _ (h.nodes a h').1, (h.nodes a h').2⟩
    · rw [List.mem_singleton.1 h']
      exact ⟨by simp, rfl⟩
  · rw [hnodes, List.length_append, List.length_append, h.len]
    rfl
  · intro x hx
    rw [List.mem_append, List.mem_singleton] at hx
    push_neg at hx
    rw [hhd x hx.2]
    exact h.handle x hx.1

theorem LazyMole.Init.foldl :
    ∀ (l done : List Nat) (m : LazyMole R), m.Init g f done →
      (l.foldl LazyMole.addSource m).Init g f (done ++ l) := by
  intro l
  induction l with
  | nil => intro done m h; simpa using h
  | cons c cs ih =>
    intro done m h
    have := ih (done ++ [c]) (m.addSource c) (h.addSource c)
    simpa using this

/-- The state the constructor leaves. -/
theorem LazyMole.new_init (g : CartesianGrid R) (f : Nat → R) (srcs : List Nat) :
    (LazyMole.new g f srcs).Init g f srcs ∧ (LazyMole.new g f srcs).isReady = false := by
  have h0 : (LazyMole.init g f).Init g f [] := by
    constructor
    · constructor
      · exact List.nodup_nil
      · intro a ha; exact absurd ha (List.not_mem_nil _)
      · intro c hc; exact Label.noConfusion hc
      · intro c _; exact ⟨rfl, rfl⟩
      · intro a ha; exact absurd ha (List.not_mem_nil _)
    · rfl
    · rfl
    · intro c; rfl
    · intro c; rfl
    · intro c
      simp only [List.not_mem_nil, iff_false]
      exact Label.noConfusion
    · intro c
      simp only [List.not_mem_nil, not_false_eq_true, iff_true]
      rfl
    · intro a ha; exact absurd ha (List.not_mem_nil _)
    · rfl
    · intro c _; rfl
  have h1 := LazyMole.Init.foldl srcs [] _ h0
  rw [List.nil_append] at h1
  refine ⟨?_, rfl⟩
  obtain ⟨⟨a1, a2, a3, a4, a5⟩, b2, b3, b4, b5, b6, b7, b8, b9, b10⟩ := h1
  exact ⟨⟨a1, a2, a3, a4, a5⟩, b2, b3, b4, b5, b6, b7, b8, b9, b10⟩

theorem LazyMole.Init.scanned_false {done : List Nat} {m : LazyMole R} (h : m.Init g f done)
    (c : Nat) : m.status c ≠ Label.SCANNED := by
  intro hc
  by_cases hd : c ∈ done
  · rw [(h.visited c).2 hd] at hc; exact Label.noConfusion hc
  · rw [(h.unvisited c).2 hd] at hc; exact Label.noConfusion hc

theorem LazyMole.Init.dijk {m : LazyMole R} (h : m.Init g f srcs)
    (hS : Setting sqrt g f srcs) (cur : Nat) : m.Dijk sqrt g f srcs cur [] := by
  constructor
  · exact h.hg
  · exact h.hfld
  · intro c hc
    by_cases hd : c ∈ srcs
    · exact hS.srcs_lt c hd
    · exact absurd ((h.unvisited c).2 hd) hc
  · intro s hs
    refine ⟨?_, h.prev s, fun hc => absurd hc (h.scanned_false s)⟩
    rw [(h.visited s).2 hs]; exact Label.noConfusion
  · intro a ha _
    exact (h.nodes a ha).2
  · intro a ha hns
    exact absurd (h.nodes a ha).1 hns
  · intro a ha hns
    exact absurd (h.nodes a ha).1 hns
  · intro c hc; exact absurd hc (h.scanned_false c)
  · intro c hc; exact absurd hc (h.scanned_false c)
  · intro c hc; exact absurd hc (h.scanned_false c)
  · intro c hc; exact absurd hc (h.scanned_false c)
  · intro c hc; exact absurd hc (h.scanned_false c)

theorem LazyMole.Init.measure_le {done : List Nat} {m : LazyMole R} (h : m.Init g f done)
    (N : Nat) : m.measure N ≤ done.length + N := by
  unfold LazyMole.measure LazyMole.unvisitedCount
  rw [h.len]
  have := List.countP_le_length (fun c => decide (m.status c = Label.UNVISITED))
    (l := List.range N)
  rw [List.length_range] at this
  omega

end InitLemmas

section LoopLemmas
variable {R : Type} [LinearOrderedField R]
variable {sqrt : R → R} {g : CartesianGrid R} {f : Nat → R} {srcs : List Nat}

theorem LazyMole.runLoop_done (sqrt : R → R) (tie : Nat → Nat) (fuel : Nat) {m : LazyMole R}
    (h : m.heap.nodes = []) : m.runLoop sqrt tie fuel = some m := by
  unfold LazyMole.runLoop
  rw [if_pos ((Heap.empty_iff _).2 h)]

theorem LazyMole.runLoop_step (sqrt : R → R) (tie : Nat → Nat) (fuel : Nat) {m : LazyMole R}
    (h : m.heap.nodes ≠ []) :
    m.runLoop sqrt tie (fuel + 1) =
      (m.scan sqrt (tie 0)).bind (LazyMole.runLoop sqrt (fun k => tie (k + 1)) fuel) := by
  rw [LazyMole.runLoop]
  rw [if_neg (fun he => h ((Heap.empty_iff _).1 he))]
  cases m.scan sqrt (tie 0) <;> rfl

/-- With enough fuel the `while` loop ends, on a state with an empty heap
that satisfies the invariants. -/
theorem LazyMole.runLoop_spec (hS : Setting sqrt g f srcs) :
    ∀ (fuel : Nat) (tie : Nat → Nat) (m : LazyMole R) (cur : Nat), m.Struct →
      m.Dijk sqrt g f srcs cur [] → m.measure g.numberOfCells ≤ fuel →
      ∃ m' cur', m.runLoop sqrt tie fuel = some m' ∧ m'.Struct ∧
        m'.Dijk sqrt g f srcs cur' [] ∧ m'.heap.nodes = [] ∧ m.Frame m' := by
  intro fuel
  induction fuel with
  | zero =>
    intro tie m cur hs hd hμ
    have hnil : m.heap.nodes = [] := by
      unfold LazyMole.measure at hμ
      exact List.length_eq_zero.1 (by omega)
    exact ⟨m, cur, LazyMole.runLoop_done sqrt tie 0 hnil, hs, hd, hnil, LazyMole.Frame.refl m⟩
  | succ fuel ih =>
    intro tie m cur hs hd hμ
    by_cases hnil : m.heap.nodes = []
    · exact ⟨m, cur, LazyMole.runLoop_done sqrt tie _ hnil, hs, hd, hnil, LazyMole.Frame.refl m⟩
    · obtain ⟨n, m1, -, e1, s1, d1, μ1, -, -, f1, -, -, -⟩ :=
        LazyMole.scan_step (tie 0) hS hs hd hnil
      obtain ⟨m2, cur2, e2, s2, d2, n2, f2⟩ :=
        ih (fun k => tie (k + 1)) m1 n.2.cell s1 d1 (by omega)
      refine ⟨m2, cur2, ?_, s2, d2, n2, f1.trans f2⟩
      rw [LazyMole.runLoop_step sqrt tie fuel hnil, e1]
      exact e2

end LoopLemmas

section ConnLemmas
variable {R : Type}

theorem nat_line {n : Nat} {Q : Nat → Prop} (h : ∀ x, x + 1 < n → (Q x ↔ Q (x + 1)))
    {a : Nat} (ha : a < n) (hQ : Q a) : ∀ b, b < n → Q b := by
  have h0 : ∀ b, b < n → (Q b ↔ Q 0) := by
    intro b
    induction b with
    | zero => intro _; exact Iff.rfl
    | succ b ih =>
      intro hb
      exact (h b hb).symm.trans (ih (by omega))
  intro b hb
  exact (h0 b hb).2 ((h0 a ha).1 hQ)

/-- Two cells whose indices differ by at most one on every axis are equal or
neighbours. -/
theorem CartesianGrid.mergeIds_mem_neighbors {g : CartesianGrid R} (hf : g.Fits)
    {x y z x' y' z' : Nat} (hx : x < g._nx) (hy : y < g._ny) (hz : z < g._nz)
    (hx' : x' < g._nx) (hy' : y' < g._ny) (hz' : z' < g._nz)
    (dx : (x' : Int) - x ∈ offsets) (dy : (y' : Int) - y ∈ offsets)
    (dz : (z' : Int) - z ∈ offsets) (hne : ¬ (x' = x ∧ y' = y ∧ z' = z)) :
    g.mergeIds x' y' z' ∈ g.neighbors (g.mergeIds x y z) := by
  rw [g.mem_neighbors_iff hf (g.mergeIds_lt hf hx hy hz)]
  have e1 := g.splitId_mergeIds hf hx hy hz
  have e2 := g.splitId_mergeIds hf hx' hy' hz'
  refine ⟨g.mergeIds_lt hf hx' hy' hz', ?_, ?_, ?_, ?_⟩
  · intro he
    rw [he, e1] at e2
    apply hne
    simp only [Prod.mk.injEq] at e2
    omega
  · rw [e1, e2]; exact dx
  · rw [e1, e2]; exact dy
  · rw [e1, e2]; exact dz

theorem offsets_one : (1 : Int) ∈ offsets := by decide

theorem offsets_zero : (0 : Int) ∈ offsets := by decide

/-- The grid graph is connected: a set of cells that holds one cell and is
closed under `neighbors` holds every cell. -/
theorem CartesianGrid.connected {g : CartesianGrid R} (hf : g.Fits) (P : Nat → Prop)
    (hcl : ∀ a, a < g.numberOfCells → P a → ∀ b ∈ g.neighbors a, P b)
    {s : Nat} (hs : s < g.numberOfCells) (hPs : P s) : ∀ c, c < g.numberOfCells → P c := by
  obtain ⟨sx, sy, sz, sm⟩ := g.splitId_spec hf hs
  intro c hc
  obtain ⟨cx, cy, cz, cm⟩ := g.splitId_spec hf hc
  have hstep : ∀ {x y z x' y' z' : Nat}, x < g._nx → y < g._ny → z < g._nz →
      x' < g._nx → y' < g._ny → z' < g._nz →
      (x' : Int) - x ∈ offsets → (y' : Int) - y ∈ offsets → (z' : Int) - z ∈ offsets →
      P (g.mergeIds x y z) → P (g.mergeIds x' y' z') := by
    intro x y z x' y' z' hx hy hz hx' hy' hz' dx dy dz hP
    by_cases he : x' = x ∧ y' = y ∧ z' = z
    · obtain ⟨rfl, rfl, rfl⟩ := he; exact hP
    · exact hcl _ (g.mergeIds_lt hf hx hy hz) hP _
        (g.mergeIds_mem_neighbors hf hx hy hz hx' hy' hz' dx dy dz he)
  have om : ∀ a : Nat, ((a : Int) - (a + 1 : Nat)) ∈ offsets := by
    intro a
    have : ((a : Int) - (a + 1 : Nat)) = -1 := by push_cast; ring
    rw [this]; decide
  have op : ∀ a : Nat, (((a + 1 : Nat) : Int) - a) ∈ offsets := by
    intro a
    have : (((a + 1 : Nat) : Int) - a) = 1 := by push_cast; ring
    rw [this]; decide
  have oz : ∀ a : Nat, ((a : Int) - a) ∈ offsets := by
    intro a
    rw [sub_self]; decide
  have h1 : P (g.mergeIds (g.splitId c).1 (g.splitId s).2.1 (g.splitId s).2.2) := by
    refine nat_line (Q := fun x => P (g.mergeIds x (g.splitId s).2.1 (g.splitId s).2.2))
      ?_ sx (by show P (g.mergeIds _ _ _); rw [sm]; exact hPs) _ cx
    intro x hx
    exact ⟨hstep (by omega) sy sz hx sy sz (op x) (oz _) (oz _),
      hstep hx sy sz (by omega) sy sz (om x) (oz _) (oz _)⟩
  have h2 : P (g.mergeIds (g.splitId c).1 (g.splitId c).2.1 (g.splitId s).2.2) := by
    refine nat_line (Q := fun y => P (g.mergeIds (g.splitId c).1 y (g.splitId s).2.2))
      ?_ sy h1 _ cy
    intro y hy
    exact ⟨hstep cx (by omega) sz cx hy sz (oz _) (op y) (oz _),
      hstep cx hy sz cx (by omega) sz (oz _) (om y) (oz _)⟩
  have h3 : P (g.mergeIds (g.splitId c).1 (g.splitId c).2.1 (g.splitId c).2.2) := by
    refine nat_line (Q := fun z => P (g.mergeIds (g.splitId c).1 (g.splitId c).2.1 z))
      ?_ sz h2 _ cz
    intro z hz
    exact ⟨hstep cx cy (by omega) cx cy hz (oz _) (oz _) (op z),
      hstep cx cy hz cx cy (by omega) (oz _) (oz _) (om z)⟩
  rwa [cm] at h3

end ConnLemmas

section SettingLemmas
variable {R : Type} [LinearOrderedField R]

theorem computeResistance_nonneg {sqrt : R → R} (hsqrt : ∀ x, 0 ≤ x → 0 ≤ sqrt x)
    (g : CartesianGrid R) {f : Nat → R} {a b : Nat} (ha : 0 < f a) (hb : 0 < f b) :
    0 ≤ computeResistance sqrt g f a b := by
  unfold computeResistance Point3D.distanceFrom
  simp only
  have hsum : ∀ x y z : R, 0 ≤ 0 + x * x + y * y + z * z := by
    intro x y z
    have h1 := mul_self_nonneg x
    have h2 := mul_self_nonneg y
    have h3 := mul_self_nonneg z
    linarith
  exact add_nonneg (div_nonneg (div_nonneg (hsqrt _ (hsum _ _ _)) (by norm_num)) (le_of_lt ha))
    (div_nonneg (div_nonneg (hsqrt _ (hsum _ _ _)) (by norm_num)) (le_of_lt hb))

/-- A grid whose cell count fits, a positive field, a square root that is not
negative on what is not negative, and sources that are cells make up a setting for the search. -/
theorem Setting.of_fits {sqrt : R → R} {g : CartesianGrid R} {f : Nat → R} {srcs : List Nat}
    (hf : g.Fits) (hpos : ∀ c, c < g.numberOfCells → 0 < f c)
    (hsqrt : ∀ x, 0 ≤ x → 0 ≤ sqrt x)
    (hsrc : ∀ s ∈ srcs, s < g.numberOfCells) : Setting sqrt g f srcs := by
  refine ⟨fun a ha b hb => g.neighbors_lt hf ha hb,
    fun a ha b hb => computeResistance_nonneg hsqrt g (hpos a ha) (hpos b hb), hsrc, ?_⟩
  rw [g.numberOfCells_eq hf]
  have : g._nx * g._ny * g._nz < SIZE_MOD := hf
  unfold EMPTY
  omega

end SettingLemmas

section FinalLemmas
variable {R : Type} [LinearOrderedField R]
variable {sqrt : R → R} {g : CartesianGrid R} {f : Nat → R} {srcs : List Nat}

theorem LazyMole.Struct.struct_setReady {m : LazyMole R} (hs : m.Struct) (b : Bool) :
    ({ m with isReady := b } : LazyMole R).Struct :=
  ⟨hs.nodup, hs.fresh, hs.visited, hs.unvisited, hs.live⟩

theorem LazyMole.Dijk.dijk_setReady {m : LazyMole R} {cur : Nat} {pend : List Nat}
    (hd : m.Dijk sqrt g f srcs cur pend) (b : Bool) :
    ({ m with isReady := b } : LazyMole R).Dijk sqrt g f srcs cur pend := by
  refine ⟨hd.hg, hd.hfld, hd.range, hd.src, hd.srcNode, hd.owner, hd.nodePrev, hd.scannedPrev,
    hd.nonneg, hd.lower, hd.front, ?_⟩
  intro c hc
  obtain ⟨l, h1, h2, h3, h4, h5⟩ := hd.chain c hc
  exact ⟨l, LazyMole.walk_congr _ _ _ h1 (fun _ _ => rfl), h2, h3, h4, h5⟩

/-- With enough fuel `run` returns, in a state with an empty heap that
satisfies the invariants and is ready. -/
theorem LazyMole.run_spec (hS : Setting sqrt g f srcs) (tie : Nat → Nat) (fuel : Nat)
    (hfuel : srcs.length + g.numberOfCells ≤ fuel) :
    ∃ m' cur, (LazyMole.new g f srcs).run sqrt tie fuel = some m' ∧ m'.Struct ∧
      m'.Dijk sqrt g f srcs cur [] ∧ m'.heap.nodes = [] ∧ m'.isReady = true := by
  obtain ⟨hi, -⟩ := LazyMole.new_init g f srcs
  have hμ := hi.measure_le g.numberOfCells
  obtain ⟨m1, cur, e1, s1, d1, n1, -⟩ :=
    LazyMole.runLoop_spec hS fuel tie _ 0 hi.struct (hi.dijk hS 0) (le_trans hμ hfuel)
  refine ⟨{ m1 with isReady := true }, cur, ?_, s1.struct_setReady true, d1.dijk_setReady true, n1, rfl⟩
  unfold LazyMole.run
  rw [e1]
  rfl

theorem LazyMole.Struct.not_visited {m : LazyMole R} (hs : m.Struct) (hnil : m.heap.nodes = [])
    (c : Nat) : m.status c ≠ Label.VISITED := by
  intro hc
  obtain ⟨k, e, -, hm, -⟩ := hs.visited c hc
  rw [hnil] at hm
  exact absurd hm (List.not_mem_nil _)

theorem LazyMole.Dijk.src_scanned {m : LazyMole R} {cur : Nat} (hs : m.Struct)
    (hd : m.Dijk sqrt g f srcs cur []) (hnil : m.heap.nodes = []) {s : Nat} (h : s ∈ srcs) :
    m.status s = Label.SCANNED := by
  cases hc : m.status s with
  | UNVISITED => exact absurd hc (hd.src s h).1
  | VISITED => exact absurd hc (hs.not_visited hnil s)
  | SCANNED => rfl

/-- Once the heap is empty, every cell of a grid with a source is SCANNED. -/
theorem LazyMole.Dijk.all_scanned {m : LazyMole R} {cur : Nat} (hf : g.Fits) (hs : m.Struct)
    (hd : m.Dijk sqrt g f srcs cur []) (hnil : m.heap.nodes = []) (hne : srcs ≠ [])
    (hsrc : ∀ s ∈ srcs, s < g.numberOfCells) :
    ∀ c, c < g.numberOfCells → m.status c = Label.SCANNED := by
  obtain ⟨s, hsm⟩ := List.exists_mem_of_ne_nil srcs hne
  refine g.connected hf (fun c => m.status c = Label.SCANNED) ?_ (hsrc s hsm)
    (hd.src_scanned hs hnil hsm)
  intro a _ ha b hb
  rcases hd.front a ha b hb (fun _ => List.not_mem_nil _) with h | ⟨k, e, -, hm, -⟩
  · exact h
  · rw [hnil] at hm
    exact absurd hm (List.not_mem_nil _)

/-- The resistance of a SCANNED cell is the least cost of a route to it. -/
theorem LazyMole.Dijk.isLeast {m : LazyMole R} {cur : Nat} {pend : List Nat}
    (hd : m.Dijk sqrt g f srcs cur pend) {c : Nat} (hc : m.status c = Label.SCANNED) :
    IsLeast (routeCosts g.neighbors (computeResistance sqrt g f) srcs c) (m.smallestRes c) := by
  constructor
  · obtain ⟨l, -, -, -, h4, h5⟩ := hd.chain c hc
    exact ⟨l, h4, h5⟩
  · rintro r ⟨l, hl, rfl⟩
    exact hd.lower c hc l hl

/-- The walk from a SCANNED cell, with the facts the invariant gives on it. -/
theorem LazyMole.Dijk.walk_spec {m : LazyMole R} {cur : Nat} {pend : List Nat}
    (hd : m.Dijk sqrt g f srcs cur pend) {c : Nat} (hc : m.status c = Label.SCANNED) :
    ∃ l, (∀ k, g.numberOfCells ≤ k → m.walk k c = some l) ∧
      (∀ x ∈ l, m.status x = Label.SCANNED) ∧ IsRoute g.neighbors srcs c l ∧
      walkCost (computeResistance sqrt g f) l = m.smallestRes c := by
  obtain ⟨l, h1, h2, h3, h4, h5⟩ := hd.chain c hc
  refine ⟨l, ?_, h3, h4, h5⟩
  intro k hk
  refine LazyMole.walk_mono _ _ _ h1 k (le_trans ?_ hk)
  have hsub : l ⊆ List.range g.numberOfCells := by
    intro x hx
    rw [List.mem_range]
    exact hd.range x (by rw [h3 x hx]; exact Label.noConfusion)
  have := (List.subperm_of_subset h2 hsub).length_le
  rwa [List.length_range] at this

theorem chain'_and {α : Type} {r s : α → α → Prop} :
    ∀ {l : List α}, l.Chain' r → l.Chain' s → l.Chain' (fun a b => r a b ∧ s a b)
  | [], _, _ => List.chain'_nil
  | [_], _, _ => List.chain'_singleton _
  | a :: b :: l, h1, h2 => by
    rw [List.chain'_cons] at h1 h2 ⊢
    exact ⟨⟨h1.1, h2.1⟩, chain'_and h1.2 h2.2⟩

theorem chain'_imp_mem {α : Type} {r s : α → α → Prop} :
    ∀ {l : List α}, (∀ a ∈ l, ∀ b ∈ l, r a b → s a b) → l.Chain' r → l.Chain' s
  | [], _, _ => List.chain'_nil
  | [_], _, _ => List.chain'_singleton _
  | a :: b :: l, h, h1 => by
    rw [List.chain'_cons] at h1 ⊢
    refine ⟨h a (List.mem_cons_self _ _) b (List.mem_cons_of_mem _ (List.mem_cons_self _ _)) h1.1,
      chain'_imp_mem (fun x hx y hy => h x (List.mem_cons_of_mem _ hx) y
        (List.mem_cons_of_mem _ hy)) h1.2⟩

/-- Marking the cells of a list with `1` in the all-zero field marks exactly
the cells of the list. -/
theorem foldl_mark (l : List Nat) (pf : Nat → Nat) (c : Nat) :
    l.foldl (fun q x => Function.update q x 1) pf c = if c ∈ l then 1 else pf c := by
  induction l generalizing pf with
  | nil => simp
  | cons x xs ih =>
    rw [List.foldl_cons, ih]
    by_cases hx : c ∈ xs
    · rw [if_pos hx, if_pos (List.mem_cons_of_mem _ hx)]
    · rw [if_neg hx]
      by_cases hcx : c = x
      · rw [hcx, Function.update_same, if_pos (List.mem_cons_self _ _)]
      · rw [Function.update_noteq hcx, if_neg]
        intro h
        rcases List.mem_cons.1 h with h | h
        · exact hcx h
        · exact hx h

end FinalLemmas

section ExtractLemmas
variable {R : Type} [LinearOrderedField R]
variable {sqrt : R → R} {g : CartesianGrid R} {f : Nat → R} {srcs : List Nat}

theorem LazyMole.extracted_done (sqrt : R → R) (tie : Nat → Nat) (fuel : Nat) {m : LazyMole R}
    (h : m.heap.nodes = []) : m.extracted sqrt tie fuel = [] := by
  unfold LazyMole.extracted
  rw [if_pos ((Heap.empty_iff _).2 h)]

theorem LazyMole.extracted_step (sqrt : R → R) (tie : Nat → Nat) (fuel : Nat) {m m1 : LazyMole R}
    {n : Nat × CellElement R} (h : m.heap.nodes ≠ []) (ht : m.heap.top (tie 0) = some n)
    (hsc : m.scan sqrt (tie 0) = some m1) :
    m.extracted sqrt tie (fuel + 1) =
      n.2 :: LazyMole.extracted sqrt (fun k => tie (k + 1)) fuel m1 := by
  rw [LazyMole.extracted]
  rw [if_neg (fun he => h ((Heap.empty_iff _).1 he))]
  simp only [ht, hsc]

/-- The resistances of the extracted elements never increase, and stay below
any bound on the heap. -/
theorem LazyMole.extracted_chain (hS : Setting sqrt g f srcs) :
    ∀ (fuel : Nat) (tie : Nat → Nat) (m : LazyMole R) (cur : Nat) (B : R), m.Struct →
      m.Dijk sqrt g f srcs cur [] → (∀ a ∈ m.heap.nodes, a.2.res ≤ B) →
      List.Chain (fun x y => x ≤ y) (-B) (m.scannedRes sqrt tie fuel) := by
  intro fuel
  induction fuel with
  | zero =>
    intro tie m cur B _ _ _
    have : m.scannedRes sqrt tie 0 = [] := by
      unfold LazyMole.scannedRes LazyMole.extracted
      split_ifs <;> rfl
    rw [this]
    exact List.Chain.nil
  | succ fuel ih =>
    intro tie m cur B hs hd hB
    by_cases hnil : m.heap.nodes = []
    · unfold LazyMole.scannedRes
      rw [LazyMole.extracted_done sqrt tie _ hnil]
      exact List.Chain.nil
    · obtain ⟨n, m1, ht, e1, s1, d1, -, -, b1, -, -, -, -⟩ :=
        LazyMole.scan_step (tie 0) hS hs hd hnil
      unfold LazyMole.scannedRes
      rw [LazyMole.extracted_step sqrt tie fuel hnil ht e1, List.map_cons]
      refine List.Chain.cons (neg_le_neg (hB n (Heap.top_some ht).1)) ?_
      exact ih (fun k => tie (k + 1)) m1 n.2.cell n.2.res s1 d1 b1

/-- The extracted elements are the cells the loop marks SCANNED, each at the
resistance it keeps. -/
theorem LazyMole.extracted_spec (hS : Setting sqrt g f srcs) :
    ∀ (fuel : Nat) (tie : Nat → Nat) (m : LazyMole R) (cur : Nat), m.Struct →
      m.Dijk sqrt g f srcs cur [] → m.measure g.numberOfCells ≤ fuel →
      ∃ m', m.runLoop sqrt tie fuel = some m' ∧
        (∀ e ∈ m.extracted sqrt tie fuel,
          m'.status e.cell = Label.SCANNED ∧ m'.smallestRes e.cell = -e.res) ∧
        (∀ x, m'.status x = Label.SCANNED →
          m.status x = Label.SCANNED ∨ ∃ e ∈ m.extracted sqrt tie fuel, e.cell = x) := by
  intro fuel
  induction fuel with
  | zero =>
    intro tie m cur hs hd hμ
    have hnil : m.heap.nodes = [] := by
      unfold LazyMole.measure at hμ
      exact List.length_eq_zero.1 (by omega)
    refine ⟨m, LazyMole.runLoop_done sqrt tie 0 hnil, ?_, fun x hx => Or.inl hx⟩
    rw [LazyMole.extracted_done sqrt tie 0 hnil]
    intro e he
    exact absurd he (List.not_mem_nil _)
  | succ fuel ih =>
    intro tie m cur hs hd hμ
    by_cases hnil : m.heap.nodes = []
    · refine ⟨m, LazyMole.runLoop_done sqrt tie _ hnil, ?_, fun x hx => Or.inl hx⟩
      rw [LazyMole.extracted_done sqrt tie _ hnil]
      intro e he
      exact absurd he (List.not_mem_nil _)
    · obtain ⟨n, m1, ht, e1, s1, d1, μ1, -, -, -, c1, r1, z1⟩ :=
        LazyMole.scan_step (tie 0) hS hs hd hnil
      obtain ⟨m2, e2, a2, b2⟩ := ih (fun k => tie (k + 1)) m1 n.2.cell s1 d1 (by omega)
      obtain ⟨m2', -, e2', -, -, -, f2⟩ :=
        LazyMole.runLoop_spec hS fuel (fun k => tie (k + 1)) m1 n.2.cell s1 d1 (by omega)
      have hm2 : m2' = m2 := Option.some.inj (e2'.symm.trans e2)
      subst hm2
      refine ⟨m2', ?_, ?_, ?_⟩
      · rw [LazyMole.runLoop_step sqrt tie fuel hnil, e1]
        exact e2
      · rw [LazyMole.extracted_step sqrt tie fuel hnil ht e1]
        intro e he
        rcases List.mem_cons.1 he with h | h
        · rw [h]
          obtain ⟨q1, -, q3⟩ := f2.scanned _ c1
          exact ⟨q1, q3.trans r1⟩
        · exact a2 e h
      · rw [LazyMole.extracted_step sqrt tie fuel hnil ht e1]
        intro x hx
        rcases b2 x hx with h | ⟨e, he, hex⟩
        · rcases z1 x h with h' | h'
          · exact Or.inl h'
          · exact Or.inr ⟨n.2, List.mem_cons_self _ _, h'.symm⟩
        · exact Or.inr ⟨e, List.mem_cons_of_mem _ he, hex⟩

end ExtractLemmas

section Tier1Lemmas
variable {R : Type} [LinearOrderedField R]

theorem LazyMole.relax_struct (sqrt : R → R) (c : Nat) (r : R) {m m1 : LazyMole R} (n : Nat)
    (hs : m.Struct) (h : m.relax sqrt c r n = some m1) :
    m1.Struct ∧ m1.isReady = m.isReady ∧ m1.gridPtr = m.gridPtr := by
  rcases LazyMole.relax_cases sqrt c r m n hs with
    ⟨-, h2⟩ | ⟨h1, h2⟩ | ⟨-, k, e, h2, h3, h4, ⟨-, h6⟩ | ⟨-, h6⟩⟩
  · rw [h2] at h; rw [← Option.some.inj h]; exact ⟨hs, rfl, rfl⟩
  · rw [h2] at h; rw [← Option.some.inj h]; exact ⟨hs.struct_visit c n _ h1, rfl, rfl⟩
  · rw [h6] at h; rw [← Option.some.inj h]; exact ⟨hs, rfl, rfl⟩
  · rw [h6] at h; rw [← Option.some.inj h]; exact ⟨hs.struct_improve c n _ h2 h3 h4, rfl, rfl⟩

theorem LazyMole.relaxAll_struct (sqrt : R → R) (c : Nat) (r : R) :
    ∀ (ns : List Nat) (m m1 : LazyMole R), m.Struct →
      ns.foldlM (LazyMole.relax sqrt c r) m = some m1 →
      m1.Struct ∧ m1.isReady = m.isReady ∧ m1.gridPtr = m.gridPtr := by
  intro ns
  induction ns with
  | nil =>
    intro m m1 hs h
    have : m = m1 := by simpa using h
    rw [← this]; exact ⟨hs, rfl, rfl⟩
  | cons n ns ih =>
    intro m m1 hs h
    rw [List.foldlM_cons] at h
    cases h1 : m.relax sqrt c r n with
    | none => rw [h1] at h; simp at h
    | some m2 =>
      rw [h1] at h
      obtain ⟨a1, a2, a3⟩ := LazyMole.relax_struct sqrt c r n hs h1
      obtain ⟨b1, b2, b3⟩ := ih m2 m1 a1 h
      exact ⟨b1, b2.trans a2, b3.trans a3⟩

theorem LazyMole.scan_struct (sqrt : R → R) (tie : Nat) {m m1 : LazyMole R} (hs : m.Struct)
    (h : m.scan sqrt tie = some m1) :
    m1.Struct ∧ m1.isReady = m.isReady ∧ m1.gridPtr = m.gridPtr := by
  cases ht : m.heap.top tie with
  | none =>
    unfold LazyMole.scan at h
    rw [ht] at h
    simp at h
  | some n =>
    rw [LazyMole.scan_eq sqrt ht] at h
    obtain ⟨a1, a2, a3⟩ := LazyMole.relaxAll_struct sqrt _ _ _ (m.settle tie n) m1 (hs.struct_settle ht) h
    exact ⟨a1, a2, a3⟩

/-- Whatever the field, a `while` loop that ends leaves an empty heap and
keeps the bookkeeping invariant. -/
theorem LazyMole.runLoop_struct (sqrt : R → R) :
    ∀ (fuel : Nat) (tie : Nat → Nat) (m m1 : LazyMole R), m.Struct →
      m.runLoop sqrt tie fuel = some m1 → m1.Struct ∧ m1.heap.nodes = [] ∧
        m1.isReady = m.isReady ∧ m1.gridPtr = m.gridPtr := by
  intro fuel
  induction fuel with
  | zero =>
    intro tie m m1 hs h
    by_cases hnil : m.heap.nodes = []
    · rw [LazyMole.runLoop_done sqrt tie 0 hnil] at h
      rw [← Option.some.inj h]
      exact ⟨hs, hnil, rfl, rfl⟩
    · unfold LazyMole.runLoop at h
      rw [if_neg (fun he => hnil ((Heap.empty_iff _).1 he))] at h
      simp at h
  | succ fuel ih =>
    intro tie m m1 hs h
    by_cases hnil : m.heap.nodes = []
    · rw [LazyMole.runLoop_done sqrt tie _ hnil] at h
      rw [← Option.some.inj h]
      exact ⟨hs, hnil, rfl, rfl⟩
    · rw [LazyMole.runLoop_step sqrt tie fuel hnil] at h
      cases h1 : m.scan sqrt (tie 0) with
      | none => rw [h1] at h; simp at h
      | some m2 =>
        rw [h1] at h
        obtain ⟨b1, b2, b3⟩ := LazyMole.scan_struct sqrt _ hs h1
        obtain ⟨a1, a2, a3, a4⟩ := ih _ m2 m1 b1 h
        exact ⟨a1, a2, a3.trans b2, a4.trans b3⟩

/-- A completed `run` leaves every cell that is not SCANNED as the
constructor made it: UNVISITED, without predecessor, at the sentinel
resistance. -/
theorem LazyMole.run_unreached (sqrt : R → R) (g : CartesianGrid R) (f : Nat → R)
    (srcs : List Nat) (tie : Nat → Nat) (fuel : Nat) {m1 : LazyMole R}
    (h : (LazyMole.new g f srcs).run sqrt tie fuel = some m1) :
    m1.isReady = true ∧ m1.gridPtr = g ∧
    ∀ c, m1.status c ≠ Label.SCANNED →
      m1.status c = Label.UNVISITED ∧ m1.previous c = EMPTY ∧ m1.smallestRes c = INF := by
  unfold LazyMole.run at h
  obtain ⟨m2, h2, rfl⟩ := Option.map_eq_some'.1 h
  obtain ⟨hi, -⟩ := LazyMole.new_init g f srcs
  obtain ⟨a1, a2, -, a4⟩ := LazyMole.runLoop_struct sqrt fuel tie _ m2 hi.struct h2
  refine ⟨rfl, a4.trans hi.hg, ?_⟩
  intro c hc
  have hc' : m2.status c ≠ Label.SCANNED := hc
  have hu : m2.status c = Label.UNVISITED := by
    cases hst : m2.status c with
    | UNVISITED => rfl
    | VISITED => exact absurd hst (a1.not_visited a2 c)
    | SCANNED => exact absurd hst hc'
  exact ⟨hu, a1.unvisited c hu⟩

end Tier1Lemmas

section PathEq
variable {R : Type}

theorem LazyMole.path_eq (m : LazyMole R) (hr : m.isReady = true) (k c : Nat) :
    m.path k c = (m.walk k c).map fun l => fun x => if x ∈ l then 1 else 0 := by
  unfold LazyMole.path
  simp only [hr, Bool.not_true, Bool.false_eq_true, if_false]
  rw [LazyMole.pathLoop_eq_walk]
  cases m.walk k c with
  | none => rfl
  | some l =>
    simp only [Option.map_some', Option.some.injEq]
    funext x
    exact foldl_mark l _ x

theorem LazyMole.exportPath_eq [Field R] (m : LazyMole R) (hr : m.isReady = true) (k c : Nat) :
    m.exportPath true k c = (m.walk k c).map fun l => l.map m.gridPtr.centerOfCell := by
  unfold LazyMole.exportPath
  simp only [hr, Bool.not_true, Bool.false_eq_true, if_false, if_true]
  rw [LazyMole.exportLoop_eq_walk]
  cases m.walk k c <;> simp

end PathEq

/-! # Lemmas on the spatial lookup and on the resistances -/

section LookupLemmas

variable {R : Type} [LinearOrderedField R] [FloorRing R]

theorem castInt_of_nonneg {x : R} (h0 : 0 ≤ x) (h1 : Int.floor x < INT_HALF) :
    castInt x = some (Int.floor x) := by
  unfold castInt
  have h2 : (0 : Int) ≤ Int.floor x := Int.floor_nonneg.2 h0
  have h3 : -INT_HALF ≤ Int.floor x := by
    have : (0 : Int) ≤ INT_HALF := by decide
    omega
  simp only [h0, if_true, h3, h1, and_self]

theorem castInt_of_neg {x : R} (h0 : x < 0) (h1 : -INT_HALF ≤ Int.ceil x) :
    castInt x = some (Int.ceil x) := by
  unfold castInt
  have h2 : Int.ceil x ≤ 0 := Int.ceil_le.2 (by simpa using le_of_lt h0)
  have h3 : Int.ceil x < INT_HALF := by
    have : (0 : Int) < INT_HALF := by decide
    omega
  simp only [not_le.2 h0, if_false, h1, h3, and_self, if_true]

/-- The cast of an offset inside the extent of an axis. -/
theorem axis_inside {cell d : R} {n : Nat} (hc : 0 < cell) (h0 : 0 ≤ d)
    (h1 : d < cell * (n : R)) (hn : (n : Int) < INT_HALF) :
    castInt (d / cell) = some (Int.floor (d / cell)) ∧ 0 ≤ Int.floor (d / cell) ∧
      Int.floor (d / cell) < (n : Int) ∧ d ≠ cell * (n : R) := by
  have hq0 : 0 ≤ d / cell := div_nonneg h0 (le_of_lt hc)
  have hq1 : d / cell < (n : R) := by
    rw [div_lt_iff₀ hc, mul_comm]; exact h1
  have hf0 : 0 ≤ Int.floor (d / cell) := Int.floor_nonneg.2 hq0
  have hf1 : Int.floor (d / cell) < (n : Int) := by
    rw [Int.floor_lt]
    simpa using hq1
  exact ⟨castInt_of_nonneg hq0 (lt_trans hf1 hn), hf0, hf1, ne_of_lt h1⟩

/-- The cast and the decrement for an offset exactly on the upper boundary. -/
theorem axis_boundary {cell d : R} {n : Nat} (hc : 0 < cell) (h1 : d = cell * (n : R))
    (hn : (n : Int) < INT_HALF) :
    castInt (d / cell) = some (n : Int) ∧ decInt (n : Int) = some ((n : Int) - 1) := by
  have hq : d / cell = (n : R) := by
    rw [h1, mul_div_cancel_left₀ _ (ne_of_gt hc)]
  have hfl : Int.floor (d / cell) = (n : Int) := by
    rw [hq]; exact Int.floor_natCast n
  have h0 : 0 ≤ d / cell := by rw [hq]; exact Nat.cast_nonneg n
  constructor
  · rw [castInt_of_nonneg h0 (by rw [hfl]; exact hn), hfl]
  · unfold decInt
    have : -INT_HALF ≤ (n : Int) - 1 := by
      have : (0 : Int) < INT_HALF := by decide
      omega
    rw [if_pos this]

/-- The cast of an offset less than one cell below the origin is `0`. -/
theorem axis_below {cell d : R} (n : Nat) (hc : 0 < cell) (h0 : d < 0) (h1 : -cell < d) :
    castInt (d / cell) = some 0 ∧ d ≠ cell * (n : R) := by
  have hq0 : d / cell < 0 := div_neg_of_neg_of_pos h0 hc
  have hq1 : -1 < d / cell := by
    rw [lt_div_iff₀ hc]; simpa using h1
  have hce : Int.ceil (d / cell) = 0 := by
    rw [Int.ceil_eq_iff]
    constructor
    · simpa using hq1
    · simpa using le_of_lt hq0
  constructor
  · rw [castInt_of_neg hq0 (by rw [hce]; decide), hce]
  · intro h
    have : 0 ≤ cell * (n : R) := mul_nonneg (le_of_lt hc) (Nat.cast_nonneg n)
    rw [← h] at this
    exact absurd h0 (not_lt.2 this)

theorem intToSize_of_nonneg {i : Int} (h0 : 0 ≤ i) (h1 : i < INT_HALF) :
    intToSize i = i.toNat := by
  unfold intToSize
  have h2 : i < (SIZE_MOD : Int) := lt_trans h1 (by decide)
  rw [Int.emod_eq_of_lt h0 h2]

theorem axisTarget_inside {cell d : R} {n : Nat} (h : d ≠ cell * (n : R)) :
    axisTarget cell n d = (Int.floor (d / cell)).toNat := by
  unfold axisTarget
  rw [if_neg h]

theorem axisTarget_boundary {cell d : R} {n : Nat} (h : d = cell * (n : R)) :
    axisTarget cell n d = n - 1 := by
  unfold axisTarget
  rw [if_pos h]

/-- One axis of `idCell`, for an offset inside the extent or exactly on its
upper boundary: the cast and the conditional decrement give the index of the
data model, which is the index of a cell. -/
theorem axis_in_domain {cell d : R} {n : Nat} (hc : 0 < cell) (hn : (n : Int) < INT_HALF)
    (hd : (0 ≤ d ∧ d < cell * (n : R)) ∨ (d = cell * (n : R) ∧ 0 < n)) :
    ∃ i : Int, castInt (d / cell) = some i ∧
      (if d = cell * (n : R) then decInt i else some i) = some (axisTarget cell n d : Int) ∧
      axisTarget cell n d < n := by
  rcases hd with ⟨h0, h1⟩ | ⟨h1, h0⟩
  · obtain ⟨a1, a2, a3, a4⟩ := axis_inside hc h0 h1 hn
    refine ⟨_, a1, ?_, ?_⟩
    · rw [if_neg a4, axisTarget_inside a4, Int.toNat_of_nonneg a2]
    · rw [axisTarget_inside a4]
      omega
  · obtain ⟨a1, a2⟩ := axis_boundary hc h1 hn
    refine ⟨_, a1, ?_, ?_⟩
    · rw [if_pos h1, a2, axisTarget_boundary h1]
      congr 1
      omega
    · rw [axisTarget_boundary h1]
      omega

end LookupLemmas

section ExactLemmas

variable {R : Type} [Field R]

/-- Where the operations along an axis are exact, the rounded quotient and
the rounded boundary test are those of exact arithmetic. -/
theorem ExactAxis.unround {fl : R → R} {cell d : R} {n : Nat} (h : ExactAxis fl cell n d) :
    fl (fl d / cell) = d / cell ∧ (fl d = fl (cell * fl (n : R)) ↔ d = cell * (n : R)) := by
  obtain ⟨h1, h2, h3⟩ := h
  rw [h1, h2, h3]
  exact ⟨rfl, Iff.rfl⟩

end ExactLemmas

section LookupLemmas

variable {R : Type} [LinearOrderedField R] [FloorRing R]

/-- One axis of `idCell` where its operations are exact, for an offset inside
the extent or exactly on its upper boundary. -/
theorem axis_in_domain_rounded {fl : R → R} {cell d : R} {n : Nat}
    (hex : ExactAxis fl cell n d) (hc : 0 < cell) (hn : (n : Int) < INT_HALF)
    (hd : (0 ≤ d ∧ d < cell * (n : R)) ∨ (d = cell * (n : R) ∧ 0 < n)) :
    ∃ i : Int, castInt (fl (fl d / cell)) = some i ∧
      (if fl d = fl (cell * fl (n : R)) then decInt i else some i) =
        some (axisTarget cell n d : Int) ∧
      axisTarget cell n d < n := by
  obtain ⟨i, h1, h2, h3⟩ := axis_in_domain hc hn hd
  obtain ⟨e1, e2⟩ := hex.unround
  refine ⟨i, by rw [e1]; exact h1, ?_, h3⟩
  by_cases hb : d = cell * (n : R)
  · rw [if_pos (e2.2 hb)]
    rw [if_pos hb] at h2
    exact h2
  · rw [if_neg (fun h => hb (e2.1 h))]
    rw [if_neg hb] at h2
    exact h2

/-- What `idCell` returns once the three casts and decrements are known. -/
theorem CartesianGrid.idCell_of_indices (g : CartesianGrid R) (fl : R → R) (p : Point3D R)
    {i j k : Int} {a b c : Nat}
    (hi : castInt (fl (fl (p.p0 - g._p0.p0) / g._dx)) = some i)
    (hj : castInt (fl (fl (p.p1 - g._p0.p1) / g._dy)) = some j)
    (hk : castInt (fl (fl (p.p2 - g._p0.p2) / g._dz)) = some k)
    (ha : (if fl (p.p0 - g._p0.p0) = fl (g._dx * fl (g._nx : R)) then decInt i else some i) =
      some (a : Int))
    (hb : (if fl (p.p1 - g._p0.p1) = fl (g._dy * fl (g._ny : R)) then decInt j else some j) =
      some (b : Int))
    (hc : (if fl (p.p2 - g._p0.p2) = fl (g._dz * fl (g._nz : R)) then decInt k else some k) =
      some (c : Int))
    (hax : a < g._nx) (hby : b < g._ny) (hcz : c < g._nz) (hint : g.IntFits) :
    g.idCell fl p = IdCellResult.cell (g.mergeIds a b c) ∧ g.isInside fl p = some true := by
  have e : g.idCellIndices fl p = some ((a : Int), (b : Int), (c : Int)) := by
    unfold CartesianGrid.idCellIndices
    simp only [show p.get 0 = p.p0 from rfl, show p.get 1 = p.p1 from rfl,
      show p.get 2 = p.p2 from rfl, show g._p0.get 0 = g._p0.p0 from rfl,
      show g._p0.get 1 = g._p0.p1 from rfl, show g._p0.get 2 = g._p0.p2 from rfl,
      hi, hj, hk, ha, hb, hc,
      Option.some_bind]
  obtain ⟨ix, iy, iz⟩ := hint
  have sa : intToSize (a : Int) = a := by
    rw [intToSize_of_nonneg (Int.natCast_nonneg a) (by omega)]; exact Int.toNat_natCast a
  have sb : intToSize (b : Int) = b := by
    rw [intToSize_of_nonneg (Int.natCast_nonneg b) (by omega)]; exact Int.toNat_natCast b
  have sc : intToSize (c : Int) = c := by
    rw [intToSize_of_nonneg (Int.natCast_nonneg c) (by omega)]; exact Int.toNat_natCast c
  have hcell : g.idCell fl p = IdCellResult.cell (g.mergeIds a b c) := by
    unfold CartesianGrid.idCell
    rw [e]
    simp only [sa, sb, sc, hax, hby, hcz, Int.natCast_nonneg, and_self, if_true]
    rfl
  refine ⟨hcell, ?_⟩
  unfold CartesianGrid.isInside
  rw [hcell]

end LookupLemmas

section LookupLemmas2

variable {R : Type} [LinearOrderedField R] [FloorRing R]

/-- What `idCell` and `isInside` return, where the operations of `idCell` are
exact, for a point that on each axis is inside the extent or exactly on its
upper boundary. -/
theorem CartesianGrid.idCell_in_domain (g : CartesianGrid R) (fl : R → R) (p : Point3D R)
    (hex : g.ExactAt fl p)
    (hdx : 0 < g._dx) (hdy : 0 < g._dy) (hdz : 0 < g._dz) (hint : g.IntFits)
    (hx : (0 ≤ p.p0 - g._p0.p0 ∧ p.p0 - g._p0.p0 < g._dx * (g._nx : R)) ∨
      (p.p0 - g._p0.p0 = g._dx * (g._nx : R) ∧ 0 < g._nx))
    (hy : (0 ≤ p.p1 - g._p0.p1 ∧ p.p1 - g._p0.p1 < g._dy * (g._ny : R)) ∨
      (p.p1 - g._p0.p1 = g._dy * (g._ny : R) ∧ 0 < g._ny))
    (hz : (0 ≤ p.p2 - g._p0.p2 ∧ p.p2 - g._p0.p2 < g._dz * (g._nz : R)) ∨
      (p.p2 - g._p0.p2 = g._dz * (g._nz : R) ∧ 0 < g._nz)) :
    (g.idCell fl p = IdCellResult.cell
        (g.mergeIds (axisTarget g._dx g._nx (p.p0 - g._p0.p0))
          (axisTarget g._dy g._ny (p.p1 - g._p0.p1))
          (axisTarget g._dz g._nz (p.p2 - g._p0.p2))) ∧
      g.isInside fl p = some true) ∧
    axisTarget g._dx g._nx (p.p0 - g._p0.p0) < g._nx ∧
    axisTarget g._dy g._ny (p.p1 - g._p0.p1) < g._ny ∧
    axisTarget g._dz g._nz (p.p2 - g._p0.p2) < g._nz := by
  obtain ⟨i, hi, ha, hax⟩ := axis_in_domain_rounded hex.1 hdx hint.1 hx
  obtain ⟨j, hj, hb, hby⟩ := axis_in_domain_rounded hex.2.1 hdy hint.2.1 hy
  obtain ⟨k, hk, hc, hcz⟩ := axis_in_domain_rounded hex.2.2 hdz hint.2.2 hz
  exact ⟨g.idCell_of_indices fl p hi hj hk ha hb hc hax hby hcz hint, hax, hby, hcz⟩

/-- What `idCell` and `isInside` return, where the operations of `idCell` are
exact, for a point less than one cell below the origin along x and inside the
extent along y and z: a cell of the first layer along x. -/
theorem CartesianGrid.idCell_below_origin (g : CartesianGrid R) (fl : R → R) (p : Point3D R)
    (hex : g.ExactAt fl p)
    (hdx : 0 < g._dx) (hdy : 0 < g._dy) (hdz : 0 < g._dz) (hint : g.IntFits)
    (hn : 0 < g._nx) (hx0 : p.p0 - g._p0.p0 < 0) (hx1 : -g._dx < p.p0 - g._p0.p0)
    (hy : 0 ≤ p.p1 - g._p0.p1 ∧ p.p1 - g._p0.p1 < g._dy * (g._ny : R))
    (hz : 0 ≤ p.p2 - g._p0.p2 ∧ p.p2 - g._p0.p2 < g._dz * (g._nz : R)) :
    ∃ b c, b < g._ny ∧ c < g._nz ∧
      g.idCell fl p = IdCellResult.cell (g.mergeIds 0 b c) ∧ g.isInside fl p = some true := by
  obtain ⟨hi, hne⟩ := axis_below g._nx hdx hx0 hx1
  obtain ⟨e1, e2⟩ := hex.1.unround
  obtain ⟨j, hj, hb, hby⟩ := axis_in_domain_rounded hex.2.1 hdy hint.2.1 (Or.inl hy)
  obtain ⟨k, hk, hc, hcz⟩ := axis_in_domain_rounded hex.2.2 hdz hint.2.2 (Or.inl hz)
  have ha : (if fl (p.p0 - g._p0.p0) = fl (g._dx * fl (g._nx : R)) then decInt 0
      else some 0) = some ((0 : Nat) : Int) := by
    rw [if_neg (fun h => hne (e2.1 h))]; rfl
  exact ⟨_, _, hby, hcz,
    g.idCell_of_indices fl p (by rw [e1]; exact hi) hj hk ha hb hc hn hby hcz hint⟩

end LookupLemmas2

section DiagLemmas

variable {R : Type} [LinearOrderedField R]

/-- A function that is at most `0` on the sources and grows along an edge by
at most the weight of the edge is a lower bound of the cost of every route. -/
theorem potential_bound {nb : Nat → List Nat} {w : Nat → Nat → R} {N : Nat}
    {srcs : List Nat} (φ : Nat → R) (hcl : ∀ a < N, ∀ b ∈ nb a, b < N)
    (hs : ∀ s ∈ srcs, s < N ∧ φ s ≤ 0)
    (he : ∀ a < N, ∀ b ∈ nb a, φ b ≤ φ a + w a b) :
    ∀ (l : List Nat) (x : Nat), IsRoute nb srcs x l → x < N ∧ φ x ≤ walkCost w l := by
  intro l
  induction l with
  | nil =>
    intro x hl
    have := hl.1
    simp at this
  | cons y ys ih =>
    intro x hl
    rcases isRoute_cases hl with ⟨h1, h2⟩ | ⟨p, rest, h1, h2, h3⟩
    · rw [h1, walkCost_single]
      exact hs x h2
    · have e : ys = p :: rest := (List.cons.inj h1).2
      rw [e] at ih
      obtain ⟨i1, i2⟩ := ih p h3
      rw [h1, walkCost_cons]
      refine ⟨hcl p i1 x h2, ?_⟩
      have := he p i1 x h2
      linarith

/-- The resistance between two cells with the same field value `k`, from the
squared differences of their indices. -/
theorem computeResistance_of_splitId (sqrt : R → R) (g : CartesianGrid R) (f : Nat → R)
    {a b : Nat} {k : R} (ha : f a = k) (hb : f b = k) (t : R)
    (ht : (((g.splitId a).1 : R) - ((g.splitId b).1 : R)) ^ 2 * g._dx ^ 2 +
      (((g.splitId a).2.1 : R) - ((g.splitId b).2.1 : R)) ^ 2 * g._dy ^ 2 +
      (((g.splitId a).2.2 : R) - ((g.splitId b).2.2 : R)) ^ 2 * g._dz ^ 2 = t) :
    computeResistance sqrt g f a b = sqrt t / k := by
  unfold computeResistance Point3D.distanceFrom CartesianGrid.centerOfCell
    CartesianGrid.centerOfCell3 Point3D.add
  simp only []
  rw [ha, hb, ← ht]
  have e : ∀ u v : R, u = v → sqrt u / 2 / k + sqrt u / 2 / k = sqrt v / k := by
    intro u v h
    rw [h]
    ring
  apply e
  ring

/-- A square root is determined on squares of what is not negative. -/
theorem sqrt_sq_of_nonneg {sqrt : R → R}
    (hsq : ∀ x, 0 ≤ x → 0 ≤ sqrt x ∧ sqrt x * sqrt x = x) {a : R} (ha : 0 ≤ a) :
    sqrt (a ^ 2) = a := by
  obtain ⟨h1, h2⟩ := hsq (a ^ 2) (sq_nonneg a)
  have h3 : sqrt (a ^ 2) * sqrt (a ^ 2) = a * a := by rw [h2]; ring
  exact (mul_self_inj h1 ha).1 h3

/-- The diagonal of a rectangle is at least each side and less than their
sum. -/
theorem diagonal_bounds {sqrt : R → R}
    (hsq : ∀ x, 0 ≤ x → 0 ≤ sqrt x ∧ sqrt x * sqrt x = x) {a b : R} (ha : 0 < a)
    (hb : 0 < b) :
    a ≤ sqrt (a ^ 2 + b ^ 2) ∧ b ≤ sqrt (a ^ 2 + b ^ 2) ∧ sqrt (a ^ 2 + b ^ 2) < a + b := by
  obtain ⟨h1, h2⟩ := hsq (a ^ 2 + b ^ 2) (add_nonneg (sq_nonneg a) (sq_nonneg b))
  refine ⟨?_, ?_, ?_⟩
  · by_contra h
    have := mul_self_lt_mul_self h1 (not_le.1 h)
    nlinarith [mul_self_nonneg b]
  · by_contra h
    have := mul_self_lt_mul_self h1 (not_le.1 h)
    nlinarith [mul_self_nonneg a]
  · by_contra h
    have := mul_self_le_mul_self (le_of_lt (add_pos ha hb)) (not_lt.1 h)
    nlinarith [mul_pos ha hb]

end DiagLemmas

section DiagSplit

/-- The indices of the cells of a grid of 2 x 2 x 1 cells. -/
theorem splitId_2x2 {R : Type} (g : CartesianGrid R) (h1 : g._nx = 2) (h2 : g._ny = 2) {a : Nat}
    (ha : a < 4) : g.splitId a = (a % 2, a / 2, 0) := by
  unfold CartesianGrid.splitId
  rw [h1, h2]
  interval_cases a <;> rfl

end DiagSplit

section DiagLemmas2

variable {R : Type} [LinearOrderedField R]

/-- The resistances between the cells of a grid of 2 x 2 x 1 cells with the
same field value `k` in every cell: `0` from a cell to itself, `dx/k` along x,
`dy/k` along y, and the diagonal over `k` otherwise. -/
theorem computeResistance_2x2 {sqrt : R → R}
    (hsq : ∀ x, 0 ≤ x → 0 ≤ sqrt x ∧ sqrt x * sqrt x = x) (g : CartesianGrid R) (f : Nat → R)
    (k : R) (h1 : g._nx = 2) (h2 : g._ny = 2) (hdx : 0 < g._dx) (hdy : 0 < g._dy)
    (hf : ∀ c, c < 4 → f c = k) {a b : Nat} (ha : a < 4) (hb : b < 4) :
    computeResistance sqrt g f a b =
      (if a % 2 = b % 2 then (if a / 2 = b / 2 then 0 else g._dy)
        else (if a / 2 = b / 2 then g._dx else sqrt (g._dx ^ 2 + g._dy ^ 2))) / k := by
  have s0 : sqrt 0 = 0 := by
    have := sqrt_sq_of_nonneg hsq (le_refl (0 : R))
    rwa [zero_pow (by decide)] at this
  have sx := sqrt_sq_of_nonneg hsq (le_of_lt hdx)
  have sy := sqrt_sq_of_nonneg hsq (le_of_lt hdy)
  rw [computeResistance_of_splitId sqrt g f (hf a ha) (hf b hb) _ rfl,
    splitId_2x2 g h1 h2 ha, splitId_2x2 g h1 h2 hb]
  interval_cases a <;> interval_cases b <;> norm_num [s0, sx, sy]

end DiagLemmas2

/-! # Lemmas that hold whatever the field, and lemmas on the field loader -/

section RelinkLemma
variable {R : Type} {g : CartesianGrid R}

/-- A change of the predecessor of a cell that is not SCANNED, to a SCANNED
cell, keeps the invariant on the predecessor links. -/
theorem LazyMole.Tree.tree_relink {m m1 : LazyMole R} (ht : m.Tree g) {c n : Nat}
    (hc : m.status c = Label.SCANNED) (hn : m.status n ≠ Label.SCANNED)
    (hnN : n < g.numberOfCells) (hg : m1.gridPtr = m.gridPtr)
    (hst : ∀ x, x ≠ n → m1.status x = m.status x)
    (hstn : m1.status n = m.status n ∨ m1.status n = Label.VISITED)
    (hpr : m1.previous = Function.update m.previous n c) : m1.Tree g := by
  have hmono : ∀ x, m.status x = Label.SCANNED → m1.status x = Label.SCANNED := by
    intro x hx
    have hxn : x ≠ n := by
      intro h; rw [h] at hx; exact hn hx
    rw [hst x hxn]; exact hx
  constructor
  · rw [hg]; exact ht.hg
  · intro x hx
    by_cases h : x = n
    · rw [h]; exact hnN
    · rw [hst x h] at hx
      exact ht.range x hx
  · intro x hx
    rw [hpr] at hx ⊢
    by_cases h : x = n
    · rw [h, Function.update_same]
      exact hmono c hc
    · rw [Function.update_noteq h] at hx ⊢
      exact hmono _ (ht.prev x hx)
  · intro x hx
    have hx' : m.status x = Label.SCANNED := by
      by_cases h : x = n
      · rw [h] at hx
        rcases hstn with h1 | h1
        · rw [h1] at hx; exact absurd hx hn
        · rw [h1] at hx; exact Label.noConfusion hx
      · rw [hst x h] at hx; exact hx
    obtain ⟨l, h1, h2, h3⟩ := ht.chain x hx'
    refine ⟨l, LazyMole.walk_congr _ _ _ h1 ?_, h2, fun y hy => hmono y (h3 y hy)⟩
    intro y hy
    have hyn : y ≠ n := by
      intro h; rw [h] at hy; exact hn (h3 n hy)
    rw [hpr, Function.update_noteq hyn]

end RelinkLemma

section TreeLemmas
variable {R : Type} [LinearOrderedField R]
variable {g : CartesianGrid R}

theorem LazyMole.Tree.tree_settle {tie : Nat} {m : LazyMole R} (hs : m.Struct)
    (ht : m.Tree g) {n : Nat × CellElement R} (htop : m.heap.top tie = some n) :
    (m.settle tie n).Tree g := by
  obtain ⟨hn, -⟩ := Heap.top_some htop
  have hmono : ∀ x, m.status x = Label.SCANNED → (m.settle tie n).status x = Label.SCANNED := by
    intro x hx
    show Function.update m.status n.2.cell Label.SCANNED x = Label.SCANNED
    by_cases h : x = n.2.cell
    · rw [h, Function.update_same]
    · rw [Function.update_noteq h]; exact hx
  have hold : ∀ x, m.status x = Label.SCANNED →
      ∃ l, (m.settle tie n).walk l.length x = some l ∧ l.Nodup ∧
        ∀ y ∈ l, (m.settle tie n).status y = Label.SCANNED := by
    intro x hx
    obtain ⟨l, h1, h2, h3⟩ := ht.chain x hx
    exact ⟨l, LazyMole.walk_congr _ _ _ h1 (fun _ _ => rfl), h2, fun y hy => hmono y (h3 y hy)⟩
  constructor
  · exact ht.hg
  · intro c hc
    have hc' : Function.update m.status n.2.cell Label.SCANNED c ≠ Label.UNVISITED := hc
    by_cases h : c = n.2.cell
    · rw [h]
      exact ht.range _ (hs.live n hn)
    · rw [Function.update_noteq h] at hc'
      exact ht.range c hc'
  · intro c hc
    exact hmono _ (ht.prev c hc)
  · intro c hc
    have hc' : Function.update m.status n.2.cell Label.SCANNED c = Label.SCANNED := hc
    by_cases h : c = n.2.cell
    · by_cases hsc : m.status c = Label.SCANNED
      · exact hold c hsc
      · by_cases hp : m.previous c ≠ EMPTY
        · obtain ⟨l, h1, h2, h3⟩ := ht.chain _ (ht.prev c hp)
          have hcl : c ∉ l := fun hmem => hsc (h3 c hmem)
          refine ⟨c :: l, ?_, List.nodup_cons.2 ⟨hcl, h2⟩, ?_⟩
          · have hw : (m.settle tie n).walk l.length (m.previous c) = some l :=
              LazyMole.walk_congr _ _ _ h1 (fun _ _ => rfl)
            show (m.settle tie n).walk (l.length + 1) c = some (c :: l)
            unfold LazyMole.walk
            simp only
            have hp' : (m.settle tie n).previous c ≠ EMPTY := hp
            rw [if_pos hp']
            have : (m.settle tie n).previous c = m.previous c := rfl
            rw [this, hw]
            rfl
          · intro y hy
            rcases List.mem_cons.1 hy with rfl | hy'
            · exact hc
            · exact hmono y (h3 y hy')
        · refine ⟨[c], ?_, List.nodup_singleton _, ?_⟩
          · show (m.settle tie n).walk 1 c = some [c]
            unfold LazyMole.walk
            simp only
            have hp' : ¬ (m.settle tie n).previous c ≠ EMPTY := hp
            rw [if_neg hp']
          · intro y hy
            rw [List.mem_singleton.1 hy]
            exact hc
    · rw [Function.update_noteq h] at hc'
      exact hold c hc'

theorem LazyMole.Tree.tree_visit {m : LazyMole R} (ht : m.Tree g) {c n : Nat} (x : R)
    (hc : m.status c = Label.SCANNED) (hn : m.status n = Label.UNVISITED)
    (hnN : n < g.numberOfCells) : (m.visit c n x).Tree g :=
  ht.tree_relink hc (by rw [hn]; exact Label.noConfusion) hnN rfl
    (fun _ h => Function.update_noteq h _ _) (Or.inr (Function.update_same _ _ _)) rfl

theorem LazyMole.Tree.tree_improve {m : LazyMole R} (ht : m.Tree g) {c n : Nat} (x : R)
    (hc : m.status c = Label.SCANNED) (hn : m.status n = Label.VISITED) :
    (m.improve c n x).Tree g :=
  ht.tree_relink hc (by rw [hn]; exact Label.noConfusion)
    (ht.range n (by rw [hn]; exact Label.noConfusion)) rfl (fun _ _ => rfl) (Or.inl rfl) rfl

end TreeLemmas

section OwnedLemmas
variable {R : Type} [LinearOrderedField R]

theorem LazyMole.Owned.owned_settle {tie : Nat} {m : LazyMole R}
    (ho : m.Owned) {n : Nat × CellElement R} (htop : m.heap.top tie = some n) :
    (m.settle tie n).Owned := by
  obtain ⟨hnodes, -⟩ := Heap.pop_nodes htop
  obtain ⟨hn, -⟩ := Heap.top_some htop
  intro a ha
  have ha' : a ∈ (m.heap.pop tie).nodes := ha
  rw [hnodes, List.mem_filter] at ha'
  obtain ⟨ham, hne⟩ := ha'
  have hne' : a.1 ≠ n.1 := by simpa using hne
  have hcell : a.2.cell ≠ n.2.cell := by
    intro h
    have h1 := (ho a ham).1
    have h2 := (ho n hn).1
    rw [h, h2] at h1
    exact hne' (Option.some.inj h1).symm
  refine ⟨(ho a ham).1, ?_⟩
  show Function.update m.status n.2.cell Label.SCANNED a.2.cell = Label.VISITED
  rw [Function.update_noteq hcell]
  exact (ho a ham).2

theorem LazyMole.Owned.owned_visit {m : LazyMole R} (hs : m.Struct) (ho : m.Owned)
    (c n : Nat) (x : R) (hn : m.status n = Label.UNVISITED) : (m.visit c n x).Owned := by
  intro a ha
  have ha' : a ∈ m.heap.nodes ++ [(m.heap.next, (⟨-x, n⟩ : CellElement R))] := ha
  show Function.update m.cellElementHandles n (some m.heap.next) a.2.cell = some a.1 ∧
    Function.update m.status n Label.VISITED a.2.cell = Label.VISITED
  rcases List.mem_append.1 ha' with h | h
  · have hne : a.2.cell ≠ n := by
      intro h'
      have := hs.live a h
      rw [h', hn] at this
      exact this rfl
    rw [Function.update_noteq hne, Function.update_noteq hne]
    exact ho a h
  · rw [List.mem_singleton.1 h]
    simp only [Function.update_same, and_self]

theorem LazyMole.Owned.owned_improve {m : LazyMole R} (ho : m.Owned)
    (c n : Nat) (x : R) {k : Nat} {e : CellElement R} (hk : m.cellElementHandles n = some k)
    (hm : (k, e) ∈ m.heap.nodes) (hc : e.cell = n) : (m.improve c n x).Owned := by
  have hheap : (m.improve c n x).heap = m.heap.increase (some k) ⟨-x, n⟩ := by
    unfold LazyMole.improve; rw [hk]
  intro a ha
  rw [hheap] at ha
  show m.cellElementHandles a.2.cell = some a.1 ∧ m.status a.2.cell = Label.VISITED
  rcases Heap.mem_increase.1 ha with ⟨rfl, _⟩ | ⟨ha', _⟩
  · have := ho (k, e) hm
    simp only at this ⊢
    rw [hc] at this
    exact this
  · exact ho a ha'

/-- With one entry per VISITED cell, no two live nodes are for the same
cell. -/
theorem LazyMole.Owned.cells_nodup {m : LazyMole R} (hs : m.Struct) (ho : m.Owned) :
    (m.heap.nodes.map fun n => n.2.cell).Nodup := by
  have hinj : ∀ a ∈ m.heap.nodes, ∀ b ∈ m.heap.nodes, a.2.cell = b.2.cell → a = b := by
    intro a ha b hb hab
    have h1 := (ho a ha).1
    have h2 := (ho b hb).1
    rw [hab, h2] at h1
    have hfst : b.1 = a.1 := Option.some.inj h1
    exact (eq_of_handle_eq hs.nodup hb ha hfst).symm
  have hnd : m.heap.nodes.Nodup := List.Nodup.of_map _ hs.nodup
  exact List.Nodup.map_on hinj hnd

end OwnedLemmas

section InvLoop
variable {R : Type} [LinearOrderedField R]
variable {g : CartesianGrid R} {I : LazyMole R → Prop}

/-- One step of the loop on neighbours returns and keeps an invariant `I`
that the three ways of changing the state keep. -/
theorem LazyMole.relax_inv (sqrt : R → R)
    (hcl : ∀ a, a < g.numberOfCells → ∀ b ∈ g.neighbors a, b < g.numberOfCells)
    (hvis : ∀ (m : LazyMole R) (c n : Nat) (x : R), m.Struct → m.Tree g → I m →
      m.status c = Label.SCANNED → m.status n = Label.UNVISITED → n < g.numberOfCells →
      I (m.visit c n x))
    (himp : ∀ (m : LazyMole R) (c n : Nat) (x : R) (k : Nat) (e : CellElement R), m.Struct →
      m.Tree g → I m → m.status c = Label.SCANNED → m.status n = Label.VISITED →
      m.cellElementHandles n = some k → (k, e) ∈ m.heap.nodes → e.cell = n →
      I (m.improve c n x))
    {m : LazyMole R} {c n : Nat} (r : R) (hs : m.Struct) (ht : m.Tree g) (hi : I m)
    (hc : m.status c = Label.SCANNED) (hn : n ∈ g.neighbors c) :
    ∃ m1, m.relax sqrt c r n = some m1 ∧ m1.Struct ∧ m1.Tree g ∧ I m1 ∧
      m1.status c = Label.SCANNED ∧
      m1.measure g.numberOfCells ≤ m.measure g.numberOfCells := by
  have hcN : c < g.numberOfCells := ht.range c (by rw [hc]; exact Label.noConfusion)
  have hnN : n < g.numberOfCells := hcl c hcN n hn
  rcases LazyMole.relax_cases sqrt c r m n hs with
    ⟨-, h2⟩ | ⟨h1, h2⟩ | ⟨h1, k, e, h2, h3, h4, ⟨-, h6⟩ | ⟨-, h6⟩⟩
  · exact ⟨m, h2, hs, ht, hi, hc, le_refl _⟩
  · refine ⟨_, h2, hs.struct_visit c n _ h1, ht.tree_visit _ hc h1 hnN,
      hvis m c n _ hs ht hi hc h1 hnN, ?_, LazyMole.measure_visit m c n _ _ hnN h1⟩
    show Function.update m.status n Label.VISITED c = Label.SCANNED
    have hne : c ≠ n := by
      intro h; rw [h, h1] at hc; exact Label.noConfusion hc
    rw [Function.update_noteq hne]; exact hc
  · exact ⟨m, h6, hs, ht, hi, hc, le_refl _⟩
  · exact ⟨_, h6, hs.struct_improve c n _ h2 h3 h4, ht.tree_improve _ hc h1,
      himp m c n _ k e hs ht hi hc h1 h2 h3 h4, hc,
      le_of_eq (LazyMole.measure_improve m c n _ _)⟩

theorem LazyMole.relaxAll_inv (sqrt : R → R)
    (hcl : ∀ a, a < g.numberOfCells → ∀ b ∈ g.neighbors a, b < g.numberOfCells)
    (hvis : ∀ (m : LazyMole R) (c n : Nat) (x : R), m.Struct → m.Tree g → I m →
      m.status c = Label.SCANNED → m.status n = Label.UNVISITED → n < g.numberOfCells →
      I (m.visit c n x))
    (himp : ∀ (m : LazyMole R) (c n : Nat) (x : R) (k : Nat) (e : CellElement R), m.Struct →
      m.Tree g → I m → m.status c = Label.SCANNED → m.status n = Label.VISITED →
      m.cellElementHandles n = some k → (k, e) ∈ m.heap.nodes → e.cell = n →
      I (m.improve c n x))
    (c : Nat) (r : R) :
    ∀ (ns : List Nat) (m : LazyMole R), (∀ b ∈ ns, b ∈ g.neighbors c) → m.Struct →
      m.Tree g → I m → m.status c = Label.SCANNED →
      ∃ m1, ns.foldlM (LazyMole.relax sqrt c r) m = some m1 ∧ m1.Struct ∧ m1.Tree g ∧ I m1 ∧
        m1.measure g.numberOfCells ≤ m.measure g.numberOfCells := by
  intro ns
  induction ns with
  | nil =>
    intro m _ hs ht hi _
    exact ⟨m, rfl, hs, ht, hi, le_refl _⟩
  | cons n ns ih =>
    intro m hns hs ht hi hc
    obtain ⟨m1, e1, s1, t1, i1, c1, μ1⟩ :=
      LazyMole.relax_inv sqrt hcl hvis himp r hs ht hi hc (hns n (List.mem_cons_self _ _))
    obtain ⟨m2, e2, s2, t2, i2, μ2⟩ :=
      ih m1 (fun b hb => hns b (List.mem_cons_of_mem _ hb)) s1 t1 i1 c1
    refine ⟨m2, ?_, s2, t2, i2, le_trans μ2 μ1⟩
    rw [List.foldlM_cons, e1]
    exact e2

/-- One iteration of the `while` loop returns, keeps the invariants and
lowers the measure. -/
theorem LazyMole.scan_inv (sqrt : R → R)
    (hcl : ∀ a, a < g.numberOfCells → ∀ b ∈ g.neighbors a, b < g.numberOfCells)
    (hset : ∀ (m : LazyMole R) (tie : Nat) (n : Nat × CellElement R), m.Struct → m.Tree g →
      I m → m.heap.top tie = some n → I (m.settle tie n))
    (hvis : ∀ (m : LazyMole R) (c n : Nat) (x : R), m.Struct → m.Tree g → I m →
      m.status c = Label.SCANNED → m.status n = Label.UNVISITED → n < g.numberOfCells →
      I (m.visit c n x))
    (himp : ∀ (m : LazyMole R) (c n : Nat) (x : R) (k : Nat) (e : CellElement R), m.Struct →
      m.Tree g → I m → m.status c = Label.SCANNED → m.status n = Label.VISITED →
      m.cellElementHandles n = some k → (k, e) ∈ m.heap.nodes → e.cell = n →
      I (m.improve c n x))
    (tie : Nat) {m : LazyMole R} (hs : m.Struct) (ht : m.Tree g) (hi : I m)
    (hne : m.heap.nodes ≠ []) :
    ∃ n m1, m.heap.top tie = some n ∧ m.scan sqrt tie = some m1 ∧ m1.Struct ∧ m1.Tree g ∧
      I m1 ∧ m1.measure g.numberOfCells < m.measure g.numberOfCells := by
  obtain ⟨n, htop, -, -⟩ := Heap.top_spec tie m.heap hne
  have hc1 : (m.settle tie n).status n.2.cell = Label.SCANNED := Function.update_same _ _ _
  obtain ⟨m1, e1, s1, t1, i1, μ1⟩ :=
    LazyMole.relaxAll_inv sqrt hcl hvis himp n.2.cell (-n.2.res) (g.neighbors n.2.cell)
      (m.settle tie n) (fun _ h => h) (hs.struct_settle htop) (ht.tree_settle hs htop)
      (hset m tie n hs ht hi htop) hc1
  refine ⟨n, m1, htop, ?_, s1, t1, i1, lt_of_le_of_lt μ1 (LazyMole.measure_settle htop _)⟩
  rw [LazyMole.scan_eq sqrt htop, ht.hg]
  exact e1

/-- With fuel for the measure, the `while` loop ends on a state with an
empty heap that satisfies the invariants, after at most that many
extractions. -/
theorem LazyMole.runLoop_inv (sqrt : R → R)
    (hcl : ∀ a, a < g.numberOfCells → ∀ b ∈ g.neighbors a, b < g.numberOfCells)
    (hset : ∀ (m : LazyMole R) (tie : Nat) (n : Nat × CellElement R), m.Struct → m.Tree g →
      I m → m.heap.top tie = some n → I (m.settle tie n))
    (hvis : ∀ (m : LazyMole R) (c n : Nat) (x : R), m.Struct → m.Tree g → I m →
      m.status c = Label.SCANNED → m.status n = Label.UNVISITED → n < g.numberOfCells →
      I (m.visit c n x))
    (himp : ∀ (m : LazyMole R) (c n : Nat) (x : R) (k : Nat) (e : CellElement R), m.Struct →
      m.Tree g → I m → m.status c = Label.SCANNED → m.status n = Label.VISITED →
      m.cellElementHandles n = some k → (k, e) ∈ m.heap.nodes → e.cell = n →
      I (m.improve c n x)) :
    ∀ (fuel : Nat) (tie : Nat → Nat) (m : LazyMole R), m.Struct → m.Tree g → I m →
      m.measure g.numberOfCells ≤ fuel →
      ∃ m1, m.runLoop sqrt tie fuel = some m1 ∧ m1.Struct ∧ m1.Tree g ∧ I m1 ∧
        m1.heap.nodes = [] ∧
        (m.extracted sqrt tie fuel).length ≤ m.measure g.numberOfCells ∧
        ∀ s ∈ m.iterates sqrt tie fuel, s.Struct ∧ s.Tree g ∧ I s := by
  intro fuel
  induction fuel with
  | zero =>
    intro tie m hs ht hi hμ
    have hnil : m.heap.nodes = [] := by
      unfold LazyMole.measure at hμ
      exact List.length_eq_zero.1 (by omega)
    refine ⟨m, LazyMole.runLoop_done sqrt tie 0 hnil, hs, ht, hi, hnil, ?_, ?_⟩
    · rw [LazyMole.extracted_done sqrt tie 0 hnil]
      exact Nat.zero_le _
    · intro s hm
      unfold LazyMole.iterates at hm
      rw [if_pos ((Heap.empty_iff _).2 hnil), List.mem_singleton] at hm
      rw [hm]; exact ⟨hs, ht, hi⟩
  | succ fuel ih =>
    intro tie m hs ht hi hμ
    by_cases hnil : m.heap.nodes = []
    · refine ⟨m, LazyMole.runLoop_done sqrt tie _ hnil, hs, ht, hi, hnil, ?_, ?_⟩
      · rw [LazyMole.extracted_done sqrt tie _ hnil]
        exact Nat.zero_le _
      · intro s hm
        unfold LazyMole.iterates at hm
        rw [if_pos ((Heap.empty_iff _).2 hnil), List.mem_singleton] at hm
        rw [hm]; exact ⟨hs, ht, hi⟩
    · obtain ⟨n, m1, htop, e1, s1, t1, i1, μ1⟩ :=
        LazyMole.scan_inv sqrt hcl hset hvis himp (tie 0) hs ht hi hnil
      obtain ⟨m2, e2, s2, t2, i2, n2, x2, y2⟩ :=
        ih (fun k => tie (k + 1)) m1 s1 t1 i1 (by omega)
      refine ⟨m2, ?_, s2, t2, i2, n2, ?_, ?_⟩
      · rw [LazyMole.runLoop_step sqrt tie fuel hnil, e1]
        exact e2
      · rw [LazyMole.extracted_step sqrt tie fuel hnil htop e1, List.length_cons]
        omega
      · intro s hm
        rw [LazyMole.iterates, if_neg (fun he => hnil ((Heap.empty_iff _).1 he))] at hm
        simp only [e1] at hm
        rcases List.mem_cons.1 hm with h | h
        · rw [h]; exact ⟨hs, ht, hi⟩
        · exact y2 s h

end InvLoop

section InitLemmas3
variable {R : Type} [LinearOrderedField R]
variable {g : CartesianGrid R} {f : Nat → R}

theorem LazyMole.Init.tree {done : List Nat} {m : LazyMole R} (h : m.Init g f done)
    (hsrc : ∀ s ∈ done, s < g.numberOfCells) : m.Tree g := by
  refine ⟨h.hg, ?_, ?_, ?_⟩
  · intro c hc
    by_cases hd : c ∈ done
    · exact hsrc c hd
    · exact absurd ((h.unvisited c).2 hd) hc
  · intro c hc
    exact absurd (h.prev c) hc
  · intro c hc
    exact absurd hc (h.scanned_false c)

theorem LazyMole.Init.owned_addSource {done : List Nat} {m : LazyMole R}
    (h : m.Init g f done) (ho : m.Owned) {c : Nat} (hc : c ∉ done) :
    (m.addSource c).Owned := by
  intro a ha
  have ha' : a ∈ m.heap.nodes ++ [(m.heap.next, (⟨0, c⟩ : CellElement R))] := ha
  show Function.update m.cellElementHandles c (some m.heap.next) a.2.cell = some a.1 ∧
    Function.update m.status c Label.VISITED a.2.cell = Label.VISITED
  rcases List.mem_append.1 ha' with h' | h'
  · have hne : a.2.cell ≠ c := by
      intro e
      rw [← e] at hc
      exact hc (h.nodes a h').1
    rw [Function.update_noteq hne, Function.update_noteq hne]
    exact ho a h'
  · rw [List.mem_singleton.1 h']
    simp only [Function.update_same, and_self]

theorem LazyMole.Init.owned_foldl :
    ∀ (l done : List Nat) (m : LazyMole R), m.Init g f done → m.Owned → (done ++ l).Nodup →
      (l.foldl LazyMole.addSource m).Owned := by
  intro l
  induction l with
  | nil => intro done m _ ho _; exact ho
  | cons c cs ih =>
    intro done m h ho hnd
    have hc : c ∉ done := by
      intro hmem
      have := List.nodup_append.1 hnd
      exact this.2.2 hmem (List.mem_cons_self _ _)
    have hnd' : ((done ++ [c]) ++ cs).Nodup := by
      rw [List.append_assoc]; exact hnd
    exact ih (done ++ [c]) (m.addSource c) (h.addSource c) (h.owned_addSource ho hc) hnd'

/-- The constructor leaves one entry per source when the sources are
pairwise distinct. -/
theorem LazyMole.new_owned (g : CartesianGrid R) (f : Nat → R) {srcs : List Nat}
    (hnd : srcs.Nodup) : (LazyMole.new g f srcs).Owned := by
  have h0 : (LazyMole.init g f).Init g f [] := by
    have := (LazyMole.new_init g f []).1
    exact this
  have ho : (LazyMole.init g f).Owned := by
    intro a ha
    exact absurd ha (List.not_mem_nil _)
  exact LazyMole.Init.owned_foldl srcs [] _ h0 ho (by rw [List.nil_append]; exact hnd)

theorem LazyMole.next_foldl :
    ∀ (l : List Nat) (m : LazyMole R),
      (l.foldl LazyMole.addSource m).heap.next = m.heap.next + l.length := by
  intro l
  induction l with
  | nil => intro m; rfl
  | cons c cs ih =>
    intro m
    rw [List.foldl_cons, ih, List.length_cons]
    show m.heap.next + 1 + cs.length = _
    omega

/-- The constructor has pushed one node per element of the source list. -/
theorem LazyMole.new_next (g : CartesianGrid R) (f : Nat → R) (srcs : List Nat) :
    (LazyMole.new g f srcs).heap.next = srcs.length := by
  have := LazyMole.next_foldl srcs (LazyMole.init g f)
  show (srcs.foldl LazyMole.addSource (LazyMole.init g f)).heap.next = _
  rw [this]
  show 0 + srcs.length = _
  omega

end InitLemmas3

section ForwardLemmas
variable {R : Type}

theorem Label.rank_scanned {a : Label} (h : Label.SCANNED.rank ≤ a.rank) : a = Label.SCANNED := by
  cases a with
  | UNVISITED => exact absurd h (by decide)
  | VISITED => exact absurd h (by decide)
  | SCANNED => rfl

theorem Label.rank_visited {a b : Label} (h : a.rank ≤ b.rank) (hb : b = Label.VISITED) :
    a = Label.UNVISITED ∨ a = Label.VISITED := by
  subst hb
  cases a with
  | UNVISITED => exact Or.inl rfl
  | VISITED => exact Or.inr rfl
  | SCANNED => exact absurd h (by decide)

theorem LazyMole.Forward.forward_refl (m : LazyMole R) : m.Forward m :=
  ⟨fun _ => le_refl _, fun _ _ => rfl⟩

theorem LazyMole.Forward.scanned {m m1 : LazyMole R} (h : m.Forward m1) {x : Nat}
    (hx : m.status x = Label.SCANNED) : m1.status x = Label.SCANNED := by
  have := h.rank_le x
  rw [hx] at this
  exact Label.rank_scanned this

theorem LazyMole.Forward.forward_trans {m1 m2 m3 : LazyMole R} (h12 : m1.Forward m2)
    (h23 : m2.Forward m3) : m1.Forward m3 :=
  ⟨fun x => le_trans (h12.rank_le x) (h23.rank_le x),
    fun x hx => (h23.prev x (h12.scanned hx)).trans (h12.prev x hx)⟩

end ForwardLemmas

section ForwardSteps
variable {R : Type} [LinearOrderedField R]

/-- The relaxation of a neighbour, from any state: it changes the label of
no cell but that of an UNVISITED neighbour, which becomes VISITED; it writes
no resistance; and it changes the predecessor of no SCANNED cell. -/
theorem LazyMole.relax_forward (sqrt : R → R) (c : Nat) (r : R) {m m1 : LazyMole R} (n : Nat)
    (h : m.relax sqrt c r n = some m1) :
    m.Forward m1 ∧ m1.smallestRes = m.smallestRes ∧
    (∀ x, m1.status x ≠ m.status x →
      x = n ∧ m.status x = Label.UNVISITED ∧ m1.status x = Label.VISITED) ∧
    (∀ x, m1.previous x ≠ m.previous x → x = n ∧ m.status x ≠ Label.SCANNED) := by
  unfold LazyMole.relax at h
  by_cases hsc : m.status n = Label.SCANNED
  · rw [if_neg (by simpa using hsc)] at h
    have e : m = m1 := Option.some.inj h
    subst e
    exact ⟨LazyMole.Forward.forward_refl m, rfl, fun x hx => absurd rfl hx, fun x hx => absurd rfl hx⟩
  · rw [if_pos hsc] at h
    simp only at h
    by_cases hun : m.status n = Label.UNVISITED
    · rw [if_pos hun] at h
      have e := Option.some.inj h
      subst e
      refine ⟨⟨?_, ?_⟩, rfl, ?_, ?_⟩
      · intro x
        show (m.status x).rank ≤ (Function.update m.status n Label.VISITED x).rank
        by_cases hx : x = n
        · rw [hx, Function.update_same, hun]; decide
        · rw [Function.update_noteq hx]
      · intro x hx
        show Function.update m.previous n c x = m.previous x
        have hxn : x ≠ n := by
          intro e; rw [e] at hx; exact hsc hx
        rw [Function.update_noteq hxn]
      · intro x hx
        have hx' : Function.update m.status n Label.VISITED x ≠ m.status x := hx
        by_cases hxn : x = n
        · subst hxn
          exact ⟨rfl, hun, Function.update_same _ _ _⟩
        · rw [Function.update_noteq hxn] at hx'
          exact absurd rfl hx'
      · intro x hx
        have hx' : Function.update m.previous n c x ≠ m.previous x := hx
        by_cases hxn : x = n
        · subst hxn
          exact ⟨rfl, hsc⟩
        · rw [Function.update_noteq hxn] at hx'
          exact absurd rfl hx'
    · rw [if_neg hun] at h
      cases hd : m.heap.deref (m.cellElementHandles n) with
      | none => rw [hd] at h; simp at h
      | some e =>
        rw [hd] at h
        simp only at h
        by_cases hlt : r + computeResistance sqrt m.gridPtr m.field c n < -e.res
        · rw [if_pos hlt] at h
          have e := Option.some.inj h
          subst e
          refine ⟨⟨fun x => le_refl _, ?_⟩, rfl, fun x hx => absurd rfl hx, ?_⟩
          · intro x hx
            show Function.update m.previous n c x = m.previous x
            have hxn : x ≠ n := by
              intro e; rw [e] at hx; exact hsc hx
            rw [Function.update_noteq hxn]
          · intro x hx
            have hx' : Function.update m.previous n c x ≠ m.previous x := hx
            by_cases hxn : x = n
            · subst hxn
              exact ⟨rfl, hsc⟩
            · rw [Function.update_noteq hxn] at hx'
              exact absurd rfl hx'
        · rw [if_neg hlt] at h
          have e : m = m1 := Option.some.inj h
          subst e
          exact ⟨LazyMole.Forward.forward_refl m, rfl, fun x hx => absurd rfl hx,
            fun x hx => absurd rfl hx⟩

theorem LazyMole.relaxAll_forward (sqrt : R → R) (c : Nat) (r : R) :
    ∀ (ns : List Nat) (m m1 : LazyMole R), ns.foldlM (LazyMole.relax sqrt c r) m = some m1 →
      m.Forward m1 ∧ m1.smallestRes = m.smallestRes := by
  intro ns
  induction ns with
  | nil =>
    intro m m1 h
    have : m = m1 := by simpa using h
    rw [← this]; exact ⟨LazyMole.Forward.forward_refl m, rfl⟩
  | cons n ns ih =>
    intro m m1 h
    rw [List.foldlM_cons] at h
    cases h1 : m.relax sqrt c r n with
    | none => rw [h1] at h; simp at h
    | some m2 =>
      rw [h1] at h
      obtain ⟨a1, a2, -, -⟩ := LazyMole.relax_forward sqrt c r n h1
      obtain ⟨b1, b2⟩ := ih m2 m1 h
      exact ⟨a1.forward_trans b1, b2.trans a2⟩

theorem LazyMole.settle_forward (tie : Nat) (m : LazyMole R) (n : Nat × CellElement R) :
    m.Forward (m.settle tie n) := by
  refine ⟨?_, fun _ _ => rfl⟩
  intro x
  show (m.status x).rank ≤ (Function.update m.status n.2.cell Label.SCANNED x).rank
  by_cases hx : x = n.2.cell
  · rw [hx, Function.update_same]
    cases m.status n.2.cell <;> decide
  · rw [Function.update_noteq hx]

/-- One iteration of the `while` loop, from any state: no label moves
backward, the extracted cell is SCANNED, and no cell that was SCANNED changes
its predecessor. -/
theorem LazyMole.scan_forward (sqrt : R → R) (tie : Nat) {m m1 : LazyMole R}
    (h : m.scan sqrt tie = some m1) :
    m.Forward m1 ∧ ∃ n, m.heap.top tie = some n ∧ m1.status n.2.cell = Label.SCANNED ∧
      m1.smallestRes n.2.cell = -n.2.res ∧
      ∀ x, x ≠ n.2.cell → m1.smallestRes x = m.smallestRes x := by
  cases ht : m.heap.top tie with
  | none =>
    unfold LazyMole.scan at h
    rw [ht] at h
    simp at h
  | some n =>
    rw [LazyMole.scan_eq sqrt ht] at h
    obtain ⟨a1, a2⟩ := LazyMole.relaxAll_forward sqrt _ _ _ _ _ h
    have hf := (LazyMole.settle_forward tie m n).forward_trans a1
    refine ⟨hf, n, rfl, ?_, ?_, ?_⟩
    · exact a1.scanned (Function.update_same _ _ _)
    · rw [a2]
      exact Function.update_same _ _ _
    · intro x hx
      rw [a2]
      exact Function.update_noteq hx _ _

/-- Along the whole `while` loop no label moves backward and no SCANNED
cell changes its predecessor. -/
theorem LazyMole.runLoop_forward (sqrt : R → R) :
    ∀ (fuel : Nat) (tie : Nat → Nat) (m m1 : LazyMole R),
      m.runLoop sqrt tie fuel = some m1 → m.Forward m1 := by
  intro fuel
  induction fuel with
  | zero =>
    intro tie m m1 h
    by_cases hnil : m.heap.nodes = []
    · rw [LazyMole.runLoop_done sqrt tie 0 hnil] at h
      rw [← Option.some.inj h]
      exact LazyMole.Forward.forward_refl m
    · unfold LazyMole.runLoop at h
      rw [if_neg (fun he => hnil ((Heap.empty_iff _).1 he))] at h
      simp at h
  | succ fuel ih =>
    intro tie m m1 h
    by_cases hnil : m.heap.nodes = []
    · rw [LazyMole.runLoop_done sqrt tie _ hnil] at h
      rw [← Option.some.inj h]
      exact LazyMole.Forward.forward_refl m
    · rw [LazyMole.runLoop_step sqrt tie fuel hnil] at h
      cases h1 : m.scan sqrt (tie 0) with
      | none => rw [h1] at h; simp at h
      | some m2 =>
        rw [h1] at h
        exact (LazyMole.scan_forward sqrt _ h1).1.forward_trans (ih _ m2 m1 h)

/-- The states at the head of the loop, in order: from each to the next no
label moves backward and no SCANNED cell changes its predecessor. -/
theorem LazyMole.iterates_forward (sqrt : R → R) :
    ∀ (fuel : Nat) (tie : Nat → Nat) (m : LazyMole R),
      (m.iterates sqrt tie fuel).head? = some m ∧
      (m.iterates sqrt tie fuel).Chain' (fun s s1 => s.Forward s1) := by
  intro fuel
  induction fuel with
  | zero =>
    intro tie m
    unfold LazyMole.iterates
    split_ifs <;> exact ⟨rfl, List.chain'_singleton _⟩
  | succ fuel ih =>
    intro tie m
    rw [LazyMole.iterates]
    by_cases he : m.heap.empty = true
    · rw [if_pos he]; exact ⟨rfl, List.chain'_singleton _⟩
    · rw [if_neg he]
      cases h1 : m.scan sqrt (tie 0) with
      | none => exact ⟨rfl, List.chain'_singleton _⟩
      | some m2 =>
        simp only
        obtain ⟨a1, a2⟩ := ih (fun k => tie (k + 1)) m2
        refine ⟨rfl, ?_⟩
        rw [List.chain'_cons']
        refine ⟨?_, a2⟩
        intro y hy
        rw [a1] at hy
        rw [← Option.some.inj hy]
        exact (LazyMole.scan_forward sqrt _ h1).1

end ForwardSteps

section PushLemmas
variable {R : Type} [LinearOrderedField R]

theorem LazyMole.unvisitedCount_settle (tie : Nat) (m : LazyMole R) (n : Nat × CellElement R)
    (N : Nat) : (m.settle tie n).unvisitedCount N ≤ m.unvisitedCount N := by
  unfold LazyMole.unvisitedCount
  refine List.countP_mono_left ?_
  intro y _ hy
  have hy' : Function.update m.status n.2.cell Label.SCANNED y = Label.UNVISITED := by
    simpa using hy
  by_cases h : y = n.2.cell
  · rw [h] at hy'; simp at hy'
  · rw [Function.update_noteq h] at hy'
    simpa using hy'

theorem LazyMole.unvisitedCount_visit (m : LazyMole R) (c n : Nat) (x : R) (N : Nat)
    (hn : n < N) (hun : m.status n = Label.UNVISITED) :
    (m.visit c n x).unvisitedCount N + 1 ≤ m.unvisitedCount N := by
  have h := LazyMole.measure_visit m c n x N hn hun
  unfold LazyMole.measure at h
  have h1 : (m.visit c n x).heap.nodes.length = m.heap.nodes.length + 1 := by
    show (m.heap.nodes ++ [_]).length = _
    rw [List.length_append, List.length_singleton]
  omega

/-- The number of nodes pushed so far and the number of cells still
UNVISITED never add up to more than at the start. -/
theorem LazyMole.runLoop_pushes (sqrt : R → R) {g : CartesianGrid R}
    (hcl : ∀ a, a < g.numberOfCells → ∀ b ∈ g.neighbors a, b < g.numberOfCells) (B : Nat) :
    ∀ (fuel : Nat) (tie : Nat → Nat) (m : LazyMole R), m.Struct → m.Tree g →
      m.heap.next + m.unvisitedCount g.numberOfCells ≤ B →
      m.measure g.numberOfCells ≤ fuel →
      ∃ m1, m.runLoop sqrt tie fuel = some m1 ∧ m1.Struct ∧ m1.Tree g ∧
        m1.heap.next + m1.unvisitedCount g.numberOfCells ≤ B ∧ m1.heap.nodes = [] ∧
        (m.extracted sqrt tie fuel).length ≤ m.measure g.numberOfCells := by
  intro fuel tie m hs ht hb hμ
  obtain ⟨m1, e1, s1, t1, i1, n1, x1, -⟩ :=
    LazyMole.runLoop_inv sqrt hcl
      (I := fun s => s.heap.next + s.unvisitedCount g.numberOfCells ≤ B)
      (fun s t n _ _ hi htop => by
        have h1 : (s.settle t n).heap.next = s.heap.next := (Heap.pop_nodes htop).2
        have h2 := LazyMole.unvisitedCount_settle t s n g.numberOfCells
        show (s.settle t n).heap.next + _ ≤ B
        omega)
      (fun s c n x _ _ hi _ hun hn => by
        have h1 : (s.visit c n x).heap.next = s.heap.next + 1 := rfl
        have h2 := LazyMole.unvisitedCount_visit s c n x g.numberOfCells hn hun
        show (s.visit c n x).heap.next + _ ≤ B
        omega)
      (fun s c n x k e _ _ hi _ _ hk _ _ => by
        have h1 : (s.improve c n x).heap.next = s.heap.next := by
          unfold LazyMole.improve Heap.increase
          rw [hk]
        have h2 : (s.improve c n x).status = s.status := rfl
        show (s.improve c n x).heap.next + (s.improve c n x).unvisitedCount _ ≤ B
        unfold LazyMole.unvisitedCount
        rw [h1, h2]
        exact hi)
      fuel tie m hs ht hb hμ
  exact ⟨m1, e1, s1, t1, i1, n1, x1⟩

end PushLemmas

section ClosedLemma

theorem CartesianGrid.neighbors_closed {R : Type} {g : CartesianGrid R} (hf : g.Fits) :
    ∀ a, a < g.numberOfCells → ∀ b ∈ g.neighbors a, b < g.numberOfCells :=
  fun _ ha _ hb => g.neighbors_lt hf ha hb

end ClosedLemma

section PlainRun
variable {R : Type} [LinearOrderedField R]

theorem LazyMole.extracted_length_le (sqrt : R → R) :
    ∀ (fuel : Nat) (tie : Nat → Nat) (m : LazyMole R),
      (m.extracted sqrt tie fuel).length ≤ fuel := by
  intro fuel
  induction fuel with
  | zero =>
    intro tie m
    unfold LazyMole.extracted
    split_ifs <;> exact Nat.le_refl _
  | succ fuel ih =>
    intro tie m
    rw [LazyMole.extracted]
    by_cases he : m.heap.empty = true
    · rw [if_pos he]; exact Nat.zero_le _
    · rw [if_neg he]
      cases h1 : m.heap.top (tie 0) with
      | none => exact Nat.zero_le _
      | some n =>
        cases h2 : m.scan sqrt (tie 0) with
        | none => exact Nat.zero_le _
        | some m1 =>
          simp only [List.length_cons]
          have := ih (fun k => tie (k + 1)) m1
          omega

/-- Whatever the field, on a grid whose cell count fits and with sources
that are cells, `run` returns with fuel for `|sources| + N` iterations, on a
state with an empty heap that satisfies the bookkeeping invariants; it has
pushed at most `|sources| + N` nodes and extracted at most as many. -/
theorem LazyMole.run_plain (sqrt : R → R) (g : CartesianGrid R) (f : Nat → R)
    (srcs : List Nat) (tie : Nat → Nat) (fuel : Nat) (hf : g.Fits)
    (hsrc : ∀ s ∈ srcs, s < g.numberOfCells)
    (hfuel : srcs.length + g.numberOfCells ≤ fuel) :
    ∃ m1, (LazyMole.new g f srcs).run sqrt tie fuel = some m1 ∧ m1.Struct ∧ m1.Tree g ∧
      m1.heap.nodes = [] ∧ m1.isReady = true ∧
      m1.heap.next ≤ srcs.length + g.numberOfCells ∧
      ((LazyMole.new g f srcs).extracted sqrt tie fuel).length ≤
        srcs.length + g.numberOfCells ∧
      (LazyMole.new g f srcs).Forward m1 := by
  obtain ⟨hi, -⟩ := LazyMole.new_init g f srcs
  have hμ := hi.measure_le g.numberOfCells
  have hb : (LazyMole.new g f srcs).heap.next +
      (LazyMole.new g f srcs).unvisitedCount g.numberOfCells ≤
      srcs.length + g.numberOfCells := by
    rw [LazyMole.new_next]
    have := List.countP_le_length
      (fun c => decide ((LazyMole.new g f srcs).status c = Label.UNVISITED))
      (l := List.range g.numberOfCells)
    rw [List.length_range] at this
    unfold LazyMole.unvisitedCount
    omega
  obtain ⟨m1, e1, s1, t1, b1, n1, x1⟩ :=
    LazyMole.runLoop_pushes sqrt (CartesianGrid.neighbors_closed hf) (srcs.length + g.numberOfCells)
      fuel tie _ hi.struct (hi.tree hsrc) hb (le_trans hμ hfuel)
  have hfw := LazyMole.runLoop_forward sqrt fuel tie _ m1 e1
  refine ⟨{ m1 with isReady := true }, ?_, ⟨s1.nodup, s1.fresh, s1.visited, s1.unvisited,
    s1.live⟩, ?_, n1, rfl, ?_, le_trans x1 hμ, ⟨hfw.rank_le, hfw.prev⟩⟩
  · unfold LazyMole.run
    rw [e1]
    rfl
  · refine ⟨t1.hg, t1.range, t1.prev, ?_⟩
    intro c hc
    obtain ⟨l, h1, h2, h3⟩ := t1.chain c hc
    exact ⟨l, LazyMole.walk_congr _ _ _ h1 (fun _ _ => rfl), h2, h3⟩
  · have : m1.heap.next + m1.unvisitedCount g.numberOfCells ≤
        srcs.length + g.numberOfCells := b1
    show m1.heap.next ≤ _
    omega

/-- The predecessor walk from a cell of the grid, in a state with an empty
heap that satisfies the invariants: it ends within `N` steps, on cells no
two of which are equal. -/
theorem LazyMole.Tree.walk_total {g : CartesianGrid R} {m : LazyMole R} (hs : m.Struct)
    (ht : m.Tree g) (hnil : m.heap.nodes = []) {t : Nat} (htN : t < g.numberOfCells) :
    ∃ l, l.length ≤ g.numberOfCells ∧ l.Nodup ∧ (∀ x ∈ l, x < g.numberOfCells) ∧
      ∀ k, g.numberOfCells ≤ k → m.walk k t = some l := by
  by_cases hsc : m.status t = Label.SCANNED
  · obtain ⟨l, h1, h2, h3⟩ := ht.chain t hsc
    have hlt : ∀ x ∈ l, x < g.numberOfCells := fun x hx =>
      ht.range x (by rw [h3 x hx]; exact Label.noConfusion)
    have hsub : l ⊆ List.range g.numberOfCells := fun x hx => List.mem_range.2 (hlt x hx)
    have hlen := (List.subperm_of_subset h2 hsub).length_le
    rw [List.length_range] at hlen
    exact ⟨l, hlen, h2, hlt, fun k hk => LazyMole.walk_mono _ _ _ h1 k (le_trans hlen hk)⟩
  · have hu : m.status t = Label.UNVISITED := by
      cases hst : m.status t with
      | UNVISITED => rfl
      | VISITED => exact absurd hst (hs.not_visited hnil t)
      | SCANNED => exact absurd hst hsc
    have hp := (hs.unvisited t hu).1
    refine ⟨[t], ?_, List.nodup_singleton _, ?_, ?_⟩
    · show 1 ≤ g.numberOfCells
      omega
    · intro x hx
      rw [List.mem_singleton.1 hx]; exact htN
    · intro k hk
      obtain ⟨j, rfl⟩ : ∃ j, k = j + 1 := ⟨k - 1, by omega⟩
      unfold LazyMole.walk
      simp only [hp, ne_eq, not_true_eq_false, if_false]

end PlainRun

section ImportLemmas
variable {R : Type}

theorem foldl_preserves {α β : Type} (P : β → Prop) (f : β → α → β)
    (h : ∀ b a, P b → P (f b a)) : ∀ (l : List α) (b : β), P b → P (l.foldl f b) := by
  intro l
  induction l with
  | nil => intro b hb; exact hb
  | cons a l ih => intro b hb; exact ih (f b a) (h b a hb)

theorem foldlM_preserves {α β : Type} (P : β → Prop) (f : β → α → Option β)
    (h : ∀ b a b1, P b → f b a = some b1 → P b1) :
    ∀ (l : List α) (b b1 : β), P b → l.foldlM f b = some b1 → P b1 := by
  intro l
  induction l with
  | nil =>
    intro b b1 hb e
    have : b = b1 := by simpa using e
    rw [← this]; exact hb
  | cons a l ih =>
    intro b b1 hb e
    rw [List.foldlM_cons] at e
    cases h1 : f b a with
    | none => rw [h1] at e; simp at e
    | some b2 =>
      rw [h1] at e
      exact ih b2 b1 (h b a b2 hb h1) e

/-- A loop each of whose iterations stores the value `out` in the entries
of a set `S a`, and leaves the others: it stores `out` in the entries of
the union of the sets. -/
theorem foldl_store {α : Type} (S : α → Nat → Prop) (out : R)
    (F : (Nat → R) → α → Nat → R)
    (hF : ∀ v a id, (S a id → F v a id = out) ∧ (¬ S a id → F v a id = v id)) :
    ∀ (l : List α) (v : Nat → R) (id : Nat),
      ((∃ a ∈ l, S a id) → l.foldl F v id = out) ∧
      ((¬ ∃ a ∈ l, S a id) → l.foldl F v id = v id) := by
  intro l
  induction l with
  | nil =>
    intro v id
    exact ⟨fun ⟨a, ha, _⟩ => absurd ha (List.not_mem_nil _), fun _ => rfl⟩
  | cons a l ih =>
    intro v id
    rw [List.foldl_cons]
    obtain ⟨i1, i2⟩ := ih (F v a) id
    by_cases hl : ∃ b ∈ l, S b id
    · refine ⟨fun _ => i1 hl, fun h => absurd ?_ h⟩
      obtain ⟨b, hb, hs⟩ := hl
      exact ⟨b, List.mem_cons_of_mem _ hb, hs⟩
    · by_cases ha : S a id
      · refine ⟨fun _ => ?_, fun h => absurd ⟨a, List.mem_cons_self _ _, ha⟩ h⟩
        rw [i2 hl]; exact (hF v a id).1 ha
      · refine ⟨fun ⟨b, hb, hs⟩ => ?_, fun _ => ?_⟩
        · rcases List.mem_cons.1 hb with rfl | hb
          · exact absurd hs ha
          · exact absurd ⟨b, hb, hs⟩ hl
        · rw [i2 hl]; exact (hF v a id).2 ha

/-- What `fill` stores: the value `out` in every cell `mergeIds(x, y, z)` of
the block of the coarse cell `(i, j, k)`, and nothing elsewhere. -/
theorem CartesianGrid.fill_spec (g : CartesianGrid R) (i j k : Nat) (out : R) (v : Nat → R)
    (hx : g.resx * (i + 1) < SIZE_MOD) (hy : g.resy * (j + 1) < SIZE_MOD)
    (hz : g.resz * (k + 1) < SIZE_MOD) (rx : 0 < g.resx) (ry : 0 < g.resy) (rz : 0 < g.resz)
    (id : Nat) :
    ((∃ x y z, (g.resx * i ≤ x ∧ x < g.resx * (i + 1)) ∧ (g.resy * j ≤ y ∧ y < g.resy * (j + 1)) ∧
        (g.resz * k ≤ z ∧ z < g.resz * (k + 1)) ∧ id = g.mergeIds x y z) →
      g.fill i j k out v id = out) ∧
    ((¬ ∃ x y z, (g.resx * i ≤ x ∧ x < g.resx * (i + 1)) ∧
        (g.resy * j ≤ y ∧ y < g.resy * (j + 1)) ∧
        (g.resz * k ≤ z ∧ z < g.resz * (k + 1)) ∧ id = g.mergeIds x y z) →
      g.fill i j k out v id = v id) := by
  have key : ∀ (r n : Nat), 0 < r → r * (n + 1) < SIZE_MOD → ∀ x,
      x ∈ List.range' (wrap (r * n)) (wrap (r * wrap (n + 1)) - wrap (r * n)) ↔
        r * n ≤ x ∧ x < r * (n + 1) := by
    intro r n hr h x
    have h1 : r * n ≤ r * (n + 1) := Nat.mul_le_mul_left r (Nat.le_succ n)
    have h2 : n + 1 ≤ r * (n + 1) := Nat.le_mul_of_pos_left _ hr
    rw [wrap_of_lt (lt_of_le_of_lt h1 h), wrap_of_lt (lt_of_le_of_lt h2 h), wrap_of_lt h,
      List.mem_range'_1]
    constructor
    · rintro ⟨a, b⟩; exact ⟨a, by omega⟩
    · rintro ⟨a, b⟩; exact ⟨a, by omega⟩
  have inner : ∀ (x y : Nat) (l : List Nat) (w : Nat → R) (id : Nat),
      ((∃ z ∈ l, id = g.mergeIds x y z) →
        l.foldl (fun vals z => Function.update vals (g.mergeIds x y z) out) w id = out) ∧
      ((¬ ∃ z ∈ l, id = g.mergeIds x y z) →
        l.foldl (fun vals z => Function.update vals (g.mergeIds x y z) out) w id = w id) := by
    intro x y
    refine foldl_store (fun z id => id = g.mergeIds x y z) out _ ?_
    intro w z id
    constructor
    · intro h; rw [h, Function.update_same]
    · intro h; rw [Function.update_noteq h]
  have middle : ∀ (x : Nat) (ly lz : List Nat) (w : Nat → R) (id : Nat),
      ((∃ y ∈ ly, ∃ z ∈ lz, id = g.mergeIds x y z) →
        ly.foldl (fun vals y =>
          lz.foldl (fun vals z => Function.update vals (g.mergeIds x y z) out) vals) w id =
            out) ∧
      ((¬ ∃ y ∈ ly, ∃ z ∈ lz, id = g.mergeIds x y z) →
        ly.foldl (fun vals y =>
          lz.foldl (fun vals z => Function.update vals (g.mergeIds x y z) out) vals) w id =
            w id) := by
    intro x ly lz
    exact foldl_store (fun y id => ∃ z ∈ lz, id = g.mergeIds x y z) out _
      (fun w y id => inner x y lz w id) ly
  have outer := foldl_store
    (fun x id => ∃ y ∈ List.range' (wrap (g.resy * j))
        (wrap (g.resy * wrap (j + 1)) - wrap (g.resy * j)),
      ∃ z ∈ List.range' (wrap (g.resz * k)) (wrap (g.resz * wrap (k + 1)) - wrap (g.resz * k)),
        id = g.mergeIds x y z) out
    (fun vals x =>
      (List.range' (wrap (g.resy * j)) (wrap (g.resy * wrap (j + 1)) - wrap (g.resy * j))).foldl
        (fun vals y =>
          (List.range' (wrap (g.resz * k))
              (wrap (g.resz * wrap (k + 1)) - wrap (g.resz * k))).foldl
            (fun vals z => Function.update vals (g.mergeIds x y z) out) vals)
        vals)
    (fun w x id => middle x _ _ w id)
    (List.range' (wrap (g.resx * i)) (wrap (g.resx * wrap (i + 1)) - wrap (g.resx * i))) v id
  have eqv : (∃ x ∈ List.range' (wrap (g.resx * i))
        (wrap (g.resx * wrap (i + 1)) - wrap (g.resx * i)),
      ∃ y ∈ List.range' (wrap (g.resy * j)) (wrap (g.resy * wrap (j + 1)) - wrap (g.resy * j)),
      ∃ z ∈ List.range' (wrap (g.resz * k)) (wrap (g.resz * wrap (k + 1)) - wrap (g.resz * k)),
        id = g.mergeIds x y z) ↔
      ∃ x y z, (g.resx * i ≤ x ∧ x < g.resx * (i + 1)) ∧
        (g.resy * j ≤ y ∧ y < g.resy * (j + 1)) ∧
        (g.resz * k ≤ z ∧ z < g.resz * (k + 1)) ∧ id = g.mergeIds x y z := by
    constructor
    · rintro ⟨x, mx, y, my, z, mz, e⟩
      exact ⟨x, y, z, (key _ _ rx hx x).1 mx, (key _ _ ry hy y).1 my, (key _ _ rz hz z).1 mz, e⟩
    · rintro ⟨x, y, z, mx, my, mz, e⟩
      exact ⟨x, (key _ _ rx hx x).2 mx, y, (key _ _ ry hy y).2 my, z, (key _ _ rz hz z).2 mz, e⟩
  unfold CartesianGrid.fill
  exact ⟨fun h => outer.1 (eqv.2 h), fun h => outer.2 (fun h' => h (eqv.1 h'))⟩

/-- Two numbers written in the base `n` with the same value have the same
digits. -/
theorem radix_unique {a b a1 b1 n : Nat} (hb : b < n) (hb1 : b1 < n)
    (h : a * n + b = a1 * n + b1) : a = a1 ∧ b = b1 := by
  have hn : 0 < n := by omega
  have e : ∀ (u w : Nat), w < n → (u * n + w) / n = u := by
    intro u w hw
    rw [Nat.add_comm, Nat.add_mul_div_right _ _ hn, Nat.div_eq_of_lt hw, Nat.zero_add]
  have ha : a = a1 := by
    have := e a b hb
    rw [h, e a1 b1 hb1] at this
    exact this.symm
  subst ha
  exact ⟨rfl, by omega⟩

/-- A number lies in the `i`-th block of `r` numbers exactly when its
quotient by `r` is `i`. -/
theorem block_iff {r i x : Nat} (hr : 0 < r) : (r * i ≤ x ∧ x < r * (i + 1)) ↔ x / r = i := by
  constructor
  · rintro ⟨a, b⟩
    exact Nat.div_eq_of_lt_le (by rw [Nat.mul_comm]; exact a) (by rw [Nat.mul_comm]; exact b)
  · intro h
    rw [← h]
    exact ⟨Nat.mul_div_le x r, Nat.lt_mul_div_succ x hr⟩

section NextLemmas
variable [Zero R]

/-- An extraction yields a value of the stream or the `0` of a failed
extraction, and leaves values of the stream. -/
theorem IStream.next_mem (s : IStream R) :
    (∀ v, s.next.1 = Extraction.value v → v ∈ s.values ∨ v = 0) ∧
    ∀ v ∈ s.next.2.values, v ∈ s.values := by
  obtain ⟨vs, t⟩ := s
  cases t <;> rcases vs with _ | ⟨a, _ | ⟨b, rest⟩⟩ <;>
    simp [IStream.next] <;> (intro x hx; exact Or.inr (Or.inr hx))

/-- The extraction of a value that is not the last of the stream, or that
something follows. -/
theorem IStream.next_value (vs : List R) (t : Tail) (c : Nat) (ht : t ≠ Tail.failed)
    (hc : c < vs.length) (hlast : t = Tail.ended → c + 1 < vs.length) :
    (⟨vs.drop c, t⟩ : IStream R).next =
      (Extraction.value (vs.getD c 0), ⟨vs.drop (c + 1), t⟩) := by
  have hd : vs.drop c = vs.getD c 0 :: vs.drop (c + 1) := by
    rw [List.getD_eq_getElem _ _ hc]
    exact List.drop_eq_getElem_cons hc
  rw [hd]
  cases hr : vs.drop (c + 1) with
  | nil =>
    have hl : vs.length ≤ c + 1 := List.drop_eq_nil_iff.1 hr
    cases t with
    | ended => exact absurd (hlast rfl) (by omega)
    | space => rfl
    | junk => rfl
    | failed => exact absurd rfl ht
  | cons w rest =>
    cases t with
    | failed => exact absurd rfl ht
    | ended => rfl
    | space => rfl
    | junk => rfl

end NextLemmas

/-- Every entry that `fill` leaves is the entry it found or the value it
stores. -/
theorem CartesianGrid.fill_marked (g : CartesianGrid R) (i j k : Nat) (out : R)
    (init : Nat → R) (Q : R → Prop) (hout : Q out) (vals : Nat → R)
    (h : ∀ id, vals id = init id ∨ Q (vals id)) :
    ∀ id, g.fill i j k out vals id = init id ∨ Q (g.fill i j k out vals id) := by
  unfold CartesianGrid.fill
  refine foldl_preserves (fun v : Nat → R => ∀ id, v id = init id ∨ Q (v id)) _ ?_ _ _ h
  intro v x hv
  refine foldl_preserves (fun v : Nat → R => ∀ id, v id = init id ∨ Q (v id)) _ ?_ _ _ hv
  intro v y hv
  refine foldl_preserves (fun v : Nat → R => ∀ id, v id = init id ∨ Q (v id)) _ ?_ _ _ hv
  intro v z hv id
  by_cases hid : id = g.mergeIds x y z
  · rw [hid, Function.update_same]
    exact Or.inr hout
  · rw [Function.update_noteq hid]
    exact hv id

/-- Every entry that the loop on `i` leaves is the entry it found, the
image of a value of the stream, or the image of the `0` of a failed
extraction. -/
theorem CartesianGrid.importRow_marked [Zero R] (tr : R → R) (g : CartesianGrid R)
    (j k : Nat) (init : Nat → R) (Q : R → Prop) (S : List R) (hQ : ∀ v, v ∈ S ∨ v = 0 → Q (tr v)) :
    ∀ (rem i : Nat) (st st1 : IStream R × (Nat → R)), (∀ v ∈ st.1.values, v ∈ S) →
      (∀ id, st.2 id = init id ∨ Q (st.2 id)) → g.importRow tr j k rem i st = some st1 →
      (∀ v ∈ st1.1.values, v ∈ S) ∧ ∀ id, st1.2 id = init id ∨ Q (st1.2 id) := by
  intro rem
  induction rem with
  | zero =>
    intro i st st1 h1 h2 e
    have : st = st1 := by simpa [CartesianGrid.importRow] using e
    rw [← this]; exact ⟨h1, h2⟩
  | succ rem ih =>
    intro i st st1 h1 h2 e
    rw [CartesianGrid.importRow] at e
    obtain ⟨n1, n2⟩ := st.1.next_mem
    cases hn : st.1.next with
    | mk o s1 =>
      rw [hn] at n1 n2 e
      cases o with
      | eof =>
        have : (s1, st.2) = st1 := by simpa using e
        rw [← this]
        exact ⟨fun v hv => h1 v (n2 v hv), h2⟩
      | unwritten => simp at e
      | value v =>
        refine ih (i + 1) _ st1 (fun w hw => h1 w (n2 w hw)) ?_ e
        refine g.fill_marked i j k (tr v) init Q (hQ v ?_) st.2 h2
        rcases n1 v rfl with h | h
        · exact Or.inl (h1 v h)
        · exact Or.inr h

/-- What `import` leaves when it returns: every entry is the entry it found,
the image of a value of the stream, or the image of the `0` of a failed
extraction. -/
theorem CartesianGrid.importField_marked [LinearOrderedField R] (sqrt exp erf : R → R)
    (erfInv : R → Option R) (g : CartesianGrid R) (values : Nat → R) (inStream : IStream R)
    (sigma2 : R) (isLog : Bool) (connected : Int) (Q : R → Prop)
    (hQ : ∀ v, v ∈ inStream.values ∨ v = 0 →
      Q (importValue sqrt exp erf erfInv sigma2 isLog connected v))
    {s : IStream R} {vals : Nat → R}
    (h : g.importField sqrt exp erf erfInv values inStream sigma2 isLog connected =
      ImportResult.done s vals) :
    ∀ id, vals id = values id ∨ Q (vals id) := by
  unfold CartesianGrid.importField at h
  split_ifs at h
  cases hm : (List.range (g.nz / g.resz)).foldlM
      (fun st k =>
        (List.range (g.ny / g.resy)).foldlM
          (fun st j =>
            g.importRow (importValue sqrt exp erf erfInv sigma2 isLog connected) j k
              (g.nx / g.resx) 0 st)
          st)
      (inStream, values) with
  | none => rw [hm] at h; exact ImportResult.noConfusion h
  | some st =>
    rw [hm] at h
    simp only [ImportResult.done.injEq] at h
    rw [← h.2]
    have key := foldlM_preserves
      (fun st : IStream R × (Nat → R) => (∀ v ∈ st.1.values, v ∈ inStream.values) ∧
        ∀ id, st.2 id = values id ∨ Q (st.2 id))
      (fun st k =>
          (List.range (g.ny / g.resy)).foldlM
            (fun st j =>
              g.importRow (importValue sqrt exp erf erfInv sigma2 isLog connected) j k
                (g.nx / g.resx) 0 st)
            st)
      ?_ (List.range (g.nz / g.resz)) (inStream, values) st
      ⟨fun _ hv => hv, fun _ => Or.inl rfl⟩ hm
    · exact key.2
    · intro st k st1 hst e
      refine foldlM_preserves
        (fun st : IStream R × (Nat → R) => (∀ v ∈ st.1.values, v ∈ inStream.values) ∧
          ∀ id, st.2 id = values id ∨ Q (st.2 id)) _ ?_ _ _ _ hst e
      intro st j st1 hst e
      exact g.importRow_marked _ j k values Q inStream.values hQ _ 0 st st1 hst.1 hst.2 e

/-- `import` throws exactly when `isLog` is false and `connected` is `1` or
`-1`. -/
theorem CartesianGrid.importField_throws [LinearOrderedField R] (sqrt exp erf : R → R)
    (erfInv : R → Option R) (g : CartesianGrid R) (values : Nat → R) (inStream : IStream R)
    (sigma2 : R) (isLog : Bool) (connected : Int) :
    g.importField sqrt exp erf erfInv values inStream sigma2 isLog connected =
      ImportResult.runtimeError ↔ isLog = false ∧ (connected = 1 ∨ connected = -1) := by
  unfold CartesianGrid.importField
  constructor
  · intro h
    split_ifs at h with h1
    · exact h1
    · split at h <;> exact ImportResult.noConfusion h
  · intro h
    rw [if_pos h]

end ImportLemmas
section CoarseIndex
variable {R : Type}

/-- A fine cell of the part of the grid that the coarse cells cover lies in a
coarse cell of the grid. -/
theorem CartesianGrid.coarseIndex_lt (g : CartesianGrid R) {x y z : Nat}
    (hx : x < g.resx * (g.nx / g.resx))
    (hy : y < g.resy * (g.ny / g.resy)) (hz : z < g.resz * (g.nz / g.resz)) :
    g.coarseIndex x y z < g.nz / g.resz * (g.ny / g.resy) * (g.nx / g.resx) := by
  have ax : x / g.resx < g.nx / g.resx := Nat.div_lt_of_lt_mul hx
  have ay : y / g.resy < g.ny / g.resy := Nat.div_lt_of_lt_mul hy
  have az : z / g.resz < g.nz / g.resz := Nat.div_lt_of_lt_mul hz
  unfold CartesianGrid.coarseIndex
  have h1 : z / g.resz * (g.ny / g.resy) + y / g.resy + 1 ≤
      g.nz / g.resz * (g.ny / g.resy) := by
    have : (z / g.resz + 1) * (g.ny / g.resy) ≤ g.nz / g.resz * (g.ny / g.resy) :=
      Nat.mul_le_mul_right _ az
    rw [Nat.add_mul, Nat.one_mul] at this
    omega
  have h2 : (z / g.resz * (g.ny / g.resy) + y / g.resy + 1) * (g.nx / g.resx) ≤
      g.nz / g.resz * (g.ny / g.resy) * (g.nx / g.resx) := Nat.mul_le_mul_right _ h1
  rw [Nat.add_mul, Nat.one_mul] at h2
  omega

end CoarseIndex

section ImportSpec
variable {R : Type} [Zero R]
variable {g : CartesianGrid R} {tr : R → R} {values : Nat → R} {vs : List R} {t : Tail}

/-- The state before any coarse cell is populated. -/
theorem CartesianGrid.Imported.start (g : CartesianGrid R) (tr : R → R) (values : Nat → R)
    (vs : List R) (t : Tail) : g.Imported tr values vs t 0 (⟨vs, t⟩, values) :=
  ⟨rfl, fun _ _ _ _ _ _ h => absurd h (Nat.not_lt_zero _), fun _ _ => rfl⟩

/-- The population of the block of the coarse cell `(i, j, k)` from the
value of its index. -/
theorem CartesianGrid.Imported.step {i j k : Nat} {st : IStream R × (Nat → R)} (hf : g.Fits)
    (rx : 0 < g.resx) (ry : 0 < g.resy) (rz : 0 < g.resz)
    (hi : i < g.nx / g.resx) (hj : j < g.ny / g.resy) (hk : k < g.nz / g.resz)
    (h : g.Imported tr values vs t ((k * (g.ny / g.resy) + j) * (g.nx / g.resx) + i) st) :
    g.Imported tr values vs t ((k * (g.ny / g.resy) + j) * (g.nx / g.resx) + i + 1)
      (⟨vs.drop ((k * (g.ny / g.resy) + j) * (g.nx / g.resx) + i + 1), t⟩,
        g.fill i j k
          (tr (vs.getD ((k * (g.ny / g.resy) + j) * (g.nx / g.resx) + i) 0)) st.2) := by
  have bx : g.resx * (g.nx / g.resx) ≤ g._nx := Nat.mul_div_le _ _
  have by1 : g.resy * (g.ny / g.resy) ≤ g._ny := Nat.mul_div_le _ _
  have bz : g.resz * (g.nz / g.resz) ≤ g._nz := Nat.mul_div_le _ _
  have ex : g.resx * (i + 1) ≤ g.resx * (g.nx / g.resx) := Nat.mul_le_mul_left _ hi
  have ey : g.resy * (j + 1) ≤ g.resy * (g.ny / g.resy) := Nat.mul_le_mul_left _ hj
  have ez : g.resz * (k + 1) ≤ g.resz * (g.nz / g.resz) := Nat.mul_le_mul_left _ hk
  have px : 0 < g.resx * (i + 1) := Nat.mul_pos rx (Nat.succ_pos i)
  have py : 0 < g.resy * (j + 1) := Nat.mul_pos ry (Nat.succ_pos j)
  have pz : 0 < g.resz * (k + 1) := Nat.mul_pos rz (Nat.succ_pos k)
  obtain ⟨n1, n2, n3, -, -⟩ := hf.bounds (show 0 < g._nx by omega) (show 0 < g._ny by omega)
    (show 0 < g._nz by omega)
  have spec := g.fill_spec i j k
    (tr (vs.getD ((k * (g.ny / g.resy) + j) * (g.nx / g.resx) + i) 0)) st.2
    (by omega) (by omega) (by omega) rx ry rz
  -- a fine cell of the covered part is in the block exactly when its index is that of the block
  have idx : ∀ x y z, x < g.resx * (g.nx / g.resx) → y < g.resy * (g.ny / g.resy) →
      z < g.resz * (g.nz / g.resz) →
      (g.coarseIndex x y z = (k * (g.ny / g.resy) + j) * (g.nx / g.resx) + i ↔
        (g.resx * i ≤ x ∧ x < g.resx * (i + 1)) ∧ (g.resy * j ≤ y ∧ y < g.resy * (j + 1)) ∧
          (g.resz * k ≤ z ∧ z < g.resz * (k + 1))) := by
    intro x y z hx hy hz
    have ax : x / g.resx < g.nx / g.resx := Nat.div_lt_of_lt_mul hx
    have ay : y / g.resy < g.ny / g.resy := Nat.div_lt_of_lt_mul hy
    rw [block_iff rx, block_iff ry, block_iff rz]
    unfold CartesianGrid.coarseIndex
    constructor
    · intro e
      obtain ⟨e1, e2⟩ := radix_unique ax hi e
      obtain ⟨e3, e4⟩ := radix_unique ay hj e1
      exact ⟨e2, e4, e3⟩
    · rintro ⟨e1, e2, e3⟩
      rw [e1, e2, e3]
  -- no cell outside the block has the id of a cell of the block
  have inj : ∀ x y z, x < g.resx * (g.nx / g.resx) → y < g.resy * (g.ny / g.resy) →
      z < g.resz * (g.nz / g.resz) →
      (∃ x1 y1 z1, (g.resx * i ≤ x1 ∧ x1 < g.resx * (i + 1)) ∧
        (g.resy * j ≤ y1 ∧ y1 < g.resy * (j + 1)) ∧
        (g.resz * k ≤ z1 ∧ z1 < g.resz * (k + 1)) ∧ g.mergeIds x y z = g.mergeIds x1 y1 z1) →
      g.coarseIndex x y z = (k * (g.ny / g.resy) + j) * (g.nx / g.resx) + i := by
    intro x y z hx hy hz
    rintro ⟨x1, y1, z1, mx, my, mz, e⟩
    have s1 := g.splitId_mergeIds hf (show x < g._nx by omega) (show y < g._ny by omega)
      (show z < g._nz by omega)
    have s2 := g.splitId_mergeIds hf (show x1 < g._nx by omega) (show y1 < g._ny by omega)
      (show z1 < g._nz by omega)
    rw [e, s2] at s1
    have q1 : x1 = x := congrArg Prod.fst s1
    have q2 : y1 = y := congrArg (fun q => q.2.1) s1
    have q3 : z1 = z := congrArg (fun q => q.2.2) s1
    rw [q1] at mx; rw [q2] at my; rw [q3] at mz
    exact (idx x y z hx hy hz).2 ⟨mx, my, mz⟩
  refine ⟨rfl, ?_, ?_⟩
  · intro x y z hx hy hz hc
    by_cases he : g.coarseIndex x y z = (k * (g.ny / g.resy) + j) * (g.nx / g.resx) + i
    · obtain ⟨mx, my, mz⟩ := (idx x y z hx hy hz).1 he
      rw [he]
      exact (spec (g.mergeIds x y z)).1 ⟨x, y, z, mx, my, mz, rfl⟩
    · show g.fill i j k _ st.2 (g.mergeIds x y z) = _
      rw [(spec (g.mergeIds x y z)).2 (fun hb => he (inj x y z hx hy hz hb))]
      exact h.stored x y z hx hy hz (by omega)
  · intro id hid
    show g.fill i j k _ st.2 id = _
    rw [(spec id).2 ?_]
    · exact h.kept id (fun x y z hx hy hz hc => hid x y z hx hy hz (by omega))
    · rintro ⟨x, y, z, mx, my, mz, e⟩
      have hx : x < g.resx * (g.nx / g.resx) := by omega
      have hy : y < g.resy * (g.ny / g.resy) := by omega
      have hz : z < g.resz * (g.nz / g.resz) := by omega
      exact hid x y z hx hy hz (by rw [(idx x y z hx hy hz).2 ⟨mx, my, mz⟩]; omega) e

/-- The loop on `i`, while the stream holds the values it reads: it returns,
having populated the blocks of the coarse cells it went through. -/
theorem CartesianGrid.importRow_spec (hf : g.Fits) (rx : 0 < g.resx) (ry : 0 < g.resy)
    (rz : 0 < g.resz) (ht : t ≠ Tail.failed) {j k : Nat} (hj : j < g.ny / g.resy)
    (hk : k < g.nz / g.resz) :
    ∀ (rem i : Nat) (st : IStream R × (Nat → R)), i + rem ≤ g.nx / g.resx →
      g.Imported tr values vs t ((k * (g.ny / g.resy) + j) * (g.nx / g.resx) + i) st →
      (k * (g.ny / g.resy) + j) * (g.nx / g.resx) + i + rem ≤ vs.length →
      (t = Tail.ended → (k * (g.ny / g.resy) + j) * (g.nx / g.resx) + i + rem < vs.length) →
      ∃ st1, g.importRow tr j k rem i st = some st1 ∧
        g.Imported tr values vs t ((k * (g.ny / g.resy) + j) * (g.nx / g.resx) + i + rem)
          st1 := by
  intro rem
  induction rem with
  | zero =>
    intro i st _ h _ _
    exact ⟨st, rfl, h⟩
  | succ rem ih =>
    intro i st hir h hlen hlast
    rw [CartesianGrid.importRow, h.stream,
      IStream.next_value vs t _ ht (by omega) (fun e => by have := hlast e; omega)]
    have h1 := h.step hf rx ry rz (by omega) hj hk
    obtain ⟨st1, e1, i1⟩ := ih (i + 1) _ (by omega) h1 (by omega)
      (fun e => by have := hlast e; omega)
    refine ⟨st1, e1, ?_⟩
    have e : (k * (g.ny / g.resy) + j) * (g.nx / g.resx) + (i + 1) + rem =
        (k * (g.ny / g.resy) + j) * (g.nx / g.resx) + i + (rem + 1) := by omega
    rw [← e]
    exact i1

/-- The loop on `j`, while the stream holds the values it reads. -/
theorem CartesianGrid.importPlane_spec (hf : g.Fits) (rx : 0 < g.resx) (ry : 0 < g.resy)
    (rz : 0 < g.resz) (ht : t ≠ Tail.failed) {k : Nat} (hk : k < g.nz / g.resz)
    (hlen : g.nz / g.resz * (g.ny / g.resy) * (g.nx / g.resx) ≤ vs.length)
    (hlast : t = Tail.ended →
      g.nz / g.resz * (g.ny / g.resy) * (g.nx / g.resx) < vs.length) :
    ∀ (n : Nat), n ≤ g.ny / g.resy → ∀ (st : IStream R × (Nat → R)),
      g.Imported tr values vs t (k * (g.ny / g.resy) * (g.nx / g.resx)) st →
      ∃ st1, (List.range n).foldlM
          (fun st j => g.importRow tr j k (g.nx / g.resx) 0 st) st = some st1 ∧
        g.Imported tr values vs t ((k * (g.ny / g.resy) + n) * (g.nx / g.resx)) st1 := by
  intro n
  induction n with
  | zero =>
    intro _ st h
    exact ⟨st, rfl, h⟩
  | succ n ih =>
    intro hn st h
    obtain ⟨st1, e1, i1⟩ := ih (by omega) st h
    have bound : (k * (g.ny / g.resy) + n) * (g.nx / g.resx) + g.nx / g.resx ≤
        g.nz / g.resz * (g.ny / g.resy) * (g.nx / g.resx) := by
      have a1 : (k + 1) * (g.ny / g.resy) ≤ g.nz / g.resz * (g.ny / g.resy) :=
        Nat.mul_le_mul_right _ hk
      rw [Nat.add_mul, Nat.one_mul] at a1
      have a2 : (k * (g.ny / g.resy) + n + 1) * (g.nx / g.resx) ≤
          g.nz / g.resz * (g.ny / g.resy) * (g.nx / g.resx) :=
        Nat.mul_le_mul_right _ (by omega)
      rw [Nat.add_mul, Nat.one_mul] at a2
      exact a2
    obtain ⟨st2, e2, i2⟩ := g.importRow_spec hf rx ry rz ht
      (show n < g.ny / g.resy by omega) hk (g.nx / g.resx) 0 st1 (by omega) i1 (by omega)
      (fun e => by have := hlast e; omega)
    refine ⟨st2, ?_, ?_⟩
    · rw [List.range_succ, List.foldlM_append, e1]
      simp only [Option.bind_eq_bind, Option.some_bind, List.foldlM_cons, List.foldlM_nil, e2]
      rfl
    · have e : (k * (g.ny / g.resy) + (n + 1)) * (g.nx / g.resx) =
          (k * (g.ny / g.resy) + n) * (g.nx / g.resx) + 0 + g.nx / g.resx := by
        rw [← Nat.add_assoc, Nat.add_mul _ 1, Nat.one_mul, Nat.add_zero]
      rw [e]
      exact i2

/-- The loop on `k`, while the stream holds the values it reads. -/
theorem CartesianGrid.importAll_spec (hf : g.Fits) (rx : 0 < g.resx) (ry : 0 < g.resy)
    (rz : 0 < g.resz) (ht : t ≠ Tail.failed)
    (hlen : g.nz / g.resz * (g.ny / g.resy) * (g.nx / g.resx) ≤ vs.length)
    (hlast : t = Tail.ended →
      g.nz / g.resz * (g.ny / g.resy) * (g.nx / g.resx) < vs.length) :
    ∀ (n : Nat), n ≤ g.nz / g.resz → ∀ (st : IStream R × (Nat → R)),
      g.Imported tr values vs t 0 st →
      ∃ st1, (List.range n).foldlM
          (fun st k => (List.range (g.ny / g.resy)).foldlM
            (fun st j => g.importRow tr j k (g.nx / g.resx) 0 st) st) st = some st1 ∧
        g.Imported tr values vs t (n * (g.ny / g.resy) * (g.nx / g.resx)) st1 := by
  intro n
  induction n with
  | zero =>
    intro _ st h
    refine ⟨st, rfl, ?_⟩
    rw [Nat.zero_mul, Nat.zero_mul]
    exact h
  | succ n ih =>
    intro hn st h
    obtain ⟨st1, e1, i1⟩ := ih (by omega) st h
    obtain ⟨st2, e2, i2⟩ := g.importPlane_spec hf rx ry rz ht
      (show n < g.nz / g.resz by omega) hlen hlast (g.ny / g.resy) (Nat.le_refl _) st1 i1
    refine ⟨st2, ?_, ?_⟩
    · rw [List.range_succ, List.foldlM_append, e1]
      simp only [Option.bind_eq_bind, Option.some_bind, List.foldlM_cons, List.foldlM_nil, e2]
      rfl
    · have e : (n + 1) * (g.ny / g.resy) * (g.nx / g.resx) =
          (n * (g.ny / g.resy) + g.ny / g.resy) * (g.nx / g.resx) := by
        rw [Nat.add_mul n 1, Nat.one_mul]
      rw [e]
      exact i2

end ImportSpec

section ImportSpec2
variable {R : Type} [LinearOrderedField R]

/-- What `import` stores when the stream holds the values the grid needs,
the last of them followed by a character: it returns, every fine cell of a
coarse cell holds the value computed from the value of that coarse cell, in
the order of reading, and every other entry is as it was. -/
theorem CartesianGrid.importField_spec (sqrt exp erf : R → R) (erfInv : R → Option R)
    (g : CartesianGrid R) (values : Nat → R) (vs : List R) (t : Tail) (sigma2 : R)
    (isLog : Bool) (connected : Int) (hf : g.Fits) (rx : 0 < g.resx) (ry : 0 < g.resy)
    (rz : 0 < g.resz) (ht : t ≠ Tail.failed)
    (hlen : g.nz / g.resz * (g.ny / g.resy) * (g.nx / g.resx) ≤ vs.length)
    (hlast : t = Tail.ended →
      g.nz / g.resz * (g.ny / g.resy) * (g.nx / g.resx) < vs.length)
    (hc : ¬ (isLog = false ∧ (connected = 1 ∨ connected = -1))) :
    ∃ vals, g.importField sqrt exp erf erfInv values ⟨vs, t⟩ sigma2 isLog connected =
        ImportResult.done
          ⟨vs.drop (g.nz / g.resz * (g.ny / g.resy) * (g.nx / g.resx)), t⟩ vals ∧
      (∀ x y z, x < g.resx * (g.nx / g.resx) → y < g.resy * (g.ny / g.resy) →
        z < g.resz * (g.nz / g.resz) →
        vals (g.mergeIds x y z) =
          importValue sqrt exp erf erfInv sigma2 isLog connected
            (vs.getD (g.coarseIndex x y z) 0)) ∧
      ∀ id, (∀ x y z, x < g.resx * (g.nx / g.resx) → y < g.resy * (g.ny / g.resy) →
        z < g.resz * (g.nz / g.resz) → id ≠ g.mergeIds x y z) → vals id = values id := by
  obtain ⟨st1, e1, i1⟩ := g.importAll_spec
    hf rx ry rz ht hlen hlast (g.nz / g.resz) (Nat.le_refl _) _
    (CartesianGrid.Imported.start g (importValue sqrt exp erf erfInv sigma2 isLog connected)
      values vs t)
  have hu : ¬ (g.resz = 0 ∨ (0 < g.nz / g.resz ∧
      (g.resy = 0 ∨ (0 < g.ny / g.resy ∧ g.resx = 0)))) := by
    rintro (h | ⟨-, h | ⟨-, h⟩⟩) <;> omega
  refine ⟨st1.2, ?_, ?_, ?_⟩
  · unfold CartesianGrid.importField
    rw [if_neg hc, if_neg hu, e1]
    show ImportResult.done st1.1 st1.2 = _
    rw [i1.stream]
  · intro x y z hx hy hz
    exact i1.stored x y z hx hy hz (g.coarseIndex_lt hx hy hz)
  · intro id hid
    exact i1.kept id (fun x y z hx hy hz _ => hid x y z hx hy hz)

end ImportSpec2

/-! # Lemmas on two runs side by side -/

section SimLemmas
variable {R : Type} [LinearOrderedField R]

end SimLemmas

section SimLemmas2
variable {R : Type} [LinearOrderedField R]

end SimLemmas2

section SimLemmas3
variable {R : Type} [LinearOrderedField R]
variable {sqrt : R → R} {g : CartesianGrid R} {f : Nat → R} {srcs : List Nat}

end SimLemmas3

section ExtLemma

end ExtLemma

section SimLoop
variable {R : Type} [LinearOrderedField R]
variable {sqrt : R → R} {g : CartesianGrid R} {f : Nat → R} {srcs : List Nat}

/-- More fuel does not change what the `while` loop returns. -/
theorem LazyMole.runLoop_mono (sqrt : R → R) :
    ∀ (fuel : Nat) (tie : Nat → Nat) (m m1 : LazyMole R),
      m.runLoop sqrt tie fuel = some m1 → ∀ k, m.runLoop sqrt tie (fuel + k) = some m1 := by
  intro fuel
  induction fuel with
  | zero =>
    intro tie m m1 h k
    by_cases hnil : m.heap.nodes = []
    · rw [LazyMole.runLoop_done sqrt tie _ hnil] at h ⊢
      exact h
    · unfold LazyMole.runLoop at h
      rw [if_neg (fun he => hnil ((Heap.empty_iff _).1 he))] at h
      simp at h
  | succ fuel ih =>
    intro tie m m1 h k
    by_cases hnil : m.heap.nodes = []
    · rw [LazyMole.runLoop_done sqrt tie _ hnil] at h ⊢
      exact h
    · rw [LazyMole.runLoop_step sqrt tie fuel hnil] at h
      have e : fuel + 1 + k = (fuel + k) + 1 := by omega
      rw [e, LazyMole.runLoop_step sqrt tie _ hnil]
      revert h
      cases h1 : m.scan sqrt (tie 0) with
      | none => intro h; simp at h
      | some m2 =>
        intro h
        exact ih _ m2 m1 h k

end SimLoop

section SimLoop2
variable {R : Type} [LinearOrderedField R]
variable {sqrt : R → R} {g : CartesianGrid R} {f : Nat → R} {srcs : List Nat}

end SimLoop2

section RouteCongr
variable {R : Type}

theorem routeCosts_congr [Zero R] [Add R] (nb : Nat → List Nat) (w : Nat → Nat → R)
    {srcs srcs1 : List Nat} (hmem : ∀ c, c ∈ srcs1 ↔ c ∈ srcs) (c : Nat) :
    routeCosts nb w srcs1 c = routeCosts nb w srcs c := by
  ext r
  simp only [routeCosts, IsRoute, Set.mem_setOf_eq]
  constructor
  · rintro ⟨l, ⟨h1, ⟨s, hs, h2⟩, h3⟩, h4⟩
    exact ⟨l, ⟨h1, ⟨s, (hmem s).1 hs, h2⟩, h3⟩, h4⟩
  · rintro ⟨l, ⟨h1, ⟨s, hs, h2⟩, h3⟩, h4⟩
    exact ⟨l, ⟨h1, ⟨s, (hmem s).2 hs, h2⟩, h3⟩, h4⟩

end RouteCongr

section CheckedGrid
variable {R : Type}

theorem CartesianGrid.index_of_lt {g : CartesianGrid R} {i : Nat} (h : i < g.numberOfCells) :
    g.index i = some () := if_pos h

theorem CartesianGrid.splitIdChecked_of_lt {g : CartesianGrid R} {id : Nat}
    (h : id < g.numberOfCells) : g.splitIdChecked id = some (g.splitId id) := if_pos h

/-- A loop that appends to its accumulator, and fails nowhere, computes
the concatenation of what it appends. -/
theorem foldlM_append {α β : Type} (f : List β → α → Option (List β)) (h : α → List β) :
    ∀ (l : List α) (acc : List β), (∀ x ∈ l, ∀ a, f a x = some (a ++ h x)) →
      l.foldlM f acc = some (acc ++ l.flatMap h) := by
  intro l
  induction l with
  | nil => intro acc _; simp
  | cons x l ih =>
    intro acc hx
    rw [List.foldlM_cons, hx x (List.mem_cons_self _ _)]
    show l.foldlM f (acc ++ h x) = _
    rw [ih _ (fun y hy a => hx y (List.mem_cons_of_mem _ hy) a)]
    simp [List.flatMap_cons]

/-- The `assert`s met by `neighbors` on a cell of the grid hold: the range
test made on an offset triple is the condition that `mergeIds` asserts. -/
theorem CartesianGrid.neighborsChecked_eq {g : CartesianGrid R} {id : Nat}
    (h : id < g.numberOfCells) : g.neighborsChecked id = some (g.neighbors id) := by
  unfold CartesianGrid.neighborsChecked CartesianGrid.neighbors
  rw [CartesianGrid.splitIdChecked_of_lt h, Option.some_bind]
  rw [foldlM_append _ (fun s0 => offsets.flatMap fun s1 => offsets.flatMap fun s2 =>
    if 0 ≤ addOff (g.splitId id).1 s0 ∧ addOff (g.splitId id).1 s0 < g._nx ∧
       0 ≤ addOff (g.splitId id).2.1 s1 ∧ addOff (g.splitId id).2.1 s1 < g._ny ∧
       0 ≤ addOff (g.splitId id).2.2 s2 ∧ addOff (g.splitId id).2.2 s2 < g._nz then
      if ¬ (s0 = 0 ∧ s1 = 0 ∧ s2 = 0) then
        [g.mergeIds (addOff (g.splitId id).1 s0) (addOff (g.splitId id).2.1 s1)
          (addOff (g.splitId id).2.2 s2)]
      else []
    else [])]
  · rw [List.nil_append]
  · intro s0 _ a0
    rw [foldlM_append _ (fun s1 => offsets.flatMap fun s2 =>
      if 0 ≤ addOff (g.splitId id).1 s0 ∧ addOff (g.splitId id).1 s0 < g._nx ∧
         0 ≤ addOff (g.splitId id).2.1 s1 ∧ addOff (g.splitId id).2.1 s1 < g._ny ∧
         0 ≤ addOff (g.splitId id).2.2 s2 ∧ addOff (g.splitId id).2.2 s2 < g._nz then
        if ¬ (s0 = 0 ∧ s1 = 0 ∧ s2 = 0) then
          [g.mergeIds (addOff (g.splitId id).1 s0) (addOff (g.splitId id).2.1 s1)
            (addOff (g.splitId id).2.2 s2)]
        else []
      else [])]
    intro s1 _ a1
    rw [foldlM_append _ (fun s2 =>
      if 0 ≤ addOff (g.splitId id).1 s0 ∧ addOff (g.splitId id).1 s0 < g._nx ∧
         0 ≤ addOff (g.splitId id).2.1 s1 ∧ addOff (g.splitId id).2.1 s1 < g._ny ∧
         0 ≤ addOff (g.splitId id).2.2 s2 ∧ addOff (g.splitId id).2.2 s2 < g._nz then
        if ¬ (s0 = 0 ∧ s1 = 0 ∧ s2 = 0) then
          [g.mergeIds (addOff (g.splitId id).1 s0) (addOff (g.splitId id).2.1 s1)
            (addOff (g.splitId id).2.2 s2)]
        else []
      else [])]
    intro s2 _ a2
    by_cases hc : 0 ≤ addOff (g.splitId id).1 s0 ∧ addOff (g.splitId id).1 s0 < g._nx ∧
        0 ≤ addOff (g.splitId id).2.1 s1 ∧ addOff (g.splitId id).2.1 s1 < g._ny ∧
        0 ≤ addOff (g.splitId id).2.2 s2 ∧ addOff (g.splitId id).2.2 s2 < g._nz
    · rw [if_pos hc, if_pos hc]
      by_cases hz : ¬ (s0 = 0 ∧ s1 = 0 ∧ s2 = 0)
      · rw [if_pos hz, if_pos hz]
        unfold CartesianGrid.mergeIdsChecked
        rw [if_pos ⟨hc.2.1, hc.2.2.2.1, hc.2.2.2.2.2⟩]
        rfl
      · rw [if_neg hz, if_neg hz, List.append_nil]
    · rw [if_neg hc, if_neg hc, List.append_nil]

end CheckedGrid

section CheckedField
variable {R : Type} [Field R]

theorem CartesianGrid.centerOfCellChecked_eq {g : CartesianGrid R} (hf : g.Fits) {id : Nat}
    (h : id < g.numberOfCells) : g.centerOfCellChecked id = some (g.centerOfCell id) := by
  obtain ⟨h1, h2, h3, -⟩ := g.splitId_spec hf h
  unfold CartesianGrid.centerOfCellChecked CartesianGrid.centerOfCell3Checked
  rw [CartesianGrid.splitIdChecked_of_lt h]
  show (if _ then _ else _) = _
  rw [if_pos ⟨h1, h2, h3⟩]
  rfl

theorem computeResistanceChecked_eq (sqrt : R → R) {g : CartesianGrid R} (hf : g.Fits)
    (f : Nat → R) {c n : Nat} (hc : c < g.numberOfCells) (hn : n < g.numberOfCells) :
    computeResistanceChecked sqrt g f c n = some (computeResistance sqrt g f c n) := by
  unfold computeResistanceChecked CartesianGrid.getFromCellChecked
  rw [CartesianGrid.centerOfCellChecked_eq hf hc, CartesianGrid.centerOfCellChecked_eq hf hn,
    if_pos hc, if_pos hn]
  rfl

end CheckedField

section CheckedRun
variable {R : Type} [LinearOrderedField R]

/-- The constructor meets no index out of range when the sources are cells. -/
theorem LazyMole.newChecked_eq (g : CartesianGrid R) (f : Nat → R) (srcs : List Nat)
    (hsrc : ∀ s ∈ srcs, s < g.numberOfCells) :
    LazyMole.newChecked g f srcs = some (LazyMole.new g f srcs) := by
  have key : ∀ (l : List Nat) (m : LazyMole R), m.gridPtr = g →
      (∀ s ∈ l, s < g.numberOfCells) →
      l.foldlM LazyMole.addSourceChecked m = some (l.foldl LazyMole.addSource m) := by
    intro l
    induction l with
    | nil => intro m _ _; rfl
    | cons c l ih =>
      intro m hg hl
      rw [List.foldlM_cons, List.foldl_cons]
      unfold LazyMole.addSourceChecked
      rw [hg, CartesianGrid.index_of_lt (hl c (List.mem_cons_self _ _))]
      exact ih _ hg (fun s hs => hl s (List.mem_cons_of_mem _ hs))
  unfold LazyMole.newChecked LazyMole.new
  rw [key srcs _ rfl hsrc]
  rfl

/-- The relaxation of a cell of the grid from a cell of the grid meets no
index out of range and no `assert` that fails. -/
theorem LazyMole.relaxChecked_eq (sqrt : R → R) {g : CartesianGrid R} (hf : g.Fits)
    {m : LazyMole R} (hg : m.gridPtr = g) {c n : Nat} (r : R) (hc : c < g.numberOfCells)
    (hn : n < g.numberOfCells) : m.relaxChecked sqrt c r n = m.relax sqrt c r n := by
  unfold LazyMole.relaxChecked LazyMole.relax
  rw [hg, CartesianGrid.index_of_lt hn, computeResistanceChecked_eq sqrt hf _ hc hn]
  rfl

theorem LazyMole.relaxAllChecked_eq (sqrt : R → R) {g : CartesianGrid R} (hf : g.Fits)
    {c : Nat} (r : R) (hc : c < g.numberOfCells) :
    ∀ (ns : List Nat) (m : LazyMole R), m.Struct → m.gridPtr = g →
      (∀ b ∈ ns, b < g.numberOfCells) →
      ns.foldlM (LazyMole.relaxChecked sqrt c r) m = ns.foldlM (LazyMole.relax sqrt c r) m := by
  intro ns
  induction ns with
  | nil => intro m _ _ _; rfl
  | cons n ns ih =>
    intro m hs hg hns
    rw [List.foldlM_cons, List.foldlM_cons,
      LazyMole.relaxChecked_eq sqrt hf hg r hc (hns n (List.mem_cons_self _ _))]
    cases h1 : m.relax sqrt c r n with
    | none => rfl
    | some m2 =>
      obtain ⟨a1, -, a3⟩ := LazyMole.relax_struct sqrt c r n hs h1
      exact ih m2 a1 (a3.trans hg) (fun b hb => hns b (List.mem_cons_of_mem _ hb))

/-- An iteration of the loop of `run`, from a state that satisfies the
invariants, meets no index out of range and no `assert` that fails. -/
theorem LazyMole.scanChecked_eq (sqrt : R → R) {g : CartesianGrid R} (hf : g.Fits)
    (tie : Nat) {m : LazyMole R} (hs : m.Struct) (ht : m.Tree g) :
    m.scanChecked sqrt tie = m.scan sqrt tie := by
  cases htop : m.heap.top tie with
  | none =>
    unfold LazyMole.scanChecked LazyMole.scan
    rw [htop]
  | some n =>
    have hn : n.2.cell < g.numberOfCells :=
      ht.range _ (hs.live n (Heap.top_some htop).1)
    rw [LazyMole.scan_eq sqrt htop]
    unfold LazyMole.scanChecked
    rw [htop]
    have hi : m.gridPtr.index n.2.cell = some () := by
      rw [ht.hg]; exact CartesianGrid.index_of_lt hn
    have hg1 : (m.settle tie n).gridPtr = g := ht.hg
    have hnb : (m.settle tie n).gridPtr.neighborsChecked n.2.cell =
        some (m.gridPtr.neighbors n.2.cell) := by
      rw [hg1, ht.hg]; exact CartesianGrid.neighborsChecked_eq hn
    show (m.gridPtr.index n.2.cell).bind (fun _ =>
      ((m.settle tie n).gridPtr.neighborsChecked n.2.cell).bind fun neighbors =>
        neighbors.foldlM (LazyMole.relaxChecked sqrt n.2.cell (-n.2.res)) (m.settle tie n)) = _
    rw [hi, Option.some_bind, hnb, Option.some_bind]
    exact LazyMole.relaxAllChecked_eq sqrt hf _ hn _ _ (hs.struct_settle htop) hg1
      (fun b hb => g.neighbors_lt hf hn (ht.hg ▸ hb))

/-- The loop of `run`, from a state that satisfies the invariants, meets no
index out of range and no `assert` that fails. -/
theorem LazyMole.runLoopChecked_eq (sqrt : R → R) {g : CartesianGrid R} (hf : g.Fits) :
    ∀ (fuel : Nat) (tie : Nat → Nat) (m : LazyMole R), m.Struct → m.Tree g →
      m.runLoopChecked sqrt tie fuel = m.runLoop sqrt tie fuel := by
  intro fuel
  induction fuel with
  | zero =>
    intro tie m _ _
    unfold LazyMole.runLoopChecked LazyMole.runLoop
    rfl
  | succ fuel ih =>
    intro tie m hs ht
    unfold LazyMole.runLoopChecked LazyMole.runLoop
    by_cases he : m.heap.empty = true
    · rw [if_pos he, if_pos he]
    · rw [if_neg he, if_neg he]
      have hne : m.heap.nodes ≠ [] := fun h => he ((Heap.empty_iff _).2 h)
      obtain ⟨n, m1, -, h1, s1, t1, -, -⟩ :=
        LazyMole.scan_inv (g := g) (I := fun _ => True) sqrt (g.neighbors_closed hf)
          (fun _ _ _ _ _ _ _ => trivial) (fun _ _ _ _ _ _ _ _ _ _ => trivial)
          (fun _ _ _ _ _ _ _ _ _ _ _ _ _ _ => trivial) (tie 0) hs ht trivial hne
      show (match m.scanChecked sqrt (tie 0) with
        | none => none
        | some m1 => LazyMole.runLoopChecked sqrt (fun k => tie (k + 1)) fuel m1) = _
      rw [LazyMole.scanChecked_eq sqrt hf (tie 0) hs ht, h1]
      exact ih _ m1 s1 t1

end CheckedRun

section CheckedPath
variable {R : Type}

/-- The predecessor walk of `path` meets no index out of range when the
cells it visits are cells of the grid. -/
theorem LazyMole.pathLoopChecked_eq {g : CartesianGrid R} (m : LazyMole R)
    (hg : m.gridPtr = g) :
    ∀ (k c : Nat) (l : List Nat) (pf : Nat → Nat), m.walk k c = some l →
      (∀ x ∈ l, x < g.numberOfCells) → m.pathLoopChecked k c pf = m.pathLoop k c pf := by
  intro k
  induction k with
  | zero => intro c l pf _ _; rfl
  | succ k ih =>
    intro c l pf hw hl
    unfold LazyMole.walk at hw
    unfold LazyMole.pathLoopChecked LazyMole.pathLoop
    by_cases hp : m.previous c ≠ EMPTY
    · simp only [if_pos hp] at hw ⊢
      obtain ⟨l1, h1, rfl⟩ := Option.map_eq_some'.1 hw
      rw [hg, CartesianGrid.index_of_lt (hl c (List.mem_cons_self _ _))]
      exact ih _ l1 _ h1 (fun x hx => hl x (List.mem_cons_of_mem _ hx))
    · simp only [if_neg hp] at hw ⊢
      have : l = [c] := (Option.some.inj hw).symm
      rw [hg, CartesianGrid.index_of_lt (hl c (by rw [this]; exact List.mem_cons_self _ _))]
      rfl

end CheckedPath

section CheckedExport
variable {R : Type} [Field R]

/-- The predecessor walk of `exportPath` meets no index out of range and no
`assert` that fails when the cells it visits are cells of the grid. -/
theorem LazyMole.exportLoopChecked_eq {g : CartesianGrid R} (hf : g.Fits) (m : LazyMole R)
    (hg : m.gridPtr = g) :
    ∀ (k c : Nat) (l : List Nat) (out : List (Point3D R)), m.walk k c = some l →
      (∀ x ∈ l, x < g.numberOfCells) →
      m.exportLoopChecked k c out = m.exportLoop k c out := by
  intro k
  induction k with
  | zero => intro c l out _ _; rfl
  | succ k ih =>
    intro c l out hw hl
    unfold LazyMole.walk at hw
    unfold LazyMole.exportLoopChecked LazyMole.exportLoop
    by_cases hp : m.previous c ≠ EMPTY
    · simp only [if_pos hp] at hw ⊢
      obtain ⟨l1, h1, rfl⟩ := Option.map_eq_some'.1 hw
      have hc := hl c (List.mem_cons_self _ _)
      rw [hg, CartesianGrid.centerOfCellChecked_eq hf hc, CartesianGrid.index_of_lt hc]
      exact ih _ l1 _ h1 (fun x hx => hl x (List.mem_cons_of_mem _ hx))
    · simp only [if_neg hp] at hw ⊢
      have : l = [c] := (Option.some.inj hw).symm
      have hc := hl c (by rw [this]; exact List.mem_cons_self _ _)
      rw [hg, CartesianGrid.centerOfCellChecked_eq hf hc, CartesianGrid.index_of_lt hc]
      rfl

/-- The walk of `exportPath` from an id that is not a cell stops at the
`assert` of `splitId`, whatever the number of iterations allowed. -/
theorem LazyMole.exportLoopChecked_none (m : LazyMole R) {c : Nat}
    (hc : ¬ c < m.gridPtr.numberOfCells) (k : Nat) (out : List (Point3D R)) :
    m.exportLoopChecked k c out = none := by
  cases k with
  | zero => rfl
  | succ k =>
    unfold LazyMole.exportLoopChecked CartesianGrid.centerOfCellChecked
      CartesianGrid.splitIdChecked
    rw [if_neg hc]
    rfl

end CheckedExport

section TargetLemmas
variable {R : Type} [LinearOrder R]

/-- What the loop of `main.cpp` on the target ids computes, from any values
of `minRes` and `minId`: either no listed target has a resistance below
`minRes` and both variables are as before, or they are the resistance and the
id of the first listed target of least resistance, which is below the
former `minRes`. -/
theorem Selection.foldl_spec (res : Nat → R) :
    ∀ (ts : List Nat) (s : Selection R),
      ((∀ t ∈ ts, s.minRes ≤ res t) ∧ ts.foldl (Selection.step res) s = s) ∨
      ∃ pre i post, ts = pre ++ i :: post ∧
        ts.foldl (Selection.step res) s = { minRes := res i, minId := i } ∧
        res i < s.minRes ∧ (∀ t ∈ pre, res i < res t) ∧ ∀ t ∈ post, res i ≤ res t := by
  intro ts
  induction ts with
  | nil => intro s; exact Or.inl ⟨fun _ h => absurd h (List.not_mem_nil _), rfl⟩
  | cons t ts ih =>
    intro s
    rw [List.foldl_cons]
    by_cases h : res t < s.minRes
    · have hstep : Selection.step res s t = { minRes := res t, minId := t } := if_pos h
      rw [hstep]
      rcases ih { minRes := res t, minId := t } with ⟨h1, h2⟩ | ⟨pre, i, post, h1, h2, h3, h4, h5⟩
      · exact Or.inr ⟨[], t, ts, rfl, h2, h, fun _ hx => absurd hx (List.not_mem_nil _), h1⟩
      · refine Or.inr ⟨t :: pre, i, post, by rw [h1]; rfl, h2, lt_trans h3 h, ?_, h5⟩
        intro x hx
        rcases List.mem_cons.1 hx with rfl | hx
        · exact h3
        · exact h4 x hx
    · have hstep : Selection.step res s t = s := if_neg h
      rw [hstep]
      rcases ih s with ⟨h1, h2⟩ | ⟨pre, i, post, h1, h2, h3, h4, h5⟩
      · refine Or.inl ⟨?_, h2⟩
        intro x hx
        rcases List.mem_cons.1 hx with rfl | hx
        · exact not_lt.1 h
        · exact h1 x hx
      · refine Or.inr ⟨t :: pre, i, post, by rw [h1]; rfl, h2, h3, ?_, h5⟩
        intro x hx
        rcases List.mem_cons.1 hx with rfl | hx
        · exact lt_of_lt_of_le h3 (not_lt.1 h)
        · exact h4 x hx

end TargetLemmas

section TargetLemmas2
variable {R : Type} [LinearOrderedField R]

/-- The target that `main.cpp` selects: when no listed target has a
resistance below `1e20` (so for the empty list) `minId` keeps its initial
value `numberOfCells()`, which is no cell; otherwise `minId` is the first
listed target of least resistance. -/
theorem selectTarget_spec (g : CartesianGrid R) (res : Nat → R) (ts : List Nat) :
    ((∀ t ∈ ts, (10 : R) ^ 20 ≤ res t) ∧
      selectTarget g res ts = { minRes := 10 ^ 20, minId := g.numberOfCells }) ∨
    ∃ pre i post, ts = pre ++ i :: post ∧
      selectTarget g res ts = { minRes := res i, minId := i } ∧
      res i < 10 ^ 20 ∧ (∀ t ∈ pre, res i < res t) ∧ ∀ t ∈ post, res i ≤ res t :=
  Selection.foldl_spec res ts { minRes := 10 ^ 20, minId := g.numberOfCells }

end TargetLemmas2

section TargetLemmas3
variable {R : Type} [LinearOrderedField R]

theorem selectTarget_singleton_lt (g : CartesianGrid R) (res : Nat → R) (t : Nat)
    (h : res t < 10 ^ 20) : selectTarget g res [t] = { minRes := res t, minId := t } :=
  if_pos h

theorem selectTarget_singleton_ge (g : CartesianGrid R) (res : Nat → R) (t : Nat)
    (h : ¬ res t < 10 ^ 20) :
    selectTarget g res [t] = { minRes := 10 ^ 20, minId := g.numberOfCells } :=
  if_neg h

theorem INF_ge : ¬ (INF : R) < 10 ^ 20 := by
  unfold INF
  norm_num

end TargetLemmas3

section CheckedTeeth

/-- The tests are not idle: on the 2 x 2 x 1 grid, whose cells are `0` to `3`,
the constructor called with the source id `4` stops at the index of
`cellElementHandles[4]`, and `neighbors(4)` at the `assert` of `splitId`. -/
theorem LazyMole.newChecked_out_of_range :
    LazyMole.newChecked grid221 unitField [4] = none ∧ grid221.neighborsChecked 4 = none :=
  ⟨rfl, rfl⟩

end CheckedTeeth

/-! # The claims -/

section Claims

variable {R : Type} [LinearOrderedField R]

/-- C1: on a Cartesian grid whose cell count fits a `size_t`, with a field
that is strictly positive on the cells, a square root that is not negative on
what is not negative, and sources that are cells, `run` returns; with a non-empty source list it
leaves every cell SCANNED, and the finalized resistance of every SCANNED cell
is the least cost, over the sources `s` and the paths from `s` to the cell
along grid-adjacency edges, of the sum of `computeResistance` over the edges
of the path; it is `0` for a source.  With no source no cell has a path and
every cell keeps `INF`. -/
theorem run_finalizes_least_resistance (g : CartesianGrid R) (f : Nat → R) (srcs : List Nat)
    (sqrt : R → R) (tie : Nat → Nat) (fuel : Nat) (hf : g.Fits)
    (hpos : ∀ c, c < g.numberOfCells → 0 < f c) (hsqrt : ∀ x, 0 ≤ x → 0 ≤ sqrt x)
    (hsrc : ∀ s ∈ srcs, s < g.numberOfCells)
    (hfuel : srcs.length + g.numberOfCells ≤ fuel) :
    ∃ m1, (LazyMole.new g f srcs).run sqrt tie fuel = some m1 ∧
      ∀ c, c < g.numberOfCells →
        (srcs ≠ [] → m1.status c = Label.SCANNED) ∧
        (m1.status c = Label.SCANNED →
          IsLeast (routeCosts g.neighbors (computeResistance sqrt g f) srcs c)
            (m1.smallestRes c)) ∧
        (c ∈ srcs → m1.smallestRes c = 0) ∧
        (m1.status c ≠ Label.SCANNED →
          routeCosts g.neighbors (computeResistance sqrt g f) srcs c = ∅ ∧
            m1.smallestRes c = INF) := by
  have hS : Setting sqrt g f srcs := Setting.of_fits hf hpos hsqrt hsrc
  obtain ⟨m1, cur, e1, s1, d1, n1, -⟩ := LazyMole.run_spec hS tie fuel hfuel
  refine ⟨m1, e1, fun c hc => ⟨?_, ?_, ?_, ?_⟩⟩
  · intro hne
    exact d1.all_scanned hf s1 n1 hne hsrc c hc
  · intro hsc
    exact d1.isLeast hsc
  · intro hcs
    exact (d1.src c hcs).2.2 (d1.src_scanned s1 n1 hcs)
  · intro hns
    have hnil : srcs = [] := by
      by_contra hne
      exact hns (d1.all_scanned hf s1 n1 hne hsrc c hc)
    subst hnil
    refine ⟨routeCosts_nil _ _ _, ?_⟩
    exact ((LazyMole.run_unreached sqrt g f [] tie fuel e1).2.2 c hns).2.2

/-- A concrete instance of C1: the 2 x 2 x 1 unit grid with the unit field
and the single source `0`. -/
theorem run_finalizes_least_resistance_witness :
    ∃ m1, (LazyMole.new grid221 unitField [0]).run Rat.sqrt (fun _ => 0) 5 = some m1 ∧
      ∀ c, c < grid221.numberOfCells →
        (([0] : List Nat) ≠ [] → m1.status c = Label.SCANNED) ∧
        (m1.status c = Label.SCANNED →
          IsLeast (routeCosts grid221.neighbors (computeResistance Rat.sqrt grid221 unitField)
            [0] c) (m1.smallestRes c)) ∧
        (c ∈ ([0] : List Nat) → m1.smallestRes c = 0) ∧
        (m1.status c ≠ Label.SCANNED →
          routeCosts grid221.neighbors (computeResistance Rat.sqrt grid221 unitField) [0] c = ∅ ∧
            m1.smallestRes c = INF) :=
  run_finalizes_least_resistance grid221 unitField [0] Rat.sqrt (fun _ => 0) 5 (by decide)
    (fun _ _ => zero_lt_one) (fun x _ => Rat.sqrt_nonneg x) (by decide) (by decide)

theorem routeCosts_pair (nb : Nat → List Nat) (w : Nat → Nat → R) (a b c : Nat) :
    routeCosts nb w [a, b] c = routeCosts nb w [a] c ∪ routeCosts nb w [b] c := by
  ext r
  simp only [routeCosts, IsRoute, Set.mem_setOf_eq, Set.mem_union, List.mem_cons,
    List.mem_singleton, List.not_mem_nil, or_false]
  constructor
  · rintro ⟨l, ⟨h1, ⟨s, hs | hs, h2⟩, h3⟩, h4⟩
    · exact Or.inl ⟨l, ⟨h1, ⟨s, hs, h2⟩, h3⟩, h4⟩
    · exact Or.inr ⟨l, ⟨h1, ⟨s, hs, h2⟩, h3⟩, h4⟩
  · rintro (⟨l, ⟨h1, ⟨s, hs, h2⟩, h3⟩, h4⟩ | ⟨l, ⟨h1, ⟨s, hs, h2⟩, h3⟩, h4⟩)
    · exact ⟨l, ⟨h1, ⟨s, Or.inl hs, h2⟩, h3⟩, h4⟩
    · exact ⟨l, ⟨h1, ⟨s, Or.inr hs, h2⟩, h3⟩, h4⟩

/-- C2: on a grid whose cell count fits, with a strictly positive field and
two sources `a` and `b` that are cells, the three runs with the source lists
`[a, b]`, `[a]` and `[b]` return, whatever the tie-breaks of their heaps, and
at every cell the resistance of the run with `[a, b]` is the minimum of those
of the runs with `[a]` alone and with `[b]` alone. -/
theorem run_two_sources_is_min (g : CartesianGrid R) (f : Nat → R) (a b : Nat)
    (sqrt : R → R) (tie tieA tieB : Nat → Nat) (fuel fuelA fuelB : Nat) (hf : g.Fits)
    (hpos : ∀ c, c < g.numberOfCells → 0 < f c) (hsqrt : ∀ x, 0 ≤ x → 0 ≤ sqrt x)
    (ha : a < g.numberOfCells) (hb : b < g.numberOfCells)
    (hfuel : 2 + g.numberOfCells ≤ fuel) (hfuelA : 1 + g.numberOfCells ≤ fuelA)
    (hfuelB : 1 + g.numberOfCells ≤ fuelB) :
    ∃ m mA mB, (LazyMole.new g f [a, b]).run sqrt tie fuel = some m ∧
      (LazyMole.new g f [a]).run sqrt tieA fuelA = some mA ∧
      (LazyMole.new g f [b]).run sqrt tieB fuelB = some mB ∧
      ∀ c, c < g.numberOfCells →
        m.smallestRes c = min (mA.smallestRes c) (mB.smallestRes c) := by
  have hsab : ∀ s ∈ [a, b], s < g.numberOfCells := by
    intro s hs
    rcases List.mem_cons.1 hs with h | h
    · rw [h]; exact ha
    · rw [List.mem_singleton.1 h]; exact hb
  have hsa : ∀ s ∈ [a], s < g.numberOfCells := by
    intro s hs; rw [List.mem_singleton.1 hs]; exact ha
  have hsb : ∀ s ∈ [b], s < g.numberOfCells := by
    intro s hs; rw [List.mem_singleton.1 hs]; exact hb
  obtain ⟨m, _, e, s, d, n, -⟩ :=
    LazyMole.run_spec (Setting.of_fits hf hpos hsqrt hsab) tie fuel hfuel
  obtain ⟨mA, _, eA, sA, dA, nA, -⟩ :=
    LazyMole.run_spec (Setting.of_fits hf hpos hsqrt hsa) tieA fuelA hfuelA
  obtain ⟨mB, _, eB, sB, dB, nB, -⟩ :=
    LazyMole.run_spec (Setting.of_fits hf hpos hsqrt hsb) tieB fuelB hfuelB
  refine ⟨m, mA, mB, e, eA, eB, fun c hc => ?_⟩
  have h1 := d.isLeast (d.all_scanned hf s n (List.cons_ne_nil _ _) hsab c hc)
  have h2 := dA.isLeast (dA.all_scanned hf sA nA (List.cons_ne_nil _ _) hsa c hc)
  have h3 := dB.isLeast (dB.all_scanned hf sB nB (List.cons_ne_nil _ _) hsb c hc)
  rw [routeCosts_pair] at h1
  exact h1.unique (h2.union h3)

/-- A concrete instance of C2: the 2 x 2 x 1 unit grid with the unit field
and the sources `0` and `3`. -/
theorem run_two_sources_is_min_witness :
    ∃ m mA mB, (LazyMole.new grid221 unitField [0, 3]).run Rat.sqrt (fun _ => 0) 6 = some m ∧
      (LazyMole.new grid221 unitField [0]).run Rat.sqrt (fun k => k) 5 = some mA ∧
      (LazyMole.new grid221 unitField [3]).run Rat.sqrt (fun _ => 1) 5 = some mB ∧
      ∀ c, c < grid221.numberOfCells →
        m.smallestRes c = min (mA.smallestRes c) (mB.smallestRes c) :=
  run_two_sources_is_min grid221 unitField 0 3 Rat.sqrt (fun _ => 0) (fun k => k) (fun _ => 1)
    6 5 5 (by decide) (fun _ _ => zero_lt_one) (fun x _ => Rat.sqrt_nonneg x) (by decide) (by decide)
    (by decide) (by decide) (by decide)

/-- C3: on a grid whose cell count fits, with a strictly positive field, a
non-empty list of sources that are cells and a target cell `t`, `run` returns
and the predecessor walk of `path` and `exportPath` from `t` ends (within as
many steps as the grid has cells); the list `l` of the cells it visits starts
at `t`, ends at a cell of the source list, and each cell of it is followed by
its predecessor, which is one of its grid neighbours.  `path` marks exactly
the cells of `l`, and `exportPath` writes their centres in order, the first
being the centre of `t`. -/
theorem path_walk_from_target (g : CartesianGrid R) (f : Nat → R) (srcs : List Nat)
    (sqrt : R → R) (tie : Nat → Nat) (fuel : Nat) (t : Nat) (hf : g.Fits)
    (hpos : ∀ c, c < g.numberOfCells → 0 < f c) (hsqrt : ∀ x, 0 ≤ x → 0 ≤ sqrt x)
    (hsrc : ∀ s ∈ srcs, s < g.numberOfCells) (hne : srcs ≠ []) (ht : t < g.numberOfCells)
    (hfuel : srcs.length + g.numberOfCells ≤ fuel) :
    ∃ m1 l, (LazyMole.new g f srcs).run sqrt tie fuel = some m1 ∧
      (∀ k, g.numberOfCells ≤ k →
        m1.walk k t = some l ∧
        m1.path k t = some (fun x => if x ∈ l then 1 else 0) ∧
        m1.exportPath true k t = some (l.map g.centerOfCell)) ∧
      l.head? = some t ∧
      (l.map g.centerOfCell).head? = some (g.centerOfCell t) ∧
      (∃ s ∈ srcs, l.getLast? = some s) ∧
      l.Chain' (fun c p => p = m1.previous c ∧ p ∈ g.neighbors c) := by
  have hS : Setting sqrt g f srcs := Setting.of_fits hf hpos hsqrt hsrc
  obtain ⟨m1, cur, e1, s1, d1, n1, r1⟩ := LazyMole.run_spec hS tie fuel hfuel
  have hsc := d1.all_scanned hf s1 n1 hne hsrc t ht
  obtain ⟨l, w1, w2, w3, -⟩ := d1.walk_spec hsc
  have hch := (LazyMole.walk_chain m1 _ _ _ (w1 _ (le_refl _))).2
  have hnb : l.Chain' (fun c p => p ∈ g.neighbors c) := by
    refine chain'_imp_mem ?_ w3.2.2
    intro x _ y hy hxy
    have hyN : y < g.numberOfCells := d1.range y (by rw [w2 y hy]; exact Label.noConfusion)
    exact g.neighbors_symm hf hyN hxy
  refine ⟨m1, l, e1, ?_, w3.1, ?_, w3.2.1, chain'_and hch hnb⟩
  · intro k hk
    refine ⟨w1 k hk, ?_, ?_⟩
    · rw [LazyMole.path_eq m1 r1, w1 k hk]; rfl
    · rw [LazyMole.exportPath_eq m1 r1, w1 k hk, d1.hg]; rfl
  · have := w3.1
    cases l with
    | nil => simp at this
    | cons y ys =>
      simp only [List.head?_cons, Option.some.injEq] at this
      rw [this]; rfl

/-- A concrete instance of C3: the 2 x 2 x 1 unit grid, source `0`, target `3`. -/
theorem path_walk_from_target_witness :
    ∃ m1 l, (LazyMole.new grid221 unitField [0]).run Rat.sqrt (fun _ => 0) 5 = some m1 ∧
      (∀ k, grid221.numberOfCells ≤ k →
        m1.walk k 3 = some l ∧
        m1.path k 3 = some (fun x => if x ∈ l then 1 else 0) ∧
        m1.exportPath true k 3 = some (l.map grid221.centerOfCell)) ∧
      l.head? = some 3 ∧
      (l.map grid221.centerOfCell).head? = some (grid221.centerOfCell 3) ∧
      (∃ s ∈ ([0] : List Nat), l.getLast? = some s) ∧
      l.Chain' (fun c p => p = m1.previous c ∧ p ∈ grid221.neighbors c) :=
  path_walk_from_target grid221 unitField [0] Rat.sqrt (fun _ => 0) 5 3 (by decide)
    (fun _ _ => zero_lt_one) (fun x _ => Rat.sqrt_nonneg x) (by decide) (by decide) (by decide) (by decide)

/-- C4: on a grid whose cell count fits, with a strictly positive field and
sources that are cells, `run` returns, and for every finalized (SCANNED) cell
`t` the predecessor walk from `t` ends, the sum of
`computeResistance(previous[c], c)` over its consecutive cells is
`smallestRes[t]`, and that sum is the least cost of a path from a source to
`t`; a finalized cell `t` that is not a source has
`smallestRes[t] = smallestRes[previous[t]] + computeResistance(previous[t], t)`. -/
theorem path_is_least_resistance (g : CartesianGrid R) (f : Nat → R) (srcs : List Nat)
    (sqrt : R → R) (tie : Nat → Nat) (fuel : Nat) (hf : g.Fits)
    (hpos : ∀ c, c < g.numberOfCells → 0 < f c) (hsqrt : ∀ x, 0 ≤ x → 0 ≤ sqrt x)
    (hsrc : ∀ s ∈ srcs, s < g.numberOfCells)
    (hfuel : srcs.length + g.numberOfCells ≤ fuel) :
    ∃ m1, (LazyMole.new g f srcs).run sqrt tie fuel = some m1 ∧
      ∀ t, m1.status t = Label.SCANNED →
        (∃ l, (∀ k, g.numberOfCells ≤ k → m1.walk k t = some l) ∧
          IsRoute g.neighbors srcs t l ∧
          walkCost (computeResistance sqrt g f) l = m1.smallestRes t ∧
          IsLeast (routeCosts g.neighbors (computeResistance sqrt g f) srcs t)
            (walkCost (computeResistance sqrt g f) l)) ∧
        (t ∉ srcs →
          m1.smallestRes t =
            m1.smallestRes (m1.previous t) + computeResistance sqrt g f (m1.previous t) t) := by
  have hS : Setting sqrt g f srcs := Setting.of_fits hf hpos hsqrt hsrc
  obtain ⟨m1, cur, e1, s1, d1, n1, -⟩ := LazyMole.run_spec hS tie fuel hfuel
  refine ⟨m1, e1, fun t ht => ⟨?_, fun hns => (d1.scannedPrev t ht hns).2.2⟩⟩
  obtain ⟨l, w1, -, w3, w4⟩ := d1.walk_spec ht
  refine ⟨l, w1, w3, w4, ?_⟩
  rw [w4]
  exact d1.isLeast ht

/-- A concrete instance of C4: the 2 x 2 x 1 unit grid with the single source `0`. -/
theorem path_is_least_resistance_witness :
    ∃ m1, (LazyMole.new grid221 unitField [0]).run Rat.sqrt (fun _ => 0) 5 = some m1 ∧
      ∀ t, m1.status t = Label.SCANNED →
        (∃ l, (∀ k, grid221.numberOfCells ≤ k → m1.walk k t = some l) ∧
          IsRoute grid221.neighbors [0] t l ∧
          walkCost (computeResistance Rat.sqrt grid221 unitField) l = m1.smallestRes t ∧
          IsLeast (routeCosts grid221.neighbors (computeResistance Rat.sqrt grid221 unitField)
            [0] t) (walkCost (computeResistance Rat.sqrt grid221 unitField) l)) ∧
        (t ∉ ([0] : List Nat) →
          m1.smallestRes t =
            m1.smallestRes (m1.previous t) +
              computeResistance Rat.sqrt grid221 unitField (m1.previous t) t) :=
  path_is_least_resistance grid221 unitField [0] Rat.sqrt (fun _ => 0) 5 (by decide)
    (fun _ _ => zero_lt_one) (fun x _ => Rat.sqrt_nonneg x) (by decide) (by decide)

/-- C5: on a grid whose cell count fits, with a strictly positive field and
sources that are cells, the sequence of the resistances `cRes` at which `run`
marks cells SCANNED, in extraction order, is non-decreasing, however many
iterations are observed; with enough fuel `run` returns, and the extracted
elements are exactly the cells it leaves SCANNED, each with the resistance
recorded for it. -/
theorem scanned_resistances_sorted (g : CartesianGrid R) (f : Nat → R) (srcs : List Nat)
    (sqrt : R → R) (tie : Nat → Nat) (fuel : Nat) (hf : g.Fits)
    (hpos : ∀ c, c < g.numberOfCells → 0 < f c) (hsqrt : ∀ x, 0 ≤ x → 0 ≤ sqrt x)
    (hsrc : ∀ s ∈ srcs, s < g.numberOfCells) :
    ((LazyMole.new g f srcs).scannedRes sqrt tie fuel).Sorted (fun x y => x ≤ y) ∧
    (srcs.length + g.numberOfCells ≤ fuel →
      ∃ m1, (LazyMole.new g f srcs).run sqrt tie fuel = some m1 ∧
        (∀ c, m1.status c = Label.SCANNED ↔
          ∃ e ∈ (LazyMole.new g f srcs).extracted sqrt tie fuel, e.cell = c) ∧
        (∀ e ∈ (LazyMole.new g f srcs).extracted sqrt tie fuel,
          m1.smallestRes e.cell = -e.res)) := by
  have hS : Setting sqrt g f srcs := Setting.of_fits hf hpos hsqrt hsrc
  obtain ⟨hi, -⟩ := LazyMole.new_init g f srcs
  constructor
  · have hB : ∀ a ∈ (LazyMole.new g f srcs).heap.nodes, a.2.res ≤ 0 :=
      fun a ha => le_of_eq (hi.nodes a ha).2
    have hc := LazyMole.extracted_chain hS fuel tie _ 0 0 hi.struct (hi.dijk hS 0) hB
    have hc' : List.Chain' (fun x y : R => x ≤ y)
        (-0 :: (LazyMole.new g f srcs).scannedRes sqrt tie fuel) := hc
    exact List.chain'_iff_pairwise.1 hc'.tail
  · intro hfuel
    have hμ := le_trans (hi.measure_le g.numberOfCells) hfuel
    obtain ⟨m1, e1, a1, b1⟩ :=
      LazyMole.extracted_spec hS fuel tie _ 0 hi.struct (hi.dijk hS 0) hμ
    refine ⟨{ m1 with isReady := true }, ?_, ?_, fun e he => (a1 e he).2⟩
    · unfold LazyMole.run
      rw [e1]; rfl
    · intro c
      constructor
      · intro hc
        rcases b1 c hc with h | h
        · exact absurd h (hi.scanned_false c)
        · exact h
      · rintro ⟨e, he, rfl⟩
        exact (a1 e he).1

/-- A concrete instance of C5: the 2 x 2 x 1 unit grid with the sources `0`
and `3`. -/
theorem scanned_resistances_sorted_witness :
    ((LazyMole.new grid221 unitField [0, 3]).scannedRes Rat.sqrt (fun _ => 0) 6).Sorted
      (fun x y => x ≤ y) :=
  (scanned_resistances_sorted grid221 unitField [0, 3] Rat.sqrt (fun _ => 0) 6 (by decide)
    (fun _ _ => zero_lt_one) (fun x _ => Rat.sqrt_nonneg x) (by decide)).1

end Claims

section Claims2

variable {R : Type} [LinearOrderedField R]

/-- C6 as stated fails: with the empty source list on the single-cell grid,
`run` completes and leaves cell `0` never finalized, yet `path(0)` returns a
path field in which cell `0` is marked, and the walk of `exportPath` visits
cell `0` and writes one line. -/
theorem path_of_unreached_marks_the_cell :
    ∃ m1 pf out, (LazyMole.new grid111 unitField []).run Rat.sqrt (fun _ => 0) 1 = some m1 ∧
      m1.status 0 = Label.UNVISITED ∧
      m1.path 1 0 = some pf ∧ pf 0 = 1 ∧
      m1.walk 1 0 = some [0] ∧
      m1.exportPath true 1 0 = some out ∧ out.length = 1 :=
  ⟨_, _, _, rfl, rfl, rfl, rfl, rfl, rfl, rfl⟩

/-- C6, amended: after a completed `run`, whatever the field and the sources,
a cell that was never finalized is UNVISITED with predecessor `EMPTY` and
resistance `INF`, so the predecessor walk from it stops after its first step
without following any link: `path` returns the field in which exactly that
cell is marked, and `exportPath` writes exactly the centre of that cell. -/
theorem path_of_unreached_is_single_cell (g : CartesianGrid R) (f : Nat → R) (srcs : List Nat)
    (sqrt : R → R) (tie : Nat → Nat) (fuel : Nat) (m1 : LazyMole R) (cell k : Nat)
    (hrun : (LazyMole.new g f srcs).run sqrt tie fuel = some m1)
    (hcell : m1.status cell ≠ Label.SCANNED) :
    m1.previous cell = EMPTY ∧ m1.smallestRes cell = INF ∧
    m1.walk (k + 1) cell = some [cell] ∧
    m1.path (k + 1) cell = some (fun x => if x = cell then 1 else 0) ∧
    m1.exportPath true (k + 1) cell = some [g.centerOfCell cell] := by
  obtain ⟨hr, hg, hu⟩ := LazyMole.run_unreached sqrt g f srcs tie fuel hrun
  obtain ⟨-, hp, hres⟩ := hu cell hcell
  have hw : m1.walk (k + 1) cell = some [cell] := by
    unfold LazyMole.walk
    simp only [hp, ne_eq, not_true_eq_false, if_false]
  refine ⟨hp, hres, hw, ?_, ?_⟩
  · rw [LazyMole.path_eq m1 hr, hw]
    simp only [Option.map_some', List.mem_singleton]
  · rw [LazyMole.exportPath_eq m1 hr, hw, hg]
    rfl

/-- A concrete instance of amended C6: the single-cell grid without source. -/
theorem path_of_unreached_is_single_cell_witness :
    (LazyMole.new grid111 unitField []).previous 0 = EMPTY ∧
    (LazyMole.new grid111 unitField []).smallestRes 0 = INF ∧
    ({ LazyMole.new grid111 unitField [] with isReady := true } : LazyMole ℚ).walk (0 + 1) 0
      = some [0] ∧
    ({ LazyMole.new grid111 unitField [] with isReady := true } : LazyMole ℚ).path (0 + 1) 0
      = some (fun x => if x = 0 then 1 else 0) ∧
    ({ LazyMole.new grid111 unitField [] with isReady := true } :
      LazyMole ℚ).exportPath true (0 + 1) 0 = some [grid111.centerOfCell 0] :=
  path_of_unreached_is_single_cell grid111 unitField [] Rat.sqrt (fun _ => 0) 1
    { LazyMole.new grid111 unitField [] with isReady := true } 0 0 rfl
    (by intro h; exact Label.noConfusion h)

/-- C7: on every `LazyMole` whose `isReady` is false, as the constructor
leaves it, `path(cell)` returns the path field with every entry `0` and
`exportPath` writes nothing, for every cell id and without entering the
predecessor walk: the result is there with fuel for no iteration of it. -/
theorem path_before_run_is_empty (m : LazyMole R) (hready : m.isReady = false)
    (fuel cell : Nat) (isOpen : Bool) (g : CartesianGrid R) (f : Nat → R) (srcs : List Nat) :
    m.path fuel cell = some (fun _ => 0) ∧ m.path 0 cell = some (fun _ => 0) ∧
    m.exportPath isOpen fuel cell = some [] ∧
    (LazyMole.new g f srcs).isReady = false := by
  refine ⟨?_, ?_, ?_, rfl⟩
  · unfold LazyMole.path
    simp only [hready, Bool.not_false, if_true]
  · unfold LazyMole.path
    simp only [hready, Bool.not_false, if_true]
  · unfold LazyMole.exportPath
    simp only [hready, Bool.not_false, if_true]

/-- A concrete instance of C7: the object constructed on the 2 x 2 x 1 unit
grid with source `0`, queried at cell `3` before `run`. -/
theorem path_before_run_is_empty_witness :
    (LazyMole.new grid221 unitField [0]).path 4 3 = some (fun _ => 0) ∧
    (LazyMole.new grid221 unitField [0]).path 0 3 = some (fun _ => 0) ∧
    (LazyMole.new grid221 unitField [0]).exportPath true 4 3 = some [] ∧
    (LazyMole.new grid221 unitField [0]).isReady = false :=
  path_before_run_is_empty (LazyMole.new grid221 unitField [0]) rfl 4 3 true grid221 unitField [0]

end Claims2

section Claims3

variable {R : Type}

/-- C8: for a grid whose cell count fits a `size_t` and a valid cell id with
`splitId(id) = (ix, iy, iz)`, `neighbors(id)` has no duplicates and contains
exactly the ids `mergeIds(ix+a, iy+b, iz+c)` for the offset triples `(a, b, c)`
of `{-1,0,1}^3` other than `(0,0,0)` whose offset index, computed exactly,
lies in `[0,nx) x [0,ny) x [0,nz)`; it does not contain `id`; and the wrapped
sum `0 + (-1)` passes the range test of no axis. -/
theorem neighbors_exact (g : CartesianGrid R) (id : Nat) (hf : g.Fits)
    (hid : id < g.numberOfCells) :
    (g.neighbors id).Nodup ∧
    (∀ j, j ∈ g.neighbors id ↔
      ∃ a ∈ offsets, ∃ b ∈ offsets, ∃ c ∈ offsets,
        ¬ (a = 0 ∧ b = 0 ∧ c = 0) ∧
        (0 ≤ ((g.splitId id).1 : Int) + a ∧ ((g.splitId id).1 : Int) + a < g._nx) ∧
        (0 ≤ ((g.splitId id).2.1 : Int) + b ∧ ((g.splitId id).2.1 : Int) + b < g._ny) ∧
        (0 ≤ ((g.splitId id).2.2 : Int) + c ∧ ((g.splitId id).2.2 : Int) + c < g._nz) ∧
        j = g.mergeIds (((g.splitId id).1 : Int) + a).toNat
              (((g.splitId id).2.1 : Int) + b).toNat (((g.splitId id).2.2 : Int) + c).toNat) ∧
    id ∉ g.neighbors id ∧
    (¬ addOff 0 (-1) < g._nx ∧ ¬ addOff 0 (-1) < g._ny ∧ ¬ addOff 0 (-1) < g._nz) := by
  refine ⟨g.neighbors_nodup hf hid, g.mem_neighbors_offsets hf hid, ?_, ?_⟩
  · intro h
    exact ((g.mem_neighbors_iff hf hid id).1 h).2.1 rfl
  · obtain ⟨hx, hy, hz, -⟩ := g.splitId_spec hf hid
    obtain ⟨bx, by', bz, -, -⟩ := hf.bounds hx hy hz
    rw [addOff_neg_one_zero]
    omega

/-- A concrete instance of C8: the centre cell of the 3 x 3 x 3 grid. -/
theorem neighbors_exact_witness :
    (grid333.neighbors 13).Nodup ∧
    (∀ j, j ∈ grid333.neighbors 13 ↔
      ∃ a ∈ offsets, ∃ b ∈ offsets, ∃ c ∈ offsets,
        ¬ (a = 0 ∧ b = 0 ∧ c = 0) ∧
        (0 ≤ ((grid333.splitId 13).1 : Int) + a ∧
          ((grid333.splitId 13).1 : Int) + a < grid333._nx) ∧
        (0 ≤ ((grid333.splitId 13).2.1 : Int) + b ∧
          ((grid333.splitId 13).2.1 : Int) + b < grid333._ny) ∧
        (0 ≤ ((grid333.splitId 13).2.2 : Int) + c ∧
          ((grid333.splitId 13).2.2 : Int) + c < grid333._nz) ∧
        j = grid333.mergeIds (((grid333.splitId 13).1 : Int) + a).toNat
              (((grid333.splitId 13).2.1 : Int) + b).toNat
              (((grid333.splitId 13).2.2 : Int) + c).toNat) ∧
    13 ∉ grid333.neighbors 13 ∧
    (¬ addOff 0 (-1) < grid333._nx ∧ ¬ addOff 0 (-1) < grid333._ny ∧
      ¬ addOff 0 (-1) < grid333._nz) :=
  neighbors_exact grid333 13 (by decide) (by decide)

/-- C9: for a grid whose cell count fits and a valid cell id, the length of
`neighbors(id)` is the product of the numbers of in-range offsets along x, y
and z, minus one; in a 3 x 3 x 3 grid the corner cell `0` has 7 neighbours,
the edge cell `1` has 11, the face cell `4` has 17 and the centre cell `13`
has 26. -/
theorem neighbors_length (g : CartesianGrid R) (id : Nat) (hf : g.Fits)
    (hid : id < g.numberOfCells) :
    (g.neighbors id).length =
      inRangeCount (g.splitId id).1 g._nx * inRangeCount (g.splitId id).2.1 g._ny *
        inRangeCount (g.splitId id).2.2 g._nz - 1 ∧
    (g._nx = 3 → g._ny = 3 → g._nz = 3 →
      (g.neighbors 0).length = 7 ∧ (g.neighbors 1).length = 11 ∧
      (g.neighbors 4).length = 17 ∧ (g.neighbors 13).length = 26) := by
  refine ⟨g.length_neighbors hf hid, ?_⟩
  intro h1 h2 h3
  unfold CartesianGrid.neighbors CartesianGrid.splitId CartesianGrid.mergeIds
  rw [h1, h2, h3]
  decide

/-- A concrete instance of C9: the centre cell of the 3 x 3 x 3 grid. -/
theorem neighbors_length_witness :
    (grid333.neighbors 13).length =
      inRangeCount (grid333.splitId 13).1 grid333._nx *
        inRangeCount (grid333.splitId 13).2.1 grid333._ny *
        inRangeCount (grid333.splitId 13).2.2 grid333._nz - 1 ∧
    (grid333._nx = 3 → grid333._ny = 3 → grid333._nz = 3 →
      (grid333.neighbors 0).length = 7 ∧ (grid333.neighbors 1).length = 11 ∧
      (grid333.neighbors 4).length = 17 ∧ (grid333.neighbors 13).length = 26) :=
  neighbors_length grid333 13 (by decide) (by decide)

/-- C10: a grid built with the 2D constructor has `nz = 1` and `resz = 1`;
each of its cells has at most 8 neighbours, and exactly 8 when its x and y
indices are interior; whatever the grid built with the 3D constructor, every
id has at most 26 neighbours. -/
theorem neighbors_2d_3d [Field R] (nx ny nz : Nat) (dx dy dz : R) (resx resy resz : Nat)
    (p2 : Point2D R) (p3 : Point3D R) (id : Nat)
    (hid : id < (CartesianGrid.new2D nx ny dx dy resx resy p2).numberOfCells) :
    (CartesianGrid.new2D nx ny dx dy resx resy p2).nz = 1 ∧
    (CartesianGrid.new2D nx ny dx dy resx resy p2).resz = 1 ∧
    ((CartesianGrid.new2D nx ny dx dy resx resy p2).neighbors id).length ≤ 8 ∧
    (1 ≤ ((CartesianGrid.new2D nx ny dx dy resx resy p2).splitId id).1 →
      ((CartesianGrid.new2D nx ny dx dy resx resy p2).splitId id).1 + 1 <
        (CartesianGrid.new2D nx ny dx dy resx resy p2).nx →
      1 ≤ ((CartesianGrid.new2D nx ny dx dy resx resy p2).splitId id).2.1 →
      ((CartesianGrid.new2D nx ny dx dy resx resy p2).splitId id).2.1 + 1 <
        (CartesianGrid.new2D nx ny dx dy resx resy p2).ny →
      ((CartesianGrid.new2D nx ny dx dy resx resy p2).neighbors id).length = 8) ∧
    ∀ j, ((CartesianGrid.new3D nx ny nz dx dy dz resx resy resz p3).neighbors j).length ≤ 26 := by
  have hz := CartesianGrid.new2D_splitId_z nx ny dx dy resx resy p2 hid
  have hflat := CartesianGrid.length_neighbors_flat
    (CartesianGrid.new2D nx ny dx dy resx resy p2) id rfl hz (wrap_lt _) (wrap_lt _)
  exact ⟨rfl, rfl, hflat.1, hflat.2, fun j => CartesianGrid.length_neighbors_le _ j⟩

/-- A concrete instance of C10: the centre cell of the 3 x 3 grid built with
the 2D constructor. -/
theorem neighbors_2d_3d_witness :
    ((CartesianGrid.new2D 3 3 (1 : ℚ) 1 1 1 ⟨0, 0⟩).neighbors 4).length ≤ 8 ∧
    ((CartesianGrid.new2D 3 3 (1 : ℚ) 1 1 1 ⟨0, 0⟩).neighbors 4).length = 8 :=
  have h := neighbors_2d_3d 3 3 3 (1 : ℚ) 1 1 1 1 1 ⟨0, 0⟩ ⟨0, 0, 0⟩ 4 (by decide)
  ⟨h.2.2.1, h.2.2.2.1 (by decide) (by decide) (by decide) (by decide)⟩

end Claims3

section Claims4

variable {R : Type}

/-- C11: on a grid whose cell count fits a `size_t`, `mergeIds` and `splitId`
are mutually inverse between the index triples of `[0,nx) x [0,ny) x [0,nz)`
and the ids below `numberOfCells()`: `mergeIds(ix,iy,iz)` is
`iz*ny*nx + iy*nx + ix`, is a valid id and splits back to `(ix,iy,iz)`; and
every valid id splits to an in-range triple that merges back to the id. -/
theorem mergeIds_splitId_inverse (g : CartesianGrid R) (hf : g.Fits) :
    (∀ ix iy iz, ix < g.nx → iy < g.ny → iz < g.nz →
      g.mergeIds ix iy iz = iz * g.ny * g.nx + iy * g.nx + ix ∧
      g.mergeIds ix iy iz < g.numberOfCells ∧
      g.splitId (g.mergeIds ix iy iz) = (ix, iy, iz)) ∧
    (∀ id, id < g.numberOfCells →
      (g.splitId id).1 < g.nx ∧ (g.splitId id).2.1 < g.ny ∧ (g.splitId id).2.2 < g.nz ∧
      g.mergeIds (g.splitId id).1 (g.splitId id).2.1 (g.splitId id).2.2 = id) :=
  ⟨fun _ _ _ hx hy hz =>
      ⟨g.mergeIds_eq hf hx hy hz, g.mergeIds_lt hf hx hy hz, g.splitId_mergeIds hf hx hy hz⟩,
    fun _ hid => g.splitId_spec hf hid⟩

/-- A concrete instance of C11: the 3 x 3 x 3 grid, at the triple `(2, 0, 1)`
and at the id `20`. -/
theorem mergeIds_splitId_inverse_witness :
    (grid333.mergeIds 2 0 1 = 1 * grid333.ny * grid333.nx + 0 * grid333.nx + 2 ∧
      grid333.mergeIds 2 0 1 < grid333.numberOfCells ∧
      grid333.splitId (grid333.mergeIds 2 0 1) = (2, 0, 1)) ∧
    ((grid333.splitId 20).1 < grid333.nx ∧ (grid333.splitId 20).2.1 < grid333.ny ∧
      (grid333.splitId 20).2.2 < grid333.nz ∧
      grid333.mergeIds (grid333.splitId 20).1 (grid333.splitId 20).2.1
        (grid333.splitId 20).2.2 = 20) :=
  have h := mergeIds_splitId_inverse grid333 (by decide)
  ⟨h.1 2 0 1 (by decide) (by decide) (by decide), h.2 20 (by decide)⟩

/-- C12: a grid built by the 3D constructor from coarse counts, cell sizes
and refinement factors, where the refined counts and their product fit a
`size_t`, reports `nx() = resx*nx`, `ny() = resy*ny`, `nz() = resz*nz`, the
cell sizes `dx/resx`, `dy/resy`, `dz/resz`, and
`numberOfCells() = nx()*ny()*nz() = (resx*nx)*(resy*ny)*(resz*nz)`; and its
`neighbors` is that of the grid built without refinement from the refined
counts and cell sizes. -/
theorem refinement_scales_counts [Field R] (nx ny nz : Nat) (dx dy dz : R)
    (resx resy resz : Nat) (p0 : Point3D R)
    (hx : resx * nx < SIZE_MOD) (hy : resy * ny < SIZE_MOD) (hz : resz * nz < SIZE_MOD)
    (hN : (resx * nx) * (resy * ny) * (resz * nz) < SIZE_MOD) :
    (CartesianGrid.new3D nx ny nz dx dy dz resx resy resz p0).nx = resx * nx ∧
    (CartesianGrid.new3D nx ny nz dx dy dz resx resy resz p0).ny = resy * ny ∧
    (CartesianGrid.new3D nx ny nz dx dy dz resx resy resz p0).nz = resz * nz ∧
    (CartesianGrid.new3D nx ny nz dx dy dz resx resy resz p0).dx = dx / (resx : R) ∧
    (CartesianGrid.new3D nx ny nz dx dy dz resx resy resz p0).dy = dy / (resy : R) ∧
    (CartesianGrid.new3D nx ny nz dx dy dz resx resy resz p0).dz = dz / (resz : R) ∧
    (CartesianGrid.new3D nx ny nz dx dy dz resx resy resz p0).numberOfCells =
      (CartesianGrid.new3D nx ny nz dx dy dz resx resy resz p0).nx *
        (CartesianGrid.new3D nx ny nz dx dy dz resx resy resz p0).ny *
        (CartesianGrid.new3D nx ny nz dx dy dz resx resy resz p0).nz ∧
    (CartesianGrid.new3D nx ny nz dx dy dz resx resy resz p0).numberOfCells =
      (resx * nx) * (resy * ny) * (resz * nz) ∧
    ∀ id, (CartesianGrid.new3D nx ny nz dx dy dz resx resy resz p0).neighbors id =
      (CartesianGrid.new3D (resx * nx) (resy * ny) (resz * nz) (dx / (resx : R))
        (dy / (resy : R)) (dz / (resz : R)) 1 1 1 p0).neighbors id := by
  have ex : (CartesianGrid.new3D nx ny nz dx dy dz resx resy resz p0)._nx = resx * nx :=
    wrap_of_lt hx
  have ey : (CartesianGrid.new3D nx ny nz dx dy dz resx resy resz p0)._ny = resy * ny :=
    wrap_of_lt hy
  have ez : (CartesianGrid.new3D nx ny nz dx dy dz resx resy resz p0)._nz = resz * nz :=
    wrap_of_lt hz
  have hf : (CartesianGrid.new3D nx ny nz dx dy dz resx resy resz p0).Fits := by
    unfold CartesianGrid.Fits
    rw [ex, ey, ez]
    exact hN
  have hn := CartesianGrid.numberOfCells_eq _ hf
  refine ⟨ex, ey, ez, rfl, rfl, rfl, hn, ?_, ?_⟩
  · rw [hn, ex, ey, ez]
  · intro id
    have fx : (CartesianGrid.new3D (resx * nx) (resy * ny) (resz * nz) (dx / (resx : R))
        (dy / (resy : R)) (dz / (resz : R)) 1 1 1 p0)._nx = resx * nx := by
      show wrap (1 * (resx * nx)) = resx * nx
      rw [Nat.one_mul]; exact wrap_of_lt hx
    have fy : (CartesianGrid.new3D (resx * nx) (resy * ny) (resz * nz) (dx / (resx : R))
        (dy / (resy : R)) (dz / (resz : R)) 1 1 1 p0)._ny = resy * ny := by
      show wrap (1 * (resy * ny)) = resy * ny
      rw [Nat.one_mul]; exact wrap_of_lt hy
    have fz : (CartesianGrid.new3D (resx * nx) (resy * ny) (resz * nz) (dx / (resx : R))
        (dy / (resy : R)) (dz / (resz : R)) 1 1 1 p0)._nz = resz * nz := by
      show wrap (1 * (resz * nz)) = resz * nz
      rw [Nat.one_mul]; exact wrap_of_lt hz
    unfold CartesianGrid.neighbors CartesianGrid.splitId CartesianGrid.mergeIds
    rw [ex, ey, ez, fx, fy, fz]

/-- A concrete instance of C12: 2 x 1 x 3 coarse cells of size 1, refined by
the factors 2, 3 and 1. -/
theorem refinement_scales_counts_witness :
    (CartesianGrid.new3D 2 1 3 (1 : ℚ) 1 1 2 3 1 ⟨0, 0, 0⟩).nx = 2 * 2 ∧
    (CartesianGrid.new3D 2 1 3 (1 : ℚ) 1 1 2 3 1 ⟨0, 0, 0⟩).ny = 3 * 1 ∧
    (CartesianGrid.new3D 2 1 3 (1 : ℚ) 1 1 2 3 1 ⟨0, 0, 0⟩).nz = 1 * 3 ∧
    (CartesianGrid.new3D 2 1 3 (1 : ℚ) 1 1 2 3 1 ⟨0, 0, 0⟩).numberOfCells =
      (2 * 2) * (3 * 1) * (1 * 3) :=
  have h := refinement_scales_counts 2 1 3 (1 : ℚ) 1 1 2 3 1 ⟨0, 0, 0⟩
    (by decide) (by decide) (by decide) (by decide)
  ⟨h.1, h.2.1, h.2.2.1, h.2.2.2.2.2.2.2.1⟩

/-- C13: for every grid and every id with `splitId(id) = (ix, iy, iz)`,
`centerOfCell(id)` is the origin plus
`((ix + 1/2)*dx(), (iy + 1/2)*dy(), (iz + 1/2)*dz())`, in exact arithmetic,
where `dx()`, `dy()`, `dz()` are the cell sizes after refinement: for a grid
built by the 3D constructor, the given sizes divided by the factors. -/
theorem centerOfCell_formula [Field R] (g : CartesianGrid R) (id : Nat)
    (nx ny nz : Nat) (dx dy dz : R) (resx resy resz : Nat) (p0 : Point3D R) :
    g.centerOfCell id =
      g._p0.add ⟨(((g.splitId id).1 : R) + 1 / 2) * g.dx,
        (((g.splitId id).2.1 : R) + 1 / 2) * g.dy,
        (((g.splitId id).2.2 : R) + 1 / 2) * g.dz⟩ ∧
    (CartesianGrid.new3D nx ny nz dx dy dz resx resy resz p0).centerOfCell id =
      p0.add
        ⟨((((CartesianGrid.new3D nx ny nz dx dy dz resx resy resz p0).splitId id).1 : R)
            + 1 / 2) * (dx / (resx : R)),
          ((((CartesianGrid.new3D nx ny nz dx dy dz resx resy resz p0).splitId id).2.1 : R)
            + 1 / 2) * (dy / (resy : R)),
          ((((CartesianGrid.new3D nx ny nz dx dy dz resx resy resz p0).splitId id).2.2 : R)
            + 1 / 2) * (dz / (resz : R))⟩ := by
  have key : ∀ h : CartesianGrid R, h.centerOfCell id =
      h._p0.add ⟨(((h.splitId id).1 : R) + 1 / 2) * h._dx,
        (((h.splitId id).2.1 : R) + 1 / 2) * h._dy,
        (((h.splitId id).2.2 : R) + 1 / 2) * h._dz⟩ := by
    intro h
    unfold CartesianGrid.centerOfCell CartesianGrid.centerOfCell3 Point3D.add
    simp only [Point3D.mk.injEq]
    refine ⟨?_, ?_, ?_⟩ <;> ring
  exact ⟨key g, key _⟩

end Claims4

section Claims5

variable {R : Type}

/-- The rounding on values whose `double` is known: `0.1`, `0.7` and `1/3`
round to the `double`s `0x3FB999999999999A`, `0x3FE6666666666666` and
`0x3FD5555555555555`; a `double` is its own rounding; `2^53 + 1` and
`2^53 + 3`, each half way between two `double`s, round to the even one. -/
theorem roundDouble_values :
    roundDouble (1 / 10) = 3602879701896397 / 2 ^ 55 ∧
    roundDouble (7 / 10) = 3152519739159347 / 2 ^ 52 ∧
    roundDouble (1 / 3) = 6004799503160661 / 2 ^ 54 ∧
    roundDouble (roundDouble (7 / 10)) = roundDouble (7 / 10) ∧
    roundDouble (-1 / 2) = -1 / 2 ∧ roundDouble 3 = 3 ∧
    roundDouble (2 ^ 53 + 1) = 2 ^ 53 ∧ roundDouble (2 ^ 53 + 3) = 2 ^ 53 + 4 := by
  decide!

/-- C14, the code at a point half a cell below the origin of the single unit
cell: for `p = (-1/2, 1/2, 1/2)` the quotient `-1/2` is truncated toward zero
to the index `0`, which passes the test `idx >= 0`, so that `idCell(p)`
returns the cell `0` where the out-of-domain error is due, and `isInside(p)`
returns true.  Every operation is exact in `double` at these values. -/
theorem idCell_accepts_point_below_origin :
    grid111.idCell roundDouble ⟨-1 / 2, 1 / 2, 1 / 2⟩ = IdCellResult.cell 0 ∧
    grid111.isInside roundDouble ⟨-1 / 2, 1 / 2, 1 / 2⟩ = some true ∧
    grid111.ExactAt roundDouble ⟨-1 / 2, 1 / 2, 1 / 2⟩ := by
  decide!

/-- C15, the code at a point on the upper boundary along x of the
3 x 1 x 1 grid with `dx = 0.7`.  For `p.x = 0.7 * 3` as `double` arithmetic
computes it, the boundary test `p.x - origin.x == _dx * _nx` of `idCell` is
true, but the quotient `(p.x - origin.x) / _dx` rounds to the `double` just
below `3`, the cast gives `2`, and the decrement gives `1`: `idCell` returns
cell `1`, whose index along x is `1`, where the last cell, of index
`_nx - 1 = 2`, is due.  The same happens with the origin at `-1` for the
`double` `p.x` with `p.x - origin.x = _dx * _nx` in exact arithmetic. -/
theorem idCell_boundary_point_in_wrong_cell :
    (roundDouble (roundDouble (roundDouble (7 / 10) * 3) - grid311._p0.p0) =
        roundDouble (grid311._dx * roundDouble (grid311._nx : ℚ)) ∧
      grid311.idCell roundDouble ⟨roundDouble (roundDouble (7 / 10) * 3), 1 / 2, 1 / 2⟩ =
        IdCellResult.cell 1 ∧
      grid311.splitId 1 = (1, 0, 0) ∧ grid311._nx - 1 = 2) ∧
    (roundDouble (roundDouble (7 / 10) * 3 - 1) = roundDouble (7 / 10) * 3 - 1 ∧
      roundDouble (7 / 10) * 3 - 1 - grid311shifted._p0.p0 =
        grid311shifted._dx * (grid311shifted._nx : ℚ) ∧
      grid311shifted.idCell roundDouble ⟨roundDouble (7 / 10) * 3 - 1, 1 / 2, 1 / 2⟩ =
        IdCellResult.cell 1) := by
  decide!

/-- Where the operations of `idCell` are exact, a point on an upper boundary
is assigned to the last cell: on a grid with positive cell sizes and counts
that fit an `int` and a `size_t`, for a point that on each axis is inside
the extent or exactly on its upper boundary, `idCell` returns a valid cell and
`isInside` returns true; along every axis on whose upper boundary the point
lies, the index of that cell is `count - 1`. -/
theorem idCell_upper_boundary_exact [LinearOrderedField R] [FloorRing R] (g : CartesianGrid R)
    (fl : R → R) (p : Point3D R) (hex : g.ExactAt fl p)
    (hdx : 0 < g.dx) (hdy : 0 < g.dy) (hdz : 0 < g.dz)
    (hint : g.IntFits) (hf : g.Fits)
    (hx : (0 ≤ p.get 0 - g._p0.get 0 ∧ p.get 0 - g._p0.get 0 < g.dx * (g.nx : R)) ∨
      (p.get 0 - g._p0.get 0 = g.dx * (g.nx : R) ∧ 0 < g.nx))
    (hy : (0 ≤ p.get 1 - g._p0.get 1 ∧ p.get 1 - g._p0.get 1 < g.dy * (g.ny : R)) ∨
      (p.get 1 - g._p0.get 1 = g.dy * (g.ny : R) ∧ 0 < g.ny))
    (hz : (0 ≤ p.get 2 - g._p0.get 2 ∧ p.get 2 - g._p0.get 2 < g.dz * (g.nz : R)) ∨
      (p.get 2 - g._p0.get 2 = g.dz * (g.nz : R) ∧ 0 < g.nz)) :
    ∃ id, g.idCell fl p = IdCellResult.cell id ∧ g.isInside fl p = some true ∧
      id < g.numberOfCells ∧
      (p.get 0 - g._p0.get 0 = g.dx * (g.nx : R) → (g.splitId id).1 = g.nx - 1) ∧
      (p.get 1 - g._p0.get 1 = g.dy * (g.ny : R) → (g.splitId id).2.1 = g.ny - 1) ∧
      (p.get 2 - g._p0.get 2 = g.dz * (g.nz : R) → (g.splitId id).2.2 = g.nz - 1) := by
  obtain ⟨⟨h1, h2⟩, ax, ay, az⟩ := g.idCell_in_domain fl p hex hdx hdy hdz hint hx hy hz
  have hs := g.splitId_mergeIds hf ax ay az
  refine ⟨_, h1, h2, g.mergeIds_lt hf ax ay az, ?_, ?_, ?_⟩
  · intro h
    rw [hs]
    exact axisTarget_boundary h
  · intro h
    rw [hs]
    exact axisTarget_boundary h
  · intro h
    rw [hs]
    exact axisTarget_boundary h

end Claims5


section Claims6

variable {R : Type}

/-- C17: for every grid, every field and every two cells `A` and `B` with
non-zero field values, `computeResistance(A, B)` is
`d/(2*value(A)) + d/(2*value(B))`, where `d` is the square root of the sum of
the squared coordinate differences of `centerOfCell(A)` and `centerOfCell(B)`;
when both values are `k`, it is `d/k`. -/
theorem computeResistance_formula [LinearOrderedField R] (sqrt : R → R) (g : CartesianGrid R)
    (f : Nat → R) (A B : Nat) (hA : f A ≠ 0) (hB : f B ≠ 0) :
    computeResistance sqrt g f A B =
      sqrt (((g.centerOfCell A).get 0 - (g.centerOfCell B).get 0) ^ 2 +
          ((g.centerOfCell A).get 1 - (g.centerOfCell B).get 1) ^ 2 +
          ((g.centerOfCell A).get 2 - (g.centerOfCell B).get 2) ^ 2) / (2 * f A) +
        sqrt (((g.centerOfCell A).get 0 - (g.centerOfCell B).get 0) ^ 2 +
          ((g.centerOfCell A).get 1 - (g.centerOfCell B).get 1) ^ 2 +
          ((g.centerOfCell A).get 2 - (g.centerOfCell B).get 2) ^ 2) / (2 * f B) ∧
    (g.centerOfCell A).distanceFrom sqrt (g.centerOfCell B) =
      sqrt (((g.centerOfCell A).get 0 - (g.centerOfCell B).get 0) ^ 2 +
          ((g.centerOfCell A).get 1 - (g.centerOfCell B).get 1) ^ 2 +
          ((g.centerOfCell A).get 2 - (g.centerOfCell B).get 2) ^ 2) ∧
    ∀ k, f A = k → f B = k →
      computeResistance sqrt g f A B =
        sqrt (((g.centerOfCell A).get 0 - (g.centerOfCell B).get 0) ^ 2 +
          ((g.centerOfCell A).get 1 - (g.centerOfCell B).get 1) ^ 2 +
          ((g.centerOfCell A).get 2 - (g.centerOfCell B).get 2) ^ 2) / k := by
  have hd : (g.centerOfCell A).distanceFrom sqrt (g.centerOfCell B) =
      sqrt (((g.centerOfCell A).get 0 - (g.centerOfCell B).get 0) ^ 2 +
          ((g.centerOfCell A).get 1 - (g.centerOfCell B).get 1) ^ 2 +
          ((g.centerOfCell A).get 2 - (g.centerOfCell B).get 2) ^ 2) := by
    unfold Point3D.distanceFrom
    congr 1
    show _ = ((g.centerOfCell A).p0 - (g.centerOfCell B).p0) ^ 2 +
      ((g.centerOfCell A).p1 - (g.centerOfCell B).p1) ^ 2 +
      ((g.centerOfCell A).p2 - (g.centerOfCell B).p2) ^ 2
    ring
  have hr : computeResistance sqrt g f A B =
      (g.centerOfCell A).distanceFrom sqrt (g.centerOfCell B) / 2 / f A +
        (g.centerOfCell A).distanceFrom sqrt (g.centerOfCell B) / 2 / f B := rfl
  refine ⟨?_, hd, ?_⟩
  · rw [hr, hd]
    field_simp
  · intro k hkA hkB
    have hk : k ≠ 0 := by rw [← hkA]; exact hA
    rw [hr, hd, hkA, hkB]
    field_simp
    ring

/-- A concrete instance of C17: the cells `0` and `3` of the grid of
2 x 2 x 1 unit cells over the real numbers, with the real square root and the
field value `2`. -/
theorem computeResistance_formula_witness :
    computeResistance Real.sqrt
        (⟨2, 2, 1, 1, 1, 1, 1, 1, 1, ⟨0, 0, 0⟩, false⟩ : CartesianGrid ℝ) (fun _ => 2) 0 3 =
      Real.sqrt
        ((((⟨2, 2, 1, 1, 1, 1, 1, 1, 1, ⟨0, 0, 0⟩, false⟩ : CartesianGrid ℝ).centerOfCell 0).get 0
            - ((⟨2, 2, 1, 1, 1, 1, 1, 1, 1, ⟨0, 0, 0⟩, false⟩ :
              CartesianGrid ℝ).centerOfCell 3).get 0) ^ 2 +
          (((⟨2, 2, 1, 1, 1, 1, 1, 1, 1, ⟨0, 0, 0⟩, false⟩ : CartesianGrid ℝ).centerOfCell 0).get 1
            - ((⟨2, 2, 1, 1, 1, 1, 1, 1, 1, ⟨0, 0, 0⟩, false⟩ :
              CartesianGrid ℝ).centerOfCell 3).get 1) ^ 2 +
          (((⟨2, 2, 1, 1, 1, 1, 1, 1, 1, ⟨0, 0, 0⟩, false⟩ : CartesianGrid ℝ).centerOfCell 0).get 2
            - ((⟨2, 2, 1, 1, 1, 1, 1, 1, 1, ⟨0, 0, 0⟩, false⟩ :
              CartesianGrid ℝ).centerOfCell 3).get 2) ^ 2) / 2 :=
  (computeResistance_formula Real.sqrt
    (⟨2, 2, 1, 1, 1, 1, 1, 1, 1, ⟨0, 0, 0⟩, false⟩ : CartesianGrid ℝ) (fun _ => 2) 0 3
    two_ne_zero two_ne_zero).2.2 2 rfl rfl

/-- C18: for every grid, every field and every pair of cells `A` and `B`,
`computeResistance(A, B) = computeResistance(B, A)`; and `distanceFrom` is
symmetric, `p.distanceFrom(q) = q.distanceFrom(p)`, for every two points. -/
theorem computeResistance_symmetric [Field R] (sqrt : R → R) (g : CartesianGrid R)
    (f : Nat → R) (A B : Nat) (p q : Point3D R) :
    computeResistance sqrt g f A B = computeResistance sqrt g f B A ∧
    p.distanceFrom sqrt q = q.distanceFrom sqrt p := by
  have hd : ∀ a b : Point3D R, a.distanceFrom sqrt b = b.distanceFrom sqrt a := by
    intro a b
    unfold Point3D.distanceFrom
    congr 1
    ring
  refine ⟨?_, hd p q⟩
  unfold computeResistance
  simp only []
  rw [hd (g.centerOfCell A) (g.centerOfCell B)]
  exact add_comm _ _

end Claims6

section Claims7

variable {R : Type} [LinearOrderedField R]

/-- C19: on every grid of 2 x 2 x 1 cells with positive cell sizes `dx`, `dy`,
the same field value `k > 0` in every cell, and the single source cell `0`,
`run` returns and leaves the diagonal cell `3` with the finalized resistance
`sqrt(dx^2 + dy^2)/k` and the predecessor `0`; this is strictly less than
`dx/k + dy/k`, which is the cost of the two orthogonal hops through cell `1`
and of those through cell `2`. -/
theorem diagonal_hop_is_taken (g : CartesianGrid R) (f : Nat → R) (k : R) (sqrt : R → R)
    (tie : Nat → Nat) (fuel : Nat) (h1 : g.nx = 2) (h2 : g.ny = 2) (h3 : g.nz = 1)
    (hdx : 0 < g.dx) (hdy : 0 < g.dy) (hk : 0 < k)
    (hf : ∀ c, c < g.numberOfCells → f c = k)
    (hsq : ∀ x, 0 ≤ x → 0 ≤ sqrt x ∧ sqrt x * sqrt x = x) (hfuel : 5 ≤ fuel) :
    ∃ m1, (LazyMole.new g f [0]).run sqrt tie fuel = some m1 ∧
      m1.status 3 = Label.SCANNED ∧
      m1.smallestRes 3 = sqrt (g.dx ^ 2 + g.dy ^ 2) / k ∧
      m1.previous 3 = 0 ∧
      m1.smallestRes 3 < g.dx / k + g.dy / k ∧
      walkCost (computeResistance sqrt g f) [3, 1, 0] = g.dx / k + g.dy / k ∧
      walkCost (computeResistance sqrt g f) [3, 2, 0] = g.dx / k + g.dy / k := by
  replace h1 : g._nx = 2 := h1
  replace h2 : g._ny = 2 := h2
  replace h3 : g._nz = 1 := h3
  replace hdx : 0 < g._dx := hdx
  replace hdy : 0 < g._dy := hdy
  show ∃ m1, (LazyMole.new g f [0]).run sqrt tie fuel = some m1 ∧
      m1.status 3 = Label.SCANNED ∧
      m1.smallestRes 3 = sqrt (g._dx ^ 2 + g._dy ^ 2) / k ∧
      m1.previous 3 = 0 ∧
      m1.smallestRes 3 < g._dx / k + g._dy / k ∧
      walkCost (computeResistance sqrt g f) [3, 1, 0] = g._dx / k + g._dy / k ∧
      walkCost (computeResistance sqrt g f) [3, 2, 0] = g._dx / k + g._dy / k
  have hfit : g.Fits := by
    unfold CartesianGrid.Fits
    rw [h1, h2, h3]
    decide
  have hN : g.numberOfCells = 4 := by
    rw [g.numberOfCells_eq hfit, h1, h2, h3]
  rw [hN] at hf
  have hsqrt : ∀ x, 0 ≤ x → 0 ≤ sqrt x := fun x hx => (hsq x hx).1
  have hsrc : ∀ s ∈ [0], s < g.numberOfCells := by
    intro s hs
    rw [List.mem_singleton] at hs
    rw [hs, hN]
    decide
  have hS : Setting sqrt g f [0] :=
    Setting.of_fits hfit (fun c hc => by rw [hf c (by rwa [hN] at hc)]; exact hk) hsqrt hsrc
  obtain ⟨m1, cur, e1, s1, d1, n1, -⟩ :=
    LazyMole.run_spec hS tie fuel (by rw [hN]; exact hfuel)
  have hsc : ∀ c, c < 4 → m1.status c = Label.SCANNED := fun c hc =>
    d1.all_scanned hfit s1 n1 (List.cons_ne_nil _ _) hsrc c (by rw [hN]; exact hc)
  -- the resistances of the edges
  have hW : ∀ {a b : Nat}, a < 4 → b < 4 → computeResistance sqrt g f a b =
      (if a % 2 = b % 2 then (if a / 2 = b / 2 then 0 else g._dy)
        else (if a / 2 = b / 2 then g._dx else sqrt (g._dx ^ 2 + g._dy ^ 2))) / k :=
    fun ha hb => computeResistance_2x2 hsq g f k h1 h2 hdx hdy hf ha hb
  obtain ⟨b1, b2, b3⟩ := diagonal_bounds hsq hdx hdy
  have hdiv : ∀ {x y : R}, x ≤ y → x / k ≤ y / k := fun h =>
    div_le_div_of_nonneg_right h (le_of_lt hk)
  have hcl : ∀ a < 4, ∀ b ∈ g.neighbors a, b < 4 := by
    intro a ha b hb
    have := hS.closed a (by rw [hN]; exact ha) b hb
    rwa [hN] at this
  -- the resistance from cell `0` is a lower bound of the cost of a route
  have hlow : ∀ (l : List Nat) (x : Nat), IsRoute g.neighbors [0] x l →
      x < 4 ∧ computeResistance sqrt g f 0 x ≤ walkCost (computeResistance sqrt g f) l := by
    refine potential_bound (fun c => computeResistance sqrt g f 0 c) hcl ?_ ?_
    · intro s hs
      rw [List.mem_singleton] at hs
      subst hs
      refine ⟨by decide, ?_⟩
      show computeResistance sqrt g f 0 0 ≤ 0
      rw [hW (by decide) (by decide)]
      norm_num
    · intro a ha b hb
      have hb4 := hcl a ha b hb
      show computeResistance sqrt g f 0 b ≤
        computeResistance sqrt g f 0 a + computeResistance sqrt g f a b
      rw [hW (by decide) hb4, hW (by decide) ha, hW ha hb4, ← add_div]
      apply hdiv
      interval_cases a <;> interval_cases b <;> norm_num <;> linarith
  have hres : ∀ c, c < 4 → computeResistance sqrt g f 0 c ≤ m1.smallestRes c := by
    intro c hc
    obtain ⟨l, hl, hcost⟩ := (d1.isLeast (hsc c hc)).1
    rw [← hcost]
    exact (hlow l c hl).2
  have hmem : 3 ∈ g.neighbors 0 := by
    unfold CartesianGrid.neighbors CartesianGrid.splitId CartesianGrid.mergeIds
    rw [h1, h2, h3]
    decide
  have hroute : IsRoute g.neighbors [0] 3 [3, 0] :=
    isRoute_cons (isRoute_single (List.mem_singleton.2 rfl)) hmem
  have hle : m1.smallestRes 3 ≤ computeResistance sqrt g f 0 3 := by
    have := (d1.isLeast (hsc 3 (by decide))).2 ⟨[3, 0], hroute, rfl⟩
    rwa [walkCost_cons, walkCost_single, add_zero] at this
  have hval : m1.smallestRes 3 = sqrt (g._dx ^ 2 + g._dy ^ 2) / k := by
    have := le_antisymm hle (hres 3 (by decide))
    rw [this, hW (by decide) (by decide)]
    norm_num
  have hlt : sqrt (g._dx ^ 2 + g._dy ^ 2) / k < g._dx / k + g._dy / k := by
    rw [← add_div]
    exact div_lt_div_of_pos_right b3 hk
  have hprev : m1.previous 3 = 0 := by
    obtain ⟨p1, p2, p3⟩ := d1.scannedPrev 3 (hsc 3 (by decide)) (by decide)
    have hp4 : m1.previous 3 < 4 := by
      have := d1.range (m1.previous 3) (by rw [p1]; exact Label.noConfusion)
      rwa [hN] at this
    have hp := hres _ hp4
    rw [hval] at p3
    generalize m1.previous 3 = p at p2 p3 hp4 hp
    rw [hW (by decide) hp4] at hp
    rw [hW hp4 (by decide)] at p3
    interval_cases p
    · rfl
    · exfalso
      norm_num at hp p3
      have : g._dx / k + g._dy / k ≤ sqrt (g._dx ^ 2 + g._dy ^ 2) / k := by
        rw [p3]; linarith
      exact absurd hlt (not_lt.2 this)
    · exfalso
      norm_num at hp p3
      have : g._dx / k + g._dy / k ≤ sqrt (g._dx ^ 2 + g._dy ^ 2) / k := by
        rw [p3]; linarith
      exact absurd hlt (not_lt.2 this)
    · exfalso
      exact ((g.mem_neighbors_iff hfit (by rw [hN]; decide) 3).1 p2).2.1 rfl
  refine ⟨m1, e1, hsc 3 (by decide), hval, hprev, ?_, ?_, ?_⟩
  · rw [hval]
    exact hlt
  · rw [walkCost_cons, walkCost_cons, walkCost_single, hW (by decide) (by decide),
      hW (by decide) (by decide)]
    norm_num
    exact add_comm _ _
  · rw [walkCost_cons, walkCost_cons, walkCost_single, hW (by decide) (by decide),
      hW (by decide) (by decide)]
    norm_num

/-- A concrete instance of C19: the grid of 2 x 2 x 1 unit cells over the
real numbers, with the real square root and the field value `1`. -/
theorem diagonal_hop_is_taken_witness :
    ∃ m1, (LazyMole.new (⟨2, 2, 1, 1, 1, 1, 1, 1, 1, ⟨0, 0, 0⟩, false⟩ : CartesianGrid ℝ)
        (fun _ => 1) [0]).run Real.sqrt (fun _ => 0) 5 = some m1 ∧
      m1.status 3 = Label.SCANNED ∧
      m1.smallestRes 3 = Real.sqrt ((1 : ℝ) ^ 2 + (1 : ℝ) ^ 2) / 1 ∧
      m1.previous 3 = 0 ∧
      m1.smallestRes 3 < (1 : ℝ) / 1 + (1 : ℝ) / 1 :=
  have h := diagonal_hop_is_taken
    (⟨2, 2, 1, 1, 1, 1, 1, 1, 1, ⟨0, 0, 0⟩, false⟩ : CartesianGrid ℝ) (fun _ => 1) 1 Real.sqrt
    (fun _ => 0) 5 rfl rfl rfl one_pos one_pos one_pos (fun _ _ => rfl)
    (fun x hx => ⟨Real.sqrt_nonneg x, Real.mul_self_sqrt hx⟩) (le_refl 5)
  h.imp fun _ hm => ⟨hm.1, hm.2.1, hm.2.2.1, hm.2.2.2.1, hm.2.2.2.2.1⟩

end Claims7

section Claims8

variable {R : Type} [LinearOrderedField R]

/-- C20: on a grid whose cell count fits a `size_t`, with a field that is
strictly positive on the cells and sources that are cells, `run` returns and
leaves every source cell `s` SCANNED with the finalized resistance `0` and
the predecessor `EMPTY`; the predecessor walk from `s` is the single cell
`s`, so that `path(s)` marks exactly the cell `s` and `exportPath(s)` writes
exactly the centre of `s`. -/
theorem source_has_trivial_path (g : CartesianGrid R) (f : Nat → R) (srcs : List Nat)
    (sqrt : R → R) (tie : Nat → Nat) (fuel : Nat) (hf : g.Fits)
    (hpos : ∀ c, c < g.numberOfCells → 0 < f c) (hsqrt : ∀ x, 0 ≤ x → 0 ≤ sqrt x)
    (hsrc : ∀ s ∈ srcs, s < g.numberOfCells)
    (hfuel : srcs.length + g.numberOfCells ≤ fuel) :
    ∃ m1, (LazyMole.new g f srcs).run sqrt tie fuel = some m1 ∧
      ∀ s ∈ srcs, m1.status s = Label.SCANNED ∧ m1.smallestRes s = 0 ∧
        m1.previous s = EMPTY ∧
        ∀ k, m1.walk (k + 1) s = some [s] ∧
          m1.path (k + 1) s = some (fun x => if x = s then 1 else 0) ∧
          m1.exportPath true (k + 1) s = some [g.centerOfCell s] := by
  have hS : Setting sqrt g f srcs := Setting.of_fits hf hpos hsqrt hsrc
  obtain ⟨m1, cur, e1, s1, d1, n1, r1⟩ := LazyMole.run_spec hS tie fuel hfuel
  refine ⟨m1, e1, fun s hs => ?_⟩
  have hsc := d1.src_scanned s1 n1 hs
  obtain ⟨-, hp, hz⟩ := d1.src s hs
  refine ⟨hsc, hz hsc, hp, fun k => ?_⟩
  have hw : m1.walk (k + 1) s = some [s] := by
    unfold LazyMole.walk
    simp only [hp, ne_eq, not_true_eq_false, if_false]
  refine ⟨hw, ?_, ?_⟩
  · rw [LazyMole.path_eq m1 r1, hw]
    simp only [Option.map_some', List.mem_singleton]
  · rw [LazyMole.exportPath_eq m1 r1, hw, d1.hg]
    rfl

/-- A concrete instance of C20: the 2 x 2 x 1 unit grid with the unit field
and the sources `0` and `3`, at the source `3`. -/
theorem source_has_trivial_path_witness :
    ∃ m1, (LazyMole.new grid221 unitField [0, 3]).run Rat.sqrt (fun _ => 0) 6 = some m1 ∧
      m1.status 3 = Label.SCANNED ∧ m1.smallestRes 3 = 0 ∧ m1.previous 3 = EMPTY ∧
      m1.walk (0 + 1) 3 = some [3] ∧
      m1.path (0 + 1) 3 = some (fun x => if x = 3 then 1 else 0) ∧
      m1.exportPath true (0 + 1) 3 = some [grid221.centerOfCell 3] :=
  have h := source_has_trivial_path grid221 unitField [0, 3] Rat.sqrt (fun _ => 0) 6
    (by decide) (fun _ _ => zero_lt_one) (fun x _ => Rat.sqrt_nonneg x) (by decide) (by decide)
  h.imp fun _ hm =>
    have h3 := hm.2 3 (by decide)
    ⟨hm.1, h3.1, h3.2.1, h3.2.2.1, (h3.2.2.2 0).1, (h3.2.2.2 0).2.1, (h3.2.2.2 0).2.2⟩

end Claims8

section Claims12

variable {R : Type}

theorem rat_sqrt_one : Rat.sqrt 1 = 1 := by
  have := Rat.sqrt_eq 1
  rw [mul_one, abs_one] at this
  exact this

/-- C22 as stated fails: on the single-cell grid, with `isLog` false and
`connected = 0`, `import` reads the value `-1` from the stream, does not
fail, and stores `-1 * sqrt(1) = -1` in cell `0`, which held `1`; and on a
stream that holds characters that are not a number, it stores the `0` that
the failed extraction writes.  The functions that stand for `exp`, `erf` and
`erf_inv` are not called on these inputs. -/
theorem import_stores_nonpositive_value :
    (∃ s v, grid111.importField Rat.sqrt (fun _ => 1) (fun x => x) (fun x => some x)
        (fun _ => 1) ⟨[-1], Tail.space⟩ 1 false 0 = ImportResult.done s v ∧
      v 0 = -1 ∧ v 0 ≤ 0) ∧
    (∃ s v, grid111.importField Rat.sqrt (fun _ => 1) (fun x => x) (fun x => some x)
        (fun _ => 1) ⟨[], Tail.junk⟩ 1 false 0 = ImportResult.done s v ∧ v 0 = 0) := by
  have h : importValue Rat.sqrt (fun _ => 1) (fun x => x) (fun x => some x) 1 false 0 (-1) =
      (-1 : ℚ) := by
    simp [importValue, rat_sqrt_one]
  have h0 : importValue Rat.sqrt (fun _ => 1) (fun x => x) (fun x => some x) 1 false 0 0 =
      (0 : ℚ) := by
    simp [importValue]
  refine ⟨⟨_, _, rfl, ?_, ?_⟩, ⟨_, _, rfl, ?_⟩⟩
  · exact h
  · show importValue Rat.sqrt (fun _ => 1) (fun x => x) (fun x => some x) 1 false 0 (-1) ≤ 0
    rw [h]
    decide
  · exact h0

/-- C22, amended: `import` checks the sign of no value.  It throws exactly
when `isLog` is false and `connected` is `1` or `-1`.  With `isLog` true every
entry it leaves is the entry it found or `exp` of something, hence strictly
positive for a strictly positive `exp`.  With `isLog` false and `connected`
other than `1` and `-1`, every entry it leaves is the entry it found or
`v * sqrt(sigma2)` for a value `v` of the stream or the `0` of a failed
extraction; and when the stream holds the values the grid needs, the last of
them followed by a character, it returns and every fine cell `(x, y, z)` of
the coarse cells holds `v_m * sqrt(sigma2)`, with `v_m` the value of its
coarse cell in the order of reading, whatever the sign of `v_m`, every other
entry being as it was. -/
theorem import_checks_no_sign [LinearOrderedField R] (sqrt exp erf : R → R)
    (erfInv : R → Option R) (g : CartesianGrid R) (values : Nat → R) (inStream : IStream R)
    (sigma2 : R) (connected : Int) (hexp : ∀ x, 0 < exp x) :
    (∀ isLog, g.importField sqrt exp erf erfInv values inStream sigma2 isLog connected =
      ImportResult.runtimeError ↔ isLog = false ∧ (connected = 1 ∨ connected = -1)) ∧
    (∀ s vals, g.importField sqrt exp erf erfInv values inStream sigma2 true connected =
        ImportResult.done s vals →
      ∀ id, vals id = values id ∨ ((∃ x, vals id = exp x) ∧ 0 < vals id)) ∧
    (connected ≠ 1 → connected ≠ -1 →
      (∀ s vals, g.importField sqrt exp erf erfInv values inStream sigma2 false connected =
          ImportResult.done s vals →
        ∀ id, vals id = values id ∨
          ∃ v, (v ∈ inStream.values ∨ v = 0) ∧ vals id = v * sqrt sigma2) ∧
      (g.Fits → 0 < g.resx → 0 < g.resy → 0 < g.resz → inStream.tail ≠ Tail.failed →
        g.nz / g.resz * (g.ny / g.resy) * (g.nx / g.resx) ≤ inStream.values.length →
        (inStream.tail = Tail.ended →
          g.nz / g.resz * (g.ny / g.resy) * (g.nx / g.resx) < inStream.values.length) →
        ∃ vals, g.importField sqrt exp erf erfInv values inStream sigma2 false connected =
            ImportResult.done
              ⟨inStream.values.drop (g.nz / g.resz * (g.ny / g.resy) * (g.nx / g.resx)),
                inStream.tail⟩ vals ∧
          (∀ x y z, x < g.resx * (g.nx / g.resx) → y < g.resy * (g.ny / g.resy) →
            z < g.resz * (g.nz / g.resz) →
            vals (g.mergeIds x y z) =
              inStream.values.getD (g.coarseIndex x y z) 0 * sqrt sigma2) ∧
          ∀ id, (∀ x y z, x < g.resx * (g.nx / g.resx) → y < g.resy * (g.ny / g.resy) →
            z < g.resz * (g.nz / g.resz) → id ≠ g.mergeIds x y z) → vals id = values id)) := by
  refine ⟨fun isLog => g.importField_throws sqrt exp erf erfInv values inStream sigma2 isLog
    connected, ?_, ?_⟩
  · intro s vals h
    refine g.importField_marked sqrt exp erf erfInv values inStream sigma2 true connected
      (fun y => (∃ x, y = exp x) ∧ 0 < y) ?_ h
    intro v _
    have e : importValue sqrt exp erf erfInv sigma2 true connected v =
        exp ((if connected = 1 ∨ connected = -1 then zinn sqrt erf erfInv connected v else v) *
          sqrt sigma2) := rfl
    rw [e]
    exact ⟨⟨_, rfl⟩, hexp _⟩
  · intro h1 h2
    have hc : ¬ (connected = 1 ∨ connected = -1) := by
      rintro (h' | h')
      · exact h1 h'
      · exact h2 h'
    have hv : ∀ v, importValue sqrt exp erf erfInv sigma2 false connected v =
        v * sqrt sigma2 := by
      intro v
      unfold importValue
      simp only [if_neg hc, Bool.false_eq_true, if_false]
    constructor
    · intro s vals h
      refine g.importField_marked sqrt exp erf erfInv values inStream sigma2 false connected
        (fun y => ∃ v, (v ∈ inStream.values ∨ v = 0) ∧ y = v * sqrt sigma2) ?_ h
      intro v hv1
      exact ⟨v, hv1, hv v⟩
    · intro hf rx ry rz ht hlen hlast
      obtain ⟨vs, t⟩ := inStream
      obtain ⟨vals, e, a, b⟩ := g.importField_spec sqrt exp erf erfInv values vs t sigma2 false
        connected hf rx ry rz ht hlen hlast (fun h => hc h.2)
      refine ⟨vals, e, ?_, b⟩
      intro x y z hx hy hz
      rw [a x y z hx hy hz, hv]

/-- A concrete instance of amended C22: the grid of 4 x 1 x 1 cells refined
twice along x, over the real numbers, with the real square root and
exponential, and the stream that holds `-1`, `0` and a newline: the two
cells of the first coarse cell receive `-1 * sqrt(1)` and the two of the
second `0 * sqrt(1)`. -/
theorem import_checks_no_sign_witness :
    ∃ vals, (⟨4, 1, 1, 1, 1, 1, 2, 1, 1, ⟨0, 0, 0⟩, false⟩ : CartesianGrid ℝ).importField
        Real.sqrt Real.exp (fun x => x) (fun x => some x) (fun _ => 1)
        ⟨[-1, 0], Tail.space⟩ 1 false 0 = ImportResult.done ⟨[], Tail.space⟩ vals ∧
      vals 0 = -1 * Real.sqrt 1 ∧ vals 1 = -1 * Real.sqrt 1 ∧ vals 2 = 0 * Real.sqrt 1 ∧
      vals 3 = 0 * Real.sqrt 1 := by
  obtain ⟨vals, e, h, -⟩ := ((import_checks_no_sign Real.sqrt Real.exp (fun x => x)
    (fun x => some x) (⟨4, 1, 1, 1, 1, 1, 2, 1, 1, ⟨0, 0, 0⟩, false⟩ : CartesianGrid ℝ)
    (fun _ => 1) ⟨[-1, 0], Tail.space⟩ 1 0 Real.exp_pos).2.2 (by decide) (by decide)).2
    (by decide) (by decide) (by decide) (by decide) (by decide) (by decide)
    (fun h => Tail.noConfusion h)
  exact ⟨vals, e, h 0 0 0 (by decide) (by decide) (by decide),
    h 1 0 0 (by decide) (by decide) (by decide), h 2 0 0 (by decide) (by decide) (by decide),
    h 3 0 0 (by decide) (by decide) (by decide)⟩

/-- C28, the code on a stream that holds exactly the values the grid needs
and ends with the last of them: on the single-cell grid with the stream that
holds the value `5` and nothing after it, the extraction of `5` reaches the
end of the stream, so `eof()` is true, the loop is left by `break`, and
cell `0` keeps the value `0` the constructor gave it, where the value
computed from `5` is due; with one character after the `5`, that value is
stored. -/
theorem import_drops_last_value :
    (∃ s v, grid111.importField Rat.sqrt (fun _ => 1) (fun x => x) (fun x => some x)
        (fun _ => 0) ⟨[5], Tail.ended⟩ 1 false 0 = ImportResult.done s v ∧ v 0 = 0) ∧
    (∃ s v, grid111.importField Rat.sqrt (fun _ => 1) (fun x => x) (fun x => some x)
        (fun _ => 0) ⟨[5], Tail.space⟩ 1 false 0 = ImportResult.done s v ∧ v 0 = 5) := by
  refine ⟨⟨_, _, rfl, rfl⟩, ⟨_, _, rfl, ?_⟩⟩
  show importValue Rat.sqrt (fun _ => 1) (fun x => x) (fun x => some x) 1 false 0 5 = (5 : ℚ)
  simp [importValue, rat_sqrt_one]

end Claims12


section Claims9

variable {R : Type} [LinearOrderedField R]

/-- C23: whatever the field, on a grid whose cell count fits and with
sources that are cells, `run` returns, and no label ever moves backward along
`UNVISITED -> VISITED -> SCANNED`: from each test of the loop condition to the
next, and from the constructed state to the returned one, the rank of every
label does not decrease and a SCANNED cell keeps its predecessor.  The
relaxation of a neighbour, from any state, changes a label only from
UNVISITED to VISITED, writes no resistance, and leaves the label and the
predecessor of every SCANNED cell as they are. -/
theorem labels_only_move_forward (g : CartesianGrid R) (f : Nat → R) (srcs : List Nat)
    (sqrt : R → R) (tie : Nat → Nat) (fuel : Nat) (hf : g.Fits)
    (hsrc : ∀ s ∈ srcs, s < g.numberOfCells)
    (hfuel : srcs.length + g.numberOfCells ≤ fuel) :
    (∃ m1, (LazyMole.new g f srcs).run sqrt tie fuel = some m1 ∧
      ∀ x, ((LazyMole.new g f srcs).status x).rank ≤ (m1.status x).rank) ∧
    ((LazyMole.new g f srcs).iterates sqrt tie fuel).Chain' (fun s s1 =>
      ∀ x, (s.status x).rank ≤ (s1.status x).rank ∧
        (s1.status x = Label.VISITED →
          s.status x = Label.UNVISITED ∨ s.status x = Label.VISITED) ∧
        (s.status x = Label.SCANNED →
          s1.status x = Label.SCANNED ∧ s1.previous x = s.previous x)) ∧
    (∀ (m m1 : LazyMole R) (c n : Nat) (r : R), m.relax sqrt c r n = some m1 →
      ∀ x, (m1.status x ≠ m.status x →
          m.status x = Label.UNVISITED ∧ m1.status x = Label.VISITED) ∧
        m1.smallestRes x = m.smallestRes x ∧
        (m.status x = Label.SCANNED →
          m1.status x = Label.SCANNED ∧ m1.previous x = m.previous x)) := by
  obtain ⟨m1, e1, -, -, -, -, -, -, w1⟩ :=
    LazyMole.run_plain sqrt g f srcs tie fuel hf hsrc hfuel
  refine ⟨⟨m1, e1, w1.rank_le⟩, ?_, ?_⟩
  · refine List.Chain'.imp ?_ (LazyMole.iterates_forward sqrt fuel tie _).2
    intro s s1 h x
    exact ⟨h.rank_le x, fun hv => Label.rank_visited (h.rank_le x) hv,
      fun hx => ⟨h.scanned hx, h.prev x hx⟩⟩
  · intro m m1 c n r h x
    obtain ⟨a1, a2, a3, -⟩ := LazyMole.relax_forward sqrt c r n h
    exact ⟨fun hx => (a3 x hx).2, by rw [a2], fun hx => ⟨a1.scanned hx, a1.prev x hx⟩⟩

/-- A concrete instance of C23: the 2 x 2 x 1 unit grid with the unit field
and the source `0`. -/
theorem labels_only_move_forward_witness :
    ∃ m1, (LazyMole.new grid221 unitField [0]).run Rat.sqrt (fun _ => 0) 5 = some m1 ∧
      ∀ x, ((LazyMole.new grid221 unitField [0]).status x).rank ≤ (m1.status x).rank :=
  (labels_only_move_forward grid221 unitField [0] Rat.sqrt (fun _ => 0) 5 (by decide)
    (by decide) (by decide)).1

/-- C25: the state the constructor leaves, before `run`: every source cell
is VISITED, without predecessor, and its handle designates a live node with
priority `0` for that cell, while its entry of `smallestRes` is still the
sentinel; every other cell is UNVISITED at the sentinel resistance `INF`,
without predecessor; every node of the queue is for a source cell, with
priority `0`, one node per element of the source list; `isReady` is false. -/
theorem constructor_state (g : CartesianGrid R) (f : Nat → R) (srcs : List Nat) :
    (∀ s ∈ srcs, (LazyMole.new g f srcs).status s = Label.VISITED ∧
      (LazyMole.new g f srcs).previous s = EMPTY ∧
      (LazyMole.new g f srcs).heap.deref ((LazyMole.new g f srcs).cellElementHandles s) =
        some ⟨0, s⟩ ∧
      (LazyMole.new g f srcs).smallestRes s = INF) ∧
    (∀ c, c ∉ srcs → (LazyMole.new g f srcs).status c = Label.UNVISITED ∧
      (LazyMole.new g f srcs).smallestRes c = INF ∧
      (LazyMole.new g f srcs).previous c = EMPTY) ∧
    (∀ n ∈ (LazyMole.new g f srcs).heap.nodes, n.2.cell ∈ srcs ∧ n.2.res = 0) ∧
    (LazyMole.new g f srcs).heap.nodes.length = srcs.length ∧
    (LazyMole.new g f srcs).isReady = false := by
  obtain ⟨hi, hr⟩ := LazyMole.new_init g f srcs
  refine ⟨?_, ?_, hi.nodes, hi.len, hr⟩
  · intro s hs
    have hv := (hi.visited s).2 hs
    obtain ⟨k, e, h1, h2, h3⟩ := hi.struct.visited s hv
    refine ⟨hv, hi.prev s, ?_, hi.res s⟩
    rw [h1, Heap.deref_of_mem hi.struct.nodup h2]
    have hres := (hi.nodes (k, e) h2).2
    have hres' : e.res = 0 := hres
    cases e with
    | mk res cell =>
      simp only at h3 hres'
      rw [h3, hres']
  · intro c hc
    exact ⟨(hi.unvisited c).2 hc, hi.res c, hi.prev c⟩

/-- C26: whatever the field, on a grid whose cell count fits and with
sources that are cells, `run` returns and leaves no cell VISITED; every cell
that is not SCANNED is UNVISITED, at the sentinel resistance `INF` and without
predecessor.  With the empty source list `run` returns the constructed state
with `isReady` set, whatever the fuel: no per-cell value has changed. -/
theorem run_leaves_no_frontier (g : CartesianGrid R) (f : Nat → R) (srcs : List Nat)
    (sqrt : R → R) (tie : Nat → Nat) (fuel : Nat) (hf : g.Fits)
    (hsrc : ∀ s ∈ srcs, s < g.numberOfCells)
    (hfuel : srcs.length + g.numberOfCells ≤ fuel) :
    (∃ m1, (LazyMole.new g f srcs).run sqrt tie fuel = some m1 ∧
      ∀ c, m1.status c ≠ Label.VISITED ∧
        (m1.status c = Label.SCANNED ∨ m1.status c = Label.UNVISITED) ∧
        (m1.status c ≠ Label.SCANNED →
          m1.smallestRes c = INF ∧ m1.previous c = EMPTY)) ∧
    ∀ k, (LazyMole.new g f []).run sqrt tie k =
      some { LazyMole.new g f [] with isReady := true } := by
  constructor
  · obtain ⟨m1, e1, s1, -, n1, -, -, -, -⟩ :=
      LazyMole.run_plain sqrt g f srcs tie fuel hf hsrc hfuel
    obtain ⟨-, -, hu⟩ := LazyMole.run_unreached sqrt g f srcs tie fuel e1
    refine ⟨m1, e1, fun c => ⟨s1.not_visited n1 c, ?_, fun hc => ⟨(hu c hc).2.2, (hu c hc).2.1⟩⟩⟩
    by_cases hc : m1.status c = Label.SCANNED
    · exact Or.inl hc
    · exact Or.inr (hu c hc).1
  · intro k
    unfold LazyMole.run
    rw [LazyMole.runLoop_done sqrt tie k rfl]
    rfl

/-- A concrete instance of C26: the 2 x 2 x 1 unit grid with the unit field
and the source `0`. -/
theorem run_leaves_no_frontier_witness :
    ∃ m1, (LazyMole.new grid221 unitField [0]).run Rat.sqrt (fun _ => 0) 5 = some m1 ∧
      ∀ c, m1.status c ≠ Label.VISITED ∧
        (m1.status c = Label.SCANNED ∨ m1.status c = Label.UNVISITED) ∧
        (m1.status c ≠ Label.SCANNED →
          m1.smallestRes c = INF ∧ m1.previous c = EMPTY) :=
  (run_leaves_no_frontier grid221 unitField [0] Rat.sqrt (fun _ => 0) 5 (by decide)
    (by decide) (by decide)).1

/-- C27: whatever the field, on a grid whose cell count fits and with
sources that are cells, `run` terminates: with fuel for `|sources| + N`
iterations it returns, with an empty heap, and whatever the fuel it performs
at most `|sources| + N` extractions.  The constructor pushes one node per
element of the source list, `run` has pushed at most `|sources| + N` nodes in
all, and the relaxation of a neighbour pushes a node only for a neighbour that
is UNVISITED at that moment, and otherwise keeps the number of nodes. -/
theorem run_terminates (g : CartesianGrid R) (f : Nat → R) (srcs : List Nat)
    (sqrt : R → R) (tie : Nat → Nat) (fuel : Nat) (hf : g.Fits)
    (hsrc : ∀ s ∈ srcs, s < g.numberOfCells) :
    (srcs.length + g.numberOfCells ≤ fuel →
      ∃ m1, (LazyMole.new g f srcs).run sqrt tie fuel = some m1 ∧ m1.heap.empty = true ∧
        m1.heap.next ≤ srcs.length + g.numberOfCells) ∧
    ((LazyMole.new g f srcs).extracted sqrt tie fuel).length ≤
      srcs.length + g.numberOfCells ∧
    (LazyMole.new g f srcs).heap.next = srcs.length ∧
    (∀ (m m1 : LazyMole R) (c n : Nat) (r : R), m.relax sqrt c r n = some m1 →
      (m.status n = Label.UNVISITED ∧ m1.heap.next = m.heap.next + 1 ∧
        m1.heap.nodes.length = m.heap.nodes.length + 1) ∨
      (m.status n ≠ Label.UNVISITED ∧ m1.heap.next = m.heap.next ∧
        m1.heap.nodes.length = m.heap.nodes.length)) := by
  refine ⟨?_, ?_, LazyMole.new_next g f srcs, ?_⟩
  · intro hfuel
    obtain ⟨m1, e1, -, -, n1, -, b1, -, -⟩ :=
      LazyMole.run_plain sqrt g f srcs tie fuel hf hsrc hfuel
    exact ⟨m1, e1, (Heap.empty_iff _).2 n1, b1⟩
  · by_cases hfuel : srcs.length + g.numberOfCells ≤ fuel
    · obtain ⟨m1, -, -, -, -, -, -, x1, -⟩ :=
        LazyMole.run_plain sqrt g f srcs tie fuel hf hsrc hfuel
      exact x1
    · have := LazyMole.extracted_length_le sqrt fuel tie (LazyMole.new g f srcs)
      omega
  · intro m m1 c n r h
    unfold LazyMole.relax at h
    by_cases hsc : m.status n = Label.SCANNED
    · rw [if_neg (by simpa using hsc)] at h
      have e : m = m1 := Option.some.inj h
      subst e
      exact Or.inr ⟨by rw [hsc]; exact Label.noConfusion, rfl, rfl⟩
    · rw [if_pos hsc] at h
      simp only at h
      by_cases hun : m.status n = Label.UNVISITED
      · rw [if_pos hun] at h
        have e := Option.some.inj h
        subst e
        refine Or.inl ⟨hun, rfl, ?_⟩
        show (m.heap.nodes ++ [_]).length = _
        rw [List.length_append, List.length_singleton]
      · rw [if_neg hun] at h
        cases hd : m.heap.deref (m.cellElementHandles n) with
        | none => rw [hd] at h; simp at h
        | some e =>
          rw [hd] at h
          simp only at h
          by_cases hlt : r + computeResistance sqrt m.gridPtr m.field c n < -e.res
          · rw [if_pos hlt] at h
            have e := Option.some.inj h
            subst e
            refine Or.inr ⟨hun, ?_, ?_⟩
            · show (m.heap.increase _ _).next = _
              unfold Heap.increase
              cases m.cellElementHandles n <;> rfl
            · show (m.heap.increase _ _).nodes.length = _
              unfold Heap.increase
              cases m.cellElementHandles n <;> simp
          · rw [if_neg hlt] at h
            have e : m = m1 := Option.some.inj h
            subst e
            exact Or.inr ⟨hun, rfl, rfl⟩

/-- A concrete instance of C27: the 2 x 2 x 1 unit grid with the unit field
and the sources `0` and `3`. -/
theorem run_terminates_witness :
    (∃ m1, (LazyMole.new grid221 unitField [0, 3]).run Rat.sqrt (fun _ => 0) 6 = some m1 ∧
      m1.heap.empty = true ∧ m1.heap.next ≤ 2 + 4) ∧
    ((LazyMole.new grid221 unitField [0, 3]).extracted Rat.sqrt (fun _ => 0) 6).length ≤ 2 + 4 :=
  have h := run_terminates grid221 unitField [0, 3] Rat.sqrt (fun _ => 0) 6 (by decide)
    (by decide)
  ⟨h.1 (by decide), h.2.1⟩

end Claims9

section OwnedRun
variable {R : Type} [LinearOrderedField R]

/-- With one entry per VISITED cell, no cell is extracted twice, and no
cell that is SCANNED is extracted. -/
theorem LazyMole.extracted_nodup (sqrt : R → R) {g : CartesianGrid R}
    (hcl : ∀ a, a < g.numberOfCells → ∀ b ∈ g.neighbors a, b < g.numberOfCells) :
    ∀ (fuel : Nat) (tie : Nat → Nat) (m : LazyMole R), m.Struct → m.Tree g → m.Owned →
      ((m.extracted sqrt tie fuel).map fun e => e.cell).Nodup ∧
      ∀ e ∈ m.extracted sqrt tie fuel, m.status e.cell ≠ Label.SCANNED := by
  intro fuel
  induction fuel with
  | zero =>
    intro tie m _ _ _
    have : m.extracted sqrt tie 0 = [] := by
      unfold LazyMole.extracted
      split_ifs <;> rfl
    rw [this]
    exact ⟨List.nodup_nil, fun e he => absurd he (List.not_mem_nil _)⟩
  | succ fuel ih =>
    intro tie m hs ht ho
    by_cases hnil : m.heap.nodes = []
    · rw [LazyMole.extracted_done sqrt tie _ hnil]
      exact ⟨List.nodup_nil, fun e he => absurd he (List.not_mem_nil _)⟩
    · obtain ⟨n, m1, htop, e1, s1, t1, o1, -⟩ :=
        LazyMole.scan_inv sqrt hcl (I := fun s => s.Owned)
          (fun s t n _ _ hi htop => hi.owned_settle htop)
          (fun s c n x hs' _ hi _ hun _ => hi.owned_visit hs' c n x hun)
          (fun s c n x k e _ _ hi _ _ hk hm hc => hi.owned_improve c n x hk hm hc)
          (tie 0) hs ht ho hnil
      obtain ⟨a1, a2⟩ := ih (fun k => tie (k + 1)) m1 s1 t1 o1
      obtain ⟨f1, n', htop', hsc, -, -⟩ := LazyMole.scan_forward sqrt (tie 0) e1
      have hn' : n' = n := Option.some.inj (htop'.symm.trans htop)
      subst hn'
      rw [LazyMole.extracted_step sqrt tie fuel hnil htop e1]
      constructor
      · rw [List.map_cons, List.nodup_cons]
        refine ⟨?_, a1⟩
        intro hmem
        obtain ⟨e, he, hec⟩ := List.mem_map.1 hmem
        have hec' : e.cell = n'.2.cell := hec
        have := a2 e he
        rw [hec'] at this
        exact this hsc
      · intro e he
        rcases List.mem_cons.1 he with h | h
        · rw [h, (ho n' (Heap.top_some htop).1).2]
          exact Label.noConfusion
        · intro hsc'
          exact a2 e h (f1.scanned hsc')

end OwnedRun

section Claims11

variable {R : Type} [LinearOrderedField R]

/-- C24 as stated fails for a source list that names a cell twice: on the
single-cell grid with the source list `[0, 0]` the constructor leaves two
entries for cell `0` in the queue, `run` extracts cell `0` twice, and at the
second iteration the cell at the top of the queue is already SCANNED. -/
theorem duplicate_source_is_extracted_twice :
    ((LazyMole.new grid111 unitField [0, 0]).heap.nodes.map fun n => n.2.cell) = [0, 0] ∧
    (((LazyMole.new grid111 unitField [0, 0]).extracted Rat.sqrt (fun _ => 0) 2).map
      fun e => e.cell) = [0, 0] ∧
    ∃ m1 n, (LazyMole.new grid111 unitField [0, 0]).scan Rat.sqrt 0 = some m1 ∧
      m1.heap.top 0 = some n ∧ m1.status n.2.cell = Label.SCANNED :=
  ⟨rfl, rfl, _, _, rfl, rfl, rfl⟩

/-- C24, amended: whatever the field, on a grid whose cell count fits and
with sources that are pairwise distinct cells, at every test of the loop
condition of `run` every entry of the queue is the one the handle of its cell
designates and its cell is VISITED, no two entries are for the same cell,
and every VISITED cell has an entry; so the cell at the top of the queue is
never SCANNED, and no cell is extracted twice. -/
theorem queue_has_one_entry_per_visited_cell (g : CartesianGrid R) (f : Nat → R)
    (srcs : List Nat) (sqrt : R → R) (tie : Nat → Nat) (fuel : Nat) (hf : g.Fits)
    (hsrc : ∀ s ∈ srcs, s < g.numberOfCells) (hnd : srcs.Nodup)
    (hfuel : srcs.length + g.numberOfCells ≤ fuel) :
    (∃ m1, (LazyMole.new g f srcs).run sqrt tie fuel = some m1) ∧
    (∀ s ∈ (LazyMole.new g f srcs).iterates sqrt tie fuel,
      (∀ n ∈ s.heap.nodes,
        s.status n.2.cell = Label.VISITED ∧ s.cellElementHandles n.2.cell = some n.1) ∧
      (s.heap.nodes.map fun n => n.2.cell).Nodup ∧
      (∀ c, s.status c = Label.VISITED → ∃ n ∈ s.heap.nodes, n.2.cell = c) ∧
      (∀ t n, s.heap.top t = some n → s.status n.2.cell = Label.VISITED)) ∧
    (((LazyMole.new g f srcs).extracted sqrt tie fuel).map fun e => e.cell).Nodup := by
  obtain ⟨hi, -⟩ := LazyMole.new_init g f srcs
  have ho := LazyMole.new_owned g f hnd
  have hcl := CartesianGrid.neighbors_closed hf
  obtain ⟨m1, e1, -, -, -, -, -, y1⟩ :=
    LazyMole.runLoop_inv sqrt hcl (I := fun s => s.Owned)
      (fun s t n _ _ hi htop => hi.owned_settle htop)
      (fun s c n x hs' _ hi _ hun _ => hi.owned_visit hs' c n x hun)
      (fun s c n x k e _ _ hi _ _ hk hm hc => hi.owned_improve c n x hk hm hc)
      fuel tie _ hi.struct (hi.tree hsrc) ho (le_trans (hi.measure_le _) hfuel)
  refine ⟨⟨{ m1 with isReady := true }, ?_⟩, ?_,
    (LazyMole.extracted_nodup sqrt hcl fuel tie _ hi.struct (hi.tree hsrc) ho).1⟩
  · unfold LazyMole.run
    rw [e1]
    rfl
  · intro s hs
    obtain ⟨s1, -, o1⟩ := y1 s hs
    refine ⟨fun n hn => ⟨(o1 n hn).2, (o1 n hn).1⟩, o1.cells_nodup s1, ?_, ?_⟩
    · intro c hc
      obtain ⟨k, e, -, h2, h3⟩ := s1.visited c hc
      exact ⟨(k, e), h2, h3⟩
    · intro t n htop
      exact (o1 n (Heap.top_some htop).1).2

/-- A concrete instance of amended C24: the 2 x 2 x 1 unit grid with the
unit field and the sources `0` and `3`. -/
theorem queue_has_one_entry_per_visited_cell_witness :
    (∃ m1, (LazyMole.new grid221 unitField [0, 3]).run Rat.sqrt (fun _ => 0) 6 = some m1) ∧
    (((LazyMole.new grid221 unitField [0, 3]).extracted Rat.sqrt (fun _ => 0) 6).map
      fun e => e.cell).Nodup :=
  have h := queue_has_one_entry_per_visited_cell grid221 unitField [0, 3] Rat.sqrt
    (fun _ => 0) 6 (by decide) (by decide) (by decide) (by decide)
  ⟨h.1, h.2.2⟩

end Claims11

section Claims10

variable {R : Type} [LinearOrderedField R]

/-- C29: on a grid whose cell count fits, with a field that is strictly
positive on the cells and a non-empty list of sources that are cells, `run`
returns and leaves every cell of the grid SCANNED; the resistance of every
cell is the cost of a path from a source, the least one, so it is below the
sentinel `INF` as soon as one path to the cell costs less than `INF`; and
every cell that is not a source has a predecessor different from `EMPTY`,
which is a SCANNED cell of the grid of which it is a neighbour. -/
theorem run_reaches_every_cell (g : CartesianGrid R) (f : Nat → R) (srcs : List Nat)
    (sqrt : R → R) (tie : Nat → Nat) (fuel : Nat) (hf : g.Fits)
    (hpos : ∀ c, c < g.numberOfCells → 0 < f c) (hsqrt : ∀ x, 0 ≤ x → 0 ≤ sqrt x)
    (hsrc : ∀ s ∈ srcs, s < g.numberOfCells) (hne : srcs ≠ [])
    (hfuel : srcs.length + g.numberOfCells ≤ fuel) :
    0 < g.numberOfCells ∧
    ∃ m1, (LazyMole.new g f srcs).run sqrt tie fuel = some m1 ∧
      ∀ c, c < g.numberOfCells →
        m1.status c = Label.SCANNED ∧
        IsLeast (routeCosts g.neighbors (computeResistance sqrt g f) srcs c)
          (m1.smallestRes c) ∧
        (∀ l, IsRoute g.neighbors srcs c l →
          walkCost (computeResistance sqrt g f) l < INF → m1.smallestRes c < INF) ∧
        (c ∉ srcs → m1.previous c ≠ EMPTY ∧ m1.previous c < g.numberOfCells ∧
          m1.status (m1.previous c) = Label.SCANNED ∧ c ∈ g.neighbors (m1.previous c)) := by
  have hS : Setting sqrt g f srcs := Setting.of_fits hf hpos hsqrt hsrc
  obtain ⟨s, hs⟩ := List.exists_mem_of_ne_nil srcs hne
  refine ⟨lt_of_le_of_lt (Nat.zero_le _) (hsrc s hs), ?_⟩
  obtain ⟨m1, cur, e1, s1, d1, n1, -⟩ := LazyMole.run_spec hS tie fuel hfuel
  refine ⟨m1, e1, fun c hc => ?_⟩
  have hsc := d1.all_scanned hf s1 n1 hne hsrc c hc
  refine ⟨hsc, d1.isLeast hsc, ?_, ?_⟩
  · intro l hl hlt
    exact lt_of_le_of_lt (d1.lower c hsc l hl) hlt
  · intro hcs
    obtain ⟨p1, p2, -⟩ := d1.scannedPrev c hsc hcs
    have hpN := d1.range (m1.previous c) (by rw [p1]; exact Label.noConfusion)
    exact ⟨hS.ne_empty hpN, hpN, p1, p2⟩

/-- A concrete instance of C29: the 2 x 2 x 1 unit grid with the unit field
and the source `0`. -/
theorem run_reaches_every_cell_witness :
    0 < grid221.numberOfCells ∧
    ∃ m1, (LazyMole.new grid221 unitField [0]).run Rat.sqrt (fun _ => 0) 5 = some m1 ∧
      ∀ c, c < grid221.numberOfCells →
        m1.status c = Label.SCANNED ∧
        IsLeast (routeCosts grid221.neighbors (computeResistance Rat.sqrt grid221 unitField)
          [0] c) (m1.smallestRes c) ∧
        (∀ l, IsRoute grid221.neighbors [0] c l →
          walkCost (computeResistance Rat.sqrt grid221 unitField) l < INF →
            m1.smallestRes c < INF) ∧
        (c ∉ ([0] : List Nat) → m1.previous c ≠ EMPTY ∧ m1.previous c < grid221.numberOfCells ∧
          m1.status (m1.previous c) = Label.SCANNED ∧
          c ∈ grid221.neighbors (m1.previous c)) :=
  run_reaches_every_cell grid221 unitField [0] Rat.sqrt (fun _ => 0) 5 (by decide)
    (fun _ _ => zero_lt_one) (fun x _ => Rat.sqrt_nonneg x) (by decide) (by decide)
    (by decide)

/-- C30: whatever the field, on a grid whose cell count fits and with
sources that are cells, `run` returns, and from every target that is a cell
the predecessor walk of `path` and `exportPath` ends after at most `N` cells,
all of them cells of the grid and no two of them equal: with fuel for `N`
iterations `path` returns the field that marks these cells and `exportPath`
writes their centres.  Every predecessor link leads to a SCANNED cell. -/
theorem path_walk_terminates (g : CartesianGrid R) (f : Nat → R) (srcs : List Nat)
    (sqrt : R → R) (tie : Nat → Nat) (fuel : Nat) (hf : g.Fits)
    (hsrc : ∀ s ∈ srcs, s < g.numberOfCells)
    (hfuel : srcs.length + g.numberOfCells ≤ fuel) :
    ∃ m1, (LazyMole.new g f srcs).run sqrt tie fuel = some m1 ∧
      (∀ c, m1.previous c ≠ EMPTY → m1.status (m1.previous c) = Label.SCANNED) ∧
      ∀ t, t < g.numberOfCells →
        ∃ l, l.length ≤ g.numberOfCells ∧ l.Nodup ∧ (∀ x ∈ l, x < g.numberOfCells) ∧
          l.head? = some t ∧ l.Chain' (fun x y => y = m1.previous x) ∧
          ∀ k, g.numberOfCells ≤ k →
            m1.walk k t = some l ∧
            m1.path k t = some (fun x => if x ∈ l then 1 else 0) ∧
            m1.exportPath true k t = some (l.map g.centerOfCell) := by
  obtain ⟨m1, e1, s1, t1, n1, r1, -, -, -⟩ :=
    LazyMole.run_plain sqrt g f srcs tie fuel hf hsrc hfuel
  refine ⟨m1, e1, t1.prev, fun t ht => ?_⟩
  obtain ⟨l, h1, h2, h3, h4⟩ := t1.walk_total s1 n1 ht
  obtain ⟨c1, c2⟩ := LazyMole.walk_chain m1 _ _ _ (h4 _ (le_refl _))
  refine ⟨l, h1, h2, h3, c1, c2, fun k hk => ⟨h4 k hk, ?_, ?_⟩⟩
  · rw [LazyMole.path_eq m1 r1, h4 k hk]
    rfl
  · rw [LazyMole.exportPath_eq m1 r1, h4 k hk, t1.hg]
    rfl

/-- A concrete instance of C30: the 2 x 2 x 1 unit grid with the field
`-1` in every cell, the source `0` and the target `3`. -/
theorem path_walk_terminates_witness :
    ∃ m1, (LazyMole.new grid221 (fun _ => -1) [0]).run Rat.sqrt (fun _ => 0) 5 = some m1 ∧
      ∃ l, l.length ≤ grid221.numberOfCells ∧ l.Nodup ∧
        ∀ k, grid221.numberOfCells ≤ k → m1.walk k 3 = some l :=
  have h := path_walk_terminates grid221 (fun _ => -1) [0] Rat.sqrt (fun _ => 0) 5
    (by decide) (by decide) (by decide)
  h.imp fun _ hm =>
    ⟨hm.1, (hm.2.2 3 (by decide)).imp fun _ hl => ⟨hl.1, hl.2.1, fun k hk => (hl.2.2.2.2.2 k hk).1⟩⟩

end Claims10

section RunCanonical
variable {R : Type} [LinearOrderedField R]
variable {sqrt : R → R} {g : CartesianGrid R} {f : Nat → R} {srcs : List Nat}

/-- Whatever the fuel with which `run` returns, the state it returns has an
empty heap and satisfies the invariants. -/
theorem LazyMole.run_canonical (hS : Setting sqrt g f srcs) {tie : Nat → Nat} {fuel : Nat}
    {m1 : LazyMole R} (h : (LazyMole.new g f srcs).run sqrt tie fuel = some m1) :
    ∃ cur, m1.Struct ∧ m1.Dijk sqrt g f srcs cur [] ∧ m1.heap.nodes = [] := by
  unfold LazyMole.run at h
  obtain ⟨m0, h0, rfl⟩ := Option.map_eq_some'.1 h
  have hmono := LazyMole.runLoop_mono sqrt fuel tie _ m0 h0 (srcs.length + g.numberOfCells)
  obtain ⟨m2, cur, e2, s2, d2, n2, -⟩ :=
    LazyMole.run_spec hS tie (fuel + (srcs.length + g.numberOfCells)) (by omega)
  unfold LazyMole.run at e2
  rw [hmono] at e2
  have e : ({ m0 with isReady := true } : LazyMole R) = m2 := Option.some.inj e2
  rw [e]
  exact ⟨cur, s2, d2, n2⟩

/-- The resistances that two runs leave are the same, whatever their
tie-breaks, when their source lists have the same elements. -/
theorem LazyMole.run_resistance_unique {srcs1 : List Nat} (hf : g.Fits)
    (hS : Setting sqrt g f srcs) (hS1 : Setting sqrt g f srcs1)
    (hmem : ∀ c, c ∈ srcs1 ↔ c ∈ srcs) {tie tie1 : Nat → Nat} {fuel fuel1 : Nat}
    {m1 m3 : LazyMole R} (h : (LazyMole.new g f srcs).run sqrt tie fuel = some m1)
    (h1 : (LazyMole.new g f srcs1).run sqrt tie1 fuel1 = some m3) :
    ∀ c, m1.status c = m3.status c ∧ m1.smallestRes c = m3.smallestRes c := by
  obtain ⟨cur, s1, d1, n1⟩ := LazyMole.run_canonical hS h
  obtain ⟨cur3, s3, d3, n3⟩ := LazyMole.run_canonical hS1 h1
  obtain ⟨-, -, u1⟩ := LazyMole.run_unreached sqrt g f srcs tie fuel h
  obtain ⟨-, -, u3⟩ := LazyMole.run_unreached sqrt g f srcs1 tie1 fuel1 h1
  have hne : srcs ≠ [] ↔ srcs1 ≠ [] := by
    constructor
    · intro hx hy
      obtain ⟨s, hs⟩ := List.exists_mem_of_ne_nil _ hx
      have := (hmem s).2 hs
      rw [hy] at this
      exact absurd this (List.not_mem_nil _)
    · intro hx hy
      obtain ⟨s, hs⟩ := List.exists_mem_of_ne_nil _ hx
      have := (hmem s).1 hs
      rw [hy] at this
      exact absurd this (List.not_mem_nil _)
  have key1 : ∀ c, m1.status c = Label.SCANNED → m3.status c = Label.SCANNED := by
    intro c hc
    have hcN := d1.range c (by rw [hc]; exact Label.noConfusion)
    have hsn : srcs ≠ [] := by
      intro hnil
      obtain ⟨l, -, -, -, ⟨-, ⟨s, hs, -⟩, -⟩, -⟩ := d1.chain c hc
      rw [hnil] at hs
      exact absurd hs (List.not_mem_nil _)
    exact d3.all_scanned hf s3 n3 (hne.1 hsn) hS1.srcs_lt c hcN
  have key3 : ∀ c, m3.status c = Label.SCANNED → m1.status c = Label.SCANNED := by
    intro c hc
    have hcN := d3.range c (by rw [hc]; exact Label.noConfusion)
    have hsn : srcs1 ≠ [] := by
      intro hnil
      obtain ⟨l, -, -, -, ⟨-, ⟨s, hs, -⟩, -⟩, -⟩ := d3.chain c hc
      rw [hnil] at hs
      exact absurd hs (List.not_mem_nil _)
    exact d1.all_scanned hf s1 n1 (hne.2 hsn) hS.srcs_lt c hcN
  intro c
  by_cases hc : m1.status c = Label.SCANNED
  · have hc3 := key1 c hc
    refine ⟨hc.trans hc3.symm, ?_⟩
    have l1 := d1.isLeast hc
    have l3 := d3.isLeast hc3
    rw [routeCosts_congr _ _ hmem c] at l3
    exact l1.unique l3
  · have hc3 : m3.status c ≠ Label.SCANNED := fun h' => hc (key3 c h')
    exact ⟨(u1 c hc).1.trans (u3 c hc3).1.symm, (u1 c hc).2.2.trans (u3 c hc3).2.2.symm⟩

end RunCanonical

section Claims13

variable {R : Type} [LinearOrderedField R]

end Claims13

section Claims14

variable {R : Type}

/-- C31: grid adjacency is symmetric.  On a grid whose cell count fits a
`size_t`, for two valid cell ids `a` and `b`, `b` is an element of
`neighbors(a)` if and only if `a` is an element of `neighbors(b)`. -/
theorem neighbors_symmetric (g : CartesianGrid R) (a b : Nat) (hf : g.Fits)
    (ha : a < g.numberOfCells) (hb : b < g.numberOfCells) :
    b ∈ g.neighbors a ↔ a ∈ g.neighbors b :=
  ⟨fun h => g.neighbors_symm hf ha h, fun h => g.neighbors_symm hf hb h⟩

/-- A concrete instance of C31: the cells `0` and `3` of the 2 x 2 x 1 grid,
which share a corner. -/
theorem neighbors_symmetric_witness :
    3 ∈ grid221.neighbors 0 ∧ 0 ∈ grid221.neighbors 3 :=
  have h : 3 ∈ grid221.neighbors 0 := by decide
  ⟨h, (neighbors_symmetric grid221 0 3 (by decide) (by decide) (by decide)).1 h⟩

end Claims14

section Claims15

variable {R : Type} [LinearOrderedField R]

/-- C32: on a grid whose cell count fits a `size_t`, with sources that are
cells and a target that is a cell, no index is out of range and no `assert`
fails.  Every element of `neighbors(id)` is a cell for every cell `id`, and
`neighbors` and `computeResistance` on cells pass the `assert`s of `splitId`,
`mergeIds`, `centerOfCell` and `getFromCell`.  The constructor, `run`, `path`
and `exportPath`, run with every index into `status`, `previous`,
`smallestRes`, the handle table, the field and the path field tested and every
`assert` tested, return what they return without the tests. -/
theorem no_access_out_of_range (g : CartesianGrid R) (f : Nat → R) (srcs : List Nat)
    (sqrt : R → R) (tie : Nat → Nat) (fuel : Nat) (hf : g.Fits)
    (hsrc : ∀ s ∈ srcs, s < g.numberOfCells)
    (hfuel : srcs.length + g.numberOfCells ≤ fuel) :
    (∀ id, id < g.numberOfCells →
      (∀ j ∈ g.neighbors id, j < g.numberOfCells) ∧
      g.neighborsChecked id = some (g.neighbors id)) ∧
    (∀ a, a < g.numberOfCells → ∀ b, b < g.numberOfCells →
      computeResistanceChecked sqrt g f a b = some (computeResistance sqrt g f a b)) ∧
    LazyMole.newChecked g f srcs = some (LazyMole.new g f srcs) ∧
    ∃ m1, (LazyMole.new g f srcs).runChecked sqrt tie fuel = some m1 ∧
      (LazyMole.new g f srcs).run sqrt tie fuel = some m1 ∧
      ∀ t, t < g.numberOfCells → ∀ k, g.numberOfCells ≤ k →
        ∃ p out, m1.pathChecked k t = some p ∧ m1.path k t = some p ∧
          m1.exportPathChecked true k t = some out ∧ m1.exportPath true k t = some out := by
  refine ⟨fun id hid => ⟨fun j hj => g.neighbors_lt hf hid hj,
    CartesianGrid.neighborsChecked_eq hid⟩,
    fun a ha b hb => computeResistanceChecked_eq sqrt hf f ha hb,
    LazyMole.newChecked_eq g f srcs hsrc, ?_⟩
  obtain ⟨m1, h1, hs1, ht1, hnil, hr, -, -, -⟩ :=
    LazyMole.run_plain sqrt g f srcs tie fuel hf hsrc hfuel
  have hi := (LazyMole.new_init g f srcs).1
  have hc : (LazyMole.new g f srcs).runChecked sqrt tie fuel = some m1 := by
    unfold LazyMole.runChecked
    rw [LazyMole.runLoopChecked_eq sqrt hf fuel tie _ hi.struct (hi.tree hsrc)]
    exact h1
  refine ⟨m1, hc, h1, ?_⟩
  intro t ht k hk
  obtain ⟨l, -, -, hl, hw⟩ := ht1.walk_total hs1 hnil ht
  have hw1 := hw k hk
  have hp : m1.path k t = some (fun x => if x ∈ l then 1 else 0) := by
    rw [LazyMole.path_eq m1 hr, hw1]; rfl
  have he : m1.exportPath true k t = some (l.map m1.gridPtr.centerOfCell) := by
    rw [LazyMole.exportPath_eq m1 hr, hw1]; rfl
  refine ⟨_, _, ?_, hp, ?_, he⟩
  · rw [← hp]
    show (if (! m1.isReady) = true then some (fun _ => 0)
      else m1.pathLoopChecked k t (fun _ => 0)) = m1.path k t
    rw [LazyMole.pathLoopChecked_eq m1 ht1.hg k t l _ hw1 hl]
    rfl
  · rw [← he]
    show (if (! m1.isReady) = true then some []
      else if true = true then m1.exportLoopChecked k t [] else some []) = m1.exportPath true k t
    rw [LazyMole.exportLoopChecked_eq hf m1 ht1.hg k t l _ hw1 hl]
    rfl

/-- A concrete instance of C32: the 2 x 2 x 1 unit grid with the unit field,
the sources `0` and `3` and the target `1`. -/
theorem no_access_out_of_range_witness :
    LazyMole.newChecked grid221 unitField [0, 3] = some (LazyMole.new grid221 unitField [0, 3]) ∧
    ∃ m1, (LazyMole.new grid221 unitField [0, 3]).runChecked Rat.sqrt (fun _ => 0) 6 = some m1 ∧
      ∃ p out, m1.pathChecked 4 1 = some p ∧ m1.exportPathChecked true 4 1 = some out :=
  have h := no_access_out_of_range grid221 unitField [0, 3] Rat.sqrt (fun _ => 0) 6
    (by decide) (by decide) (by decide)
  ⟨h.2.2.1, h.2.2.2.imp fun _ hm =>
    ⟨hm.1, (hm.2.2 1 (by decide) 4 (by decide)).imp fun _ hp =>
      hp.imp fun _ ho => ⟨ho.1, ho.2.2.1⟩⟩⟩

/-- C33: on a grid whose cell count fits a `size_t`, with a field that is
positive on the cells, a square root that is not negative on what is not
negative and sources that are cells, `run` returns for the source list and
for every permutation of it, whatever the tie-breaks of the queue, and the
finalized resistances and the labels of the two runs are the same. -/
theorem run_ignores_source_order (g : CartesianGrid R) (f : Nat → R) (srcs srcs1 : List Nat)
    (sqrt : R → R) (tie tie1 : Nat → Nat) (fuel fuel1 : Nat) (hf : g.Fits)
    (hpos : ∀ c, c < g.numberOfCells → 0 < f c) (hsqrt : ∀ x, 0 ≤ x → 0 ≤ sqrt x)
    (hsrc : ∀ s ∈ srcs, s < g.numberOfCells) (hperm : srcs1.Perm srcs)
    (hfuel : srcs.length + g.numberOfCells ≤ fuel)
    (hfuel1 : srcs.length + g.numberOfCells ≤ fuel1) :
    ∃ m1 m2, (LazyMole.new g f srcs).run sqrt tie fuel = some m1 ∧
      (LazyMole.new g f srcs1).run sqrt tie1 fuel1 = some m2 ∧
      ∀ c, m1.smallestRes c = m2.smallestRes c ∧ m1.status c = m2.status c := by
  have hsrc1 : ∀ s ∈ srcs1, s < g.numberOfCells := fun s hs => hsrc s (hperm.mem_iff.1 hs)
  have hS : Setting sqrt g f srcs := Setting.of_fits hf hpos hsqrt hsrc
  have hS1 : Setting sqrt g f srcs1 := Setting.of_fits hf hpos hsqrt hsrc1
  obtain ⟨m1, -, h1, -⟩ := LazyMole.run_spec hS tie fuel hfuel
  obtain ⟨m2, -, h2, -⟩ := LazyMole.run_spec hS1 tie1 fuel1 (by rw [hperm.length_eq]; exact hfuel1)
  refine ⟨m1, m2, h1, h2, fun c => ?_⟩
  have := LazyMole.run_resistance_unique hf hS hS1 (fun c => hperm.mem_iff) h1 h2 c
  exact ⟨this.2, this.1⟩

/-- A concrete instance of C33: the 2 x 2 x 1 unit grid with the unit field,
the source lists `[0, 3]` and `[3, 0]`, and two different tie-breaks. -/
theorem run_ignores_source_order_witness :
    ∃ m1 m2, (LazyMole.new grid221 unitField [0, 3]).run Rat.sqrt (fun _ => 0) 6 = some m1 ∧
      (LazyMole.new grid221 unitField [3, 0]).run Rat.sqrt (fun k => k) 6 = some m2 ∧
      ∀ c, m1.smallestRes c = m2.smallestRes c ∧ m1.status c = m2.status c :=
  run_ignores_source_order grid221 unitField [0, 3] [3, 0] Rat.sqrt (fun _ => 0) (fun k => k)
    6 6 (by decide) (fun _ _ => zero_lt_one) (fun x _ => Rat.sqrt_nonneg x) (by decide)
    (List.Perm.swap 0 3 []) (by decide) (by decide)

end Claims15

section Claims16

/-- C34, the code on an empty list of targets, and on targets that no source
reaches.  On the single-cell grid with the unit field and the source `0`,
`run` returns; with the empty target list the loop of `main.cpp` leaves
`minId = numberOfCells() = 1`, which is no cell and no listed target, and
`exportPath`, called on it, stops at the `assert(id < numberOfCells())` of
`splitId` whatever the number of iterations allowed.  The same happens with
the target list `[0]` when the source list is empty, every resistance being
the sentinel.  With the source `0` and the target list `[0]`, `minId` is `0`
and `exportPath` writes the centre of that cell. -/
theorem main_passes_invalid_target :
    (∃ m1, (LazyMole.new grid111 unitField [0]).run Rat.sqrt (fun _ => 0) 2 = some m1 ∧
      grid111.numberOfCells = 1 ∧
      (selectTarget grid111 m1.smallestRes []).minId = 1 ∧
      (selectTarget grid111 m1.smallestRes []).minRes = 10 ^ 20 ∧
      grid111.splitIdChecked 1 = none ∧
      (∀ fuel, m1.exportPathChecked true fuel
        (selectTarget grid111 m1.smallestRes []).minId = none) ∧
      (selectTarget grid111 m1.smallestRes [0]).minId = 0 ∧
      m1.exportPathChecked true 1 (selectTarget grid111 m1.smallestRes [0]).minId =
        some [grid111.centerOfCell 0]) ∧
    (∃ m1, (LazyMole.new grid111 unitField []).run Rat.sqrt (fun _ => 0) 2 = some m1 ∧
      (selectTarget grid111 m1.smallestRes [0]).minId = 1 ∧
      ∀ fuel, m1.exportPathChecked true fuel
        (selectTarget grid111 m1.smallestRes [0]).minId = none) := by
  refine ⟨⟨_, rfl, rfl, rfl, rfl, rfl, ?_, ?_, ?_⟩, ⟨_, rfl, ?_, ?_⟩⟩
  · intro fuel
    exact LazyMole.exportLoopChecked_none _ (by decide) fuel []
  · rw [selectTarget_singleton_lt grid111 _ 0 (by show (-(0 : ℚ)) < 10 ^ 20; norm_num)]
  · rw [selectTarget_singleton_lt grid111 _ 0 (by show (-(0 : ℚ)) < 10 ^ 20; norm_num)]
    rfl
  · rw [selectTarget_singleton_ge grid111 _ 0 (by show ¬ (INF : ℚ) < 10 ^ 20; exact INF_ge)]
    rfl
  · intro fuel
    rw [selectTarget_singleton_ge grid111 _ 0 (by show ¬ (INF : ℚ) < 10 ^ 20; exact INF_ge)]
    exact LazyMole.exportLoopChecked_none _ (by decide) fuel []

end Claims16

end mla

